import Mathlib

/-! # SearchEngine: codec, recommender, caches, builders, search and server

A shallow embedding of parts of the search engine and their properties:

* the TLV framing codec (`src/src/network/tlv_protocol.h, tlv_protocol.cc`): `encode`, `decode`,
  `hasCompleteMessage`;
* the edit distance of the recommender (`KeywordRecommender::calculateEditDistance`),
  proved equal to the minimum number of single-character edits;
* the recommender itself (`src/src/recommendation/keyword_recommender.h, keyword_recommender.cc`) with its
  two LRU caches and the lexicon and index readers (`src/src/data_reader`);
* the LRU cache (`src/src/cache/lru_cache.h`) with its recency order;
* the page processor (`src/src/webpages/page_processor.cc`): near-duplicate elimination and
  the builder of the inverted index;
* the web search engine (`src/src/web_search/web_search_engine.cc`);
* the loop of a worker of the thread pool (`src/src/network/thread_pool.cc`) and the request
  dispatcher (`src/src/server/search_engine_server.cc`);
* the lexicon builders (`src/src/keywords`): dictionary, character index and letter index;
* the page library: the writer `buildWebPagesAndOffsets` and the reader `getWebPage`
  (`src/src/data_reader/data_reader.cc`).

Strings and buffers are lists of bytes, `int` values are integers, `double` values are
elements of an ordered field, a thrown exception or undefined behaviour is `none`.
Definitions come first, theorems follow.
-/

namespace SearchEngine

/-! ## Framing codec (src/src/network/tlv_protocol.h, tlv_protocol.cc)

Bytes are natural numbers below 256, a byte buffer (`std::vector<uint8_t>`) is a
`List Nat`.  `uint16_t` and `uint32_t` values are natural numbers, reduced
modulo `2^16` and `2^32` where the code serialises them. -/

/-- Model of `MessageType::KEYWORD_RECOMMEND_REQUEST`. -/
def KEYWORD_RECOMMEND_REQUEST : Nat := 0x0001
/-- Model of `MessageType::SEARCH_REQUEST`. -/
def SEARCH_REQUEST : Nat := 0x0002
/-- Model of `MessageType::KEYWORD_RECOMMEND_RESPONSE`. -/
def KEYWORD_RECOMMEND_RESPONSE : Nat := 0x1001
/-- Model of `MessageType::SEARCH_RESPONSE`. -/
def SEARCH_RESPONSE : Nat := 0x1002
/-- Model of `MessageType::ERROR_RESPONSE`. -/
def ERROR_RESPONSE : Nat := 0x9001

/-- Model of `struct TLVHeader` (packed, 6 bytes): `uint16_t type; uint32_t length`. -/
structure TLVHeader where
  type : Nat
  length : Nat
deriving DecidableEq

/-- Model of `sizeof(TLVHeader)` for the packed struct. -/
def sizeofTLVHeader : Nat := 6

/-- Model of `struct TLVMessage`: header and payload bytes. -/
structure TLVMessage where
  header : TLVHeader
  data : List Nat
deriving DecidableEq

/-- Constructor `TLVMessage(MessageType, const string&)`: the header length is the
payload length (converted to `uint32_t`), the payload is copied. -/
def TLVMessage.ofJson (msgType : Nat) (jsonData : List Nat) : TLVMessage :=
  { header := { type := msgType, length := jsonData.length % 2 ^ 32 }, data := jsonData }

/-- Model of `TLVMessage::getTotalLength`. -/
def TLVMessage.getTotalLength (m : TLVMessage) : Nat :=
  sizeofTLVHeader + m.header.length

/-- The two bytes that `htons(x)` leaves in memory (network order: most significant
byte first). -/
def htons (x : Nat) : List Nat := [x / 2 ^ 8 % 256, x % 256]

/-- The four bytes that `htonl(x)` leaves in memory (most significant byte first). -/
def htonl (x : Nat) : List Nat :=
  [x / 2 ^ 24 % 256, x / 2 ^ 16 % 256, x / 2 ^ 8 % 256, x % 256]

/-- Model of `ntohs` applied to the two bytes found at `pos`. -/
def ntohs (buffer : List Nat) (pos : Nat) : Nat :=
  (buffer.getD pos 0 * 2 ^ 8 + buffer.getD (pos + 1) 0) % 2 ^ 16

/-- Model of `ntohl` applied to the four bytes found at `pos`. -/
def ntohl (buffer : List Nat) (pos : Nat) : Nat :=
  (buffer.getD pos 0 * 2 ^ 24 + buffer.getD (pos + 1) 0 * 2 ^ 16
    + buffer.getD (pos + 2) 0 * 2 ^ 8 + buffer.getD (pos + 3) 0) % 2 ^ 32

/-- Model of `TLVCodec::encode`: the header in network byte order, then the payload. -/
def encode (message : TLVMessage) : List Nat :=
  htons message.header.type ++ htonl message.header.length ++ message.data

/-- Model of `TLVCodec::isValidMessageType`. -/
def isValidMessageType (type : Nat) : Bool :=
  type == KEYWORD_RECOMMEND_REQUEST || type == SEARCH_REQUEST
    || type == KEYWORD_RECOMMEND_RESPONSE || type == SEARCH_RESPONSE
    || type == ERROR_RESPONSE

/-- The header read by `memcpy` at offset `parsedBytes`, converted to host order. -/
def readHeader (buffer : List Nat) (parsedBytes : Nat) : TLVHeader :=
  { type := ntohs buffer parsedBytes, length := ntohl buffer (parsedBytes + 2) }

/-- The `while` loop of `TLVCodec::decode`, one iteration per unit of fuel; the
state is `(messages, parsedBytes)`.  `none` means that the fuel ran out before the
loop ended. -/
def decodeLoop : Nat → List Nat → Nat → List TLVMessage → Option (List TLVMessage × Nat)
  | 0, _, _, _ => none
  | fuel + 1, buffer, parsedBytes, messages =>
    if parsedBytes + sizeofTLVHeader ≤ buffer.length then
      let hostHeader := readHeader buffer parsedBytes
      if !isValidMessageType hostHeader.type then
        decodeLoop fuel buffer (parsedBytes + 1) messages
      else
        let totalMessageSize := sizeofTLVHeader + hostHeader.length
        if parsedBytes + totalMessageSize > buffer.length then
          some (messages, parsedBytes)
        else
          let message : TLVMessage :=
            { header := hostHeader
              data := (buffer.drop (parsedBytes + sizeofTLVHeader)).take hostHeader.length }
          decodeLoop fuel buffer (parsedBytes + totalMessageSize) (messages ++ [message])
    else
      some (messages, parsedBytes)

/-- Model of `TLVCodec::decode`: the messages and `parsedBytes`.  Every iteration of
the loop advances `parsedBytes` by at least one, so `buffer.length + 1` iterations
suffice (`decode_isSome`).  `size_t` is 64 bits wide: `sizeof(TLVHeader) + length` does
not wrap. -/
def decode (buffer : List Nat) : Option (List TLVMessage × Nat) :=
  decodeLoop (buffer.length + 1) buffer 0 []

/-- A frame as the round-trip properties take it: a recognised type code, a header
length equal to the payload length (and fitting `uint32_t`), payload bytes. -/
def WellFormed (F : TLVMessage) : Prop :=
  isValidMessageType F.header.type = true ∧ F.header.length = F.data.length
    ∧ F.data.length < 2 ^ 32

instance (F : TLVMessage) : Decidable (WellFormed F) := by
  unfold WellFormed; infer_instance

/-- A byte sequence that is itself one valid frame. -/
def IsValidFrame (P : List Nat) : Prop := ∃ G : TLVMessage, WellFormed G ∧ encode G = P

/-! ## Edit distance: specification side -/

/-- One single-character edit of a sequence: an insertion, a deletion or a
substitution of one character by a different one. -/
inductive EditStep {α : Type} : List α → List α → Prop
  | insert (l r : List α) (c : α) : EditStep (l ++ r) (l ++ c :: r)
  | delete (l r : List α) (c : α) : EditStep (l ++ c :: r) (l ++ r)
  | substitute (l r : List α) (c d : α) (h : c ≠ d) : EditStep (l ++ c :: r) (l ++ d :: r)

/-- The relation `EditPath n a b`: `n` single-character edits transform `a` into `b`. -/
inductive EditPath {α : Type} : Nat → List α → List α → Prop
  | done (a : List α) : EditPath 0 a a
  | step {n : Nat} {a b c : List α} : EditStep a b → EditPath n b c → EditPath (n + 1) a c

/-- The number `d` is the minimum number of single-character insertions, deletions and
substitutions that transform `a` into `b`. -/
def IsMinEdit {α : Type} (a b : List α) (d : Nat) : Prop :=
  EditPath d a b ∧ ∀ n, EditPath n a b → d ≤ n

/-- One row of the recursive edit distance: the distances from `x :: xs` given the
distances `f` from `xs`. -/
def levAux {α : Type} [DecidableEq α] (x : α) (f : List α → Nat) : List α → Nat
  | [] => f [] + 1
  | y :: ys =>
    min (levAux x f ys + 1) (min (f (y :: ys) + 1) (f ys + if x = y then 0 else 1))

/-- The recursive (Levenshtein) edit distance of two sequences. -/
def lev {α : Type} [DecidableEq α] : List α → List α → Nat
  | [], ys => ys.length
  | x :: xs, ys => levAux x (lev xs) ys

/-! ## Edit distance: the dynamic program of `calculateEditDistance` -/

/-- A counted `for` loop: `body` runs for `i = lo, lo + 1, ..., lo + count - 1`. -/
def forLoop {σ : Type} (body : σ → Nat → σ) : Nat → Nat → σ → σ
  | _, 0, s => s
  | lo, count + 1, s => forLoop body (lo + 1) count (body s lo)

/-- The table `vector<vector<int>> dp(m + 1, vector<int>(n + 1))`, as the function
from the two indices to the stored value (zero-initialised). -/
abbrev DPTable := Nat → Nat → Nat

/-- The assignment `dp[i][j] = v`. -/
def DPTable.set (dp : DPTable) (i j v : Nat) : DPTable :=
  fun a b => if a = i ∧ b = j then v else dp a b

/-- The body of the inner loop of `calculateEditDistance`: the cell `dp[i][j]`. -/
def fillCell (chars1 chars2 : List (List Nat)) (i : Nat) (dp : DPTable) (j : Nat) : DPTable :=
  let insert := dp i (j - 1) + 1
  let remove := dp (i - 1) j + 1
  let replace := dp (i - 1) (j - 1)
    + (if chars1.getD (i - 1) [] != chars2.getD (j - 1) [] then 1 else 0)
  dp.set i j (min insert (min remove replace))

/-- The table of `calculateEditDistance` after the boundary loops and the two nested
loops `for i in 1..m`, `for j in 1..n`. -/
def editDistanceTable (chars1 chars2 : List (List Nat)) : DPTable :=
  let m := chars1.length
  let n := chars2.length
  let dp0 : DPTable := fun _ _ => 0
  let dp1 := forLoop (fun dp i => dp.set i 0 i) 0 (m + 1) dp0
  let dp2 := forLoop (fun dp j => dp.set 0 j j) 0 (n + 1) dp1
  forLoop (fun dp i => forLoop (fillCell chars1 chars2 i) 1 n dp) 1 m dp2

/-- The value `dp[m][n]` computed by the dynamic program of `calculateEditDistance`
on the two character arrays. -/
def editDistanceDP (chars1 chars2 : List (List Nat)) : Nat :=
  editDistanceTable chars1 chars2 chars1.length chars2.length

/-- The distance between the first `i` characters of `A` and the first `j` of `B`. -/
def prefixLev (A B : List (List Nat)) (i j : Nat) : Nat :=
  lev (A.take i).reverse (B.take j).reverse

/-! ## UTF-8 decoding (the checked `utf8::next` of the utf8cpp library)

`std::string` is a `List Nat` of bytes.  `none` stands for a thrown exception. -/

/-- Model of `utf8::internal::sequence_length`: the length announced by the lead byte, 0 for
an invalid lead. -/
def utf8SequenceLength (lead : Nat) : Nat :=
  if lead < 0x80 then 1
  else if lead / 2 ^ 5 = 0x6 then 2
  else if lead / 2 ^ 4 = 0xe then 3
  else if lead / 2 ^ 3 = 0x1e then 4
  else 0

/-- Model of `utf8::internal::is_trail`. -/
def utf8IsTrail (oc : Nat) : Bool := oc / 2 ^ 6 == 0x2

/-- Model of `utf8::internal::is_code_point_valid`. -/
def utf8IsCodePointValid (cp : Nat) : Bool :=
  decide (cp ≤ 0x10ffff) && !(decide (0xd800 ≤ cp) && decide (cp ≤ 0xdfff))

/-- Model of `utf8::internal::is_overlong_sequence`. -/
def utf8IsOverlongSequence (cp length : Nat) : Bool :=
  if cp < 0x80 then length != 1
  else if cp < 0x800 then length != 2
  else if cp < 0x10000 then length != 3
  else false

/-- The security checks of `validate_next` on a decoded sequence. -/
def utf8Checked (cp length : Nat) (rest : List Nat) : Option (Nat × List Nat) :=
  if utf8IsCodePointValid cp && !utf8IsOverlongSequence cp length then some (cp, rest)
  else none

/-- Model of `utf8::next(it, end)`: the code point of the next character and the bytes behind
it; `none` when the library throws (`not_enough_room`, `invalid_utf8`,
`invalid_code_point`). -/
def utf8Next (input : List Nat) : Option (Nat × List Nat) :=
  match input with
  | [] => none
  | lead :: rest =>
    match utf8SequenceLength lead with
    | 1 => utf8Checked lead 1 rest
    | 2 =>
      match rest with
      | b1 :: rest1 =>
        if utf8IsTrail b1 then utf8Checked (lead * 2 ^ 6 % 2 ^ 11 + b1 % 2 ^ 6) 2 rest1
        else none
      | _ => none
    | 3 =>
      match rest with
      | b1 :: b2 :: rest2 =>
        if utf8IsTrail b1 && utf8IsTrail b2 then
          utf8Checked (lead * 2 ^ 12 % 2 ^ 16 + b1 * 2 ^ 6 % 2 ^ 12 + b2 % 2 ^ 6) 3 rest2
        else none
      | _ => none
    | 4 =>
      match rest with
      | b1 :: b2 :: b3 :: rest3 =>
        if utf8IsTrail b1 && utf8IsTrail b2 && utf8IsTrail b3 then
          utf8Checked (lead * 2 ^ 18 % 2 ^ 21 + b1 * 2 ^ 12 % 2 ^ 18 + b2 * 2 ^ 6 % 2 ^ 12
            + b3 % 2 ^ 6) 4 rest3
        else none
      | _ => none
    | _ => none

/-- The loop of `TextProcessor::utf8Split`, one character per unit of fuel. -/
def utf8SplitLoop : Nat → List Nat → List (List Nat) → Option (List (List Nat))
  | 0, _, _ => none
  | fuel + 1, input, result =>
    if input = [] then some result
    else
      match utf8Next input with
      | none => none
      | some (_, rest) =>
        utf8SplitLoop fuel rest (result ++ [input.take (input.length - rest.length)])

/-- Model of `TextProcessor::utf8Split`: the string cut into its UTF-8 characters; `none` when
`utf8::next` throws.  Each character takes at least one byte, so `input.length + 1`
iterations suffice. -/
def utf8Split (input : List Nat) : Option (List (List Nat)) :=
  utf8SplitLoop (input.length + 1) input []

/-- Model of `TextProcessor::isChinese`: the first code point lies in U+4E00..U+9FFF. -/
def isChinese (text : List Nat) : Option Bool :=
  if text = [] then some false
  else
    match utf8Next text with
    | none => none
    | some (codepoint, _) => some (decide (codepoint ≥ 0x4E00) && decide (codepoint ≤ 0x9FFF))

/-- Model of `isalpha` on an `unsigned char` in the "C" locale. -/
def isalpha (c : Nat) : Bool :=
  (decide (0x41 ≤ c) && decide (c ≤ 0x5A)) || (decide (0x61 ≤ c) && decide (c ≤ 0x7A))

/-- Model of `TextProcessor::isEnglish`. -/
def isEnglish (text : List Nat) : Bool :=
  match text with
  | [c] => isalpha c
  | _ => false

/-! ## LRU cache (src/src/cache/lru_cache.h)

`cacheList_` is the recency list, most recent first; `cacheMap_` maps each key to its
node of the list and is read off the list. -/

/-- Model of `LRUCache<Key, Value>`. -/
structure LRUCache (κ ν : Type) where
  capacity_ : Nat
  cacheList_ : List (κ × ν)
  hitCount_ : Nat
  missCount_ : Nat

/-- Constructor `LRUCache(capacity)`. -/
def LRUCache.new {κ ν : Type} (capacity : Nat) : LRUCache κ ν :=
  { capacity_ := capacity, cacheList_ := [], hitCount_ := 0, missCount_ := 0 }

/-- Model of `cacheMap_.find(key)`: the node stored under `key`. -/
def LRUCache.find {κ ν : Type} [DecidableEq κ] (c : LRUCache κ ν) (key : κ) : Option (κ × ν) :=
  c.cacheList_.find? (fun node => decide (node.1 = key))

/-- Model of `LRUCache::get`: the value if present (the node moves to the front) and the cache
afterwards. -/
def LRUCache.get {κ ν : Type} [DecidableEq κ] (c : LRUCache κ ν) (key : κ) :
    Option ν × LRUCache κ ν :=
  match c.find key with
  | none => (none, { c with missCount_ := c.missCount_ + 1 })
  | some node =>
    (some node.2,
      { c with
        cacheList_ := node :: c.cacheList_.eraseP (fun e => decide (e.1 = key))
        hitCount_ := c.hitCount_ + 1 })

/-- Model of `LRUCache::put`.  With a full cache the last node is dropped first; `none` is the
undefined behaviour of `cacheList_.back()` on an empty list (capacity 0). -/
def LRUCache.put {κ ν : Type} [DecidableEq κ] (c : LRUCache κ ν) (key : κ) (value : ν) :
    Option (LRUCache κ ν) :=
  match c.find key with
  | some _ =>
    some { c with
      cacheList_ := (key, value) :: c.cacheList_.eraseP (fun e => decide (e.1 = key)) }
  | none =>
    if c.cacheList_.length ≥ c.capacity_ then
      if c.cacheList_.isEmpty then none
      else some { c with cacheList_ := (key, value) :: c.cacheList_.dropLast }
    else some { c with cacheList_ := (key, value) :: c.cacheList_ }

/-! ## Lexicon and index readers (src/src/data_reader) -/

/-- Model of `unordered_map::find` on a map kept as a list of key/value pairs. -/
def umapFind {κ ν : Type} [DecidableEq κ] (m : List (κ × ν)) (key : κ) : Option ν :=
  (m.find? (fun e => decide (e.1 = key))).map (fun e => e.2)

/-- Model of `map[key] = value`. -/
def umapAssign {κ ν : Type} [DecidableEq κ] (m : List (κ × ν)) (key : κ) (value : ν) :
    List (κ × ν) :=
  if m.any (fun e => decide (e.1 = key)) then
    m.map (fun e => if e.1 = key then (key, value) else e)
  else m ++ [(key, value)]

/-- Model of `unordered_set::insert`; the set is a duplicate-free list, iterated in list
order. -/
def usetInsert {κ : Type} [DecidableEq κ] (s : List κ) (x : κ) : List κ :=
  if x ∈ s then s else s ++ [x]

/-- Model of `struct DictionaryEntry`. -/
structure DictionaryEntry where
  word : List Nat
  frequency : Int
deriving DecidableEq

/-- Model of `ChineseDictionaryReader` and `EnglishDictionaryReader` (the same members and
code). -/
structure DictionaryReader where
  wordFreqMap_ : List (List Nat × Int)
  allEntries_ : List DictionaryEntry

/-- Model of `loadDictionary` on the parsed lines `word frequency` of the file. -/
def DictionaryReader.loadDictionary (lines : List (List Nat × Int)) : DictionaryReader :=
  lines.foldl
    (fun r line =>
      { wordFreqMap_ := umapAssign r.wordFreqMap_ line.1 line.2
        allEntries_ := r.allEntries_ ++ [{ word := line.1, frequency := line.2 }] })
    { wordFreqMap_ := [], allEntries_ := [] }

/-- Model of `getWordFrequency` of a dictionary reader. -/
def DictionaryReader.getWordFrequency (d : DictionaryReader) (word : List Nat) : Int :=
  match umapFind d.wordFreqMap_ word with
  | some f => f
  | none => 0

/-- Model of `ChineseIndexReader`: `indexMap_` from a character to its line numbers. -/
structure ChineseIndexReader where
  indexMap_ : List (List Nat × List Int)

/-- Model of `ChineseIndexReader::loadIndex` on the parsed lines `character line*`. -/
def ChineseIndexReader.loadIndex (lines : List (List Nat × List Int)) : ChineseIndexReader :=
  { indexMap_ := lines.foldl (fun m line => umapAssign m line.1 line.2) [] }

/-- Model of `ChineseIndexReader::getLineNumbers`. -/
def ChineseIndexReader.getLineNumbers (r : ChineseIndexReader) (character : List Nat) :
    List Int :=
  match umapFind r.indexMap_ character with
  | some l => l
  | none => []

/-- Model of `EnglishIndexReader`: `indexMap_` from a `char` to its line numbers. -/
structure EnglishIndexReader where
  indexMap_ : List (Nat × List Int)

/-- Model of `EnglishIndexReader::loadIndex` on the parsed lines `letter line*`. -/
def EnglishIndexReader.loadIndex (lines : List (Nat × List Int)) : EnglishIndexReader :=
  { indexMap_ := lines.foldl (fun m line => umapAssign m line.1 line.2) [] }

/-- Model of `EnglishIndexReader::getLineNumbers`. -/
def EnglishIndexReader.getLineNumbers (r : EnglishIndexReader) (character : List Nat) :
    List Int :=
  match character with
  | [ch] =>
    match umapFind r.indexMap_ ch with
    | some l => l
    | none => []
  | _ => []

/-- The readers of `DataReaderManager` that the recommender uses. -/
structure DataReaderManager where
  chineseDictReader_ : DictionaryReader
  englishDictReader_ : DictionaryReader
  chineseIndexReader_ : ChineseIndexReader
  englishIndexReader_ : EnglishIndexReader

/-! ## Keyword recommender (src/src/recommendation) -/

/-- Model of `struct Candidate`. -/
structure Candidate where
  word : List Nat
  editDistance : Int
  frequency : Int
deriving DecidableEq

/-- Model of `std::string::operator<`: lexicographic comparison of the bytes. -/
def stringLt : List Nat → List Nat → Bool
  | [], [] => false
  | [], _ :: _ => true
  | _ :: _, [] => false
  | x :: xs, y :: ys => if x < y then true else if y < x then false else stringLt xs ys

/-- Model of `CandidateComparator::operator()`. -/
def CandidateComparator (a b : Candidate) : Bool :=
  if a.editDistance ≠ b.editDistance then decide (a.editDistance < b.editDistance)
  else if a.frequency ≠ b.frequency then decide (a.frequency > b.frequency)
  else stringLt a.word b.word

/-- Model of `std::sort(first, last, comp)`.  The comparator is a strict total order on
candidates, so every sorting algorithm returns the same list; insertion sort is
used. -/
def stdSort (comp : Candidate → Candidate → Bool) (l : List Candidate) : List Candidate :=
  l.insertionSort (fun a b => comp b a = false)

/-- Model of `RecommendationCacheKey`: `(query, k)`. -/
abbrev RecommendationCacheKey := List Nat × Int

/-- Model of `EditDistanceCacheKey`: `(word1, word2)`. -/
abbrev EditDistanceCacheKey := List Nat × List Nat

/-- Model of `class KeywordRecommender`. -/
structure KeywordRecommender where
  dataManager_ : Option DataReaderManager
  maxEditDistance_ : Int
  recommendCache_ : LRUCache RecommendationCacheKey (List Candidate)
  editDistanceCache_ : LRUCache EditDistanceCacheKey Int

/-- Constructor `KeywordRecommender(dataManager)`. -/
def KeywordRecommender.new (dataManager : Option DataReaderManager) : KeywordRecommender :=
  { dataManager_ := dataManager
    maxEditDistance_ := 3
    recommendCache_ := LRUCache.new 500
    editDistanceCache_ := LRUCache.new 2000 }

/-- Model of `KeywordRecommender::calculateEditDistance` on the edit-distance cache: the
distance and the cache afterwards; `none` when `utf8Split` throws. -/
def calculateEditDistance (cache : LRUCache EditDistanceCacheKey Int) (word1 word2 : List Nat) :
    Option (Int × LRUCache EditDistanceCacheKey Int) :=
  match cache.get (word1, word2) with
  | (some cachedDistance, c1) => some (cachedDistance, c1)
  | (none, c1) =>
    match c1.get (word2, word1) with
    | (some cachedDistance, c2) => some (cachedDistance, c2)
    | (none, c2) =>
      match utf8Split word1 with
      | none => none
      | some chars1 =>
        match utf8Split word2 with
        | none => none
        | some chars2 =>
          let result : Int := (editDistanceDP chars1 chars2 : Nat)
          match c2.put (word1, word2) result with
          | none => none
          | some c3 => some (result, c3)

/-- Model of `KeywordRecommender::getLineNumbersFromIndex`. -/
def getLineNumbersFromIndex (dm : DataReaderManager) (character : List Nat) :
    Option (List Int) :=
  match isChinese character with
  | none => none
  | some true => some (dm.chineseIndexReader_.getLineNumbers character)
  | some false =>
    if isEnglish character then some (dm.englishIndexReader_.getLineNumbers character)
    else some []

/-- Model of `KeywordRecommender::getWordFromDictionary`. -/
def getWordFromDictionary (dm : DataReaderManager) (lineNumber : Int) (isChinese : Bool) :
    List Nat :=
  let entries :=
    if isChinese then dm.chineseDictReader_.allEntries_ else dm.englishDictReader_.allEntries_
  if lineNumber > 0 ∧ lineNumber ≤ (entries.length : Int) then
    match entries.get? (lineNumber - 1).toNat with
    | some e => e.word
    | none => []
  else []

/-- Model of `KeywordRecommender::getWordFrequency`. -/
def getWordFrequency (dm : DataReaderManager) (word : List Nat) : Int :=
  let frequency := dm.chineseDictReader_.getWordFrequency word
  if frequency > 0 then frequency else dm.englishDictReader_.getWordFrequency word

/-- The loop of `isPrimarilyChinese` over the characters. -/
def anyChinese : List (List Nat) → Option Bool
  | [] => some false
  | ch :: rest =>
    match isChinese ch with
    | none => none
    | some true => some true
    | some false => anyChinese rest

/-- Model of `KeywordRecommender::isPrimarilyChinese`. -/
def isPrimarilyChinese (input : List Nat) : Option Bool :=
  match utf8Split input with
  | none => none
  | some characters => anyChinese characters

/-- The first loop of `findCandidateWords`: the union of the line numbers. -/
def collectLineNumbers (dm : DataReaderManager) : List (List Nat) → List Int → Option (List Int)
  | [], unionLineNumbers => some unionLineNumbers
  | ch :: rest, unionLineNumbers =>
    match getLineNumbersFromIndex dm ch with
    | none => none
    | some lineNumbers => collectLineNumbers dm rest (lineNumbers.foldl usetInsert unionLineNumbers)

/-- Model of `KeywordRecommender::findCandidateWords`. -/
def findCandidateWords (dm : DataReaderManager) (query : List Nat) : Option (List (List Nat)) :=
  match utf8Split query with
  | none => none
  | some characters =>
    match isPrimarilyChinese query with
    | none => none
    | some isPrimaryChinese =>
      match collectLineNumbers dm characters [] with
      | none => none
      | some unionLineNumbers =>
        some (unionLineNumbers.foldl
          (fun candidateSet lineNumber =>
            let word := getWordFromDictionary dm lineNumber isPrimaryChinese
            if word ≠ [] then usetInsert candidateSet word else candidateSet)
          [])

/-- Model of `KeywordRecommender::selectTopK`; `none` for a negative `k` (a range that ends
before it begins). -/
def selectTopK (candidates : List Candidate) (k : Int) : Option (List Candidate) :=
  let sortedCandidates := stdSort CandidateComparator candidates
  let count : Int := min k (sortedCandidates.length : Int)
  if count < 0 then none else some (sortedCandidates.take count.toNat)

/-- The scoring loop of `recommend` over the candidate words. -/
def scoreCandidates (dm : DataReaderManager) (maxEditDistance : Int) (query : List Nat) :
    List (List Nat) → LRUCache EditDistanceCacheKey Int → List Candidate →
    Option (List Candidate × LRUCache EditDistanceCacheKey Int)
  | [], cache, candidates => some (candidates, cache)
  | word :: rest, cache, candidates =>
    match calculateEditDistance cache query word with
    | none => none
    | some (editDist, cache1) =>
      if editDist ≤ maxEditDistance then
        let frequency := getWordFrequency dm word
        scoreCandidates dm maxEditDistance query rest cache1
          (candidates ++ [{ word := word, editDistance := editDist, frequency := frequency }])
      else scoreCandidates dm maxEditDistance query rest cache1 candidates

/-- Model of `KeywordRecommender::recommend`: the result and the recommender afterwards;
`none` when an exception leaves the function. -/
def recommend (r : KeywordRecommender) (query : List Nat) (k : Int) :
    Option (List Candidate × KeywordRecommender) :=
  match r.dataManager_ with
  | none => some ([], r)
  | some dm =>
    if query = [] then some ([], r)
    else
      match r.recommendCache_.get (query, k) with
      | (some cachedResult, rc) => some (cachedResult, { r with recommendCache_ := rc })
      | (none, rc) =>
        match findCandidateWords dm query with
        | none => none
        | some candidateWords =>
          match scoreCandidates dm r.maxEditDistance_ query candidateWords
              r.editDistanceCache_ [] with
          | none => none
          | some (candidates, ec) =>
            match selectTopK candidates k with
            | none => none
            | some result =>
              match rc.put (query, k) result with
              | none => none
              | some rc1 =>
                some (result, { r with recommendCache_ := rc1, editDistanceCache_ := ec })

/-! ### The minimal corpus of the end-to-end scenarios -/

/-- The word 中国 in UTF-8. -/
def zhongguo : List Nat := [0xE4, 0xB8, 0xAD, 0xE5, 0x9B, 0xBD]
/-- The word 中央 in UTF-8. -/
def zhongyang : List Nat := [0xE4, 0xB8, 0xAD, 0xE5, 0xA4, 0xAE]
/-- The word 忠告 in UTF-8. -/
def zhonggao : List Nat := [0xE5, 0xBF, 0xA0, 0xE5, 0x91, 0x8A]

/-- The minimal corpus of the scenarios: the Chinese lexicon has the lines `中国 100`,
`中央 50`, `忠告 30`, the character 中 indexes lines 1 and 2 and the character 国 indexes
line 1 (any other index lines, any English data). -/
def IsMinimalCorpus (dm : DataReaderManager) : Prop :=
  dm.chineseDictReader_
      = DictionaryReader.loadDictionary [(zhongguo, 100), (zhongyang, 50), (zhonggao, 30)]
    ∧ dm.chineseIndexReader_.getLineNumbers [0xE4, 0xB8, 0xAD] = [1, 2]
    ∧ dm.chineseIndexReader_.getLineNumbers [0xE5, 0x9B, 0xBD] = [1]

/-- One minimal corpus: no further index lines and no English data. -/
def minimalCorpus : DataReaderManager :=
  { chineseDictReader_ :=
      DictionaryReader.loadDictionary [(zhongguo, 100), (zhongyang, 50), (zhonggao, 30)]
    englishDictReader_ := DictionaryReader.loadDictionary []
    chineseIndexReader_ :=
      ChineseIndexReader.loadIndex [([0xE4, 0xB8, 0xAD], [1, 2]), ([0xE5, 0x9B, 0xBD], [1])]
    englishIndexReader_ := EnglishIndexReader.loadIndex [] }

/-- A minimal corpus with the complete character index (央 on line 2, 忠 and 告 on
line 3). -/
def fullIndexCorpus : DataReaderManager :=
  { chineseDictReader_ :=
      DictionaryReader.loadDictionary [(zhongguo, 100), (zhongyang, 50), (zhonggao, 30)]
    englishDictReader_ := DictionaryReader.loadDictionary []
    chineseIndexReader_ :=
      ChineseIndexReader.loadIndex
        [([0xE4, 0xB8, 0xAD], [1, 2]), ([0xE5, 0x9B, 0xBD], [1]), ([0xE5, 0xA4, 0xAE], [2]),
         ([0xE5, 0xBF, 0xA0], [3]), ([0xE5, 0x91, 0x8A], [3])]
    englishIndexReader_ := EnglishIndexReader.loadIndex [] }

/-! ## Cache-free readings and cache invariants -/

/-- The distance that `calculateEditDistance` computes on a cache miss: the dynamic
program on the two character arrays; `none` when `utf8Split` throws. -/
def editDistance (word1 word2 : List Nat) : Option Nat :=
  match utf8Split word1 with
  | none => none
  | some chars1 =>
    match utf8Split word2 with
    | none => none
    | some chars2 => some (editDistanceDP chars1 chars2)

/-- Every entry of the edit-distance cache holds the distance that the dynamic
program computes for its key, and the capacity is positive. -/
def EditCacheOK (cache : LRUCache EditDistanceCacheKey Int) : Prop :=
  0 < cache.capacity_
    ∧ ∀ e ∈ cache.cacheList_, ∃ d : Nat, editDistance e.1.1 e.1.2 = some d ∧ e.2 = (d : Int)

/-- The scoring loop of `recommend` without the edit-distance cache. -/
def scoreUncached (dm : DataReaderManager) (maxEditDistance : Int) (query : List Nat) :
    List (List Nat) → Option (List Candidate)
  | [] => some []
  | word :: rest =>
    match editDistance query word with
    | none => none
    | some d =>
      match scoreUncached dm maxEditDistance query rest with
      | none => none
      | some candidates =>
        if (d : Int) ≤ maxEditDistance then
          some ({ word := word, editDistance := (d : Int),
                  frequency := getWordFrequency dm word } :: candidates)
        else some candidates

/-- What `recommend` computes for a non-empty query when no cache answers. -/
def recommendUncached (dm : DataReaderManager) (maxEditDistance : Int) (query : List Nat)
    (k : Int) : Option (List Candidate) :=
  match findCandidateWords dm query with
  | none => none
  | some candidateWords =>
    match scoreUncached dm maxEditDistance query candidateWords with
    | none => none
    | some candidates => selectTopK candidates k

/-- The recommender works on the data `dm`, both caches have a positive capacity and
every cached entry is what the cache-free computation gives for its key. -/
def WellCached (r : KeywordRecommender) (dm : DataReaderManager) : Prop :=
  r.dataManager_ = some dm
    ∧ EditCacheOK r.editDistanceCache_
    ∧ 0 < r.recommendCache_.capacity_
    ∧ ∀ e ∈ r.recommendCache_.cacheList_,
        e.1.1 ≠ [] ∧ recommendUncached dm r.maxEditDistance_ e.1.1 e.1.2 = some e.2

/-- The Levenshtein distance between the character sequences of two strings. -/
def charDistance (query word : List Nat) : Nat :=
  lev ((utf8Split query).getD []) ((utf8Split word).getD [])

/-- Ascending order by (edit distance, minus frequency, word in byte order). -/
def rankLE (a b : Candidate) : Prop :=
  a.editDistance < b.editDistance
    ∨ (a.editDistance = b.editDistance
      ∧ (-a.frequency < -b.frequency
        ∨ (-a.frequency = -b.frequency ∧ (stringLt a.word b.word = true ∨ a.word = b.word))))

/-- The candidates that survive scoring: the words of the pool within the maximum
distance, each with its distance to the query and its lexicon frequency. -/
def survivors (dm : DataReaderManager) (maxEditDistance : Int) (query : List Nat)
    (pool : List (List Nat)) : List Candidate :=
  (pool.filter (fun w => decide ((charDistance query w : Int) ≤ maxEditDistance))).map
    (fun w => { word := w, editDistance := (charDistance query w : Int),
                frequency := getWordFrequency dm w })

/-- The recommender states reached from a new recommender on the data `dm`, with the
threshold set to `maxEditDistance`, through calls of `recommend` that return. -/
inductive Reachable (dm : DataReaderManager) (maxEditDistance : Int) :
    KeywordRecommender → Prop
  | fresh :
      Reachable dm maxEditDistance
        { KeywordRecommender.new (some dm) with maxEditDistance_ := maxEditDistance }
  | call {r r' : KeywordRecommender} {query : List Nat} {k : Int} {result : List Candidate} :
      Reachable dm maxEditDistance r → recommend r query k = some (result, r') →
      Reachable dm maxEditDistance r'

/-! ## Framing codec: the complete-message test (tlv_protocol.cc) -/

/-- Model of `TLVCodec::hasCompleteMessage`: the buffer holds a whole header and at least
the number of payload bytes that the length field of this header announces.  The type
code of the header is not looked at. -/
def hasCompleteMessage (buffer : List Nat) : Bool :=
  if buffer.length < sizeofTLVHeader then false
  else
    let dataLength := ntohl buffer 2
    decide (buffer.length ≥ sizeofTLVHeader + dataLength)

/-! ## LRU cache: size, removal and the record of last uses -/

/-- Model of `LRUCache::size`. -/
def LRUCache.size {κ ν : Type} (c : LRUCache κ ν) : Nat :=
  c.cacheList_.length

/-- Model of `LRUCache::remove`: the node of the key is erased from the list; the answer
tells whether the key was present. -/
def LRUCache.remove {κ ν : Type} [DecidableEq κ] (c : LRUCache κ ν) (key : κ) :
    Bool × LRUCache κ ν :=
  match c.find key with
  | none => (false, c)
  | some _ =>
    (true, { c with cacheList_ := c.cacheList_.eraseP (fun e => decide (e.1 = key)) })

/-- A sequence of `put` calls, one after the other; `none` when one of them is undefined. -/
def LRUCache.putAll {κ ν : Type} [DecidableEq κ] :
    LRUCache κ ν → List (κ × ν) → Option (LRUCache κ ν)
  | c, [] => some c
  | c, (key, value) :: rest =>
    match c.put key value with
    | none => none
    | some c' => c'.putAll rest

/-- The calls a client can make on a cache. -/
inductive CacheOp (κ ν : Type) where
  | get (key : κ)
  | put (key : κ) (value : ν)
  | remove (key : κ)

/-- A cache together with the bookkeeping of the specification: `clock` counts the calls
made so far and `lastUse key` is the clock of the most recent successful `get` or `put`
of the key (0 when there was none).  The code keeps no such record; its recency list is
compared with this one. -/
structure CacheTrace (κ ν : Type) where
  cache : LRUCache κ ν
  clock : Nat
  lastUse : κ → Nat

def CacheTrace.init {κ ν : Type} (capacity : Nat) : CacheTrace κ ν :=
  { cache := LRUCache.new capacity, clock := 0, lastUse := fun _ => 0 }

/-- One call on the cache; a `get` that hits and every `put` stamp the key. -/
def CacheTrace.step {κ ν : Type} [DecidableEq κ] (t : CacheTrace κ ν) :
    CacheOp κ ν → Option (CacheTrace κ ν)
  | CacheOp.get key =>
    let r := t.cache.get key
    some { cache := r.2, clock := t.clock + 1,
           lastUse := if r.1.isSome then
                        fun k => if k = key then t.clock + 1 else t.lastUse k
                      else t.lastUse }
  | CacheOp.put key value =>
    match t.cache.put key value with
    | none => none
    | some c' =>
      some { cache := c', clock := t.clock + 1,
             lastUse := fun k => if k = key then t.clock + 1 else t.lastUse k }
  | CacheOp.remove key =>
    some { cache := (t.cache.remove key).2, clock := t.clock + 1, lastUse := t.lastUse }

def CacheTrace.run {κ ν : Type} [DecidableEq κ] :
    CacheTrace κ ν → List (CacheOp κ ν) → Option (CacheTrace κ ν)
  | t, [] => some t
  | t, op :: ops =>
    match t.step op with
    | none => none
    | some t' => t'.run ops

/-- The recency list is ordered by last use, newest first, no stamp lies in the future
and the list is not longer than the capacity. -/
def Recency {κ ν : Type} (t : CacheTrace κ ν) : Prop :=
  t.cache.cacheList_.Pairwise (fun e e' => t.lastUse e'.1 < t.lastUse e.1)
    ∧ (∀ e ∈ t.cache.cacheList_, t.lastUse e.1 ≤ t.clock)
    ∧ t.cache.cacheList_.length ≤ t.cache.capacity_

/-- The cache of the example: capacity 2 after `put(a,1); put(b,2); get(a)`. -/
def lruExample : CacheTrace Char Nat :=
  ((CacheTrace.init 2).run
    [CacheOp.put 'a' 1, CacheOp.put 'b' 2, CacheOp.get 'a']).getD (CacheTrace.init 2)

/-! ## Near-duplicate elimination (src/src/webpages/page_processor.cc) -/

/-- A page as `PageProcessor` holds it (`struct WebPage`). -/
structure WebPage where
  docid : Int
  link : List Nat
  title : List Nat
  content : List Nat
deriving DecidableEq

/-- Model of `std::sort(first, last)` with the order `lt` of the element type.  On lists
without equivalent elements every sorting algorithm returns the same list; insertion sort
is used. -/
def stdSortBy {β : Type} (lt : β → β → Bool) (l : List β) : List β :=
  l.insertionSort (fun a b => lt b a = false)

/-- Model of `operator<` on `std::pair<int, double>`. -/
def pairLt {α : Type} [LinearOrder α] (a b : Int × α) : Bool :=
  decide (a.1 < b.1) || (!decide (b.1 < a.1) && decide (a.2 < b.2))

/-- The loop `while (it != word.end())` of `tokenizationAndFiltering`: some code point up
to the first CJK ideograph is one; `none` when `utf8::next` throws before. -/
def hasChineseCharLoop : Nat → List Nat → Option Bool
  | 0, _ => none
  | fuel + 1, input =>
    if input = [] then some false
    else
      match utf8Next input with
      | none => none
      | some (codepoint, rest) =>
        if codepoint ≥ 0x4E00 ∧ codepoint ≤ 0x9FFF then some true
        else hasChineseCharLoop fuel rest

/-- The test for a CJK ideograph in `tokenizationAndFiltering`; each character takes at
least one byte, so `word.length + 1` iterations suffice. -/
def hasChineseChar (word : List Nat) : Option Bool :=
  hasChineseCharLoop (word.length + 1) word

/-- The three tables that `tokenizationAndFiltering` fills. -/
structure TokenStats where
  termFrequency : List (List Nat × List (Int × Int))
  documentFrequency : List (List Nat × Int)
  docTotalWords : List (Int × Int)
deriving DecidableEq

/-- The state of the loop over the words of one page. -/
structure PageScan where
  stats : TokenStats
  validWords : Int
  uniqueWordsInDoc : List (List Nat)
deriving DecidableEq

/-- Model of `termFrequency[word][docid]++`. -/
def incrementTermFrequency (termFrequency : List (List Nat × List (Int × Int)))
    (word : List Nat) (docid : Int) : List (List Nat × List (Int × Int)) :=
  let inner := (umapFind termFrequency word).getD []
  umapAssign termFrequency word (umapAssign inner docid ((umapFind inner docid).getD 0 + 1))

/-- Model of `documentFrequency[word]++`. -/
def incrementCount (counts : List (List Nat × Int)) (word : List Nat) : List (List Nat × Int) :=
  umapAssign counts word ((umapFind counts word).getD 0 + 1)

/-- The body of the loop over the words of a page in `tokenizationAndFiltering`. -/
def scanWord (stopWords : List (List Nat)) (docid : Int) (s : PageScan) (word : List Nat) :
    Option PageScan :=
  match hasChineseChar word with
  | none => none
  | some false => some s
  | some true =>
    if word ∈ stopWords then some s
    else
      let termFrequency := incrementTermFrequency s.stats.termFrequency word docid
      if word ∈ s.uniqueWordsInDoc then
        some { s with stats := { s.stats with termFrequency := termFrequency }
                      validWords := s.validWords + 1 }
      else
        some { stats := { s.stats with
                            termFrequency := termFrequency
                            documentFrequency := incrementCount s.stats.documentFrequency word }
               validWords := s.validWords + 1
               uniqueWordsInDoc := usetInsert s.uniqueWordsInDoc word }

/-- The loop over the words of a page. -/
def scanWords (stopWords : List (List Nat)) (docid : Int) :
    PageScan → List (List Nat) → Option PageScan
  | s, [] => some s
  | s, word :: words =>
    match scanWord stopWords docid s word with
    | none => none
    | some s' => scanWords stopWords docid s' words

/-- The body of the loop over the pages in `tokenizationAndFiltering`. -/
def scanPage (cut : List Nat → List (List Nat)) (stopWords : List (List Nat))
    (stats : TokenStats) (page : WebPage) : Option TokenStats :=
  match scanWords stopWords page.docid
      { stats := stats, validWords := 0, uniqueWordsInDoc := [] } (cut page.content) with
  | none => none
  | some s =>
    some { s.stats with
      docTotalWords := umapAssign s.stats.docTotalWords page.docid s.validWords }

/-- The loop over the pages. -/
def scanPages (cut : List Nat → List (List Nat)) (stopWords : List (List Nat)) :
    TokenStats → List WebPage → Option TokenStats
  | stats, [] => some stats
  | stats, page :: pages =>
    match scanPage cut stopWords stats page with
    | none => none
    | some stats' => scanPages cut stopWords stats' pages

/-- Model of `PageProcessor::tokenizationAndFiltering`, called on empty tables; `none`
when `utf8::next` throws on a word. -/
def tokenizationAndFiltering (cut : List Nat → List (List Nat)) (stopWords : List (List Nat))
    (uniquePages_ : List WebPage) : Option TokenStats :=
  scanPages cut stopWords
    { termFrequency := [], documentFrequency := [], docTotalWords := [] } uniquePages_

/-- Model of `PageProcessor::calculateTfIdfWeights`, called on an empty `tfidfWeights`.
The keys of `termFrequency` and of its inner maps are distinct, so every assignment
`tfidfWeights[term][docid] = tfidf` makes a new entry; `none` when
`documentFrequency.at(term)` throws. -/
def calculateTfIdfWeights {α : Type} [LinearOrderedField α] (log2 : α → α)
    (totalDocuments : Int) (documentFrequency : List (List Nat × Int)) :
    List (List Nat × List (Int × Int)) → Option (List (List Nat × List (Int × α)))
  | [] => some []
  | (term, docFreqMap) :: rest =>
    match umapFind documentFrequency term with
    | none => none
    | some df =>
      let idf := log2 ((totalDocuments : α) / ((df + 1 : Int) : α))
      match calculateTfIdfWeights log2 totalDocuments documentFrequency rest with
      | none => none
      | some weights =>
        some ((term, docFreqMap.map (fun e => (e.1, (e.2 : α) * idf))) :: weights)

/-- The inner loop of the first half of `performL2Normalization`: the sum of the squares
of the weights of one document. -/
def docNormSquared {α : Type} [LinearOrderedField α]
    (tfidfWeights : List (List Nat × List (Int × α))) (docid : Int) : α :=
  tfidfWeights.foldl
    (fun normSquared e =>
      match umapFind e.2 docid with
      | some weight => normSquared + weight * weight
      | none => normSquared) 0

/-- The table `docL2Norms` of `performL2Normalization`. -/
def docL2NormsOf {α : Type} [LinearOrderedField α] (sqrt : α → α)
    (uniquePages_ : List WebPage) (tfidfWeights : List (List Nat × List (Int × α))) :
    List (Int × α) :=
  uniquePages_.foldl
    (fun docL2Norms page =>
      umapAssign docL2Norms page.docid (sqrt (docNormSquared tfidfWeights page.docid))) []

/-- Model of `PageProcessor::performL2Normalization`; `docL2Norms[docid]` is 0 for a
docid that is not in the table. -/
def performL2Normalization {α : Type} [LinearOrderedField α] (sqrt : α → α)
    (uniquePages_ : List WebPage) (tfidfWeights : List (List Nat × List (Int × α))) :
    List (List Nat × List (Int × α)) :=
  let docL2Norms := docL2NormsOf sqrt uniquePages_ tfidfWeights
  tfidfWeights.map (fun e =>
    (e.1, e.2.map (fun dw =>
      let norm := (umapFind docL2Norms dw.1).getD 0
      if norm > 0 then (dw.1, dw.2 / norm) else dw)))

/-- The part of a line behind the term in `generateInvertedIndexFile`: the postings in
the order of `std::sort`, those with a weight that is not positive left out. -/
def writtenPostings {α : Type} [LinearOrderedField α] (docWeights : List (Int × α)) :
    List (Int × α) :=
  (stdSortBy pairLt docWeights).filter (fun dw => decide (dw.2 > 0))

/-- Model of `PageProcessor::generateInvertedIndexFile`: the lines of the file, each a term
and the postings written behind it (the weights before they are printed with six
digits).  Each term comes from the map itself, so `tfidfWeights.at(term)` does not
throw. -/
def generateInvertedIndexFile {α : Type} [LinearOrderedField α]
    (tfidfWeights : List (List Nat × List (Int × α))) : List (List Nat × List (Int × α)) :=
  let sortedTerms := stdSortBy stringLt (tfidfWeights.map (fun e => e.1))
  sortedTerms.map (fun term => (term, writtenPostings ((umapFind tfidfWeights term).getD [])))

/-- Steps 1 to 3 of `PageProcessor::buildInvertedIndex`: the table `tfidfWeights` after
`performL2Normalization`; `none` when there is no page (the function returns false) or
an exception is thrown. -/
def normalizedWeights {α : Type} [LinearOrderedField α] (log2 sqrt : α → α)
    (cut : List Nat → List (List Nat)) (stopWords : List (List Nat))
    (uniquePages_ : List WebPage) : Option (List (List Nat × List (Int × α))) :=
  if uniquePages_.isEmpty then none
  else
    match tokenizationAndFiltering cut stopWords uniquePages_ with
    | none => none
    | some stats =>
      match calculateTfIdfWeights log2 (uniquePages_.length : Int) stats.documentFrequency
          stats.termFrequency with
      | none => none
      | some tfidfWeights => some (performL2Normalization sqrt uniquePages_ tfidfWeights)

/-- Model of `PageProcessor::buildInvertedIndex`: the lines written to the file; `none`
when no file is written. -/
def buildInvertedIndex {α : Type} [LinearOrderedField α] (log2 sqrt : α → α)
    (cut : List Nat → List (List Nat)) (stopWords : List (List Nat))
    (uniquePages_ : List WebPage) : Option (List (List Nat × List (Int × α))) :=
  match normalizedWeights log2 sqrt cut stopWords uniquePages_ with
  | none => none
  | some tfidfWeights => some (generateInvertedIndexFile tfidfWeights)

/-- The sum of the squares of the weights posted for a document over all lines. -/
def postedSquares {α : Type} [LinearOrderedField α] (lines : List (List Nat × List (Int × α)))
    (docid : Int) : α :=
  (lines.map (fun line =>
    ((line.2.filter (fun dw => decide (dw.1 = docid))).map (fun dw => dw.2 * dw.2)).sum)).sum

/-- A word segmenter for examples: the text is cut at the spaces. -/
def splitOnSpace : List Nat → List (List Nat)
  | [] => [[]]
  | c :: cs =>
    match splitOnSpace cs with
    | [] => [[c]]
    | w :: ws => if c = 0x20 then [] :: w :: ws else (c :: w) :: ws

/-- The word 北京 in UTF-8. -/
def beijing : List Nat := [0xE5, 0x8C, 0x97, 0xE4, 0xBA, 0xAC]
/-- The word 是 in UTF-8. -/
def shi : List Nat := [0xE6, 0x98, 0xAF]
/-- The word 的 in UTF-8. -/
def de : List Nat := [0xE7, 0x9A, 0x84]
/-- The word 首都 in UTF-8. -/
def shoudu : List Nat := [0xE9, 0xA6, 0x96, 0xE9, 0x83, 0xBD]
/-- The word 上海 in UTF-8. -/
def shanghai : List Nat := [0xE4, 0xB8, 0x8A, 0xE6, 0xB5, 0xB7]
/-- The word 城市 in UTF-8. -/
def chengshi : List Nat := [0xE5, 0x9F, 0x8E, 0xE5, 0xB8, 0x82]

/-- A corpus of one page with the text 中国. -/
def onePage : List WebPage :=
  [ { docid := 1, link := [], title := [], content := zhongguo } ]

/-- A corpus of three pages: 北京 中国, 中国 and 中国. -/
def threePages : List WebPage :=
  [ { docid := 1, link := [], title := [], content := beijing ++ [0x20] ++ zhongguo },
    { docid := 2, link := [], title := [], content := zhongguo },
    { docid := 3, link := [], title := [], content := zhongguo } ]

/-- The two pages of the search scenario: 北京 是 中国 的 首都 and 上海 是 中国 的 城市. -/
def scenarioPages : List WebPage :=
  [ { docid := 1, link := [], title := [],
      content := beijing ++ [0x20] ++ shi ++ [0x20] ++ zhongguo ++ [0x20] ++ de ++ [0x20]
        ++ shoudu },
    { docid := 2, link := [], title := [],
      content := shanghai ++ [0x20] ++ shi ++ [0x20] ++ zhongguo ++ [0x20] ++ de ++ [0x20]
        ++ chengshi } ]

/-! ## Web page library reader and search engine
(src/src/data_reader/data_reader.cc, src/src/web_search/web_search_engine.cc) -/

/-- The members of `WebPageLibraryReader` that the search reads: the inverted index and
the offset table (docid, offset and length of each page). -/
structure WebPageLibraryReader (α : Type) where
  invertedIndex_ : List (List Nat × List (Int × α))
  offsetMap_ : List (Int × (Nat × Nat))

/-- Model of `WebPageLibraryReader::loadInvertedIndex` on the lines of the file.  A line
is kept as its term and its postings; `fixed6` is the value read back from a weight
printed with six digits. -/
def loadInvertedIndex {α : Type} (fixed6 : α → α) (lines : List (List Nat × List (Int × α))) :
    List (List Nat × List (Int × α)) :=
  lines.foldl
    (fun invertedIndex line =>
      umapAssign invertedIndex line.1 (line.2.map (fun dw => (dw.1, fixed6 dw.2)))) []

/-- Model of `WebPageLibraryReader::getDocuments`. -/
def WebPageLibraryReader.getDocuments {α : Type} (r : WebPageLibraryReader α)
    (term : List Nat) : List (Int × α) :=
  (umapFind r.invertedIndex_ term).getD []

/-- Model of `WebPageLibraryReader::hasTerm`. -/
def WebPageLibraryReader.hasTerm {α : Type} (r : WebPageLibraryReader α) (term : List Nat) :
    Bool :=
  (umapFind r.invertedIndex_ term).isSome

/-- Model of `WebPageLibraryReader::getWebPageCount`. -/
def WebPageLibraryReader.getWebPageCount {α : Type} (r : WebPageLibraryReader α) : Nat :=
  r.offsetMap_.length

/-- Model of `struct SearchResult`. -/
structure SearchResult (α : Type) where
  docid : Int
  title : List Nat
  url : List Nat
  summary : List Nat
  score : α

/-- Model of `SearchCacheKey`: `(query, topN)`. -/
abbrev SearchCacheKey := List Nat × Int

/-- What the engine takes from outside the model: the word segmenter, the stop words,
the access to the page file (`WebPageLibraryReader::getWebPage`) and the rendering of
texts (`generateSummary`, `cleanUtf8String`). -/
structure SearchText where
  cut : List Nat → List (List Nat)
  stopWords : List (List Nat)
  getWebPage : Int → Option WebPage
  generateSummary : List Nat → List (List Nat) → List Nat
  cleanUtf8String : List Nat → List Nat

/-- Model of `class WebSearchEngine`: the reader behind `dataManager_` (`none` for a null
pointer) and the cache of results. -/
structure WebSearchEngine (α : Type) where
  webPageReader : Option (WebPageLibraryReader α)
  searchCache_ : LRUCache SearchCacheKey (List (SearchResult α))

/-- Model of the constructor of `WebSearchEngine`: a cache of 200 results. -/
def WebSearchEngine.new {α : Type} (webPageReader : Option (WebPageLibraryReader α)) :
    WebSearchEngine α :=
  { webPageReader := webPageReader, searchCache_ := LRUCache.new 200 }

/-- The characters that `normalizeQuery` treats as blanks. -/
def isBlank (c : Nat) : Bool :=
  c = 0x20 || c = 0x09 || c = 0x0A || c = 0x0D

/-- Model of `tolower` on an `unsigned char` in the "C" locale. -/
def tolower (c : Nat) : Nat :=
  if 0x41 ≤ c ∧ c ≤ 0x5A then c + 0x20 else c

/-- The loop of `normalizeQuery` that squeezes runs of blanks. -/
def squeezeBlanks : List Nat → Bool → List Nat
  | [], _ => []
  | c :: cs, prevSpace =>
    if isBlank c then
      if prevSpace then squeezeBlanks cs true else 0x20 :: squeezeBlanks cs true
    else c :: squeezeBlanks cs false

/-- Model of `WebSearchEngine::normalizeQuery`. -/
def normalizeQuery (query : List Nat) : List Nat :=
  let result := ((query.dropWhile isBlank).reverse.dropWhile isBlank).reverse
  (squeezeBlanks result false).map tolower

/-- The loop of `tokenizeQuery` over the words of the segmenter. -/
def tokenizeLoop (stopWords : List (List Nat)) :
    List (List Nat) → List (List Nat) → Option (List (List Nat))
  | [], terms => some terms
  | word :: words, terms =>
    match hasChineseChar word with
    | none => none
    | some isChineseWord =>
      let isValid := isChineseWord || (decide (word.length ≥ 2) && word.all isalpha)
      if isValid && !decide (word ∈ stopWords) then tokenizeLoop stopWords words (terms ++ [word])
      else tokenizeLoop stopWords words terms

/-- Model of `WebSearchEngine::tokenizeQuery`; `none` when `utf8::next` throws. -/
def tokenizeQuery (txt : SearchText) (query : List Nat) : Option (List (List Nat)) :=
  if query.isEmpty then some []
  else tokenizeLoop txt.stopWords (txt.cut query) []

/-- The loop of `findIntersectionDocuments` over the terms behind the first. -/
def intersectLoop {α : Type} (r : WebPageLibraryReader α) : List Int → List (List Nat) → List Int
  | resultSet, [] => resultSet
  | resultSet, term :: terms =>
    if !r.hasTerm term then []
    else
      let currentSet := (r.getDocuments term).foldl (fun s dw => usetInsert s dw.1) []
      let intersection :=
        resultSet.foldl (fun s docid => if docid ∈ currentSet then usetInsert s docid else s) []
      if intersection.isEmpty then intersection
      else intersectLoop r intersection terms

/-- Model of `WebSearchEngine::findIntersectionDocuments`; the sets are duplicate-free
lists. -/
def findIntersectionDocuments {α : Type} (r : WebPageLibraryReader α) :
    List (List Nat) → List Int
  | [] => []
  | term :: terms =>
    if r.hasTerm term then
      intersectLoop r ((r.getDocuments term).foldl (fun s dw => usetInsert s dw.1) []) terms
    else []

/-- The body of the second loop of `calculateQueryVector` on the pair of the vector and
`normSquared`. -/
def queryWeightStep {α : Type} [LinearOrderedField α] (log2 : α → α) (r : WebPageLibraryReader α)
    (st : List (List Nat × α) × α) (e : List Nat × Int) : List (List Nat × α) × α :=
  if r.hasTerm e.1 then
    let df := (r.getDocuments e.1).length
    let idf := log2 ((r.getWebPageCount : α) / ((df + 1 : Nat) : α))
    let tfidf := (e.2 : α) * idf
    (umapAssign st.1 e.1 tfidf, st.2 + tfidf * tfidf)
  else st

/-- The second loop of `calculateQueryVector`: the vector and `normSquared`. -/
def queryWeights {α : Type} [LinearOrderedField α] (log2 : α → α) (r : WebPageLibraryReader α)
    (queryTF : List (List Nat × Int)) : List (List Nat × α) × α :=
  queryTF.foldl (queryWeightStep log2 r) ([], 0)

/-- Model of `WebSearchEngine::calculateQueryVector`. -/
def calculateQueryVector {α : Type} [LinearOrderedField α] (log2 sqrt : α → α)
    (r : WebPageLibraryReader α) (queryTerms : List (List Nat)) : List (List Nat × α) :=
  let queryTF := queryTerms.foldl incrementCount []
  let st := queryWeights log2 r queryTF
  if st.2 > 0 then
    let norm := sqrt st.2
    st.1.map (fun e => (e.1, e.2 / norm))
  else st.1

/-- The body of the loop of `getDocumentVector`. -/
def docVectorStep {α : Type} (r : WebPageLibraryReader α) (docid : Int)
    (docVector : List (List Nat × α)) (term : List Nat) : List (List Nat × α) :=
  if r.hasTerm term then
    match (r.getDocuments term).find? (fun dw => decide (dw.1 = docid)) with
    | some dw => umapAssign docVector term dw.2
    | none => docVector
  else docVector

/-- Model of `WebSearchEngine::getDocumentVector`. -/
def getDocumentVector {α : Type} (r : WebPageLibraryReader α) (docid : Int)
    (queryTerms : List (List Nat)) : List (List Nat × α) :=
  queryTerms.foldl (docVectorStep r docid) []

/-- Model of `WebSearchEngine::calculateDotProduct`. -/
def calculateDotProduct {α : Type} [LinearOrderedField α] (vec1 vec2 : List (List Nat × α)) : α :=
  let smaller := if vec1.length ≤ vec2.length then vec1 else vec2
  let larger := if vec1.length ≤ vec2.length then vec2 else vec1
  smaller.foldl
    (fun dotProduct e =>
      match umapFind larger e.1 with
      | some weight2 => dotProduct + e.2 * weight2
      | none => dotProduct) 0

/-- Model of `WebSearchEngine::calculateCosineSimilarity`. -/
def calculateCosineSimilarity {α : Type} [LinearOrderedField α] (r : WebPageLibraryReader α)
    (queryTerms : List (List Nat)) (docid : Int) (queryVector : List (List Nat × α)) : α :=
  let docVector := getDocumentVector r docid queryTerms
  if docVector.isEmpty || queryVector.isEmpty then 0
  else calculateDotProduct queryVector docVector

/-- The comparison that `performSearch` passes to `std::sort`: higher score first, then
lower docid. -/
def scoreLt {α : Type} [LinearOrder α] (a b : Int × α) : Bool :=
  if a.2 ≠ b.2 then decide (a.2 > b.2) else decide (a.1 < b.1)

/-- Step 3 of `performSearch`: the candidates with a positive similarity, each with its
similarity. -/
def similarityScores {α : Type} [LinearOrderedField α] (r : WebPageLibraryReader α)
    (terms : List (List Nat)) (queryVector : List (List Nat × α)) (candidateDocs : List Int) :
    List (Int × α) :=
  candidateDocs.filterMap (fun docid =>
    let similarity := calculateCosineSimilarity r terms docid queryVector
    if similarity > 0 then some (docid, similarity) else none)

/-- The body of the loop of step 5 of `performSearch`: the result for a scored document,
none when its page cannot be read. -/
def makeResult {α : Type} (txt : SearchText) (terms : List (List Nat)) (ds : Int × α) :
    Option (SearchResult α) :=
  match txt.getWebPage ds.1 with
  | some webPage =>
    some { docid := ds.1
           title := txt.cleanUtf8String webPage.title
           url := txt.cleanUtf8String webPage.link
           summary := txt.cleanUtf8String (txt.generateSummary webPage.content terms)
           score := ds.2 }
  | none => none

/-- Model of `WebSearchEngine::performSearch`. -/
def performSearch {α : Type} [LinearOrderedField α] (log2 sqrt : α → α) (txt : SearchText)
    (e : WebSearchEngine α) (terms : List (List Nat)) (topN : Int) : List (SearchResult α) :=
  if terms.isEmpty then []
  else
    match e.webPageReader with
    | none => []
    | some r =>
      let candidateDocs := findIntersectionDocuments r terms
      if candidateDocs.isEmpty then []
      else
        let queryVector := calculateQueryVector log2 sqrt r terms
        let docScores := similarityScores r terms queryVector candidateDocs
        if docScores.isEmpty then []
        else
          let sorted := stdSortBy scoreLt docScores
          let count := min topN (sorted.length : Int)
          (sorted.take count.toNat).filterMap (makeResult txt terms)

/-- Model of `WebSearchEngine::search`: the results and the engine with its cache
updated; `none` when the tokenizer throws or the cache has capacity 0. -/
def search {α : Type} [LinearOrderedField α] (log2 sqrt : α → α) (txt : SearchText)
    (e : WebSearchEngine α) (query : List Nat) (topN : Int) :
    Option (List (SearchResult α) × WebSearchEngine α) :=
  if query.isEmpty || decide (topN ≤ 0) then some ([], e)
  else
    let cacheKey : SearchCacheKey := (query, topN)
    match e.searchCache_.get cacheKey with
    | (some cachedResult, cache') => some (cachedResult, { e with searchCache_ := cache' })
    | (none, cache') =>
      match tokenizeQuery txt (normalizeQuery query) with
      | none => none
      | some terms =>
        let result := performSearch log2 sqrt txt e terms topN
        if !result.isEmpty then
          match cache'.put cacheKey result with
          | none => none
          | some cache'' => some (result, { e with searchCache_ := cache'' })
        else some (result, { e with searchCache_ := cache' })

/-- The code points of a string, one character per unit of fuel; `none` when the string
is not valid UTF-8. -/
def utf8CodePointsLoop : Nat → List Nat → Option (List Nat)
  | 0, _ => none
  | fuel + 1, input =>
    if input = [] then some []
    else
      match utf8Next input with
      | none => none
      | some (codepoint, rest) =>
        match utf8CodePointsLoop fuel rest with
        | none => none
        | some codepoints => some (codepoint :: codepoints)

/-- The sequence of Unicode code points that a valid UTF-8 string encodes. -/
def utf8CodePoints (input : List Nat) : Option (List Nat) :=
  utf8CodePointsLoop (input.length + 1) input

/-- A small table for examples: 中 with the postings of documents 2 and 1, 京 with one
posting. -/
def sampleWeights : List (List Nat × List (Int × Rat)) :=
  [ ([0xE4, 0xBA, 0xAC], [(1, 1)]),
    ([0xE4, 0xB8, 0xAD], [(2, 1 / 2), (1, 1 / 3)]) ]

/-- The keys of a table of weights or counts per term and document are distinct, as in
the `unordered_map` of the source: no term twice, and under a term no docid twice. -/
def KeysDistinct {ν : Type} (table : List (List Nat × List (Int × ν))) : Prop :=
  (table.map (fun e => e.1)).Nodup ∧ ∀ e ∈ table, (e.2.map (fun dc => dc.1)).Nodup

/-- What `tokenizationAndFiltering` keeps true of its tables: every document frequency is
at least 1, every term of `termFrequency` has a document frequency, and every count is
at least 1. -/
def StatsOK (stats : TokenStats) : Prop :=
  (∀ e ∈ stats.documentFrequency, 1 ≤ e.2)
    ∧ (∀ e ∈ stats.termFrequency, (umapFind stats.documentFrequency e.1).isSome = true)
    ∧ (∀ e ∈ stats.termFrequency, ∀ dc ∈ e.2, 1 ≤ dc.2)

/-- The sum of the squares of the components of a vector kept as a map. -/
def vecNormSq {α : Type} [LinearOrderedField α] (v : List (List Nat × α)) : α :=
  (v.map (fun e => e.2 * e.2)).sum

/-- Every document of the index has posted weights whose squares sum to at most 1. -/
def IndexNormalized {α : Type} [LinearOrderedField α] (r : WebPageLibraryReader α) : Prop :=
  ∀ docid : Int, postedSquares r.invertedIndex_ docid ≤ 1

/-- Every score held in the cache of results lies between 0 and 1. -/
def CacheScoresOK {α : Type} [LinearOrderedField α]
    (c : LRUCache SearchCacheKey (List (SearchResult α))) : Prop :=
  ∀ entry ∈ c.cacheList_, ∀ res ∈ entry.2, 0 ≤ res.score ∧ res.score ≤ 1

/-- The engines that a fresh engine over the reader `r` can become through searches. -/
inductive SearchReachable {α : Type} [LinearOrderedField α] (log2 sqrt : α → α)
    (txt : SearchText) (r : Option (WebPageLibraryReader α)) : WebSearchEngine α → Prop
  | fresh : SearchReachable log2 sqrt txt r (WebSearchEngine.new r)
  | step (e e' : WebSearchEngine α) (query : List Nat) (topN : Int)
      (results : List (SearchResult α)) :
      SearchReachable log2 sqrt txt r e →
      search log2 sqrt txt e query topN = some (results, e') →
      SearchReachable log2 sqrt txt r e'

/-- The text services of the examples: the text is cut at the spaces, the words 是 and 的
are stop words, every page holds the text 中国 and texts are rendered as they are. -/
def sampleText : SearchText :=
  { cut := splitOnSpace
    stopWords := [shi, de]
    getWebPage := fun docid =>
      some { docid := docid, link := [], title := [], content := zhongguo }
    generateSummary := fun content _ => content
    cleanUtf8String := fun text => text }

/-- A reader for examples: three pages, and the term 中国 posted for document 1 with
weight 1. -/
def unitReader (α : Type) [LinearOrderedField α] : WebPageLibraryReader α :=
  { invertedIndex_ := [(zhongguo, [(1, 1)])]
    offsetMap_ := [(1, (0, 0)), (2, (0, 0)), (3, (0, 0))] }

/-- The query 北京 中国 of the search scenario. -/
def scenarioQuery : List Nat := beijing ++ [0x20] ++ zhongguo

/-- The docids of the posting list of a term; the list is empty for a term that the index
does not hold. -/
def postedDocids {α : Type} (r : WebPageLibraryReader α) (term : List Nat) : List Int :=
  (r.getDocuments term).map (fun dw => dw.1)

/-- A reader for examples: 中国 is posted for the documents 1, 2 and 3, 北京 for the
documents 3 and 1. -/
def twoTermReader : WebPageLibraryReader Rat :=
  { invertedIndex_ := [(zhongguo, [(1, 1 / 2), (2, 1), (3, 1 / 3)]), (beijing, [(3, 1), (1, 1 / 2)])]
    offsetMap_ := [(1, (0, 0)), (2, (0, 0)), (3, (0, 0))] }

/-- The states of an edit-distance cache of the given capacity that are reached from the
empty cache through calls of `calculateEditDistance` that return. -/
inductive EditCacheReachable (capacity : Nat) : LRUCache EditDistanceCacheKey Int → Prop
  | empty : EditCacheReachable capacity (LRUCache.new capacity)
  | call (cache cache' : LRUCache EditDistanceCacheKey Int) (word1 word2 : List Nat)
      (distance : Int) :
      EditCacheReachable capacity cache →
      calculateEditDistance cache word1 word2 = some (distance, cache') →
      EditCacheReachable capacity cache'

/-! ## Worker pool (src/src/network/thread_pool.cc)

The loop of one worker thread.  The queue and the other threads are outside the model:
the worker is given the values that `getTask()` returns to it, in order, up to the
round in which it finds `isExit_` set. -/

/-- Model of `Task` (`std::function<void()>`): a task acts on the state `σ` of the
program and returns, or throws the exception `e` after the effects it had until then
(`some e` in the second component). -/
abbrev Task (σ ε : Type) := σ → σ × Option ε

/-- Model of `ThreadPool::doTask`: the rounds of the loop `while (!isExit_)` on the
values returned by `getTask()`, an empty function for `nullptr`.  The call `taskcb()`
stands in no `try` block: an exception of the task ends the loop and leaves `doTask`
(`some e`), the tasks behind it are not fetched. -/
def doTask {σ ε : Type} : List (Option (Task σ ε)) → σ → σ × Option ε
  | [], s => (s, none)
  | none :: rest, s => doTask rest s
  | some taskcb :: rest, s =>
    match taskcb s with
    | (s', some e) => (s', some e)
    | (s', none) => doTask rest s'

/-- Model of `ThreadPool::workerLoop` of the former pool
(`src/backup/network_old/thread_pool.cc`) on the tasks it takes from the queue: the call
`task()` stands in a `try` block whose handlers catch everything and go on. -/
def workerLoop {σ ε : Type} : List (Task σ ε) → σ → σ
  | [], s => s
  | task :: rest, s => workerLoop rest (task s).1

/-- A task that throws the exception 1 at once. -/
def failingTask : Task Nat Nat := fun s => (s, some 1)

/-- A task that counts itself in the state and returns. -/
def countingTask : Task Nat Nat := fun s => (s + 1, none)

/-! ## Decimal numbers in texts

The text that `operator<<` writes for an integer, as it stands in the JSON texts of the
server and in the files of the page library. -/

/-- The loop that prints the decimal digits of `n` in front of `acc`, one digit per unit
of fuel. -/
def showNatLoop : Nat → Nat → List Nat → List Nat
  | 0, _, acc => acc
  | fuel + 1, n, acc =>
    if n < 10 then (0x30 + n) :: acc
    else showNatLoop fuel (n / 10) ((0x30 + n % 10) :: acc)

/-- The decimal digits of a natural number, as `operator<<` prints a `size_t`; a number
has at most `n + 1` digits. -/
def showNat (n : Nat) : List Nat :=
  showNatLoop (n + 1) n []

/-- The text that `operator<<` prints for an `int`: a minus sign for a negative value,
then the digits. -/
def showInt (i : Int) : List Nat :=
  if i < 0 then 0x2D :: showNat (-i).toNat else showNat i.toNat

/-! ## Request dispatcher (src/src/server/search_engine_server.cc)

The task of one request.  The JSON library, the recommender and the search engine
behind the two handlers are parameters; what the task passes to `connection_->send`
is the result. -/

/-- The JSON object that `TLVMessageBuilder::buildErrorResponse` builds. -/
structure ErrorJson where
  error : List Nat
  code : Int
  timestamp : Int
deriving DecidableEq

/-- What the dispatcher takes from outside the model.  `recommendJson` and `searchJson`
are the `try` blocks of the two handlers up to `responseJson.dump()` (parse the payload,
read the fields, call the engine, print the answer): the response text, or the text
`e.what()` of the exception thrown.  `dump` is `errorJson.dump()` of the JSON library,
`none` when it throws.  `time` is `std::time(nullptr)`. -/
structure ServerEnv where
  recommendJson : List Nat → Except (List Nat) (List Nat)
  searchJson : List Nat → Except (List Nat) (List Nat)
  dump : ErrorJson → Option (List Nat)
  time : Int

/-- The default argument `errorCode = -1` of `sendErrorResponse` and of
`buildErrorResponse`; no caller passes another code. -/
def defaultErrorCode : Int := -1

/-- The text 无效的消息格式 (invalid message format). -/
def invalidFormatText : List Nat :=
  [0xE6, 0x97, 0xA0, 0xE6, 0x95, 0x88, 0xE7, 0x9A, 0x84, 0xE6, 0xB6, 0x88, 0xE6, 0x81, 0xAF,
   0xE6, 0xA0, 0xBC, 0xE5, 0xBC, 0x8F]

/-- The text 不支持的消息类型 (unsupported message type). -/
def unsupportedTypeText : List Nat :=
  [0xE4, 0xB8, 0x8D, 0xE6, 0x94, 0xAF, 0xE6, 0x8C, 0x81, 0xE7, 0x9A, 0x84, 0xE6, 0xB6, 0x88,
   0xE6, 0x81, 0xAF, 0xE7, 0xB1, 0xBB, 0xE5, 0x9E, 0x8B]

/-- The text 关键字推荐失败 (keyword recommendation failed), a colon and a space. -/
def recommendFailedText : List Nat :=
  [0xE5, 0x85, 0xB3, 0xE9, 0x94, 0xAE, 0xE5, 0xAD, 0x97, 0xE6, 0x8E, 0xA8, 0xE8, 0x8D, 0x90,
   0xE5, 0xA4, 0xB1, 0xE8, 0xB4, 0xA5, 0x3A, 0x20]

/-- The text 网页搜索失败 (web search failed), a colon and a space. -/
def searchFailedText : List Nat :=
  [0xE7, 0xBD, 0x91, 0xE9, 0xA1, 0xB5, 0xE6, 0x90, 0x9C, 0xE7, 0xB4, 0xA2, 0xE5, 0xA4, 0xB1,
   0xE8, 0xB4, 0xA5, 0x3A, 0x20]

/-- Model of `TLVMessageBuilder::buildErrorResponse`; `none` when `dump` throws. -/
def buildErrorResponse (env : ServerEnv) (errorMessage : List Nat) (errorCode : Int) :
    Option TLVMessage :=
  match env.dump { error := errorMessage, code := errorCode, timestamp := env.time } with
  | none => none
  | some text => some (TLVMessage.ofJson ERROR_RESPONSE text)

/-- Model of `SearchEngineTask::sendResponse`: the byte strings passed to
`connection_->send`. -/
def sendResponse (response : TLVMessage) : List (List Nat) :=
  [encode response]

/-- Model of `SearchEngineTask::sendErrorResponse`: an exception of
`buildErrorResponse` is caught and logged, nothing is sent then. -/
def sendErrorResponse (env : ServerEnv) (errorMessage : List Nat) (errorCode : Int) :
    List (List Nat) :=
  match buildErrorResponse env errorMessage errorCode with
  | none => []
  | some errorResponse => sendResponse errorResponse

/-- Model of `SearchEngineTask::handleKeywordRecommendRequest`. -/
def handleKeywordRecommendRequest (env : ServerEnv) (request : TLVMessage) : List (List Nat) :=
  match env.recommendJson request.data with
  | Except.ok responseText =>
    sendResponse (TLVMessage.ofJson KEYWORD_RECOMMEND_RESPONSE responseText)
  | Except.error what => sendErrorResponse env (recommendFailedText ++ what) defaultErrorCode

/-- Model of `SearchEngineTask::handleSearchRequest`. -/
def handleSearchRequest (env : ServerEnv) (request : TLVMessage) : List (List Nat) :=
  match env.searchJson request.data with
  | Except.ok responseText => sendResponse (TLVMessage.ofJson SEARCH_RESPONSE responseText)
  | Except.error what => sendErrorResponse env (searchFailedText ++ what) defaultErrorCode

/-- Model of `SearchEngineTask::process`: what the task sends for the received bytes
`message_`.  The handlers catch their exceptions themselves, so the outer handler of
`process` is not reached; `none` only if the decoder ran out of fuel, which it does not
(`decode_isSome`). -/
def process (env : ServerEnv) (message_ : List Nat) : Option (List (List Nat)) :=
  match decode message_ with
  | none => none
  | some (messages, _) =>
    match messages with
    | [] => some (sendErrorResponse env invalidFormatText defaultErrorCode)
    | request :: _ =>
      if request.header.type = KEYWORD_RECOMMEND_REQUEST then
        some (handleKeywordRecommendRequest env request)
      else if request.header.type = SEARCH_REQUEST then
        some (handleSearchRequest env request)
      else some (sendErrorResponse env unsupportedTypeText defaultErrorCode)

/-- The byte string is a frame of type 0x9001 whose payload is the text of the JSON
object with the given "error" and "code" fields. -/
def IsErrorFrame (env : ServerEnv) (frame : List Nat) (error : List Nat) (code : Int) : Prop :=
  ∃ text, env.dump { error := error, code := code, timestamp := env.time } = some text
    ∧ frame = encode (TLVMessage.ofJson ERROR_RESPONSE text)

/-- The text that the JSON library prints for the error object when the error text needs
no escape: the keys in alphabetical order, no blanks. -/
def errorJsonText (j : ErrorJson) : List Nat :=
  [0x7B, 0x22, 0x63, 0x6F, 0x64, 0x65, 0x22, 0x3A] ++ showInt j.code
    ++ [0x2C, 0x22, 0x65, 0x72, 0x72, 0x6F, 0x72, 0x22, 0x3A, 0x22] ++ j.error
    ++ [0x22, 0x2C, 0x22, 0x74, 0x69, 0x6D, 0x65, 0x73, 0x74, 0x61, 0x6D, 0x70, 0x22, 0x3A]
    ++ showInt j.timestamp ++ [0x7D]

/-- A serializer for examples: `errorJsonText`, and `none` (the library throws a type
error) when the error text is not valid UTF-8. -/
def sampleDump (j : ErrorJson) : Option (List Nat) :=
  match utf8CodePoints j.error with
  | none => none
  | some _ => some (errorJsonText j)

/-- The text of the type error of the JSON library for a field that is not a string. -/
def typeErrorText : List Nat :=
  [0x5B, 0x6A, 0x73, 0x6F, 0x6E, 0x2E, 0x65, 0x78, 0x63, 0x65, 0x70, 0x74, 0x69, 0x6F, 0x6E,
   0x2E, 0x74, 0x79, 0x70, 0x65, 0x5F, 0x65, 0x72, 0x72, 0x6F, 0x72, 0x2E, 0x33, 0x30, 0x32,
   0x5D, 0x20, 0x74, 0x79, 0x70, 0x65, 0x20, 0x6D, 0x75, 0x73, 0x74, 0x20, 0x62, 0x65, 0x20,
   0x73, 0x74, 0x72, 0x69, 0x6E, 0x67, 0x2C, 0x20, 0x62, 0x75, 0x74, 0x20, 0x69, 0x73, 0x20,
   0x6E, 0x75, 0x6C, 0x6C]

/-- A handler for examples.  On the payload of an empty object, which has no "query",
it throws the type error; on a payload that is not valid UTF-8 it throws with a text
that quotes the payload (the JSON library quotes the bytes it read last); on every other
payload it returns the text of an empty array. -/
def sampleHandler (payload : List Nat) : Except (List Nat) (List Nat) :=
  if payload = [0x7B, 0x7D] then Except.error typeErrorText
  else if utf8CodePoints payload = none then
    Except.error ([0x6C, 0x61, 0x73, 0x74, 0x20, 0x72, 0x65, 0x61, 0x64, 0x3A, 0x20, 0x27]
      ++ payload ++ [0x27])
  else Except.ok [0x5B, 0x5D]

/-- An environment for examples. -/
def sampleEnv : ServerEnv :=
  { recommendJson := sampleHandler, searchJson := sampleHandler, dump := sampleDump, time := 0 }

/-! ## Lexicon builders (src/src/keywords/chinese_tokenizer.cc, english_tokenizer.cc)

The dictionary file is the list of its lines, each a word and its frequency.  The
indexes (`std::map` in the source) are kept as lists of a key and its line numbers. -/

/-- Model of `operator<` on `std::pair<std::string, int>`. -/
def entryLt (a b : List Nat × Int) : Bool :=
  stringLt a.1 b.1 || (!stringLt b.1 a.1 && decide (a.2 < b.2))

/-- The vector `sortedWords` that `buildCharacterIndex`, `buildLetterIndex` and
`saveDictionary` each build from `wordFrequency_` and sort with `std::sort`. -/
def sortedWords (wordFrequency_ : List (List Nat × Int)) : List (List Nat × Int) :=
  stdSortBy entryLt wordFrequency_

/-- Model of `ChineseTokenizer::saveDictionary` and `EnglishTokenizer::saveDictionary`: the
lines of the dictionary file. -/
def saveDictionary (wordFrequency_ : List (List Nat × Int)) : List (List Nat × Int) :=
  sortedWords wordFrequency_

/-- Model of `index[key].push_back(lineNumber)`. -/
def pushLine {κ : Type} [DecidableEq κ] (index : List (κ × List Int)) (key : κ)
    (lineNumber : Int) : List (κ × List Int) :=
  umapAssign index key ((umapFind index key).getD [] ++ [lineNumber])

/-- The posting list of a key, empty for a key that the index does not hold. -/
def postingOf {κ : Type} [DecidableEq κ] (index : List (κ × List Int)) (key : κ) : List Int :=
  (umapFind index key).getD []

/-- The loop of `ChineseTokenizer::extractAllCharacters`, one character per unit of fuel:
the bytes of every character from U+4E00 to U+9FFF are appended. -/
def extractAllCharactersLoop : Nat → List Nat → List (List Nat) → Option (List (List Nat))
  | 0, _, _ => none
  | fuel + 1, input, characters =>
    if input = [] then some characters
    else
      match utf8Next input with
      | none => none
      | some (codepoint, rest) =>
        if codepoint ≥ 0x4E00 ∧ codepoint ≤ 0x9FFF then
          extractAllCharactersLoop fuel rest
            (characters ++ [input.take (input.length - rest.length)])
        else extractAllCharactersLoop fuel rest characters

/-- Model of `ChineseTokenizer::extractAllCharacters`; `none` when `utf8::next` throws.
Each character takes at least one byte, so `word.length + 1` iterations suffice. -/
def extractAllCharacters (word : List Nat) : Option (List (List Nat)) :=
  extractAllCharactersLoop (word.length + 1) word []

/-- The body of the loop over the characters of a word in `buildCharacterIndex`, on the
pair of `characterIndex_` and `uniqueChars`. -/
def indexCharacter (lineNumber : Int)
    (st : List (List Nat × List Int) × List (List Nat)) (character : List Nat) :
    List (List Nat × List Int) × List (List Nat) :=
  if character ≠ [] ∧ character ∉ st.2 then
    (pushLine st.1 character lineNumber, usetInsert st.2 character)
  else st

/-- The loop of `buildCharacterIndex` over the sorted words. -/
def buildCharacterIndexLoop :
    List (List Nat × Int) → Int → List (List Nat × List Int) → Option (List (List Nat × List Int))
  | [], _, characterIndex_ => some characterIndex_
  | pair :: rest, lineNumber, characterIndex_ =>
    match extractAllCharacters pair.1 with
    | none => none
    | some characters =>
      buildCharacterIndexLoop rest (lineNumber + 1)
        (characters.foldl (indexCharacter lineNumber) (characterIndex_, [])).1

/-- Model of `ChineseTokenizer::buildCharacterIndex`, called on an empty
`characterIndex_`; `none` when `utf8::next` throws on a word. -/
def buildCharacterIndex (wordFrequency_ : List (List Nat × Int)) :
    Option (List (List Nat × List Int)) :=
  buildCharacterIndexLoop (sortedWords wordFrequency_) 1 []

/-- The set `wordLetters` that `buildLetterIndex` collects from a word.  For a byte from
0x80 on the source calls `isalpha` with a negative `char`; the answer is taken to be
false, as in glibc. -/
def wordLettersOf (word : List Nat) : List Nat :=
  word.foldl (fun wordLetters c => if isalpha c then usetInsert wordLetters c else wordLetters) []

/-- The loop of `buildLetterIndex` over the sorted words; `lineNumber` is `i + 1`. -/
def buildLetterIndexLoop :
    List (List Nat × Int) → Int → List (Nat × List Int) → List (Nat × List Int)
  | [], _, letterIndex_ => letterIndex_
  | pair :: rest, lineNumber, letterIndex_ =>
    buildLetterIndexLoop rest (lineNumber + 1)
      ((wordLettersOf pair.1).foldl (fun index letter => pushLine index letter lineNumber)
        letterIndex_)

/-- Model of `EnglishTokenizer::buildLetterIndex`, called on an empty `letterIndex_`. -/
def buildLetterIndex (wordFrequency_ : List (List Nat × Int)) : List (Nat × List Int) :=
  buildLetterIndexLoop (sortedWords wordFrequency_) 1 []

/-- The UTF-8 encoding of a code point from U+0800 to U+FFFF. -/
def utf8Encode3 (c : Nat) : List Nat :=
  [0xE0 + c / 4096, 0x80 + c / 64 % 64, 0x80 + c % 64]

/-- The line numbers, counted from `start`, of the lines whose word has `key` among its
keys. -/
def linesWith {κ : Type} [DecidableEq κ] (keysOf : List Nat → List κ) (key : κ) :
    List (List Nat × Int) → Int → List Int
  | [], _ => []
  | pair :: rest, start =>
    (if key ∈ keysOf pair.1 then [start] else []) ++ linesWith keysOf key rest (start + 1)

/-- The word-frequency table of the minimal lexicon: 忠告 30, 中国 100, 中央 50. -/
def sampleWordFrequency : List (List Nat × Int) :=
  [(zhonggao, 30), (zhongguo, 100), (zhongyang, 50)]

/-- A word-frequency table of English words: "go" 1, "dog" 2, "add" 3. -/
def sampleEnglishFrequency : List (List Nat × Int) :=
  [([0x67, 0x6F], 1), ([0x64, 0x6F, 0x67], 2), ([0x61, 0x64, 0x64], 3)]

/-- The byte strings of the characters from U+4E00 to U+9FFF among the code points of a
word, in their order. -/
def cjkCharacters (cps : List Nat) : List (List Nat) :=
  (cps.filter (fun c => decide (0x4E00 ≤ c ∧ c ≤ 0x9FFF))).map utf8Encode3

/-! ## Page library: writer and reader
(src/src/webpages/page_processor.cc, src/src/data_reader/data_reader.cc)

The page file and the offset file are byte strings.  `size_t` is 64 bits wide and `int`
32 bits; the files are text files on a system that does not translate line ends. -/

/-- The text that `buildWebPagesAndOffsets` writes to the page file for one page. -/
def pageRecord (page : WebPage) : List Nat :=
  [0x3C, 0x64, 0x6F, 0x63, 0x3E, 0x0A]
    ++ [0x20, 0x20, 0x3C, 0x64, 0x6F, 0x63, 0x69, 0x64, 0x3E] ++ showInt page.docid
    ++ [0x3C, 0x2F, 0x64, 0x6F, 0x63, 0x69, 0x64, 0x3E, 0x0A]
    ++ [0x20, 0x20, 0x3C, 0x6C, 0x69, 0x6E, 0x6B, 0x3E] ++ page.link
    ++ [0x3C, 0x2F, 0x6C, 0x69, 0x6E, 0x6B, 0x3E, 0x0A]
    ++ [0x20, 0x20, 0x3C, 0x74, 0x69, 0x74, 0x6C, 0x65, 0x3E] ++ page.title
    ++ [0x3C, 0x2F, 0x74, 0x69, 0x74, 0x6C, 0x65, 0x3E, 0x0A]
    ++ [0x20, 0x20, 0x3C, 0x63, 0x6F, 0x6E, 0x74, 0x65, 0x6E, 0x74, 0x3E] ++ page.content
    ++ [0x3C, 0x2F, 0x63, 0x6F, 0x6E, 0x74, 0x65, 0x6E, 0x74, 0x3E, 0x0A]
    ++ [0x3C, 0x2F, 0x64, 0x6F, 0x63, 0x3E, 0x0A]

/-- The body of the loop of `buildWebPagesAndOffsets` on the pair of the page file and
the offset file written so far; `tellp` is the length of the page file. -/
def writePage (files : List Nat × List Nat) (page : WebPage) : List Nat × List Nat :=
  let offset := files.1.length
  let pagesFile := files.1 ++ pageRecord page
  let length := pagesFile.length - offset
  (pagesFile,
    files.2 ++ showInt page.docid ++ [0x20] ++ showNat offset ++ [0x20] ++ showNat length
      ++ [0x0A])

/-- Model of `PageProcessor::buildWebPagesAndOffsets`: the page file and the offset file
(both files can be opened). -/
def buildWebPagesAndOffsets (uniquePages_ : List WebPage) : List Nat × List Nat :=
  uniquePages_.foldl writePage ([], [])

/-- The lines that a loop `while (std::getline(ifs, line))` reads from the rest of a
file; `line` holds the bytes read since the last line end.  At the end of the file a
line is delivered only if some byte was read for it. -/
def getLinesFrom : List Nat → List Nat → List (List Nat)
  | [], line => if line = [] then [] else [line]
  | c :: rest, line =>
    if c = 0x0A then line :: getLinesFrom rest [] else getLinesFrom rest (line ++ [c])

/-- Model of `std::getline` called until it fails. -/
def getLines (file : List Nat) : List (List Nat) :=
  getLinesFrom file []

/-- Model of `isspace` in the "C" locale. -/
def isspace (c : Nat) : Bool :=
  c = 0x20 || (decide (0x09 ≤ c) && decide (c ≤ 0x0D))

/-- Model of `isdigit`. -/
def isdigit (c : Nat) : Bool :=
  decide (0x30 ≤ c) && decide (c ≤ 0x39)

/-- The number that a run of decimal digits stands for. -/
def decimalValue (digits : List Nat) : Nat :=
  digits.foldl (fun value c => value * 10 + (c - 0x30)) 0

/-- What the extraction of a number does first: white space is skipped, a sign is taken,
then the longest run of digits.  The result is the sign (true for a minus), the digits
and the rest of the input. -/
def readNumber (input : List Nat) : Bool × List Nat × List Nat :=
  let text := input.dropWhile isspace
  match text with
  | 0x2D :: digits => (true, digits.takeWhile isdigit, digits.dropWhile isdigit)
  | 0x2B :: digits => (false, digits.takeWhile isdigit, digits.dropWhile isdigit)
  | _ => (false, text.takeWhile isdigit, text.dropWhile isdigit)

/-- Model of `operator>>(int&)` on a string stream: the value and the rest of the text;
`none` when the extraction fails (no digit, or a value outside the range of `int`). -/
def readInt (input : List Nat) : Option (Int × List Nat) :=
  match readNumber input with
  | (negative, digits, rest) =>
    if digits = [] then none
    else
      let value : Int := if negative then -(decimalValue digits : Int) else decimalValue digits
      if -2 ^ 31 ≤ value ∧ value < 2 ^ 31 then some (value, rest) else none

/-- Model of `operator>>(size_t&)` on a string stream; a value with a minus sign is
negated modulo `2^64`, as `strtoull` does. -/
def readSize (input : List Nat) : Option (Nat × List Nat) :=
  match readNumber input with
  | (negative, digits, rest) =>
    if digits = [] then none
    else if decimalValue digits < 2 ^ 64 then
      some (if negative then (2 ^ 64 - decimalValue digits) % 2 ^ 64 else decimalValue digits,
        rest)
    else none

/-- The body of the loop of `loadOffsets` on one line. -/
def loadOffsetsLine (offsetMap_ : List (Int × (Nat × Nat))) (line : List Nat) :
    List (Int × (Nat × Nat)) :=
  if line = [] then offsetMap_
  else
    match readInt line with
    | none => offsetMap_
    | some (docid, rest1) =>
      match readSize rest1 with
      | none => offsetMap_
      | some (offset, rest2) =>
        match readSize rest2 with
        | none => offsetMap_
        | some (length, _) => umapAssign offsetMap_ docid (offset, length)

/-- Model of `WebPageLibraryReader::loadOffsets` on the bytes of the offset file: the
table `offsetMap_`. -/
def loadOffsets (offsetsFile : List Nat) : List (Int × (Nat × Nat)) :=
  (getLines offsetsFile).foldl loadOffsetsLine []

/-- Model of `seekg(offset)` and `read(&content[0], length)` into a string of
`length` zero bytes: the bytes found, then the zero bytes that were not overwritten. -/
def readAt (file : List Nat) (offset length : Nat) : List Nat :=
  (file.drop offset).take length
    ++ List.replicate (length - ((file.drop offset).take length).length) 0

/-- An attempt of the regular expression `<tag>([^<]+)</tag>` at the beginning of the
input: the opening tag, the longest run of bytes other than `<` (not empty), the
closing tag.  A shorter run cannot be followed by the closing tag, which begins with
`<`. -/
def matchField (openTag closeTag : List Nat) (input : List Nat) : Option (List Nat) :=
  if openTag.isPrefixOf input then
    let body := input.drop openTag.length
    let field := body.takeWhile (fun c => c != 0x3C)
    if field ≠ [] ∧ closeTag.isPrefixOf (body.dropWhile (fun c => c != 0x3C)) then some field
    else none
  else none

/-- Model of `regex_search` with the regular expression `<tag>([^<]+)</tag>`: the first
capture group of the leftmost match, `none` when there is no match. -/
def regexCapture (openTag closeTag : List Nat) : List Nat → Option (List Nat)
  | [] => none
  | c :: rest =>
    match matchField openTag closeTag (c :: rest) with
    | some field => some field
    | none => regexCapture openTag closeTag rest

/-- Model of `WebPageLibraryReader::parseWebPageXML`: a field that its regular expression
does not find stays empty. -/
def parseWebPageXML (xmlContent : List Nat) (docid : Int) : WebPage :=
  { docid := docid
    link := (regexCapture [0x3C, 0x6C, 0x69, 0x6E, 0x6B, 0x3E]
      [0x3C, 0x2F, 0x6C, 0x69, 0x6E, 0x6B, 0x3E] xmlContent).getD []
    title := (regexCapture [0x3C, 0x74, 0x69, 0x74, 0x6C, 0x65, 0x3E]
      [0x3C, 0x2F, 0x74, 0x69, 0x74, 0x6C, 0x65, 0x3E] xmlContent).getD []
    content := (regexCapture [0x3C, 0x63, 0x6F, 0x6E, 0x74, 0x65, 0x6E, 0x74, 0x3E]
      [0x3C, 0x2F, 0x63, 0x6F, 0x6E, 0x74, 0x65, 0x6E, 0x74, 0x3E] xmlContent).getD [] }

/-- Model of `WebPageLibraryReader::getWebPage` on the table of offsets and the bytes of
the page file (the file can be opened); `none` is the null pointer. -/
def getWebPage (offsetMap_ : List (Int × (Nat × Nat))) (pagesFile : List Nat) (docid : Int) :
    Option WebPage :=
  match umapFind offsetMap_ docid with
  | none => none
  | some offset => some (parseWebPageXML (readAt pagesFile offset.1 offset.2) docid)

/-- The page read back from the files written for a list of pages. -/
def pageAt (uniquePages_ : List WebPage) (docid : Int) : Option WebPage :=
  getWebPage (loadOffsets (buildWebPagesAndOffsets uniquePages_).2)
    (buildWebPagesAndOffsets uniquePages_).1 docid

/-- Two pages for examples; the content of the second is the text `1 < 2`. -/
def samplePages : List WebPage :=
  [ { docid := 1, link := [0x68, 0x74, 0x74, 0x70, 0x3A, 0x2F, 0x2F, 0x61], title := zhongguo,
      content := beijing ++ [0x0A] ++ shanghai },
    { docid := 2, link := [], title := beijing, content := [0x31, 0x20, 0x3C, 0x20, 0x32] } ]

/-- Two pages with the same docid. -/
def twinPages : List WebPage :=
  [ { docid := 1, link := [], title := zhongguo, content := beijing },
    { docid := 1, link := [], title := zhongguo, content := shanghai } ]

/-- The records of a list of pages, one behind the other. -/
def concatRecords : List WebPage → List Nat
  | [] => []
  | page :: pages => pageRecord page ++ concatRecords pages

/-- The entries of the offset table for pages whose records are written from the offset
`start` on: docid, offset and length of each record. -/
def offsetsFrom : Nat → List WebPage → List (Int × (Nat × Nat))
  | _, [] => []
  | start, page :: pages =>
    (page.docid, (start, (pageRecord page).length))
      :: offsetsFrom (start + (pageRecord page).length) pages

/-- The line of the offset file for an entry. -/
def offsetLine (e : Int × (Nat × Nat)) : List Nat :=
  showInt e.1 ++ [0x20] ++ showNat e.2.1 ++ [0x20] ++ showNat e.2.2 ++ [0x0A]

/-- The lines of the offset file for a list of entries. -/
def offsetLines : List (Int × (Nat × Nat)) → List Nat
  | [] => []
  | e :: es => offsetLine e ++ offsetLines es

/-! ## Framing codec: properties -/

theorem encode_length (m : TLVMessage) : (encode m).length = 6 + m.data.length := by
  simp [encode, htons, htonl]; omega

theorem isValidMessageType_iff (t : Nat) :
    isValidMessageType t = true
      ↔ t = 0x0001 ∨ t = 0x0002 ∨ t = 0x1001 ∨ t = 0x1002 ∨ t = 0x9001 := by
  simp [isValidMessageType, KEYWORD_RECOMMEND_REQUEST, SEARCH_REQUEST,
    KEYWORD_RECOMMEND_RESPONSE, SEARCH_RESPONSE, ERROR_RESPONSE, or_assoc]

theorem isValidMessageType_lt {t : Nat} (h : isValidMessageType t = true) : t < 2 ^ 16 := by
  rw [isValidMessageType_iff] at h
  omega

/-- Reading the header back at the offset where an encoded message starts. -/
theorem readHeader_encode (P S : List Nat) (F : TLVMessage)
    (ht : F.header.type < 2 ^ 16) (hl : F.header.length < 2 ^ 32) :
    readHeader (P ++ (encode F ++ S)) P.length = F.header := by
  have h0 : ∀ k, (P ++ (encode F ++ S)).getD (P.length + k) 0 = (encode F ++ S).getD k 0 := by
    intro k
    simp [List.getD_eq_getElem?_getD, List.getElem?_append_right]
  have e0 := h0 0
  have e1 := h0 1
  have e2 := h0 2
  have e3 := h0 3
  have e4 := h0 4
  have e5 := h0 5
  simp only [Nat.add_zero] at e0
  cases F with
  | mk hd dt =>
    cases hd with
    | mk t l =>
      simp only [readHeader, ntohs, ntohl, Nat.add_assoc, e0, e1, e2, e3, e4, e5]
      simp only [encode, htons, htonl, List.cons_append, List.nil_append, List.getD_cons_zero,
        List.getD_cons_succ]
      simp only at ht hl
      congr 1 <;> omega

/-- The payload read back behind the header of an encoded message. -/
theorem payload_encode (P S : List Nat) (F : TLVMessage) :
    ((P ++ (encode F ++ S)).drop (P.length + sizeofTLVHeader)).take F.data.length = F.data := by
  have : (P ++ (encode F ++ S)).drop (P.length + sizeofTLVHeader) = F.data ++ S := by
    rw [← List.drop_drop, List.drop_left]
    simp [encode, htons, htonl, sizeofTLVHeader]
  rw [this, List.take_left]

/-- One iteration of the loop at an offset that holds an encoded well-formed frame
consumes the frame and appends it. -/
theorem decodeLoop_frame (fuel : Nat) (P S : List Nat) (F : TLVMessage) (hF : WellFormed F)
    (messages : List TLVMessage) :
    decodeLoop (fuel + 1) (P ++ (encode F ++ S)) P.length messages
      = decodeLoop fuel (P ++ (encode F ++ S)) (P.length + (encode F).length)
          (messages ++ [F]) := by
  obtain ⟨hv, hlen, hbound⟩ := hF
  have hh := readHeader_encode P S F (isValidMessageType_lt hv) (by omega)
  have hp := payload_encode P S F
  have hL : (P ++ (encode F ++ S)).length = P.length + (6 + F.data.length + S.length) := by
    simp [encode_length]
  rw [decodeLoop]
  simp only [sizeofTLVHeader] at hp
  simp only [hh, hv, hlen, hp, hL, sizeofTLVHeader, encode_length]
  rw [if_pos (by omega)]
  simp only [Bool.not_true, Bool.false_eq_true, if_false]
  rw [if_neg (by omega)]

/-- Resynchronisation: `k` consecutive offsets without a recognised type code cost
`k` iterations and advance `parsedBytes` by `k`. -/
theorem decodeLoop_skip (buffer : List Nat) (messages : List TLVMessage) :
    ∀ (k fuel parsedBytes : Nat),
      parsedBytes + k + sizeofTLVHeader ≤ buffer.length + 1 →
      (∀ i, parsedBytes ≤ i → i < parsedBytes + k →
        isValidMessageType (ntohs buffer i) = false) →
      decodeLoop (fuel + k) buffer parsedBytes messages
        = decodeLoop fuel buffer (parsedBytes + k) messages := by
  intro k
  induction k with
  | zero => intro fuel parsedBytes _ _; rfl
  | succ k ih =>
    intro fuel parsedBytes hlen hbad
    have h1 : fuel + (k + 1) = (fuel + k) + 1 := by omega
    rw [h1, decodeLoop]
    have hvalid := hbad parsedBytes (Nat.le_refl _) (by omega)
    rw [if_pos (by omega)]
    simp only [readHeader, hvalid, Bool.not_false, if_true]
    rw [ih fuel (parsedBytes + 1) (by omega)
      (fun i h1 h2 => hbad i (by omega) (by omega))]
    congr 1
    omega

/-- The loop always ends within `buffer.length + 1 - parsedBytes` iterations. -/
theorem decodeLoop_isSome (buffer : List Nat) :
    ∀ (fuel parsedBytes : Nat) (messages : List TLVMessage),
      buffer.length - parsedBytes < fuel →
      (decodeLoop fuel buffer parsedBytes messages).isSome = true := by
  intro fuel
  induction fuel with
  | zero =>
    intro parsedBytes messages h
    omega
  | succ fuel ih =>
    intro parsedBytes messages h
    rw [decodeLoop]
    split
    · simp only []
      split
      · exact ih _ _ (by simp only [sizeofTLVHeader] at *; omega)
      · split
        · rfl
        · exact ih _ _ (by simp only [sizeofTLVHeader] at *; omega)
    · rfl

/-- The decoder is total: the fuel given by `decode` is always enough. -/
theorem decode_isSome (buffer : List Nat) : (decode buffer).isSome = true :=
  decodeLoop_isSome buffer _ _ _ (by omega)

/-- A prefix without any recognised type code is skipped byte by byte, then the frame
behind it is decoded. -/
theorem decode_prefix_frame (P : List Nat) (F : TLVMessage) (hF : WellFormed F)
    (hP : ∀ i, i < P.length → isValidMessageType (ntohs (P ++ encode F) i) = false) :
    decode (P ++ encode F) = some ([F], P.length + (encode F).length) := by
  have hL : (P ++ encode F).length + 1 = (F.data.length + 6 + 1) + P.length := by
    simp [encode_length]; omega
  rw [decode, hL, decodeLoop_skip _ _ _ _ 0
    (by simp only [List.length_append, encode_length, sizeofTLVHeader]; omega)
    (fun i _ h => hP i (by omega))]
  have hS : P ++ encode F = P ++ (encode F ++ []) := by simp
  rw [Nat.zero_add, hS, decodeLoop_frame _ P [] F hF, decodeLoop]
  rw [if_neg (by simp only [List.length_append, encode_length, sizeofTLVHeader,
    List.length_nil]; omega)]
  simp

/-- C1. Framing round-trip: for every message F with one of the five recognised type
codes and a header length equal to its payload length, decoding `encode F` gives
exactly `[F]` and `parsedBytes` is the length of `encode F`, which is 6 plus the
payload length. -/
theorem decode_encode_roundtrip (F : TLVMessage)
    (htype : F.header.type = 0x0001 ∨ F.header.type = 0x0002 ∨ F.header.type = 0x1001
      ∨ F.header.type = 0x1002 ∨ F.header.type = 0x9001)
    (hlen : F.header.length = F.data.length) (h32 : F.header.length < 2 ^ 32) :
    decode (encode F) = some ([F], (encode F).length)
      ∧ (encode F).length = 6 + F.data.length := by
  have hF : WellFormed F := ⟨(isValidMessageType_iff _).2 htype, hlen, by omega⟩
  have h := decode_prefix_frame [] F hF (by simp)
  simp only [List.nil_append, List.length_nil, Nat.zero_add] at h
  exact ⟨h, encode_length F⟩

theorem decode_encode_roundtrip_witness :
    (TLVMessage.ofJson SEARCH_RESPONSE [0x7B, 0x7D]).header.type = 0x1002
      ∧ (TLVMessage.ofJson SEARCH_RESPONSE [0x7B, 0x7D]).header.length
          = (TLVMessage.ofJson SEARCH_RESPONSE [0x7B, 0x7D]).data.length
      ∧ (TLVMessage.ofJson SEARCH_RESPONSE [0x7B, 0x7D]).header.length < 2 ^ 32
      ∧ decode (encode (TLVMessage.ofJson SEARCH_RESPONSE [0x7B, 0x7D]))
          = some ([TLVMessage.ofJson SEARCH_RESPONSE [0x7B, 0x7D]],
              (encode (TLVMessage.ofJson SEARCH_RESPONSE [0x7B, 0x7D])).length)
      ∧ (encode (TLVMessage.ofJson SEARCH_RESPONSE [0x7B, 0x7D])).length = 6 + 2 :=
  ⟨by decide, by decide, by decide,
    decode_encode_roundtrip (TLVMessage.ofJson SEARCH_RESPONSE [0x7B, 0x7D])
      (by decide) (by decide) (by decide)⟩

/-- C8 as stated fails: the two bytes `00 01` are no valid frame, yet in front of the
encoded empty recommend request they read as a header of type 0x0001 with length
0x00010000, the decoder waits for more data and returns no message at all. -/
theorem decode_resync_counterexample :
    ¬ IsValidFrame [0x00, 0x01]
      ∧ WellFormed (TLVMessage.ofJson KEYWORD_RECOMMEND_REQUEST [])
      ∧ decode ([0x00, 0x01] ++ encode (TLVMessage.ofJson KEYWORD_RECOMMEND_REQUEST []))
          = some ([], 0)
      ∧ ¬ (∀ (P : List Nat) (F : TLVMessage), ¬ IsValidFrame P → WellFormed F →
            ∃ messages parsedBytes, decode (P ++ encode F) = some (messages, parsedBytes)
              ∧ F ∈ messages) := by
  have h1 : ¬ IsValidFrame [0x00, 0x01] := by
    rintro ⟨G, _, hG⟩
    have := congrArg List.length hG
    rw [encode_length] at this
    simp at this
    omega
  have h2 : WellFormed (TLVMessage.ofJson KEYWORD_RECOMMEND_REQUEST []) := by decide
  have h3 : decode ([0x00, 0x01] ++ encode (TLVMessage.ofJson KEYWORD_RECOMMEND_REQUEST []))
      = some ([], 0) := by decide
  refine ⟨h1, h2, h3, ?_⟩
  intro h
  obtain ⟨messages, parsedBytes, hd, hmem⟩ := h _ _ h1 h2
  rw [h3] at hd
  cases hd
  simp at hmem

/-- C8, amended. For every byte sequence P such that no offset inside P holds a
recognised type code (read from `P ++ encode F`) and every well-formed frame F, the
messages returned by decoding `P ++ encode F` contain F. -/
theorem decode_resync_contains (P : List Nat) (F : TLVMessage) (hF : WellFormed F)
    (hP : ∀ i, i < P.length → isValidMessageType (ntohs (P ++ encode F) i) = false) :
    ∃ messages parsedBytes, decode (P ++ encode F) = some (messages, parsedBytes)
      ∧ F ∈ messages :=
  ⟨[F], _, decode_prefix_frame P F hF hP, by simp⟩

theorem decode_resync_contains_witness :
    WellFormed (TLVMessage.ofJson ERROR_RESPONSE [0x7B, 0x7D])
      ∧ (∀ i, i < [0xAB, 0xCD, 0xEF].length →
          isValidMessageType
            (ntohs ([0xAB, 0xCD, 0xEF] ++ encode (TLVMessage.ofJson ERROR_RESPONSE [0x7B, 0x7D]))
              i) = false)
      ∧ ∃ messages parsedBytes,
          decode ([0xAB, 0xCD, 0xEF] ++ encode (TLVMessage.ofJson ERROR_RESPONSE [0x7B, 0x7D]))
            = some (messages, parsedBytes)
          ∧ TLVMessage.ofJson ERROR_RESPONSE [0x7B, 0x7D] ∈ messages :=
  ⟨by decide, by decide,
    decode_resync_contains [0xAB, 0xCD, 0xEF] (TLVMessage.ofJson ERROR_RESPONSE [0x7B, 0x7D])
      (by decide) (by decide)⟩

/-- C9. For every well-formed frame F, decoding the byte 0xFF followed by `encode F`
returns exactly `[F]` with `parsedBytes = 1 + len(encode F)`; for the frame of type
0x0001 with payload `{}` that is one frame and 9 consumed bytes. -/
theorem decode_ff_then_frame (F : TLVMessage) (hF : WellFormed F) :
    decode (0xFF :: encode F) = some ([F], 1 + (encode F).length)
      ∧ decode (0xFF :: encode (TLVMessage.ofJson KEYWORD_RECOMMEND_REQUEST [0x7B, 0x7D]))
          = some ([TLVMessage.ofJson KEYWORD_RECOMMEND_REQUEST [0x7B, 0x7D]], 1 + 6 + 2) := by
  constructor
  · have hP : ∀ i, i < [0xFF].length →
        isValidMessageType (ntohs ([0xFF] ++ encode F) i) = false := by
      intro i hi
      have hi0 : i = 0 := by simpa using hi
      subst hi0
      have ht := (isValidMessageType_iff _).1 hF.1
      cases F with
      | mk hd dt =>
        cases hd with
        | mk t l =>
          simp only at ht
          simp only [encode, htons, List.cons_append, List.nil_append, ntohs,
            List.getD_cons_zero, List.getD_cons_succ]
          rcases ht with h | h | h | h | h <;> subst h <;> decide
    have h := decode_prefix_frame [0xFF] F hF hP
    rw [List.length_singleton] at h
    exact h
  · decide

theorem decode_ff_then_frame_witness :
    WellFormed (TLVMessage.ofJson SEARCH_REQUEST [0x5B, 0x5D])
      ∧ decode (0xFF :: encode (TLVMessage.ofJson SEARCH_REQUEST [0x5B, 0x5D]))
          = some ([TLVMessage.ofJson SEARCH_REQUEST [0x5B, 0x5D]],
              1 + (encode (TLVMessage.ofJson SEARCH_REQUEST [0x5B, 0x5D])).length)
      ∧ decode (0xFF :: encode (TLVMessage.ofJson KEYWORD_RECOMMEND_REQUEST [0x7B, 0x7D]))
          = some ([TLVMessage.ofJson KEYWORD_RECOMMEND_REQUEST [0x7B, 0x7D]], 1 + 6 + 2) :=
  ⟨by decide, decode_ff_then_frame (TLVMessage.ofJson SEARCH_REQUEST [0x5B, 0x5D]) (by decide)⟩

/-- C10. For every message (type a `uint16_t`, length a `uint32_t`), `encode` outputs
exactly 6 + |data| bytes: bytes 0-1 are the type most significant byte first, bytes
2-5 the header length most significant byte first, the rest is the payload unchanged;
a recommend request with a payload shorter than 256 bytes starts with
`00 01 00 00 00 len`. -/
theorem encode_layout (m : TLVMessage) (ht : m.header.type < 2 ^ 16)
    (hl : m.header.length < 2 ^ 32) :
    (encode m).length = 6 + m.data.length
      ∧ (∃ b0 b1 b2 b3 b4 b5 : Nat,
          encode m = b0 :: b1 :: b2 :: b3 :: b4 :: b5 :: m.data
            ∧ b0 < 256 ∧ b1 < 256 ∧ b2 < 256 ∧ b3 < 256 ∧ b4 < 256 ∧ b5 < 256
            ∧ b0 * 2 ^ 8 + b1 = m.header.type
            ∧ b2 * 2 ^ 24 + b3 * 2 ^ 16 + b4 * 2 ^ 8 + b5 = m.header.length)
      ∧ (∀ payload : List Nat, payload.length < 256 →
          encode (TLVMessage.ofJson KEYWORD_RECOMMEND_REQUEST payload)
            = [0x00, 0x01, 0x00, 0x00, 0x00, payload.length] ++ payload) := by
  refine ⟨encode_length m, ?_, ?_⟩
  · refine ⟨_, _, _, _, _, _, rfl, ?_, ?_, ?_, ?_, ?_, ?_, ?_, ?_⟩ <;> omega
  · intro payload hp
    simp only [encode, TLVMessage.ofJson, htons, htonl, KEYWORD_RECOMMEND_REQUEST,
      List.cons_append, List.nil_append]
    have h0 : payload.length % 2 ^ 32 = payload.length := Nat.mod_eq_of_lt (by omega)
    have h1 : payload.length / 2 ^ 24 % 256 = 0 := by omega
    have h2 : payload.length / 2 ^ 16 % 256 = 0 := by omega
    have h3 : payload.length / 2 ^ 8 % 256 = 0 := by omega
    have h4 : payload.length % 256 = payload.length := by omega
    rw [h0, h1, h2, h3, h4]
    rfl

theorem encode_layout_witness :
    (TLVMessage.ofJson SEARCH_REQUEST [0x7B, 0x7D]).header.type < 2 ^ 16
      ∧ (TLVMessage.ofJson SEARCH_REQUEST [0x7B, 0x7D]).header.length < 2 ^ 32
      ∧ (encode (TLVMessage.ofJson SEARCH_REQUEST [0x7B, 0x7D])).length = 6 + 2
      ∧ (∃ b0 b1 b2 b3 b4 b5 : Nat,
          encode (TLVMessage.ofJson SEARCH_REQUEST [0x7B, 0x7D])
              = b0 :: b1 :: b2 :: b3 :: b4 :: b5 :: [0x7B, 0x7D]
            ∧ b0 < 256 ∧ b1 < 256 ∧ b2 < 256 ∧ b3 < 256 ∧ b4 < 256 ∧ b5 < 256
            ∧ b0 * 2 ^ 8 + b1 = 2
            ∧ b2 * 2 ^ 24 + b3 * 2 ^ 16 + b4 * 2 ^ 8 + b5 = 2)
      ∧ (∀ payload : List Nat, payload.length < 256 →
          encode (TLVMessage.ofJson KEYWORD_RECOMMEND_REQUEST payload)
            = [0x00, 0x01, 0x00, 0x00, 0x00, payload.length] ++ payload) :=
  ⟨by decide, by decide,
    encode_layout (TLVMessage.ofJson SEARCH_REQUEST [0x7B, 0x7D]) (by decide) (by decide)⟩

/-! ## Edit distance: theory of the recursive distance -/

theorem lev_nil_left {α : Type} [DecidableEq α] (ys : List α) : lev [] ys = ys.length := rfl

theorem lev_nil_right {α : Type} [DecidableEq α] (xs : List α) : lev xs [] = xs.length := by
  induction xs with
  | nil => rfl
  | cons x xs ih => simp [lev, levAux, ih]

theorem lev_cons_cons {α : Type} [DecidableEq α] (x y : α) (xs ys : List α) :
    lev (x :: xs) (y :: ys)
      = min (lev (x :: xs) ys + 1)
          (min (lev xs (y :: ys) + 1) (lev xs ys + if x = y then 0 else 1)) := rfl

theorem lev_cons_cons_le_insert {α : Type} [DecidableEq α] (x y : α) (xs ys : List α) :
    lev (x :: xs) (y :: ys) ≤ lev (x :: xs) ys + 1 := by
  rw [lev_cons_cons]; exact Nat.min_le_left _ _

theorem lev_cons_cons_le_delete {α : Type} [DecidableEq α] (x y : α) (xs ys : List α) :
    lev (x :: xs) (y :: ys) ≤ lev xs (y :: ys) + 1 := by
  rw [lev_cons_cons]; omega

theorem lev_cons_cons_le_replace {α : Type} [DecidableEq α] (x y : α) (xs ys : List α) :
    lev (x :: xs) (y :: ys) ≤ lev xs ys + (if x = y then 0 else 1) := by
  rw [lev_cons_cons]; omega

theorem lev_cons_left_le {α : Type} [DecidableEq α] (x : α) (xs ys : List α) :
    lev (x :: xs) ys ≤ lev xs ys + 1 := by
  cases ys with
  | nil => simp [lev_nil_right]
  | cons y ys => exact lev_cons_cons_le_delete x y xs ys

theorem lev_cons_right_le {α : Type} [DecidableEq α] (y : α) (xs ys : List α) :
    lev xs (y :: ys) ≤ lev xs ys + 1 := by
  cases xs with
  | nil => simp [lev_nil_left]
  | cons x xs => exact lev_cons_cons_le_insert x y xs ys

theorem lev_le_cons_left {α : Type} [DecidableEq α] (c : α) (r : List α) :
    ∀ b : List α, lev r b ≤ lev (c :: r) b + 1 := by
  intro b
  induction b with
  | nil => simp only [lev_nil_right, List.length_cons]; omega
  | cons y b ih =>
    have h1 := lev_cons_right_le y r b
    rw [lev_cons_cons]
    omega

theorem lev_subst_left {α : Type} [DecidableEq α] (c d : α) (r : List α) :
    ∀ b : List α, lev (c :: r) b ≤ lev (d :: r) b + 1 := by
  intro b
  induction b with
  | nil => simp only [lev_nil_right, List.length_cons]; omega
  | cons y b ih =>
    have h1 := lev_cons_cons_le_insert c y r b
    have h2 := lev_cons_cons_le_delete c y r b
    have h3 := lev_cons_cons_le_replace c y r b
    have h4 : (if c = y then 0 else 1) ≤ 1 := by split <;> omega
    rw [lev_cons_cons d y]
    generalize (if c = y then 0 else 1) = e1 at h3 h4
    generalize (if d = y then 0 else 1) = e2
    omega

theorem lev_cons_congr {α : Type} [DecidableEq α] (x : α) (a a' : List α)
    (h : ∀ b, lev a b ≤ lev a' b + 1) :
    ∀ b : List α, lev (x :: a) b ≤ lev (x :: a') b + 1 := by
  intro b
  induction b with
  | nil =>
    have := h []
    simp only [lev_nil_right] at this
    simp only [lev_nil_right, List.length_cons]
    omega
  | cons y b ih =>
    have h1 := lev_cons_cons_le_insert x y a b
    have h2 := lev_cons_cons_le_delete x y a b
    have h3 := lev_cons_cons_le_replace x y a b
    have h4 := h (y :: b)
    have h5 := h b
    rw [lev_cons_cons x y a']
    generalize (if x = y then 0 else 1) = e at h3
    omega

/-- One edit of the first argument changes the edit distance by at most one. -/
theorem lev_step_le {α : Type} [DecidableEq α] {a a' : List α} (h : EditStep a a') :
    ∀ b : List α, lev a b ≤ lev a' b + 1 := by
  cases h with
  | insert l r c =>
    induction l with
    | nil => exact lev_le_cons_left c r
    | cons x l ih => exact lev_cons_congr x _ _ ih
  | delete l r c =>
    induction l with
    | nil => exact fun b => lev_cons_left_le c r b
    | cons x l ih => exact lev_cons_congr x _ _ ih
  | substitute l r c d hcd =>
    induction l with
    | nil => exact lev_subst_left c d r
    | cons x l ih => exact lev_cons_congr x _ _ ih

theorem lev_self {α : Type} [DecidableEq α] (a : List α) : lev a a = 0 := by
  induction a with
  | nil => rfl
  | cons x a ih =>
    have := lev_cons_cons_le_replace x x a a
    simp only [if_true] at this
    omega

/-- No sequence of edits is shorter than the recursive edit distance. -/
theorem lev_le_of_path {α : Type} [DecidableEq α] {n : Nat} {a b : List α} (h : EditPath n a b) :
    lev a b ≤ n := by
  induction h with
  | done a => simp [lev_self]
  | @step k a b' c' hs _ ih =>
    have := lev_step_le hs c'
    omega

theorem editStep_cons {α : Type} (x : α) {a b : List α} (h : EditStep a b) :
    EditStep (x :: a) (x :: b) := by
  cases h with
  | insert l r c => exact EditStep.insert (x :: l) r c
  | delete l r c => exact EditStep.delete (x :: l) r c
  | substitute l r c d hcd => exact EditStep.substitute (x :: l) r c d hcd

theorem editPath_cons {α : Type} (x : α) {n : Nat} {a b : List α} (h : EditPath n a b) :
    EditPath n (x :: a) (x :: b) := by
  induction h with
  | done a => exact EditPath.done _
  | step hs _ ih => exact EditPath.step (editStep_cons x hs) ih

theorem editPath_trans {α : Type} {n m : Nat} {a b c : List α} (h1 : EditPath n a b)
    (h2 : EditPath m b c) : EditPath (n + m) a c := by
  induction h1 with
  | done a => simpa using h2
  | @step k a b' c' hs _ ih =>
    have := EditPath.step hs (ih h2)
    have e : k + 1 + m = k + m + 1 := by omega
    rw [e]
    exact this

theorem editPath_insert_all {α : Type} (ys : List α) : EditPath ys.length [] ys := by
  induction ys with
  | nil => exact EditPath.done _
  | cons y ys ih => exact EditPath.step (EditStep.insert [] [] y) (editPath_cons y ih)

theorem editPath_delete_all {α : Type} (xs : List α) : EditPath xs.length xs [] := by
  induction xs with
  | nil => exact EditPath.done _
  | cons x xs ih => exact EditPath.step (EditStep.delete [] xs x) ih

/-- The recursive edit distance is reached by a sequence of edits. -/
theorem lev_path {α : Type} [DecidableEq α] (a : List α) :
    ∀ b : List α, EditPath (lev a b) a b := by
  induction a with
  | nil => intro b; exact editPath_insert_all b
  | cons x a iha =>
    intro b
    induction b with
    | nil => rw [lev_nil_right]; exact editPath_delete_all _
    | cons y b ihb =>
      rw [lev_cons_cons]
      rcases Nat.le_total (lev (x :: a) b + 1)
        (min (lev a (y :: b) + 1) (lev a b + if x = y then 0 else 1)) with h | h
      · rw [Nat.min_eq_left h]
        exact EditPath.step (EditStep.insert [] (x :: a) y) (editPath_cons y ihb)
      · rw [Nat.min_eq_right h]
        rcases Nat.le_total (lev a (y :: b) + 1) (lev a b + if x = y then 0 else 1) with h' | h'
        · rw [Nat.min_eq_left h']
          exact EditPath.step (EditStep.delete [] a x) (iha (y :: b))
        · rw [Nat.min_eq_right h']
          by_cases hxy : x = y
          · subst hxy
            simp only [if_true, Nat.add_zero]
            exact editPath_cons x (iha b)
          · simp only [hxy, if_false]
            exact EditPath.step (EditStep.substitute [] a x y hxy) (editPath_cons y (iha b))

/-- The recursive edit distance is the minimum number of edits. -/
theorem lev_isMinEdit {α : Type} [DecidableEq α] (a b : List α) : IsMinEdit a b (lev a b) :=
  ⟨lev_path a b, fun _ h => lev_le_of_path h⟩

theorem isMinEdit_unique {α : Type} {a b : List α} {d d' : Nat} (h : IsMinEdit a b d)
    (h' : IsMinEdit a b d') : d = d' :=
  Nat.le_antisymm (h.2 _ h'.1) (h'.2 _ h.1)

theorem editStep_symm {α : Type} {a b : List α} (h : EditStep a b) : EditStep b a := by
  cases h with
  | insert l r c => exact EditStep.delete l r c
  | delete l r c => exact EditStep.insert l r c
  | substitute l r c d hcd => exact EditStep.substitute l r d c (Ne.symm hcd)

theorem editPath_symm {α : Type} {n : Nat} {a b : List α} (h : EditPath n a b) :
    EditPath n b a := by
  induction h with
  | done a => exact EditPath.done _
  | @step k a b' c' hs _ ih =>
    have := editPath_trans ih (EditPath.step (editStep_symm hs) (EditPath.done _))
    simpa using this

theorem editStep_reverse {α : Type} {a b : List α} (h : EditStep a b) :
    EditStep a.reverse b.reverse := by
  cases h with
  | insert l r c =>
    simp only [List.reverse_append, List.reverse_cons, List.append_assoc, List.singleton_append]
    exact EditStep.insert r.reverse l.reverse c
  | delete l r c =>
    simp only [List.reverse_append, List.reverse_cons, List.append_assoc, List.singleton_append]
    exact EditStep.delete r.reverse l.reverse c
  | substitute l r c d hcd =>
    simp only [List.reverse_append, List.reverse_cons, List.append_assoc, List.singleton_append]
    exact EditStep.substitute r.reverse l.reverse c d hcd

theorem editPath_reverse {α : Type} {n : Nat} {a b : List α} (h : EditPath n a b) :
    EditPath n a.reverse b.reverse := by
  induction h with
  | done a => exact EditPath.done _
  | step hs _ ih => exact EditPath.step (editStep_reverse hs) ih

theorem lev_symm {α : Type} [DecidableEq α] (a b : List α) : lev a b = lev b a :=
  Nat.le_antisymm (lev_le_of_path (editPath_symm (lev_path b a)))
    (lev_le_of_path (editPath_symm (lev_path a b)))

theorem lev_reverse {α : Type} [DecidableEq α] (a b : List α) :
    lev a.reverse b.reverse = lev a b := by
  apply Nat.le_antisymm
  · exact lev_le_of_path (editPath_reverse (lev_path a b))
  · have := lev_le_of_path (editPath_reverse (lev_path a.reverse b.reverse))
    simpa using this

theorem lev_triangle {α : Type} [DecidableEq α] (a b c : List α) : lev a c ≤ lev a b + lev b c :=
  lev_le_of_path (editPath_trans (lev_path a b) (lev_path b c))

/-! ### The dynamic program computes the recursive edit distance -/

/-- Loop invariant rule for `forLoop`. -/
theorem forLoop_invariant {σ : Type} (body : σ → Nat → σ) (P : Nat → σ → Prop) :
    ∀ (count lo : Nat) (s : σ), P lo s →
      (∀ i s, lo ≤ i → i < lo + count → P i s → P (i + 1) (body s i)) →
      P (lo + count) (forLoop body lo count s) := by
  intro count
  induction count with
  | zero => intro lo s h _; exact h
  | succ count ih =>
    intro lo s h hstep
    have h1 := ih (lo + 1) (body s lo) (hstep lo s (Nat.le_refl _) (by omega) h)
      (fun i s hi hlt hp => hstep i s (by omega) (by omega) hp)
    have e : lo + 1 + count = lo + (count + 1) := by omega
    rw [e] at h1
    exact h1

theorem prefixLev_zero_left (A B : List (List Nat)) (j : Nat) (hj : j ≤ B.length) :
    prefixLev A B 0 j = j := by
  simp [prefixLev, lev_nil_left, hj]

theorem prefixLev_zero_right (A B : List (List Nat)) (i : Nat) (hi : i ≤ A.length) :
    prefixLev A B i 0 = i := by
  simp [prefixLev, lev_nil_right, hi]

theorem take_succ_reverse (A : List (List Nat)) (i : Nat) (hi : i < A.length) :
    (A.take (i + 1)).reverse = A.getD i [] :: (A.take i).reverse := by
  rw [List.take_succ, List.getD_eq_getElem?_getD, List.getElem?_eq_getElem hi]
  simp

theorem prefixLev_succ_succ (A B : List (List Nat)) (i j : Nat) (hi : i < A.length)
    (hj : j < B.length) :
    prefixLev A B (i + 1) (j + 1)
      = min (prefixLev A B (i + 1) j + 1)
          (min (prefixLev A B i (j + 1) + 1)
            (prefixLev A B i j + (if A.getD i [] != B.getD j [] then 1 else 0))) := by
  simp only [prefixLev, take_succ_reverse A i hi, take_succ_reverse B j hj, lev_cons_cons]
  by_cases h : A.getD i [] = B.getD j [] <;> simp [h]

/-- Every cell of the final table holds the distance of the two prefixes. -/
theorem editDistanceTable_eq (A B : List (List Nat)) :
    ∀ a b, a ≤ A.length → b ≤ B.length → editDistanceTable A B a b = prefixLev A B a b := by
  have h1 := forLoop_invariant (fun (dp : DPTable) i => dp.set i 0 i)
    (fun k dp => ∀ a, a < k → dp a 0 = a) (A.length + 1) 0 (fun _ _ => 0)
    (by intro a ha; omega)
    (by
      intro i dp _ _ hP a ha
      by_cases hai : a = i
      · simp [DPTable.set, hai]
      · simp only [DPTable.set, hai, false_and, if_false]
        exact hP a (by omega))
  have h2 := forLoop_invariant (fun (dp : DPTable) j => dp.set 0 j j)
    (fun k dp => (∀ a, a < 0 + (A.length + 1) → dp a 0 = a) ∧ ∀ b, b < k → dp 0 b = b)
    (B.length + 1) 0 _ ⟨h1, by intro b hb; omega⟩
    (by
      intro j dp _ _ hP
      refine ⟨fun a ha => ?_, fun b hb => ?_⟩
      · by_cases h0 : a = 0 ∧ 0 = j
        · simp only [DPTable.set, h0, and_self, if_true]
        · simp only [DPTable.set, h0, if_false]
          exact hP.1 a ha
      · by_cases hbj : b = j
        · simp [DPTable.set, hbj]
        · simp only [DPTable.set, hbj, and_false, if_false]
          exact hP.2 b (by omega))
  have h3 := forLoop_invariant
    (fun (dp : DPTable) i => forLoop (fillCell A B i) 1 B.length dp)
    (fun i dp => ∀ a b, a ≤ A.length → b ≤ B.length → (a = 0 ∨ b = 0 ∨ a < i) →
      dp a b = prefixLev A B a b)
    A.length 1 _
    (by
      intro a b ha hb hab
      rcases hab with h | h | h
      · subst h; rw [prefixLev_zero_left A B b hb]; exact h2.2 b (by omega)
      · subst h; rw [prefixLev_zero_right A B a ha]; exact h2.1 a (by omega)
      · have h0 : a = 0 := by omega
        subst h0; rw [prefixLev_zero_left A B b hb]; exact h2.2 b (by omega))
    (by
      intro i dp hi1 hi2 hQ
      have hrow := forLoop_invariant (fillCell A B i)
        (fun j dp => ∀ a b, a ≤ A.length → b ≤ B.length →
          (a = 0 ∨ b = 0 ∨ a < i ∨ (a = i ∧ b < j)) → dp a b = prefixLev A B a b)
        B.length 1 dp
        (by
          intro a b ha hb hab
          exact hQ a b ha hb (by omega))
        (by
          intro j dp hj1 hj2 hR a b ha hb hab
          by_cases hcell : a = i ∧ b = j
          · obtain ⟨rfl, rfl⟩ := hcell
            obtain ⟨i', rfl⟩ : ∃ i', a = i' + 1 := ⟨a - 1, by omega⟩
            obtain ⟨j', rfl⟩ : ∃ j', b = j' + 1 := ⟨b - 1, by omega⟩
            simp only [fillCell, DPTable.set, and_self, if_true, Nat.add_sub_cancel]
            rw [hR (i' + 1) j' (by omega) (by omega) (by omega),
              hR i' (j' + 1) (by omega) (by omega) (by omega),
              hR i' j' (by omega) (by omega) (by omega),
              prefixLev_succ_succ A B i' j' (by omega) (by omega)]
          · simp only [fillCell, DPTable.set, hcell, if_false]
            exact hR a b ha hb (by omega))
      intro a b ha hb hab
      exact hrow a b ha hb (by omega))
  intro a b ha hb
  exact h3 a b ha hb (by omega)

/-- The dynamic program returns the recursive edit distance of the character arrays. -/
theorem editDistanceDP_eq_lev (A B : List (List Nat)) : editDistanceDP A B = lev A B := by
  rw [editDistanceDP, editDistanceTable_eq A B _ _ (Nat.le_refl _) (Nat.le_refl _), prefixLev,
    List.take_length, List.take_length, lev_reverse]

/-! ## `utf8Split`: the fuel is enough -/

theorem utf8Checked_rest (cp length : Nat) (rest : List Nat) (cp' : Nat) (rest' : List Nat)
    (h : utf8Checked cp length rest = some (cp', rest')) : rest' = rest := by
  unfold utf8Checked at h
  split at h
  · simp only [Option.some.injEq, Prod.mk.injEq] at h
    exact h.2.symm
  · simp at h

/-- A successful `utf8::next` advances by at least one byte. -/
theorem utf8Next_length (input : List Nat) (cp : Nat) (rest : List Nat)
    (h : utf8Next input = some (cp, rest)) : rest.length < input.length := by
  unfold utf8Next at h
  split at h
  · simp at h
  · split at h
    · rw [utf8Checked_rest _ _ _ _ _ h]; simp
    · split at h
      · split at h
        · rw [utf8Checked_rest _ _ _ _ _ h]; simp; omega
        · simp at h
      · simp at h
    · split at h
      · split at h
        · rw [utf8Checked_rest _ _ _ _ _ h]; simp; omega
        · simp at h
      · simp at h
    · split at h
      · split at h
        · rw [utf8Checked_rest _ _ _ _ _ h]; simp; omega
        · simp at h
      · simp at h
    · simp at h

/-- The result of the loop of `utf8Split` does not depend on the fuel once the fuel
exceeds the number of bytes: `none` is always an exception of `utf8::next`. -/
theorem utf8SplitLoop_fuel :
    ∀ (fuel1 fuel2 : Nat) (input : List Nat) (result : List (List Nat)),
      input.length < fuel1 → input.length < fuel2 →
      utf8SplitLoop fuel1 input result = utf8SplitLoop fuel2 input result := by
  intro fuel1
  induction fuel1 with
  | zero => intro fuel2 input result h; omega
  | succ fuel1 ih =>
    intro fuel2 input result h1 h2
    cases fuel2 with
    | zero => omega
    | succ fuel2 =>
      unfold utf8SplitLoop
      by_cases he : input = []
      · simp [he]
      · simp only [he, if_false]
        cases hn : utf8Next input with
        | none => rfl
        | some p =>
          obtain ⟨cp, rest⟩ := p
          have := utf8Next_length input cp rest hn
          simp only
          exact ih fuel2 rest _ (by omega) (by omega)

/-! ## LRU cache: what `get` and `put` keep -/

theorem lruCache_find_mem {κ ν : Type} [DecidableEq κ] (c : LRUCache κ ν) (key : κ)
    (node : κ × ν) (h : c.find key = some node) : node ∈ c.cacheList_ ∧ node.1 = key := by
  unfold LRUCache.find at h
  exact ⟨List.mem_of_find?_eq_some h, by simpa using List.find?_some h⟩

theorem lruCache_find_none {κ ν : Type} [DecidableEq κ] (c : LRUCache κ ν) (key : κ)
    (h : c.find key = none) : ∀ e ∈ c.cacheList_, e.1 ≠ key := by
  unfold LRUCache.find at h
  intro e he
  have := List.find?_eq_none.1 h e he
  simpa using this

/-- A hit of `get` returns a stored value and keeps capacity and entries. -/
theorem lruCache_get_hit {κ ν : Type} [DecidableEq κ] (c c' : LRUCache κ ν) (key : κ) (v : ν)
    (h : c.get key = (some v, c')) :
    (key, v) ∈ c.cacheList_ ∧ c'.capacity_ = c.capacity_
      ∧ ∀ e ∈ c'.cacheList_, e ∈ c.cacheList_ := by
  unfold LRUCache.get at h
  cases hf : c.find key with
  | none => rw [hf] at h; simp at h
  | some node =>
    rw [hf] at h
    simp only [Prod.mk.injEq, Option.some.injEq] at h
    obtain ⟨hv, hc⟩ := h
    obtain ⟨hmem, hkey⟩ := lruCache_find_mem c key node hf
    subst hc
    refine ⟨?_, rfl, ?_⟩
    · have : node = (key, v) := by
        cases node
        simp only at hkey hv
        simp [hkey, hv]
      rw [← this]; exact hmem
    · intro e he
      simp only [List.mem_cons] at he
      rcases he with he | he
      · rw [he]; exact hmem
      · exact List.mem_of_mem_eraseP he

/-- A miss of `get` changes the miss counter only. -/
theorem lruCache_get_miss {κ ν : Type} [DecidableEq κ] (c c' : LRUCache κ ν) (key : κ)
    (h : c.get key = (none, c')) :
    c'.capacity_ = c.capacity_ ∧ c'.cacheList_ = c.cacheList_
      ∧ ∀ e ∈ c.cacheList_, e.1 ≠ key := by
  unfold LRUCache.get at h
  cases hf : c.find key with
  | none =>
    rw [hf] at h
    simp only [Prod.mk.injEq, true_and] at h
    subst h
    exact ⟨rfl, rfl, lruCache_find_none c key hf⟩
  | some node => rw [hf] at h; simp at h

/-- With a positive capacity `put` is defined, keeps the capacity and stores only the
new entry beside old ones. -/
theorem lruCache_put_ok {κ ν : Type} [DecidableEq κ] (c : LRUCache κ ν) (key : κ) (value : ν)
    (hcap : 0 < c.capacity_) :
    ∃ c', c.put key value = some c' ∧ c'.capacity_ = c.capacity_
      ∧ ∀ e ∈ c'.cacheList_, e = (key, value) ∨ e ∈ c.cacheList_ := by
  unfold LRUCache.put
  cases hf : c.find key with
  | some node =>
    refine ⟨_, rfl, rfl, ?_⟩
    intro e he
    simp only [List.mem_cons] at he
    rcases he with he | he
    · exact Or.inl he
    · exact Or.inr (List.mem_of_mem_eraseP he)
  | none =>
    simp only
    by_cases hfull : c.cacheList_.length ≥ c.capacity_
    · rw [if_pos hfull]
      have hne : c.cacheList_.isEmpty = false := by
        cases hl : c.cacheList_ with
        | nil => rw [hl] at hfull; simp at hfull; omega
        | cons a l => rfl
      rw [hne]
      refine ⟨_, rfl, rfl, ?_⟩
      intro e he
      simp only [List.mem_cons] at he
      rcases he with he | he
      · exact Or.inl he
      · exact Or.inr (List.dropLast_subset _ he)
    · rw [if_neg hfull]
      refine ⟨_, rfl, rfl, ?_⟩
      intro e he
      simp only [List.mem_cons] at he
      exact he

/-! ## `calculateEditDistance` -/

theorem editDistance_eq (word1 word2 : List Nat) (chars1 chars2 : List (List Nat))
    (h1 : utf8Split word1 = some chars1) (h2 : utf8Split word2 = some chars2) :
    editDistance word1 word2 = some (lev chars1 chars2) := by
  simp [editDistance, h1, h2, editDistanceDP_eq_lev]

theorem editDistance_some (word1 word2 : List Nat) (d : Nat)
    (h : editDistance word1 word2 = some d) :
    ∃ chars1 chars2, utf8Split word1 = some chars1 ∧ utf8Split word2 = some chars2
      ∧ d = lev chars1 chars2 := by
  unfold editDistance at h
  cases h1 : utf8Split word1 with
  | none => rw [h1] at h; simp at h
  | some chars1 =>
    cases h2 : utf8Split word2 with
    | none => rw [h1, h2] at h; simp at h
    | some chars2 =>
      rw [h1, h2] at h
      simp only [Option.some.injEq] at h
      exact ⟨chars1, chars2, rfl, rfl, by rw [← h, editDistanceDP_eq_lev]⟩

theorem editDistance_comm (word1 word2 : List Nat) :
    editDistance word1 word2 = editDistance word2 word1 := by
  unfold editDistance
  cases h1 : utf8Split word1 <;> cases h2 : utf8Split word2 <;> simp
  rw [editDistanceDP_eq_lev, editDistanceDP_eq_lev, lev_symm]

theorem EditCacheOK_new (capacity : Nat) (h : 0 < capacity) :
    EditCacheOK (LRUCache.new capacity) :=
  ⟨h, by intro e he; simp [LRUCache.new] at he⟩

/-- On a cache whose entries are right, `calculateEditDistance` returns what the
dynamic program computes (also on a hit under the reversed key), throws exactly when
`utf8Split` throws, and leaves a cache whose entries are right. -/
theorem calculateEditDistance_spec (cache : LRUCache EditDistanceCacheKey Int)
    (hc : EditCacheOK cache) (word1 word2 : List Nat) :
    (editDistance word1 word2 = none ∧ calculateEditDistance cache word1 word2 = none)
      ∨ ∃ (d : Nat) (cache' : LRUCache EditDistanceCacheKey Int),
          editDistance word1 word2 = some d
            ∧ calculateEditDistance cache word1 word2 = some ((d : Int), cache')
            ∧ EditCacheOK cache' := by
  obtain ⟨hcap, hent⟩ := hc
  unfold calculateEditDistance
  rcases hg1 : cache.get (word1, word2) with ⟨o1, c1⟩
  cases o1 with
  | some v =>
    obtain ⟨hmem, hcap1, hsub⟩ := lruCache_get_hit cache c1 _ v hg1
    obtain ⟨d, hd, hv⟩ := hent _ hmem
    simp only at hd hv
    refine Or.inr ⟨d, c1, hd, by simp [hv], by rw [hcap1]; exact hcap, ?_⟩
    intro e he
    exact hent e (hsub e he)
  | none =>
    obtain ⟨hcap1, hlist1, _⟩ := lruCache_get_miss cache c1 _ hg1
    simp only
    rcases hg2 : c1.get (word2, word1) with ⟨o2, c2⟩
    cases o2 with
    | some v =>
      obtain ⟨hmem, hcap2, hsub⟩ := lruCache_get_hit c1 c2 _ v hg2
      rw [hlist1] at hmem
      obtain ⟨d, hd, hv⟩ := hent _ hmem
      simp only at hd hv
      rw [editDistance_comm] at hd
      refine Or.inr ⟨d, c2, hd, by simp [hv], by rw [hcap2, hcap1]; exact hcap, ?_⟩
      intro e he
      exact hent e (by rw [← hlist1]; exact hsub e he)
    | none =>
      obtain ⟨hcap2, hlist2, _⟩ := lruCache_get_miss c1 c2 _ hg2
      simp only
      cases h1 : utf8Split word1 with
      | none => exact Or.inl ⟨by simp [editDistance, h1], rfl⟩
      | some chars1 =>
        cases h2 : utf8Split word2 with
        | none => exact Or.inl ⟨by simp [editDistance, h1, h2], rfl⟩
        | some chars2 =>
          simp only
          obtain ⟨c3, hput, hcap3, hsub3⟩ := lruCache_put_ok c2 (word1, word2)
            ((editDistanceDP chars1 chars2 : Nat) : Int) (by rw [hcap2, hcap1]; exact hcap)
          rw [hput]
          refine Or.inr ⟨editDistanceDP chars1 chars2, c3, by simp [editDistance, h1, h2], rfl,
            by rw [hcap3, hcap2, hcap1]; exact hcap, ?_⟩
          intro e he
          rcases hsub3 e he with h | h
          · subst h
            exact ⟨_, by simp [editDistance, h1, h2], rfl⟩
          · exact hent e (by rw [← hlist1, ← hlist2]; exact h)

theorem calculateEditDistance_valid (cache : LRUCache EditDistanceCacheKey Int)
    (hc : EditCacheOK cache) (x y : List Nat) (cs1 cs2 : List (List Nat))
    (hx : utf8Split x = some cs1) (hy : utf8Split y = some cs2) :
    ∃ cache', calculateEditDistance cache x y = some (((lev cs1 cs2 : Nat) : Int), cache')
      ∧ EditCacheOK cache' := by
  have he := editDistance_eq x y cs1 cs2 hx hy
  rcases calculateEditDistance_spec cache hc x y with ⟨hn, _⟩ | ⟨d, cache', hd, hcalc, hok⟩
  · rw [he] at hn; simp at hn
  · rw [he] at hd
    simp only [Option.some.injEq] at hd
    subst hd
    exact ⟨cache', hcalc, hok⟩

/-- C2. For all valid UTF-8 strings x and y, the value that `calculateEditDistance`
computes from an empty cache is the value `dp[m][n]` of its dynamic program, and it is
the minimum number of single-character insertions, deletions and substitutions that
transform the character sequence `utf8Split x` into `utf8Split y`.  Distances count
characters, not bytes: 中 and 国 are at distance 1 although their three bytes all
differ. -/
theorem calculateEditDistance_min_edits (cache : LRUCache EditDistanceCacheKey Int)
    (hempty : cache.cacheList_ = []) (hcap : 0 < cache.capacity_) (x y : List Nat)
    (cs1 cs2 : List (List Nat)) (hx : utf8Split x = some cs1) (hy : utf8Split y = some cs2) :
    (∃ (d : Nat) (cache' : LRUCache EditDistanceCacheKey Int),
        calculateEditDistance cache x y = some ((d : Int), cache')
          ∧ d = editDistanceDP cs1 cs2 ∧ IsMinEdit cs1 cs2 d)
      ∧ (calculateEditDistance (LRUCache.new 2000) [0xE4, 0xB8, 0xAD] [0xE5, 0x9B, 0xBD]).map
            (fun p => p.1) = some 1
      ∧ lev [0xE4, 0xB8, 0xAD] [0xE5, 0x9B, 0xBD] = 3 := by
  have hc : EditCacheOK cache := ⟨hcap, by intro e he; rw [hempty] at he; simp at he⟩
  obtain ⟨cache', hcalc, _⟩ := calculateEditDistance_valid cache hc x y cs1 cs2 hx hy
  exact ⟨⟨lev cs1 cs2, cache', hcalc, (editDistanceDP_eq_lev cs1 cs2).symm,
    lev_isMinEdit cs1 cs2⟩, by decide, by decide⟩

theorem calculateEditDistance_min_edits_witness :
    (LRUCache.new 2000 : LRUCache EditDistanceCacheKey Int).cacheList_ = []
      ∧ 0 < (LRUCache.new 2000 : LRUCache EditDistanceCacheKey Int).capacity_
      ∧ utf8Split zhongguo = some [[0xE4, 0xB8, 0xAD], [0xE5, 0x9B, 0xBD]]
      ∧ utf8Split zhonggao = some [[0xE5, 0xBF, 0xA0], [0xE5, 0x91, 0x8A]]
      ∧ ((∃ (d : Nat) (cache' : LRUCache EditDistanceCacheKey Int),
            calculateEditDistance (LRUCache.new 2000) zhongguo zhonggao
                = some ((d : Int), cache')
              ∧ d = editDistanceDP [[0xE4, 0xB8, 0xAD], [0xE5, 0x9B, 0xBD]]
                  [[0xE5, 0xBF, 0xA0], [0xE5, 0x91, 0x8A]]
              ∧ IsMinEdit [[0xE4, 0xB8, 0xAD], [0xE5, 0x9B, 0xBD]]
                  [[0xE5, 0xBF, 0xA0], [0xE5, 0x91, 0x8A]] d)
          ∧ (calculateEditDistance (LRUCache.new 2000) [0xE4, 0xB8, 0xAD]
                [0xE5, 0x9B, 0xBD]).map (fun p => p.1) = some 1
          ∧ lev [0xE4, 0xB8, 0xAD] [0xE5, 0x9B, 0xBD] = 3) :=
  ⟨rfl, by decide, by decide, by decide,
    calculateEditDistance_min_edits (LRUCache.new 2000) rfl (by decide) zhongguo zhonggao
      [[0xE4, 0xB8, 0xAD], [0xE5, 0x9B, 0xBD]] [[0xE5, 0xBF, 0xA0], [0xE5, 0x91, 0x8A]]
      (by decide) (by decide)⟩

/-- C6. For all valid UTF-8 strings x and y, `calculateEditDistance` returns the same
distance for (x, y) and for (y, x), on any caches whose entries are right (the
empty cache among them). -/
theorem calculateEditDistance_symmetric (c1 c2 : LRUCache EditDistanceCacheKey Int)
    (h1 : EditCacheOK c1) (h2 : EditCacheOK c2) (x y : List Nat)
    (hx : (utf8Split x).isSome = true) (hy : (utf8Split y).isSome = true) :
    ∃ (d : Int) (c1' c2' : LRUCache EditDistanceCacheKey Int),
      calculateEditDistance c1 x y = some (d, c1')
        ∧ calculateEditDistance c2 y x = some (d, c2') := by
  obtain ⟨cs1, hx'⟩ := Option.isSome_iff_exists.1 hx
  obtain ⟨cs2, hy'⟩ := Option.isSome_iff_exists.1 hy
  obtain ⟨c1', e1, _⟩ := calculateEditDistance_valid c1 h1 x y cs1 cs2 hx' hy'
  obtain ⟨c2', e2, _⟩ := calculateEditDistance_valid c2 h2 y x cs2 cs1 hy' hx'
  rw [lev_symm cs2 cs1] at e2
  exact ⟨_, c1', c2', e1, e2⟩

theorem calculateEditDistance_symmetric_witness :
    EditCacheOK (LRUCache.new 2000) ∧ (utf8Split zhongguo).isSome = true
      ∧ (utf8Split zhonggao).isSome = true
      ∧ ∃ (d : Int) (c1' c2' : LRUCache EditDistanceCacheKey Int),
          calculateEditDistance (LRUCache.new 2000) zhongguo zhonggao = some (d, c1')
            ∧ calculateEditDistance (LRUCache.new 2000) zhonggao zhongguo = some (d, c2') :=
  ⟨EditCacheOK_new 2000 (by decide), by decide, by decide,
    calculateEditDistance_symmetric (LRUCache.new 2000) (LRUCache.new 2000)
      (EditCacheOK_new 2000 (by decide)) (EditCacheOK_new 2000 (by decide)) zhongguo zhonggao
      (by decide) (by decide)⟩

/-- C7. For all valid UTF-8 strings x, y and z, the distances returned by
`calculateEditDistance` satisfy d(x, z) <= d(x, y) + d(y, z), on any caches whose
entries are right (the empty cache among them). -/
theorem calculateEditDistance_triangle (c1 c2 c3 : LRUCache EditDistanceCacheKey Int)
    (h1 : EditCacheOK c1) (h2 : EditCacheOK c2) (h3 : EditCacheOK c3) (x y z : List Nat)
    (hx : (utf8Split x).isSome = true) (hy : (utf8Split y).isSome = true)
    (hz : (utf8Split z).isSome = true) :
    ∃ (dxz dxy dyz : Int) (c1' c2' c3' : LRUCache EditDistanceCacheKey Int),
      calculateEditDistance c1 x z = some (dxz, c1')
        ∧ calculateEditDistance c2 x y = some (dxy, c2')
        ∧ calculateEditDistance c3 y z = some (dyz, c3')
        ∧ dxz ≤ dxy + dyz := by
  obtain ⟨cs1, hx'⟩ := Option.isSome_iff_exists.1 hx
  obtain ⟨cs2, hy'⟩ := Option.isSome_iff_exists.1 hy
  obtain ⟨cs3, hz'⟩ := Option.isSome_iff_exists.1 hz
  obtain ⟨c1', e1, _⟩ := calculateEditDistance_valid c1 h1 x z cs1 cs3 hx' hz'
  obtain ⟨c2', e2, _⟩ := calculateEditDistance_valid c2 h2 x y cs1 cs2 hx' hy'
  obtain ⟨c3', e3, _⟩ := calculateEditDistance_valid c3 h3 y z cs2 cs3 hy' hz'
  refine ⟨_, _, _, c1', c2', c3', e1, e2, e3, ?_⟩
  have := lev_triangle cs1 cs2 cs3
  exact_mod_cast this

theorem calculateEditDistance_triangle_witness :
    EditCacheOK (LRUCache.new 2000) ∧ (utf8Split zhongguo).isSome = true
      ∧ (utf8Split zhongyang).isSome = true ∧ (utf8Split zhonggao).isSome = true
      ∧ ∃ (dxz dxy dyz : Int) (c1' c2' c3' : LRUCache EditDistanceCacheKey Int),
          calculateEditDistance (LRUCache.new 2000) zhongguo zhonggao = some (dxz, c1')
            ∧ calculateEditDistance (LRUCache.new 2000) zhongguo zhongyang = some (dxy, c2')
            ∧ calculateEditDistance (LRUCache.new 2000) zhongyang zhonggao = some (dyz, c3')
            ∧ dxz ≤ dxy + dyz :=
  ⟨EditCacheOK_new 2000 (by decide), by decide, by decide, by decide,
    calculateEditDistance_triangle (LRUCache.new 2000) (LRUCache.new 2000) (LRUCache.new 2000)
      (EditCacheOK_new 2000 (by decide)) (EditCacheOK_new 2000 (by decide))
      (EditCacheOK_new 2000 (by decide)) zhongguo zhongyang zhonggao
      (by decide) (by decide) (by decide)⟩

/-! ## The comparator and `std::sort` -/

theorem stringLt_asymm : ∀ a b : List Nat, stringLt a b = true → stringLt b a = false
  | [], [], h => by simp [stringLt] at h
  | [], _ :: _, _ => by simp [stringLt]
  | _ :: _, [], h => by simp [stringLt] at h
  | x :: xs, y :: ys, h => by
    simp only [stringLt] at h ⊢
    by_cases h1 : x < y
    · have h2 : ¬ y < x := by omega
      simp [h1, h2]
    · by_cases h2 : y < x
      · simp [h1, h2] at h
      · simp only [h1, h2, if_false] at h ⊢
        exact stringLt_asymm xs ys h

theorem stringLt_total : ∀ a b : List Nat, stringLt b a = false → stringLt a b = true ∨ a = b
  | [], [], _ => Or.inr rfl
  | [], _ :: _, _ => by simp [stringLt]
  | _ :: _, [], h => by simp [stringLt] at h
  | x :: xs, y :: ys, h => by
    simp only [stringLt] at h ⊢
    by_cases h1 : x < y
    · simp [h1]
    · by_cases h2 : y < x
      · simp [h2] at h
      · simp only [h1, h2, if_false] at h ⊢
        have hxy : x = y := by omega
        rcases stringLt_total xs ys h with h3 | h3
        · exact Or.inl h3
        · exact Or.inr (by rw [hxy, h3])

theorem stringLt_trans : ∀ a b c : List Nat,
    stringLt a b = true → stringLt b c = true → stringLt a c = true
  | [], _, [], _, h2 => by
    cases ‹List Nat› <;> simp [stringLt] at h2
  | [], _, _ :: _, _, _ => by simp [stringLt]
  | _ :: _, [], _, h1, _ => by simp [stringLt] at h1
  | _ :: _, _ :: _, [], _, h2 => by simp [stringLt] at h2
  | x :: xs, y :: ys, z :: zs, h1, h2 => by
    simp only [stringLt] at h1 h2 ⊢
    by_cases hxy : x < y
    · by_cases hyz : y < z
      · have : x < z := by omega
        simp [this]
      · by_cases hzy : z < y
        · simp [hyz, hzy] at h2
        · have : x < z := by omega
          simp [this]
    · by_cases hyx : y < x
      · simp [hxy, hyx] at h1
      · simp only [hxy, hyx, if_false] at h1
        have hxy' : x = y := by omega
        subst hxy'
        by_cases hxz : x < z
        · simp [hxz]
        · by_cases hzx : z < x
          · simp [hxz, hzx] at h2
          · simp only [hxz, hzx, if_false] at h2 ⊢
            exact stringLt_trans xs ys zs h1 h2

theorem stringLt_irrefl (a : List Nat) : stringLt a a = false := by
  cases h : stringLt a a with
  | false => rfl
  | true => have := stringLt_asymm a a h; rw [h] at this; exact this

theorem CandidateComparator_iff (a b : Candidate) :
    CandidateComparator a b = true ↔
      a.editDistance < b.editDistance
        ∨ (a.editDistance = b.editDistance
          ∧ (a.frequency > b.frequency
            ∨ (a.frequency = b.frequency ∧ stringLt a.word b.word = true))) := by
  unfold CandidateComparator
  by_cases h1 : a.editDistance = b.editDistance
  · by_cases h2 : a.frequency = b.frequency
    · simp [h1, h2]
    · simp [h1, h2]
  · simp [h1]

/-- Candidate `a` may stand before `b` in the output of `std::sort` (`comp(b, a)` is false)
exactly when `a` ranks no later than `b`. -/
theorem comparator_false_iff (a b : Candidate) :
    CandidateComparator b a = false ↔ rankLE a b := by
  rw [← Bool.not_eq_true, CandidateComparator_iff]
  unfold rankLE
  constructor
  · intro h
    by_cases h1 : a.editDistance < b.editDistance
    · exact Or.inl h1
    · have he : a.editDistance = b.editDistance := by
        by_contra hne
        exact h (Or.inl (by omega))
      refine Or.inr ⟨he, ?_⟩
      by_cases h2 : a.frequency > b.frequency
      · exact Or.inl (by omega)
      · have hf : a.frequency = b.frequency := by
          by_contra hne
          exact h (Or.inr ⟨he.symm, Or.inl (by omega)⟩)
        refine Or.inr ⟨by omega, ?_⟩
        apply stringLt_total
        by_cases hs : stringLt b.word a.word = true
        · exact absurd (Or.inr ⟨he.symm, Or.inr ⟨hf.symm, hs⟩⟩) h
        · exact Bool.eq_false_iff.2 hs
  · intro h hc
    rcases h with h | ⟨he, h | ⟨hf, h | h⟩⟩
    · rcases hc with hc | ⟨hc, _⟩ <;> omega
    · rcases hc with hc | ⟨_, hc | ⟨hc, _⟩⟩ <;> omega
    · rcases hc with hc | ⟨_, hc | ⟨_, hc⟩⟩
      · omega
      · omega
      · have := stringLt_asymm _ _ h
        rw [hc] at this
        exact absurd this (by simp)
    · rcases hc with hc | ⟨_, hc | ⟨_, hc⟩⟩
      · omega
      · omega
      · rw [h, stringLt_irrefl] at hc
        exact absurd hc (by simp)

theorem rankLE_total (a b : Candidate) : rankLE a b ∨ rankLE b a := by
  unfold rankLE
  by_cases h1 : a.editDistance < b.editDistance
  · exact Or.inl (Or.inl h1)
  · by_cases h2 : b.editDistance < a.editDistance
    · exact Or.inr (Or.inl h2)
    · have he : a.editDistance = b.editDistance := by omega
      by_cases h3 : -a.frequency < -b.frequency
      · exact Or.inl (Or.inr ⟨he, Or.inl h3⟩)
      · by_cases h4 : -b.frequency < -a.frequency
        · exact Or.inr (Or.inr ⟨he.symm, Or.inl h4⟩)
        · have hf : -a.frequency = -b.frequency := by omega
          by_cases hs : stringLt b.word a.word = true
          · exact Or.inr (Or.inr ⟨he.symm, Or.inr ⟨hf.symm, Or.inl hs⟩⟩)
          · exact Or.inl (Or.inr ⟨he, Or.inr ⟨hf,
              stringLt_total _ _ (Bool.eq_false_iff.2 hs)⟩⟩)

theorem rankLE_trans (a b c : Candidate) (h1 : rankLE a b) (h2 : rankLE b c) : rankLE a c := by
  unfold rankLE at *
  rcases h1 with h1 | ⟨e1, h1⟩
  · rcases h2 with h2 | ⟨e2, _⟩
    · exact Or.inl (by omega)
    · exact Or.inl (by omega)
  · rcases h2 with h2 | ⟨e2, h2⟩
    · exact Or.inl (by omega)
    · refine Or.inr ⟨by omega, ?_⟩
      rcases h1 with h1 | ⟨f1, h1⟩
      · rcases h2 with h2 | ⟨f2, _⟩
        · exact Or.inl (by omega)
        · exact Or.inl (by omega)
      · rcases h2 with h2 | ⟨f2, h2⟩
        · exact Or.inl (by omega)
        · refine Or.inr ⟨by omega, ?_⟩
          rcases h1 with h1 | h1
          · rcases h2 with h2 | h2
            · exact Or.inl (stringLt_trans _ _ _ h1 h2)
            · rw [← h2]; exact Or.inl h1
          · rw [h1]; exact h2

theorem rankLE_antisymm (a b : Candidate) (h1 : rankLE a b) (h2 : rankLE b a) : a = b := by
  unfold rankLE at *
  rcases h1 with h1 | ⟨e1, h1⟩
  · rcases h2 with h2 | ⟨e2, _⟩ <;> omega
  · rcases h2 with h2 | ⟨_, h2⟩
    · omega
    · rcases h1 with h1 | ⟨f1, h1⟩
      · rcases h2 with h2 | ⟨f2, _⟩ <;> omega
      · rcases h2 with h2 | ⟨_, h2⟩
        · omega
        · have hw : a.word = b.word := by
            rcases h1 with h1 | h1
            · rcases h2 with h2 | h2
              · have := stringLt_asymm _ _ h1
                rw [h2] at this
                exact absurd this (by simp)
              · exact h2.symm
            · exact h1
          cases a
          cases b
          simp only [Candidate.mk.injEq] at *
          exact ⟨hw, e1, by omega⟩

/-- The output of `std::sort` is a permutation of its input, in ascending rank. -/
theorem stdSort_spec (l : List Candidate) :
    (stdSort CandidateComparator l).Perm l
      ∧ (stdSort CandidateComparator l).Sorted rankLE := by
  have hrel : (fun a b => CandidateComparator b a = false) = rankLE := by
    funext a b
    exact propext (comparator_false_iff a b)
  haveI : IsTotal Candidate (fun a b => CandidateComparator b a = false) :=
    ⟨fun a b => by rw [comparator_false_iff, comparator_false_iff]; exact rankLE_total a b⟩
  haveI : IsTrans Candidate (fun a b => CandidateComparator b a = false) :=
    ⟨fun a b c => by
      rw [comparator_false_iff, comparator_false_iff, comparator_false_iff]
      exact rankLE_trans a b c⟩
  refine ⟨List.perm_insertionSort _ l, ?_⟩
  have := List.sorted_insertionSort (fun a b => CandidateComparator b a = false) l
  rw [← hrel]
  exact this

/-- The sorted list is determined by its elements: any sorting algorithm gives it. -/
theorem ranked_unique (l1 l2 : List Candidate) (hp : l1.Perm l2) (h1 : l1.Sorted rankLE)
    (h2 : l2.Sorted rankLE) : l1 = l2 := by
  haveI : IsAntisymm Candidate rankLE := ⟨rankLE_antisymm⟩
  exact List.eq_of_perm_of_sorted hp h1 h2

theorem selectTopK_nonneg (candidates : List Candidate) (k : Int) (hk : 0 ≤ k) :
    selectTopK candidates k = some ((stdSort CandidateComparator candidates).take k.toNat) := by
  unfold selectTopK
  simp only
  rw [if_neg (by omega)]
  congr 1
  rw [List.take_eq_take]
  omega

/-- The order in which the candidates reach `selectTopK` (the iteration order of the
`unordered_set`) does not change its result. -/
theorem selectTopK_perm (l1 l2 : List Candidate) (h : l1.Perm l2) (k : Int) :
    selectTopK l1 k = selectTopK l2 k := by
  have hs : stdSort CandidateComparator l1 = stdSort CandidateComparator l2 := by
    obtain ⟨p1, s1⟩ := stdSort_spec l1
    obtain ⟨p2, s2⟩ := stdSort_spec l2
    exact ranked_unique _ _ (p1.trans (h.trans p2.symm)) s1 s2
  unfold selectTopK
  rw [hs]

/-! ## `recommend` -/

/-- The scoring loop with the cache computes what the cache-free loop computes. -/
theorem scoreCandidates_spec (dm : DataReaderManager) (maxEditDistance : Int)
    (query : List Nat) :
    ∀ (words : List (List Nat)) (cache : LRUCache EditDistanceCacheKey Int)
      (acc : List Candidate), EditCacheOK cache →
      (scoreUncached dm maxEditDistance query words = none
          ∧ scoreCandidates dm maxEditDistance query words cache acc = none)
        ∨ ∃ (cs : List Candidate) (cache' : LRUCache EditDistanceCacheKey Int),
            scoreUncached dm maxEditDistance query words = some cs
              ∧ scoreCandidates dm maxEditDistance query words cache acc
                  = some (acc ++ cs, cache')
              ∧ EditCacheOK cache' := by
  intro words
  induction words with
  | nil =>
    intro cache acc hc
    exact Or.inr ⟨[], cache, rfl, by simp [scoreCandidates], hc⟩
  | cons word rest ih =>
    intro cache acc hc
    rcases calculateEditDistance_spec cache hc query word with
      ⟨hn, hcalc⟩ | ⟨d, cache1, hd, hcalc, hok⟩
    · exact Or.inl ⟨by simp [scoreUncached, hn], by simp [scoreCandidates, hcalc]⟩
    · by_cases hle : (d : Int) ≤ maxEditDistance
      · rcases ih cache1
          (acc ++ [{ word := word, editDistance := (d : Int),
                     frequency := getWordFrequency dm word }]) hok with
          ⟨hn, hs⟩ | ⟨cs, cache', hu, hs, hok'⟩
        · exact Or.inl ⟨by simp [scoreUncached, hd, hn],
            by simp [scoreCandidates, hcalc, hle, hs]⟩
        · refine Or.inr ⟨Candidate.mk word (d : Int) (getWordFrequency dm word) :: cs, cache',
            by simp [scoreUncached, hd, hu, hle], ?_, hok'⟩
          simp [scoreCandidates, hcalc, hle, hs]
      · rcases ih cache1 acc hok with ⟨hn, hs⟩ | ⟨cs, cache', hu, hs, hok'⟩
        · exact Or.inl ⟨by simp [scoreUncached, hd, hn],
            by simp [scoreCandidates, hcalc, hle, hs]⟩
        · refine Or.inr ⟨cs, cache', by simp [scoreUncached, hd, hu, hle], ?_, hok'⟩
          simp [scoreCandidates, hcalc, hle, hs]

theorem WellCached_new (dm : DataReaderManager) :
    WellCached (KeywordRecommender.new (some dm)) dm := by
  refine ⟨rfl, EditCacheOK_new 2000 (by decide), by show (0 : Nat) < 500; omega, ?_⟩
  intro e he
  simp [KeywordRecommender.new, LRUCache.new] at he

/-- On a recommender whose caches are right, `recommend` on a non-empty query returns
what the cache-free computation gives, throws exactly when that throws, and leaves a
recommender whose caches are right. -/
theorem recommend_eq_uncached (r : KeywordRecommender) (dm : DataReaderManager)
    (hW : WellCached r dm) (query : List Nat) (hq : query ≠ []) (k : Int) :
    (recommendUncached dm r.maxEditDistance_ query k = none ∧ recommend r query k = none)
      ∨ ∃ (result : List Candidate) (r' : KeywordRecommender),
          recommendUncached dm r.maxEditDistance_ query k = some result
            ∧ recommend r query k = some (result, r')
            ∧ WellCached r' dm ∧ r'.maxEditDistance_ = r.maxEditDistance_ := by
  obtain ⟨hdm, hec, hcap, hent⟩ := hW
  unfold recommend
  rw [hdm]
  simp only [hq, if_false]
  rcases hg : r.recommendCache_.get (query, k) with ⟨o, rc⟩
  cases o with
  | some cached =>
    obtain ⟨hmem, hcap1, hsub⟩ := lruCache_get_hit r.recommendCache_ rc _ cached hg
    have := (hent _ hmem).2
    simp only at this
    refine Or.inr ⟨cached, _, this, rfl, ⟨rfl, hec, by simp only [hcap1]; exact hcap, ?_⟩, rfl⟩
    intro e he
    exact hent e (hsub e he)
  | none =>
    obtain ⟨hcap1, hlist1, _⟩ := lruCache_get_miss r.recommendCache_ rc _ hg
    simp only
    unfold recommendUncached
    cases hf : findCandidateWords dm query with
    | none => exact Or.inl ⟨rfl, rfl⟩
    | some candidateWords =>
      simp only
      rcases scoreCandidates_spec dm r.maxEditDistance_ query candidateWords
          r.editDistanceCache_ [] hec with ⟨hn, hs⟩ | ⟨cs, ec, hu, hs, hok⟩
      · rw [hn, hs]; exact Or.inl ⟨rfl, rfl⟩
      · rw [hu, hs]
        simp only [List.nil_append]
        cases hsel : selectTopK cs k with
        | none => exact Or.inl ⟨rfl, rfl⟩
        | some result =>
          simp only
          obtain ⟨rc1, hput, hcap2, hsub2⟩ := lruCache_put_ok rc (query, k) result
            (by rw [hcap1]; exact hcap)
          rw [hput]
          refine Or.inr ⟨result, _, rfl, rfl,
            ⟨rfl, hok, by simp only [hcap2, hcap1]; exact hcap, ?_⟩, rfl⟩
          intro e he
          simp only at he ⊢
          rcases hsub2 e he with h | h
          · subst h
            refine ⟨hq, ?_⟩
            simp only [recommendUncached, hf, hu, hsel]
          · rw [hlist1] at h
            exact hent e h

theorem findCandidateWords_valid (dm : DataReaderManager) (query : List Nat)
    (pool : List (List Nat)) (h : findCandidateWords dm query = some pool) :
    ∃ chars, utf8Split query = some chars := by
  unfold findCandidateWords at h
  cases hs : utf8Split query with
  | none => rw [hs] at h; simp at h
  | some chars => exact ⟨chars, rfl⟩

/-- When no string is invalid the cache-free scoring loop returns the survivors. -/
theorem scoreUncached_eq_survivors (dm : DataReaderManager) (maxEditDistance : Int)
    (query : List Nat) (hq : (utf8Split query).isSome = true) :
    ∀ pool : List (List Nat), (∀ w ∈ pool, (utf8Split w).isSome = true) →
      scoreUncached dm maxEditDistance query pool
        = some (survivors dm maxEditDistance query pool) := by
  obtain ⟨csq, hcsq⟩ := Option.isSome_iff_exists.1 hq
  intro pool
  induction pool with
  | nil => intro _; rfl
  | cons w rest ih =>
    intro hv
    obtain ⟨csw, hcsw⟩ := Option.isSome_iff_exists.1 (hv w (List.mem_cons_self _ _))
    have hd : editDistance query w = some (charDistance query w) := by
      rw [editDistance_eq query w csq csw hcsq hcsw]
      simp [charDistance, hcsq, hcsw]
    have ih' := ih (fun w' hw' => hv w' (List.mem_cons_of_mem _ hw'))
    simp only [scoreUncached, hd, ih']
    by_cases hle : (charDistance query w : Int) ≤ maxEditDistance
    · simp [survivors, hle, List.filter_cons]
    · simp [survivors, hle, List.filter_cons]

/-- Every state reached through returning calls has right cache entries. -/
theorem reachable_wellCached (dm : DataReaderManager) (maxEditDistance : Int)
    (r : KeywordRecommender) (h : Reachable dm maxEditDistance r) :
    WellCached r dm ∧ r.maxEditDistance_ = maxEditDistance := by
  induction h with
  | fresh =>
    refine ⟨⟨rfl, EditCacheOK_new 2000 (by decide), by show (0 : Nat) < 500; omega, ?_⟩, rfl⟩
    intro e he
    simp [KeywordRecommender.new, LRUCache.new] at he
  | @call r r' query k result _ hcall ih =>
    obtain ⟨hW, hm⟩ := ih
    by_cases hq : query = []
    · subst hq
      unfold recommend at hcall
      rw [hW.1] at hcall
      simp only [if_true, Option.some.injEq, Prod.mk.injEq] at hcall
      rw [← hcall.2]
      exact ⟨hW, hm⟩
    · rcases recommend_eq_uncached r dm hW query hq k with
        ⟨_, hn⟩ | ⟨result', r'', _, hrec, hW', hm'⟩
      · rw [hn] at hcall; simp at hcall
      · rw [hrec] at hcall
        simp only [Option.some.injEq, Prod.mk.injEq] at hcall
        rw [← hcall.2]
        exact ⟨hW', by rw [hm', hm]⟩

/-- The order in which the candidate words are scored (the iteration order of the
`unordered_set`) changes the scored candidates by a permutation only. -/
theorem scoreUncached_perm (dm : DataReaderManager) (maxEditDistance : Int) (query : List Nat)
    (pool pool' : List (List Nat)) (h : pool.Perm pool') :
    (scoreUncached dm maxEditDistance query pool = none
        ∧ scoreUncached dm maxEditDistance query pool' = none)
      ∨ ∃ cs cs', scoreUncached dm maxEditDistance query pool = some cs
          ∧ scoreUncached dm maxEditDistance query pool' = some cs' ∧ cs.Perm cs' := by
  induction h with
  | nil => exact Or.inr ⟨[], [], rfl, rfl, List.Perm.nil⟩
  | @cons w l l' _ ih =>
    cases hd : editDistance query w with
    | none => exact Or.inl ⟨by simp [scoreUncached, hd], by simp [scoreUncached, hd]⟩
    | some d =>
      rcases ih with ⟨h1, h2⟩ | ⟨cs, cs', h1, h2, hp⟩
      · exact Or.inl ⟨by simp [scoreUncached, hd, h1], by simp [scoreUncached, hd, h2]⟩
      · by_cases hle : (d : Int) ≤ maxEditDistance
        · exact Or.inr ⟨Candidate.mk w d (getWordFrequency dm w) :: cs,
            Candidate.mk w d (getWordFrequency dm w) :: cs',
            by simp [scoreUncached, hd, h1, hle], by simp [scoreUncached, hd, h2, hle],
            hp.cons _⟩
        · exact Or.inr ⟨cs, cs', by simp [scoreUncached, hd, h1, hle],
            by simp [scoreUncached, hd, h2, hle], hp⟩
  | @swap a b l =>
    cases ha : editDistance query a with
    | none =>
      cases hb : editDistance query b <;>
        exact Or.inl ⟨by simp [scoreUncached, ha, hb], by simp [scoreUncached, ha, hb]⟩
    | some da =>
      cases hb : editDistance query b with
      | none => exact Or.inl ⟨by simp [scoreUncached, hb], by simp [scoreUncached, ha, hb]⟩
      | some db =>
        cases hl : scoreUncached dm maxEditDistance query l with
        | none =>
          exact Or.inl ⟨by simp [scoreUncached, ha, hb, hl], by simp [scoreUncached, ha, hb, hl]⟩
        | some cs =>
          by_cases hla : (da : Int) ≤ maxEditDistance <;>
            by_cases hlb : (db : Int) ≤ maxEditDistance
          · exact Or.inr ⟨Candidate.mk b db (getWordFrequency dm b)
                :: Candidate.mk a da (getWordFrequency dm a) :: cs,
              Candidate.mk a da (getWordFrequency dm a)
                :: Candidate.mk b db (getWordFrequency dm b) :: cs,
              by simp [scoreUncached, ha, hb, hl, hla, hlb],
              by simp [scoreUncached, ha, hb, hl, hla, hlb], List.Perm.swap _ _ _⟩
          · exact Or.inr ⟨Candidate.mk a da (getWordFrequency dm a) :: cs,
              Candidate.mk a da (getWordFrequency dm a) :: cs,
              by simp [scoreUncached, ha, hb, hl, hla, hlb],
              by simp [scoreUncached, ha, hb, hl, hla, hlb], List.Perm.refl _⟩
          · exact Or.inr ⟨Candidate.mk b db (getWordFrequency dm b) :: cs,
              Candidate.mk b db (getWordFrequency dm b) :: cs,
              by simp [scoreUncached, ha, hb, hl, hla, hlb],
              by simp [scoreUncached, ha, hb, hl, hla, hlb], List.Perm.refl _⟩
          · exact Or.inr ⟨cs, cs, by simp [scoreUncached, ha, hb, hl, hla, hlb],
              by simp [scoreUncached, ha, hb, hl, hla, hlb], List.Perm.refl _⟩
  | @trans l1 l2 l3 _ _ ih1 ih2 =>
    rcases ih1 with ⟨h1, h2⟩ | ⟨cs, cs', h1, h2, hp⟩
    · rcases ih2 with ⟨_, h3⟩ | ⟨cs2, _, h3, _, _⟩
      · exact Or.inl ⟨h1, h3⟩
      · rw [h2] at h3; simp at h3
    · rcases ih2 with ⟨h3, _⟩ | ⟨cs2, cs3, h3, h4, hp2⟩
      · rw [h2] at h3; simp at h3
      · rw [h2] at h3
        simp only [Option.some.injEq] at h3
        subst h3
        exact Or.inr ⟨cs, cs3, h1, h4, hp.trans hp2⟩

/-- The result of scoring and ranking does not depend on the iteration order of the
candidate set. -/
theorem ranking_order_independent (dm : DataReaderManager) (maxEditDistance : Int)
    (query : List Nat) (k : Int) (pool pool' : List (List Nat)) (h : pool.Perm pool') :
    (scoreUncached dm maxEditDistance query pool).bind (fun cs => selectTopK cs k)
      = (scoreUncached dm maxEditDistance query pool').bind (fun cs => selectTopK cs k) := by
  rcases scoreUncached_perm dm maxEditDistance query pool pool' h with
    ⟨h1, h2⟩ | ⟨cs, cs', h1, h2, hp⟩
  · rw [h1, h2]
  · rw [h1, h2]
    exact selectTopK_perm cs cs' hp k

/-! ## The minimal corpus -/

theorem scenario_pool (dm : DataReaderManager)
    (hdict : dm.chineseDictReader_
      = DictionaryReader.loadDictionary [(zhongguo, 100), (zhongyang, 50), (zhonggao, 30)])
    (hzhong : dm.chineseIndexReader_.getLineNumbers [0xE4, 0xB8, 0xAD] = [1, 2])
    (hguo : dm.chineseIndexReader_.getLineNumbers [0xE5, 0x9B, 0xBD] = [1]) :
    findCandidateWords dm zhongguo = some [zhongguo, zhongyang] := by
  have hs : utf8Split zhongguo = some [[0xE4, 0xB8, 0xAD], [0xE5, 0x9B, 0xBD]] := by decide
  have hp : isPrimarilyChinese zhongguo = some true := by decide
  have hc1 : isChinese [0xE4, 0xB8, 0xAD] = some true := by decide
  have hc2 : isChinese [0xE5, 0x9B, 0xBD] = some true := by decide
  have hu : usetInsert (usetInsert (usetInsert ([] : List Int) 1) 2) 1 = [1, 2] := by decide
  have hall : (DictionaryReader.loadDictionary
      [(zhongguo, 100), (zhongyang, 50), (zhonggao, 30)]).allEntries_
      = [⟨zhongguo, 100⟩, ⟨zhongyang, 50⟩, ⟨zhonggao, 30⟩] := by decide
  have hw1 : getWordFromDictionary dm 1 true = zhongguo := by
    simp only [getWordFromDictionary, hdict, hall, if_true]
    decide
  have hw2 : getWordFromDictionary dm 2 true = zhongyang := by
    simp only [getWordFromDictionary, hdict, hall, if_true]
    decide
  simp only [findCandidateWords, hs, hp, collectLineNumbers, getLineNumbersFromIndex, hc1, hc2,
    hzhong, hguo, hu, List.foldl_cons, List.foldl_nil, hw1, hw2]
  decide

theorem scenario_frequency (dm : DataReaderManager)
    (hdict : dm.chineseDictReader_
      = DictionaryReader.loadDictionary [(zhongguo, 100), (zhongyang, 50), (zhonggao, 30)]) :
    getWordFrequency dm zhongguo = 100 ∧ getWordFrequency dm zhongyang = 50 := by
  have h1 : (DictionaryReader.loadDictionary
      [(zhongguo, 100), (zhongyang, 50), (zhonggao, 30)]).getWordFrequency zhongguo = 100 := by
    decide
  have h2 : (DictionaryReader.loadDictionary
      [(zhongguo, 100), (zhongyang, 50), (zhonggao, 30)]).getWordFrequency zhongyang = 50 := by
    decide
  constructor
  · simp only [getWordFrequency, hdict, h1]
    rw [if_pos (by decide)]
  · simp only [getWordFrequency, hdict, h2]
    rw [if_pos (by decide)]

theorem scenario_uncached (dm : DataReaderManager)
    (hdict : dm.chineseDictReader_
      = DictionaryReader.loadDictionary [(zhongguo, 100), (zhongyang, 50), (zhonggao, 30)])
    (hzhong : dm.chineseIndexReader_.getLineNumbers [0xE4, 0xB8, 0xAD] = [1, 2])
    (hguo : dm.chineseIndexReader_.getLineNumbers [0xE5, 0x9B, 0xBD] = [1]) (k : Int) :
    recommendUncached dm 3 zhongguo k
      = selectTopK [{ word := zhongguo, editDistance := 0, frequency := 100 },
                    { word := zhongyang, editDistance := 1, frequency := 50 }] k := by
  have hd1 : editDistance zhongguo zhongguo = some 0 := by decide
  have hd2 : editDistance zhongguo zhongyang = some 1 := by decide
  obtain ⟨hf1, hf2⟩ := scenario_frequency dm hdict
  simp only [recommendUncached, scenario_pool dm hdict hzhong hguo, scoreUncached, hd1, hd2,
    hf1, hf2]
  rfl

theorem minimalCorpus_isMinimal : IsMinimalCorpus minimalCorpus :=
  ⟨rfl, by decide, by decide⟩

theorem fullIndexCorpus_isMinimal : IsMinimalCorpus fullIndexCorpus :=
  ⟨rfl, by decide, by decide⟩

/-- C3. For every non-empty query q and every k >= 0, `recommend` returns the first
min(k, n) elements of the list obtained by taking the n words of the candidate pool
`findCandidateWords q` whose edit distance to q is at most `max_edit_distance`, each
with its edit distance to q and its lexicon frequency, sorted ascending by (edit
distance, frequency descending, word in byte order); that sorted list is unique.
The strings are valid UTF-8 and the caches hold right entries. -/
theorem recommend_ranked (r : KeywordRecommender) (dm : DataReaderManager)
    (hW : WellCached r dm) (query : List Nat) (hq : query ≠ []) (k : Int) (hk : 0 ≤ k)
    (pool : List (List Nat)) (hpool : findCandidateWords dm query = some pool)
    (hvalid : ∀ w ∈ pool, (utf8Split w).isSome = true) :
    ∃ (ranked : List Candidate) (r' : KeywordRecommender),
      ranked.Perm (survivors dm r.maxEditDistance_ query pool)
        ∧ ranked.Sorted rankLE
        ∧ (∀ other : List Candidate, other.Perm (survivors dm r.maxEditDistance_ query pool) →
            other.Sorted rankLE → other = ranked)
        ∧ recommend r query k
            = some (ranked.take (min k.toNat (survivors dm r.maxEditDistance_ query pool).length),
                r') := by
  obtain ⟨chars, hchars⟩ := findCandidateWords_valid dm query pool hpool
  have hscore := scoreUncached_eq_survivors dm r.maxEditDistance_ query
    (by rw [hchars]; rfl) pool hvalid
  have hun : recommendUncached dm r.maxEditDistance_ query k
      = some ((stdSort CandidateComparator (survivors dm r.maxEditDistance_ query pool)).take
          k.toNat) := by
    simp only [recommendUncached, hpool, hscore]
    exact selectTopK_nonneg _ k hk
  obtain ⟨hperm, hsorted⟩ := stdSort_spec (survivors dm r.maxEditDistance_ query pool)
  rcases recommend_eq_uncached r dm hW query hq k with ⟨hn, _⟩ | ⟨result, r', hres, hrec, _, _⟩
  · rw [hun] at hn; simp at hn
  · rw [hun] at hres
    simp only [Option.some.injEq] at hres
    refine ⟨_, r', hperm, hsorted, ?_, ?_⟩
    · intro other hp hs
      exact ranked_unique _ _ (hp.trans hperm.symm) hs hsorted
    · rw [hrec, ← hres]
      congr 2
      rw [List.take_eq_take, ← hperm.length_eq]
      omega

theorem recommend_ranked_witness :
    WellCached (KeywordRecommender.new (some minimalCorpus)) minimalCorpus
      ∧ zhongguo ≠ [] ∧ (0 : Int) ≤ 3
      ∧ findCandidateWords minimalCorpus zhongguo = some [zhongguo, zhongyang]
      ∧ (∀ w ∈ [zhongguo, zhongyang], (utf8Split w).isSome = true)
      ∧ ∃ (ranked : List Candidate) (r' : KeywordRecommender),
          ranked.Perm (survivors minimalCorpus
              (KeywordRecommender.new (some minimalCorpus)).maxEditDistance_ zhongguo
              [zhongguo, zhongyang])
            ∧ ranked.Sorted rankLE
            ∧ (∀ other : List Candidate,
                other.Perm (survivors minimalCorpus
                  (KeywordRecommender.new (some minimalCorpus)).maxEditDistance_ zhongguo
                  [zhongguo, zhongyang]) →
                other.Sorted rankLE → other = ranked)
            ∧ recommend (KeywordRecommender.new (some minimalCorpus)) zhongguo 3
                = some (ranked.take (min (3 : Int).toNat (survivors minimalCorpus
                    (KeywordRecommender.new (some minimalCorpus)).maxEditDistance_ zhongguo
                    [zhongguo, zhongyang]).length), r') :=
  ⟨WellCached_new minimalCorpus, by decide, by decide, by decide, by decide,
    recommend_ranked (KeywordRecommender.new (some minimalCorpus)) minimalCorpus
      (WellCached_new minimalCorpus) zhongguo (by decide) 3 (by decide) [zhongguo, zhongyang]
      (by decide) (by decide)⟩

theorem recommend_result_eq (r : KeywordRecommender) (dm : DataReaderManager)
    (hW : WellCached r dm) (query : List Nat) (hq : query ≠ []) (k : Int) :
    (recommend r query k).map (fun p => p.1)
      = recommendUncached dm r.maxEditDistance_ query k := by
  rcases recommend_eq_uncached r dm hW query hq k with ⟨hn, hr⟩ | ⟨result, r', hres, hrec, _, _⟩
  · rw [hn, hr]; rfl
  · rw [hres, hrec]; rfl

theorem recommend_empty_query (r : KeywordRecommender) (k : Int) :
    (recommend r [] k).map (fun p => p.1) = some [] := by
  unfold recommend
  cases r.dataManager_ <;> rfl

theorem recommendUncached_take (dm : DataReaderManager) (maxEditDistance : Int)
    (query : List Nat) (k1 k2 : Int) (hk1 : 0 ≤ k1) (hk : k1 ≤ k2) :
    recommendUncached dm maxEditDistance query k1
      = (recommendUncached dm maxEditDistance query k2).map (fun l => l.take k1.toNat) := by
  unfold recommendUncached
  cases findCandidateWords dm query with
  | none => rfl
  | some candidateWords =>
    simp only
    cases scoreUncached dm maxEditDistance query candidateWords with
    | none => rfl
    | some candidates =>
      simp only
      rw [selectTopK_nonneg _ k1 hk1, selectTopK_nonneg _ k2 (by omega)]
      simp only [Option.map_some', List.take_take]
      congr 2
      omega

/-- C4. For every query q and all 0 <= k1 <= k2, over the same data and the same
`max_edit_distance`, `recommend(q, k1)` is the first k1 elements of `recommend(q, k2)`
(all of them when there are fewer), whatever right entries the caches of the two calls
hold; and both throw together.  In a minimal corpus `recommend("中国", 1)` is
`[(中国, 0, 100)]`. -/
theorem recommend_monotone_in_k (r1 r2 : KeywordRecommender) (dm : DataReaderManager)
    (h1 : WellCached r1 dm) (h2 : WellCached r2 dm)
    (hmax : r1.maxEditDistance_ = r2.maxEditDistance_) (query : List Nat) (k1 k2 : Int)
    (hk1 : 0 ≤ k1) (hk : k1 ≤ k2) :
    (recommend r1 query k1).map (fun p => p.1)
        = (recommend r2 query k2).map (fun p => p.1.take k1.toNat)
      ∧ (∀ (r : KeywordRecommender) (corpus : DataReaderManager), IsMinimalCorpus corpus →
          WellCached r corpus → r.maxEditDistance_ = 3 →
          (recommend r zhongguo 1).map (fun p => p.1)
            = some [{ word := zhongguo, editDistance := 0, frequency := 100 }]) := by
  constructor
  · by_cases hq : query = []
    · subst hq
      have e1 := recommend_empty_query r1 k1
      have e2 := recommend_empty_query r2 k2
      cases hr1 : recommend r1 [] k1 with
      | none => rw [hr1] at e1; simp at e1
      | some p1 =>
        cases hr2 : recommend r2 [] k2 with
        | none => rw [hr2] at e2; simp at e2
        | some p2 =>
          rw [hr1] at e1
          rw [hr2] at e2
          simp only [Option.map_some', Option.some.injEq] at e1 e2 ⊢
          rw [e1, e2, List.take_nil]
    · have e1 := recommend_result_eq r1 dm h1 query hq k1
      have e2 := recommend_result_eq r2 dm h2 query hq k2
      rw [e1, recommendUncached_take dm r1.maxEditDistance_ query k1 k2 hk1 hk, hmax, ← e2]
      simp only [Option.map_map]
      rfl
  · intro r corpus hcorpus hW hm
    rw [recommend_result_eq r corpus hW zhongguo (by decide) 1, hm,
      scenario_uncached corpus hcorpus.1 hcorpus.2.1 hcorpus.2.2 1]
    decide

theorem recommend_monotone_in_k_witness :
    WellCached (KeywordRecommender.new (some minimalCorpus)) minimalCorpus
      ∧ (0 : Int) ≤ 1 ∧ (1 : Int) ≤ 3
      ∧ (recommend (KeywordRecommender.new (some minimalCorpus)) zhongguo 1).map (fun p => p.1)
          = (recommend (KeywordRecommender.new (some minimalCorpus)) zhongguo 3).map
              (fun p => p.1.take (1 : Int).toNat)
      ∧ (∀ (r : KeywordRecommender) (corpus : DataReaderManager), IsMinimalCorpus corpus →
          WellCached r corpus → r.maxEditDistance_ = 3 →
          (recommend r zhongguo 1).map (fun p => p.1)
            = some [{ word := zhongguo, editDistance := 0, frequency := 100 }]) :=
  ⟨WellCached_new minimalCorpus, by decide, by decide,
    recommend_monotone_in_k (KeywordRecommender.new (some minimalCorpus))
      (KeywordRecommender.new (some minimalCorpus)) minimalCorpus
      (WellCached_new minimalCorpus) (WellCached_new minimalCorpus) rfl zhongguo 1 3
      (by decide) (by decide)⟩

/-- C5 as stated fails: in the minimal corpus the candidate pool of 中国 holds only the
words on the lines indexed by 中 and 国, so `recommend("中国", 3)` on a fresh recommender
(`max_edit_distance = 3`) returns two entries; 忠告, at edit distance 2, is not among
them.  The same holds with the complete character index. -/
theorem recommend_scenario_counterexample :
    IsMinimalCorpus minimalCorpus
      ∧ (KeywordRecommender.new (some minimalCorpus)).maxEditDistance_ = 3
      ∧ findCandidateWords minimalCorpus zhongguo = some [zhongguo, zhongyang]
      ∧ (calculateEditDistance (LRUCache.new 2000) zhongguo zhonggao).map (fun p => p.1)
          = some 2
      ∧ (recommend (KeywordRecommender.new (some minimalCorpus)) zhongguo 3).map (fun p => p.1)
          = some [{ word := zhongguo, editDistance := 0, frequency := 100 },
                  { word := zhongyang, editDistance := 1, frequency := 50 }]
      ∧ (recommend (KeywordRecommender.new (some minimalCorpus)) zhongguo 3).map (fun p => p.1)
          ≠ some [{ word := zhongguo, editDistance := 0, frequency := 100 },
                  { word := zhongyang, editDistance := 1, frequency := 50 },
                  { word := zhonggao, editDistance := 2, frequency := 30 }]
      ∧ (recommend (KeywordRecommender.new (some fullIndexCorpus)) zhongguo 3).map
            (fun p => p.1)
          ≠ some [{ word := zhongguo, editDistance := 0, frequency := 100 },
                  { word := zhongyang, editDistance := 1, frequency := 50 },
                  { word := zhonggao, editDistance := 2, frequency := 30 }] :=
  ⟨minimalCorpus_isMinimal, rfl, by decide, by decide, by decide, by decide, by decide⟩

/-- C5, amended. With the Chinese lexicon `中国 100`, `中央 50`, `忠告 30`, an index in
which 中 lists lines 1 and 2 and 国 lists line 1, and `max_edit_distance = 3`,
`recommend("中国", 3)` returns exactly `[(中国, 0, 100), (中央, 1, 50)]` in that order,
whatever right entries the caches hold. -/
theorem recommend_scenario (r : KeywordRecommender) (dm : DataReaderManager)
    (hcorpus : IsMinimalCorpus dm) (hW : WellCached r dm) (hm : r.maxEditDistance_ = 3) :
    (recommend r zhongguo 3).map (fun p => p.1)
      = some [{ word := zhongguo, editDistance := 0, frequency := 100 },
              { word := zhongyang, editDistance := 1, frequency := 50 }] := by
  rw [recommend_result_eq r dm hW zhongguo (by decide) 3, hm,
    scenario_uncached dm hcorpus.1 hcorpus.2.1 hcorpus.2.2 3]
  decide

theorem recommend_scenario_witness :
    IsMinimalCorpus fullIndexCorpus
      ∧ WellCached (KeywordRecommender.new (some fullIndexCorpus)) fullIndexCorpus
      ∧ (KeywordRecommender.new (some fullIndexCorpus)).maxEditDistance_ = 3
      ∧ (recommend (KeywordRecommender.new (some fullIndexCorpus)) zhongguo 3).map
            (fun p => p.1)
          = some [{ word := zhongguo, editDistance := 0, frequency := 100 },
                  { word := zhongyang, editDistance := 1, frequency := 50 }] :=
  ⟨fullIndexCorpus_isMinimal, WellCached_new fullIndexCorpus, rfl,
    recommend_scenario (KeywordRecommender.new (some fullIndexCorpus)) fullIndexCorpus
      fullIndexCorpus_isMinimal (WellCached_new fullIndexCorpus) rfl⟩

/-! ## Complete-message test -/

/-- The loop only ever appends to the list of messages. -/
theorem decodeLoop_extends (buffer : List Nat) :
    ∀ (fuel parsedBytes : Nat) (messages r : List TLVMessage) (n : Nat),
      decodeLoop fuel buffer parsedBytes messages = some (r, n) →
      ∃ t, r = messages ++ t := by
  intro fuel
  induction fuel with
  | zero => intro parsedBytes messages r n h; simp [decodeLoop] at h
  | succ fuel ih =>
    intro parsedBytes messages r n h
    rw [decodeLoop] at h
    split at h
    · dsimp only at h
      split at h
      · exact ih _ _ _ _ h
      · split at h
        · refine ⟨[], ?_⟩
          simp only [Option.some.injEq, Prod.mk.injEq] at h
          simp [h.1]
        · obtain ⟨t, ht⟩ := ih _ _ _ _ h
          rw [List.append_assoc] at ht
          exact ⟨_, ht⟩
    · refine ⟨[], ?_⟩
      simp only [Option.some.injEq, Prod.mk.injEq] at h
      simp [h.1]

/-- C11 as stated fails: a buffer of six bytes with an unrecognised type code and
length field 0 passes `hasCompleteMessage` although `decode` finds no message in it,
and a stray byte in front of an encoded frame makes `hasCompleteMessage` answer false
although `decode` returns the frame. -/
theorem hasCompleteMessage_decode_counterexample :
    (hasCompleteMessage [0xFF, 0xFF, 0, 0, 0, 0] = true
      ∧ decode [0xFF, 0xFF, 0, 0, 0, 0] = some ([], 1))
    ∧ (hasCompleteMessage (0xFF :: encode (TLVMessage.ofJson KEYWORD_RECOMMEND_REQUEST [0x7B, 0x7D]))
          = false
      ∧ decode (0xFF :: encode (TLVMessage.ofJson KEYWORD_RECOMMEND_REQUEST [0x7B, 0x7D]))
          = some ([TLVMessage.ofJson KEYWORD_RECOMMEND_REQUEST [0x7B, 0x7D]], 9)) := by
  decide

/-- C11, amended. For a buffer that is shorter than a header or whose first two bytes
hold a recognised type code, `hasCompleteMessage` answers true exactly when `decode`
returns a non-empty list of messages. -/
theorem hasCompleteMessage_iff_decode (buffer : List Nat)
    (h : buffer.length < sizeofTLVHeader ∨ isValidMessageType (ntohs buffer 0) = true) :
    hasCompleteMessage buffer = true ↔
      ∃ messages parsedBytes, decode buffer = some (messages, parsedBytes) ∧ messages ≠ [] := by
  by_cases hlen : buffer.length < sizeofTLVHeader
  · have h1 : hasCompleteMessage buffer = false := by simp [hasCompleteMessage, hlen]
    have h2 : decode buffer = some ([], 0) := by
      rw [decode, decodeLoop, if_neg (by omega)]
    rw [h1, h2]
    simp
  · have hv : isValidMessageType (ntohs buffer 0) = true := h.resolve_left hlen
    have hlen6 : 0 + sizeofTLVHeader ≤ buffer.length := by omega
    by_cases hc : buffer.length ≥ sizeofTLVHeader + ntohl buffer 2
    · have h1 : hasCompleteMessage buffer = true := by
        simp only [hasCompleteMessage, if_neg hlen]
        exact decide_eq_true hc
      have hsome := decode_isSome buffer
      obtain ⟨⟨r, n⟩, hr⟩ := Option.isSome_iff_exists.1 hsome
      have hr2 := hr
      rw [decode, decodeLoop, if_pos hlen6] at hr2
      simp only [readHeader, hv, Bool.not_true, Bool.false_eq_true, if_false, Nat.zero_add] at hr2
      rw [if_neg (by omega)] at hr2
      obtain ⟨t, ht⟩ := decodeLoop_extends _ _ _ _ _ _ hr2
      rw [h1]
      refine ⟨fun _ => ⟨r, n, hr, ?_⟩, fun _ => rfl⟩
      rw [ht]
      simp
    · have h1 : hasCompleteMessage buffer = false := by
        simp only [hasCompleteMessage, if_neg hlen]
        exact decide_eq_false hc
      have h2 : decode buffer = some ([], 0) := by
        rw [decode, decodeLoop, if_pos hlen6]
        simp only [readHeader, hv, Bool.not_true, Bool.false_eq_true, if_false, Nat.zero_add]
        rw [if_pos (by omega)]
      rw [h1, h2]
      simp

theorem hasCompleteMessage_iff_decode_witness :
    (([0, 1, 0, 0, 0, 2, 0x7B, 0x7D] : List Nat).length < sizeofTLVHeader
        ∨ isValidMessageType (ntohs [0, 1, 0, 0, 0, 2, 0x7B, 0x7D] 0) = true)
    ∧ (hasCompleteMessage [0, 1, 0, 0, 0, 2, 0x7B, 0x7D] = true ↔
      ∃ messages parsedBytes,
        decode [0, 1, 0, 0, 0, 2, 0x7B, 0x7D] = some (messages, parsedBytes) ∧ messages ≠ []) :=
  ⟨Or.inr (by decide), hasCompleteMessage_iff_decode _ (Or.inr (by decide))⟩

/-! ## LRU cache: size bound and eviction order -/

theorem eraseP_key_ne {κ ν : Type} [DecidableEq κ] (key : κ) :
    ∀ (l : List (κ × ν)), l.Pairwise (fun e e' => e.1 ≠ e'.1) →
      ∀ e ∈ l.eraseP (fun e => decide (e.1 = key)), e.1 ≠ key
  | [], _, e, he => by simp at he
  | a :: l, h, e, he => by
    rw [List.pairwise_cons] at h
    by_cases ha : a.1 = key
    · rw [List.eraseP_cons_of_pos (by simpa using ha)] at he
      exact fun hek => h.1 e he (ha.trans hek.symm)
    · rw [List.eraseP_cons_of_neg (by simpa using ha)] at he
      rcases List.mem_cons.1 he with rfl | he
      · exact ha
      · exact eraseP_key_ne key l h.2 e he

/-- Putting a freshly stamped key in front of a part of a recency-ordered list that does
not hold the key gives a recency-ordered list. -/
theorem recency_front {κ ν : Type} [DecidableEq κ] (lu : κ → Nat) (clock : Nat)
    (l l' : List (κ × ν)) (key : κ) (v : ν)
    (hp : l.Pairwise (fun e e' => lu e'.1 < lu e.1)) (hle : ∀ e ∈ l, lu e.1 ≤ clock)
    (hsub : l'.Sublist l) (hne : ∀ e ∈ l', e.1 ≠ key) :
    ((key, v) :: l').Pairwise (fun e e' =>
        (if e'.1 = key then clock + 1 else lu e'.1) < (if e.1 = key then clock + 1 else lu e.1))
      ∧ ∀ e ∈ (key, v) :: l', (if e.1 = key then clock + 1 else lu e.1) ≤ clock + 1 := by
  constructor
  · rw [List.pairwise_cons]
    constructor
    · intro e he
      have h1 := hle e (hsub.subset he)
      simp only [if_neg (hne e he), if_true]
      omega
    · refine (hp.sublist hsub).imp_of_mem ?_
      intro a b ha hb hab
      rw [if_neg (hne a ha), if_neg (hne b hb)]
      exact hab
  · intro e he
    rcases List.mem_cons.1 he with rfl | he
    · simp
    · have h1 := hle e (hsub.subset he)
      rw [if_neg (hne e he)]
      omega

theorem recency_keys_ne {κ ν : Type} (lu : κ → Nat) (l : List (κ × ν))
    (hp : l.Pairwise (fun e e' => lu e'.1 < lu e.1)) :
    l.Pairwise (fun e e' => e.1 ≠ e'.1) :=
  hp.imp (fun h heq => by rw [heq] at h; exact Nat.lt_irrefl _ h)

/-- Every call keeps the recency invariant and the capacity. -/
theorem recency_step {κ ν : Type} [DecidableEq κ] (t t' : CacheTrace κ ν) (op : CacheOp κ ν)
    (hr : Recency t) (hs : t.step op = some t') :
    Recency t' ∧ t'.cache.capacity_ = t.cache.capacity_ ∧ t'.clock = t.clock + 1 := by
  obtain ⟨hp, hle, hsz⟩ := hr
  have hnd := recency_keys_ne _ _ hp
  cases op with
  | get key =>
    simp only [CacheTrace.step, Option.some.injEq] at hs
    subst hs
    unfold LRUCache.get
    cases hf : t.cache.find key with
    | none =>
      refine ⟨⟨hp, fun e he => Nat.le_succ_of_le (hle e he), hsz⟩, rfl, rfl⟩
    | some node =>
      obtain ⟨hmem, hkey⟩ := lruCache_find_mem _ _ _ hf
      have hfr := recency_front t.lastUse t.clock t.cache.cacheList_
        (t.cache.cacheList_.eraseP (fun e => decide (e.1 = key))) key node.2 hp hle
        (List.eraseP_sublist _) (eraseP_key_ne key _ hnd)
      have hnode : node = (key, node.2) := by rw [← hkey]
      rw [← hnode] at hfr
      refine ⟨⟨hfr.1, hfr.2, ?_⟩, rfl, rfl⟩
      show (node :: t.cache.cacheList_.eraseP (fun e => decide (e.1 = key))).length ≤ t.cache.capacity_
      rw [List.length_cons, List.length_eraseP_of_mem hmem (by simpa using hkey)]
      have : 0 < t.cache.cacheList_.length := List.length_pos_of_mem hmem
      omega
  | put key value =>
    simp only [CacheTrace.step] at hs
    cases hput : t.cache.put key value with
    | none => rw [hput] at hs; simp at hs
    | some c' =>
      rw [hput] at hs
      simp only [Option.some.injEq] at hs
      subst hs
      unfold LRUCache.put at hput
      cases hf : t.cache.find key with
      | some node =>
        rw [hf] at hput
        simp only [Option.some.injEq] at hput
        subst hput
        obtain ⟨hmem, hkey⟩ := lruCache_find_mem _ _ _ hf
        have hfr := recency_front t.lastUse t.clock t.cache.cacheList_
          (t.cache.cacheList_.eraseP (fun e => decide (e.1 = key))) key value hp hle
          (List.eraseP_sublist _) (eraseP_key_ne key _ hnd)
        refine ⟨⟨hfr.1, hfr.2, ?_⟩, rfl, rfl⟩
        show ((key, value) :: t.cache.cacheList_.eraseP (fun e => decide (e.1 = key))).length ≤ t.cache.capacity_
        rw [List.length_cons, List.length_eraseP_of_mem hmem (by simpa using hkey)]
        have : 0 < t.cache.cacheList_.length := List.length_pos_of_mem hmem
        omega
      | none =>
        rw [hf] at hput
        have hne := lruCache_find_none _ _ hf
        simp only at hput
        split at hput
        · split at hput
          · simp at hput
          · simp only [Option.some.injEq] at hput
            subst hput
            have hfr := recency_front t.lastUse t.clock t.cache.cacheList_
              t.cache.cacheList_.dropLast key value hp hle
              (List.dropLast_sublist _) (fun e he => hne e (List.dropLast_subset _ he))
            refine ⟨⟨hfr.1, hfr.2, ?_⟩, rfl, rfl⟩
            show ((key, value) :: t.cache.cacheList_.dropLast).length ≤ t.cache.capacity_
            rename_i hemp
            have : t.cache.cacheList_ ≠ [] := by simpa using hemp
            have := List.length_pos.2 this
            rw [List.length_cons, List.length_dropLast]
            omega
        · simp only [Option.some.injEq] at hput
          subst hput
          have hfr := recency_front t.lastUse t.clock t.cache.cacheList_
            t.cache.cacheList_ key value hp hle (List.Sublist.refl _) hne
          refine ⟨⟨hfr.1, hfr.2, ?_⟩, rfl, rfl⟩
          show ((key, value) :: t.cache.cacheList_).length ≤ t.cache.capacity_
          rw [List.length_cons]
          omega
  | remove key =>
    simp only [CacheTrace.step, Option.some.injEq] at hs
    subst hs
    unfold LRUCache.remove
    cases hf : t.cache.find key with
    | none =>
      refine ⟨⟨hp, fun e he => Nat.le_succ_of_le (hle e he), hsz⟩, rfl, rfl⟩
    | some node =>
      refine ⟨⟨hp.sublist (List.eraseP_sublist _),
        fun e he => Nat.le_succ_of_le (hle e (List.mem_of_mem_eraseP he)), ?_⟩, rfl, rfl⟩
      exact le_trans (List.eraseP_sublist _).length_le hsz

/-- With a positive capacity every call is defined. -/
theorem cacheTrace_step_isSome {κ ν : Type} [DecidableEq κ] (t : CacheTrace κ ν)
    (op : CacheOp κ ν) (hcap : 0 < t.cache.capacity_) : ∃ t', t.step op = some t' := by
  cases op with
  | get key => exact ⟨_, rfl⟩
  | put key value =>
    obtain ⟨c', hc', _⟩ := lruCache_put_ok t.cache key value hcap
    simp only [CacheTrace.step, hc']
    exact ⟨_, rfl⟩
  | remove key => exact ⟨_, rfl⟩

/-- Every sequence of calls on a cache of positive capacity is defined and keeps the
recency invariant. -/
theorem recency_run {κ ν : Type} [DecidableEq κ] :
    ∀ (ops : List (CacheOp κ ν)) (t : CacheTrace κ ν), Recency t → 0 < t.cache.capacity_ →
      ∃ t', t.run ops = some t' ∧ Recency t' ∧ t'.cache.capacity_ = t.cache.capacity_
  | [], t, hr, _ => ⟨t, rfl, hr, rfl⟩
  | op :: ops, t, hr, hcap => by
    obtain ⟨t1, h1⟩ := cacheTrace_step_isSome t op hcap
    obtain ⟨hr1, hc1, _⟩ := recency_step t t1 op hr h1
    obtain ⟨t', h', hr', hc'⟩ := recency_run ops t1 hr1 (by omega)
    refine ⟨t', ?_, hr', by omega⟩
    simp only [CacheTrace.run, h1, h']

theorem recency_init {κ ν : Type} (capacity : Nat) :
    Recency (CacheTrace.init capacity : CacheTrace κ ν) := by
  refine ⟨List.Pairwise.nil, ?_, Nat.zero_le _⟩
  intro e he
  simp [CacheTrace.init, LRUCache.new] at he

/-- A `put` on a cache of positive capacity that holds at most `capacity_` entries is
defined and leaves at most `capacity_` entries. -/
theorem lruCache_put_size {κ ν : Type} [DecidableEq κ] (c : LRUCache κ ν) (key : κ) (value : ν)
    (hcap : 0 < c.capacity_) (hsz : c.size ≤ c.capacity_) :
    ∃ c', c.put key value = some c' ∧ c'.capacity_ = c.capacity_ ∧ c'.size ≤ c.capacity_ := by
  unfold LRUCache.size at *
  unfold LRUCache.put
  cases hf : c.find key with
  | some node =>
    obtain ⟨hmem, hkey⟩ := lruCache_find_mem _ _ _ hf
    refine ⟨_, rfl, rfl, ?_⟩
    show ((key, value) :: c.cacheList_.eraseP (fun e => decide (e.1 = key))).length ≤ c.capacity_
    rw [List.length_cons, List.length_eraseP_of_mem hmem (by simpa using hkey)]
    have : 0 < c.cacheList_.length := List.length_pos_of_mem hmem
    omega
  | none =>
    simp only
    split
    · rename_i hge
      have hpos : 0 < c.cacheList_.length := by omega
      rw [if_neg (by simpa using List.length_pos.1 hpos)]
      refine ⟨_, rfl, rfl, ?_⟩
      show ((key, value) :: c.cacheList_.dropLast).length ≤ c.capacity_
      rw [List.length_cons, List.length_dropLast]
      omega
    · refine ⟨_, rfl, rfl, ?_⟩
      show ((key, value) :: c.cacheList_).length ≤ c.capacity_
      rw [List.length_cons]
      omega

theorem lruCache_putAll_ok {κ ν : Type} [DecidableEq κ] :
    ∀ (kvs : List (κ × ν)) (c : LRUCache κ ν), 0 < c.capacity_ → c.size ≤ c.capacity_ →
      ∃ c', c.putAll kvs = some c' ∧ c'.capacity_ = c.capacity_ ∧ c'.size ≤ c.capacity_
  | [], c, _, hsz => ⟨c, rfl, rfl, hsz⟩
  | (key, value) :: rest, c, hcap, hsz => by
    obtain ⟨c1, h1, hc1, hs1⟩ := lruCache_put_size c key value hcap hsz
    obtain ⟨c', h', hc', hs'⟩ := lruCache_putAll_ok rest c1 (by omega) (by omega)
    refine ⟨c', ?_, by omega, by omega⟩
    simp only [LRUCache.putAll, h1, h']

/-- C12, the code at a failing input: on an empty cache of capacity 0 the first `put`
takes the eviction branch and reads the last node of an empty list, so no sequence of
puts that starts there has a defined result; for every capacity of at least 1 every
sequence of puts is defined and leaves at most `capacity` entries. -/
theorem lruCache_putAll_size :
    (LRUCache.new 0 : LRUCache Nat Nat).putAll [(1, 1)] = none
    ∧ ∀ (C : Nat) (kvs : List (Nat × Nat)), 1 ≤ C →
        ∃ c', (LRUCache.new C : LRUCache Nat Nat).putAll kvs = some c' ∧ c'.size ≤ C := by
  refine ⟨rfl, ?_⟩
  intro C kvs hC
  obtain ⟨c', h, _, hs⟩ := lruCache_putAll_ok kvs (LRUCache.new C : LRUCache Nat Nat) hC
    (Nat.zero_le _)
  exact ⟨c', h, hs⟩

/-- C13. In a full cache of capacity at least 1 reached by any calls of get, put and
remove, a `put` of an absent key drops exactly the entry whose last successful get or
put is the oldest, keeps the other entries with their values and order, and puts the
new entry in front as the most recently used one. -/
theorem lruCache_put_evicts_oldest {κ ν : Type} [DecidableEq κ] (C : Nat) (hC : 1 ≤ C)
    (ops : List (CacheOp κ ν)) (t : CacheTrace κ ν)
    (hrun : (CacheTrace.init C).run ops = some t) (hfull : t.cache.size = C)
    (k : κ) (v : ν) (hk : ∀ e ∈ t.cache.cacheList_, e.1 ≠ k) :
    ∃ victim rest t',
      t.cache.cacheList_ = rest ++ [victim]
      ∧ t.step (CacheOp.put k v) = some t'
      ∧ t'.cache.cacheList_ = (k, v) :: rest
      ∧ victim ∉ t'.cache.cacheList_
      ∧ (∀ e ∈ rest, t.lastUse victim.1 < t.lastUse e.1)
      ∧ (∀ e ∈ rest, t'.lastUse e.1 < t'.lastUse k) := by
  obtain ⟨t0, h0, hr, hcap⟩ := recency_run ops (CacheTrace.init C) (recency_init C) hC
  rw [hrun] at h0
  simp only [Option.some.injEq] at h0
  subst h0
  have hcapC : t.cache.capacity_ = C := hcap
  obtain ⟨hp, hle, _⟩ := hr
  unfold LRUCache.size at hfull
  have hne : t.cache.cacheList_ ≠ [] := by
    intro h
    rw [h] at hfull
    simp only [List.length_nil] at hfull
    omega
  have hsplit := (List.dropLast_append_getLast hne).symm
  have hp2 := hp
  rw [hsplit, List.pairwise_append] at hp2
  have hfind : t.cache.find k = none := by
    unfold LRUCache.find
    rw [List.find?_eq_none]
    intro e he
    simpa using hk e he
  have hput : t.cache.put k v
      = some { t.cache with cacheList_ := (k, v) :: t.cache.cacheList_.dropLast } := by
    unfold LRUCache.put
    rw [hfind]
    simp only
    rw [if_pos (by omega), if_neg (by simpa using hne)]
  refine ⟨t.cache.cacheList_.getLast hne, t.cache.cacheList_.dropLast,
    CacheTrace.mk { t.cache with cacheList_ := (k, v) :: t.cache.cacheList_.dropLast }
      (t.clock + 1) (fun k' => if k' = k then t.clock + 1 else t.lastUse k'),
    hsplit, ?_, rfl, ?_, ?_, ?_⟩
  · simp only [CacheTrace.step, hput]
  · have hvk : (t.cache.cacheList_.getLast hne).1 ≠ k := hk _ (List.getLast_mem hne)
    have hnd := recency_keys_ne _ _ hp
    rw [hsplit, List.pairwise_append] at hnd
    intro hmem
    rcases List.mem_cons.1 hmem with h | h
    · exact hvk (by rw [h])
    · exact hnd.2.2 _ h _ (List.mem_singleton_self _) rfl
  · intro e he
    exact hp2.2.2 e he _ (List.mem_singleton_self _)
  · intro e he
    have h1 := hle e (List.dropLast_subset _ he)
    have h2 := hk e (List.dropLast_subset _ he)
    show (if e.1 = k then t.clock + 1 else t.lastUse e.1) < (if k = k then t.clock + 1 else _)
    rw [if_neg h2, if_pos rfl]
    omega

theorem lruCache_put_evicts_oldest_witness :
    1 ≤ 2
    ∧ (CacheTrace.init 2).run [CacheOp.put 'a' 1, CacheOp.put 'b' 2, CacheOp.get 'a']
        = some lruExample
    ∧ lruExample.cache.size = 2
    ∧ (∀ e ∈ lruExample.cache.cacheList_, e.1 ≠ 'c')
    ∧ (∃ victim rest t',
        lruExample.cache.cacheList_ = rest ++ [victim]
        ∧ lruExample.step (CacheOp.put 'c' 3) = some t'
        ∧ t'.cache.cacheList_ = ('c', 3) :: rest
        ∧ victim ∉ t'.cache.cacheList_
        ∧ (∀ e ∈ rest, lruExample.lastUse victim.1 < lruExample.lastUse e.1)
        ∧ (∀ e ∈ rest, t'.lastUse e.1 < t'.lastUse 'c'))
    ∧ ((CacheTrace.init 2).run
          [CacheOp.put 'a' 1, CacheOp.put 'b' 2, CacheOp.get 'a', CacheOp.put 'c' 3]).map
        (fun t => t.cache.cacheList_) = some [('c', 3), ('a', 1)] :=
  ⟨by decide, rfl, rfl, by decide,
    lruCache_put_evicts_oldest 2 (by decide)
      [CacheOp.put 'a' 1, CacheOp.put 'b' 2, CacheOp.get 'a'] lruExample (by rfl) (by rfl) 'c' 3
      (by decide), rfl⟩

/-! ## Near-duplicate elimination -/

theorem umapFind_nil {κ ν : Type} [DecidableEq κ] (key : κ) :
    umapFind ([] : List (κ × ν)) key = none := rfl

theorem umapFind_cons {κ ν : Type} [DecidableEq κ] (e : κ × ν) (m : List (κ × ν)) (key : κ) :
    umapFind (e :: m) key = if e.1 = key then some e.2 else umapFind m key := by
  unfold umapFind
  by_cases h : e.1 = key
  · simp [List.find?_cons, h]
  · simp [List.find?_cons, h]

theorem umapFind_some_mem {κ ν : Type} [DecidableEq κ] (m : List (κ × ν)) (key : κ) (v : ν)
    (h : umapFind m key = some v) : (key, v) ∈ m := by
  induction m with
  | nil => simp [umapFind_nil] at h
  | cons e m ih =>
    rw [umapFind_cons] at h
    by_cases he : e.1 = key
    · rw [if_pos he] at h
      simp only [Option.some.injEq] at h
      have : e = (key, v) := by rw [← he, ← h]
      rw [this]
      exact List.mem_cons_self _ _
    · rw [if_neg he] at h
      exact List.mem_cons_of_mem _ (ih h)

theorem umapFind_none_iff {κ ν : Type} [DecidableEq κ] (m : List (κ × ν)) (key : κ) :
    umapFind m key = none ↔ key ∉ m.map (fun e => e.1) := by
  induction m with
  | nil => simp [umapFind_nil]
  | cons e m ih =>
    rw [umapFind_cons]
    by_cases he : e.1 = key
    · simp [he]
    · rw [if_neg he, ih]
      simp only [List.map_cons, List.mem_cons, not_or]
      exact ⟨fun h => ⟨fun h2 => he h2.symm, h⟩, fun h => h.2⟩

theorem umapFind_of_mem_nodup {κ ν : Type} [DecidableEq κ] (m : List (κ × ν)) (key : κ) (v : ν)
    (hnd : (m.map (fun e => e.1)).Nodup) (h : (key, v) ∈ m) : umapFind m key = some v := by
  induction m with
  | nil => simp at h
  | cons e m ih =>
    rw [umapFind_cons]
    rw [List.map_cons, List.nodup_cons] at hnd
    rcases List.mem_cons.1 h with h | h
    · rw [← h]
      simp
    · have hne : e.1 ≠ key := by
        intro he
        apply hnd.1
        rw [he]
        exact List.mem_map.2 ⟨(key, v), h, rfl⟩
      rw [if_neg hne]
      exact ih hnd.2 h

theorem umapAssign_cons {κ ν : Type} [DecidableEq κ] (e : κ × ν) (m : List (κ × ν)) (key : κ)
    (value : ν) :
    umapAssign (e :: m) key value
      = if e.1 = key then (key, value) :: m.map (fun e => if e.1 = key then (key, value) else e)
        else e :: umapAssign m key value := by
  unfold umapAssign
  by_cases he : e.1 = key
  · simp [he]
  · by_cases ha : m.any (fun e => decide (e.1 = key)) = true
    · simp [he, ha]
    · simp only [Bool.not_eq_true] at ha
      simp [he, ha]

theorem umapFind_map_assign {κ ν : Type} [DecidableEq κ] (m : List (κ × ν)) (key key' : κ)
    (value : ν) (hne : key' ≠ key) :
    umapFind (m.map (fun e => if e.1 = key then (key, value) else e)) key'
      = umapFind m key' := by
  induction m with
  | nil => rfl
  | cons e m ih =>
    rw [List.map_cons, umapFind_cons, umapFind_cons, ih]
    by_cases he : e.1 = key
    · rw [if_pos he]
      simp only
      rw [if_neg (fun h => hne h.symm), if_neg (fun h => hne (by rw [← h, he]))]
    · rw [if_neg he]

/-- Reading after writing: the written key has the new value, the others are unchanged. -/
theorem umapFind_umapAssign {κ ν : Type} [DecidableEq κ] (m : List (κ × ν)) (key key' : κ)
    (value : ν) :
    umapFind (umapAssign m key value) key'
      = if key' = key then some value else umapFind m key' := by
  induction m with
  | nil =>
    unfold umapAssign
    simp only [List.any_nil, Bool.false_eq_true, if_false, List.nil_append]
    rw [umapFind_cons, umapFind_nil]
    by_cases h : key' = key
    · simp [h]
    · rw [if_neg h, if_neg (fun h2 => h h2.symm)]
  | cons e m ih =>
    rw [umapAssign_cons]
    by_cases he : e.1 = key
    · rw [if_pos he, umapFind_cons]
      simp only
      by_cases h : key' = key
      · simp [h]
      · rw [if_neg (fun h2 => h h2.symm), if_neg h, umapFind_map_assign _ _ _ _ h,
          umapFind_cons, if_neg (fun h2 => h (by rw [← h2, he]))]
    · rw [if_neg he, umapFind_cons, ih, umapFind_cons]
      by_cases h : key' = key
      · rw [if_pos h, if_neg (fun h2 => he (by rw [h2, h])), if_pos h]
      · rw [if_neg h, if_neg h]

/-- The keys after an assignment: the old keys, and the new key behind them if it was
not there. -/
theorem umapAssign_keys {κ ν : Type} [DecidableEq κ] (m : List (κ × ν)) (key : κ) (value : ν) :
    (umapAssign m key value).map (fun e => e.1)
      = if key ∈ m.map (fun e => e.1) then m.map (fun e => e.1)
        else m.map (fun e => e.1) ++ [key] := by
  unfold umapAssign
  by_cases h : key ∈ m.map (fun e => e.1)
  · have ha : m.any (fun e => decide (e.1 = key)) = true := by
      rw [List.any_eq_true]
      obtain ⟨e, he, hk⟩ := List.mem_map.1 h
      exact ⟨e, he, by simpa using hk⟩
    rw [if_pos ha, if_pos h, List.map_map]
    apply List.map_congr_left
    intro e _
    by_cases he : e.1 = key
    · simp [he]
    · simp [he]
  · have ha : ¬ m.any (fun e => decide (e.1 = key)) = true := by
      rw [List.any_eq_true]
      rintro ⟨e, he, hk⟩
      exact h (List.mem_map.2 ⟨e, he, by simpa using hk⟩)
    rw [if_neg ha, if_neg h]
    simp

theorem umapAssign_nodup {κ ν : Type} [DecidableEq κ] (m : List (κ × ν)) (key : κ) (value : ν)
    (h : (m.map (fun e => e.1)).Nodup) : ((umapAssign m key value).map (fun e => e.1)).Nodup := by
  rw [umapAssign_keys]
  split
  · exact h
  · rename_i hk
    exact List.Nodup.append h (List.nodup_singleton _) (by simpa using hk)

/-- An entry after an assignment is the assigned one or an old entry of another key. -/
theorem umapAssign_mem {κ ν : Type} [DecidableEq κ] (m : List (κ × ν)) (key : κ) (value : ν)
    (e : κ × ν) (h : e ∈ umapAssign m key value) :
    e = (key, value) ∨ (e ∈ m ∧ e.1 ≠ key) := by
  unfold umapAssign at h
  split at h
  · obtain ⟨e0, he0, heq⟩ := List.mem_map.1 h
    by_cases hk : e0.1 = key
    · rw [if_pos hk] at heq
      exact Or.inl heq.symm
    · rw [if_neg hk] at heq
      rw [← heq]
      exact Or.inr ⟨he0, hk⟩
  · rename_i ha
    rcases List.mem_append.1 h with h | h
    · refine Or.inr ⟨h, ?_⟩
      intro hk
      apply ha
      rw [List.any_eq_true]
      exact ⟨e, h, by simpa using hk⟩
    · exact Or.inl (List.mem_singleton.1 h)

theorem usetInsert_nodup {κ : Type} [DecidableEq κ] (s : List κ) (x : κ) (h : s.Nodup) :
    (usetInsert s x).Nodup := by
  unfold usetInsert
  split
  · exact h
  · rename_i hx
    exact List.Nodup.append h (List.nodup_singleton _) (by simpa using hx)

theorem usetInsert_mem {κ : Type} [DecidableEq κ] (s : List κ) (x y : κ) :
    y ∈ usetInsert s x ↔ y = x ∨ y ∈ s := by
  unfold usetInsert
  split
  · rename_i hx
    constructor
    · exact fun h => Or.inr h
    · rintro (h | h)
      · rw [h]; exact hx
      · exact h
  · simp only [List.mem_append, List.mem_singleton]
    exact Or.comm

/-! ## Byte order and code point order of UTF-8 strings -/

theorem utf8Checked_some (cp length : Nat) (rest : List Nat) (cp' : Nat) (rest' : List Nat)
    (h : utf8Checked cp length rest = some (cp', rest')) :
    cp' = cp ∧ rest' = rest ∧ utf8IsOverlongSequence cp length = false := by
  unfold utf8Checked at h
  split at h
  · rename_i hc
    simp only [Option.some.injEq, Prod.mk.injEq] at h
    simp only [Bool.and_eq_true, Bool.not_eq_true'] at hc
    exact ⟨h.1.symm, h.2.symm, hc.2⟩
  · simp at h

/-- The shapes of a character that `utf8::next` accepts: its bytes, their ranges and the
code point as a number. -/
theorem utf8Next_cases (input : List Nat) (cp : Nat) (rest : List Nat)
    (h : utf8Next input = some (cp, rest)) :
    (∃ l, input = l :: rest ∧ l < 128 ∧ cp = l)
    ∨ (∃ l b1, input = l :: b1 :: rest ∧ 192 ≤ l ∧ l < 224 ∧ 128 ≤ b1 ∧ b1 < 192
        ∧ cp = (l - 192) * 64 + (b1 - 128) ∧ 128 ≤ cp)
    ∨ (∃ l b1 b2, input = l :: b1 :: b2 :: rest ∧ 224 ≤ l ∧ l < 240 ∧ 128 ≤ b1 ∧ b1 < 192
        ∧ 128 ≤ b2 ∧ b2 < 192
        ∧ cp = (l - 224) * 4096 + (b1 - 128) * 64 + (b2 - 128) ∧ 2048 ≤ cp)
    ∨ (∃ l b1 b2 b3, input = l :: b1 :: b2 :: b3 :: rest ∧ 240 ≤ l ∧ l < 248
        ∧ 128 ≤ b1 ∧ b1 < 192 ∧ 128 ≤ b2 ∧ b2 < 192 ∧ 128 ≤ b3 ∧ b3 < 192
        ∧ cp = (l - 240) * 262144 + (b1 - 128) * 4096 + (b2 - 128) * 64 + (b3 - 128)
        ∧ 65536 ≤ cp) := by
  unfold utf8Next at h
  split at h
  · simp at h
  · rename_i lead tail
    have hlen : utf8SequenceLength lead = 1 ∧ lead < 128
        ∨ utf8SequenceLength lead = 2 ∧ 192 ≤ lead ∧ lead < 224
        ∨ utf8SequenceLength lead = 3 ∧ 224 ≤ lead ∧ lead < 240
        ∨ utf8SequenceLength lead = 4 ∧ 240 ≤ lead ∧ lead < 248
        ∨ utf8SequenceLength lead = 0 := by
      unfold utf8SequenceLength
      simp only [Nat.reducePow]
      split
      · left; exact ⟨rfl, by assumption⟩
      · split
        · right; left; exact ⟨rfl, by omega, by omega⟩
        · split
          · right; right; left; exact ⟨rfl, by omega, by omega⟩
          · split
            · right; right; right; left; exact ⟨rfl, by omega, by omega⟩
            · right; right; right; right; rfl
    rcases hlen with ⟨h1, hb⟩ | ⟨h2, hb1, hb2⟩ | ⟨h3, hb1, hb2⟩ | ⟨h4, hb1, hb2⟩ | h0
    · rw [h1] at h
      simp only at h
      obtain ⟨hcp, hrest, _⟩ := utf8Checked_some _ _ _ _ _ h
      left
      exact ⟨lead, by rw [hrest], hb, hcp⟩
    · rw [h2] at h
      simp only at h
      split at h
      · rename_i b1 rest1
        split at h
        · rename_i ht
          obtain ⟨hcp, hrest, hov⟩ := utf8Checked_some _ _ _ _ _ h
          unfold utf8IsTrail at ht
          simp only [Nat.reducePow, beq_iff_eq] at ht
          unfold utf8IsOverlongSequence at hov
          simp only [Nat.reducePow] at hov hcp
          right; left
          refine ⟨lead, b1, by rw [hrest], hb1, hb2, by omega, by omega, by omega, ?_⟩
          by_contra hlt
          rw [if_pos (by omega)] at hov
          simp at hov
        · simp at h
      · simp at h
    · rw [h3] at h
      simp only at h
      split at h
      · rename_i b1 b2 rest2
        split at h
        · rename_i ht
          obtain ⟨hcp, hrest, hov⟩ := utf8Checked_some _ _ _ _ _ h
          unfold utf8IsTrail at ht
          simp only [Nat.reducePow, beq_iff_eq, Bool.and_eq_true] at ht
          unfold utf8IsOverlongSequence at hov
          simp only [Nat.reducePow] at hov hcp
          right; right; left
          refine ⟨lead, b1, b2, by rw [hrest], hb1, hb2, by omega, by omega, by omega, by omega,
            by omega, ?_⟩
          by_contra hlt
          by_cases h80 : lead * 4096 % 65536 + b1 * 64 % 4096 + b2 % 64 < 128
          · rw [if_pos h80] at hov
            simp at hov
          · rw [if_neg h80, if_pos (by omega)] at hov
            simp at hov
        · simp at h
      · simp at h
    · rw [h4] at h
      simp only at h
      split at h
      · rename_i b1 b2 b3 rest3
        split at h
        · rename_i ht
          obtain ⟨hcp, hrest, hov⟩ := utf8Checked_some _ _ _ _ _ h
          unfold utf8IsTrail at ht
          simp only [Nat.reducePow, beq_iff_eq, Bool.and_eq_true] at ht
          unfold utf8IsOverlongSequence at hov
          simp only [Nat.reducePow] at hov hcp
          right; right; right
          refine ⟨lead, b1, b2, b3, by rw [hrest], hb1, hb2, by omega, by omega, by omega,
            by omega, by omega, by omega, by omega, ?_⟩
          by_contra hlt
          by_cases h80 : lead * 262144 % 2097152 + b1 * 4096 % 262144 + b2 * 64 % 4096
              + b3 % 64 < 128
          · rw [if_pos h80] at hov
            simp at hov
          · rw [if_neg h80] at hov
            by_cases h800 : lead * 262144 % 2097152 + b1 * 4096 % 262144 + b2 * 64 % 4096
                + b3 % 64 < 2048
            · rw [if_pos h800] at hov
              simp at hov
            · rw [if_neg h800, if_pos (by omega)] at hov
              simp at hov
        · simp at h
      · simp at h
    · rw [h0] at h
      simp at h

theorem stringLt_cons_cons (x y : Nat) (xs ys : List Nat) :
    stringLt (x :: xs) (y :: ys)
      = if x < y then true else if y < x then false else stringLt xs ys := rfl

set_option maxHeartbeats 4000000 in
/-- Comparing two strings that start with a valid character by bytes is comparing the
two code points first and the rests after. -/
theorem stringLt_utf8Next (a b : List Nat) (cpa cpb : Nat) (ra rb : List Nat)
    (ha : utf8Next a = some (cpa, ra)) (hb : utf8Next b = some (cpb, rb)) :
    stringLt a b = if cpa < cpb then true else if cpb < cpa then false else stringLt ra rb := by
  rcases utf8Next_cases a cpa ra ha with
    ⟨l, rfl, h1, ca⟩ | ⟨l, a1, rfl, h1, h2, h3, h4, ca, h5⟩
    | ⟨l, a1, a2, rfl, h1, h2, h3, h4, h5, h6, ca, h7⟩
    | ⟨l, a1, a2, a3, rfl, h1, h2, h3, h4, h5, h6, h7, h8, ca, h9⟩ <;>
  rcases utf8Next_cases b cpb rb hb with
    ⟨m, rfl, g1, cb⟩ | ⟨m, b1, rfl, g1, g2, g3, g4, cb, g5⟩
    | ⟨m, b1, b2, rfl, g1, g2, g3, g4, g5, g6, cb, g7⟩
    | ⟨m, b1, b2, b3, rfl, g1, g2, g3, g4, g5, g6, g7, g8, cb, g9⟩ <;>
  simp only [stringLt_cons_cons] <;>
  split_ifs <;>
  first
    | rfl
    | omega

/-- For valid UTF-8 strings the order of the bytes is the order of the code points. -/
theorem stringLt_codePointsLoop :
    ∀ (fuel1 fuel2 : Nat) (s t cs ct : List Nat),
      utf8CodePointsLoop fuel1 s = some cs → utf8CodePointsLoop fuel2 t = some ct →
      stringLt s t = stringLt cs ct := by
  intro fuel1
  induction fuel1 with
  | zero => intro fuel2 s t cs ct h; simp [utf8CodePointsLoop] at h
  | succ fuel1 ih =>
    intro fuel2 s t cs ct hs ht
    cases fuel2 with
    | zero => simp [utf8CodePointsLoop] at ht
    | succ fuel2 =>
      rw [utf8CodePointsLoop] at hs ht
      by_cases hs0 : s = []
      · rw [if_pos hs0] at hs
        simp only [Option.some.injEq] at hs
        subst hs
        subst hs0
        by_cases ht0 : t = []
        · rw [if_pos ht0] at ht
          simp only [Option.some.injEq] at ht
          subst ht
          subst ht0
          rfl
        · rw [if_neg ht0] at ht
          cases hn : utf8Next t with
          | none => rw [hn] at ht; simp at ht
          | some p =>
            obtain ⟨cpb, rb⟩ := p
            rw [hn] at ht
            simp only at ht
            cases hr : utf8CodePointsLoop fuel2 rb with
            | none => rw [hr] at ht; simp at ht
            | some ct' =>
              rw [hr] at ht
              simp only [Option.some.injEq] at ht
              subst ht
              cases t with
              | nil => exact absurd rfl ht0
              | cons x xs => simp [stringLt]
      · rw [if_neg hs0] at hs
        cases hna : utf8Next s with
        | none => rw [hna] at hs; simp at hs
        | some p =>
          obtain ⟨cpa, ra⟩ := p
          rw [hna] at hs
          simp only at hs
          cases hra : utf8CodePointsLoop fuel1 ra with
          | none => rw [hra] at hs; simp at hs
          | some cs' =>
            rw [hra] at hs
            simp only [Option.some.injEq] at hs
            subst hs
            by_cases ht0 : t = []
            · rw [if_pos ht0] at ht
              simp only [Option.some.injEq] at ht
              subst ht
              subst ht0
              cases s with
              | nil => exact absurd rfl hs0
              | cons x xs => simp [stringLt]
            · rw [if_neg ht0] at ht
              cases hn : utf8Next t with
              | none => rw [hn] at ht; simp at ht
              | some p =>
                obtain ⟨cpb, rb⟩ := p
                rw [hn] at ht
                simp only at ht
                cases hr : utf8CodePointsLoop fuel2 rb with
                | none => rw [hr] at ht; simp at ht
                | some ct' =>
                  rw [hr] at ht
                  simp only [Option.some.injEq] at ht
                  subst ht
                  rw [stringLt_utf8Next s t cpa cpb ra rb hna hn, ih fuel2 ra rb cs' ct' hra hr]
                  simp only [stringLt]

/-- The byte-wise order of `std::string` agrees with the order of the code points on valid
UTF-8 strings. -/
theorem stringLt_codePoints (s t cs ct : List Nat) (hs : utf8CodePoints s = some cs)
    (ht : utf8CodePoints t = some ct) : stringLt s t = stringLt cs ct :=
  stringLt_codePointsLoop _ _ s t cs ct hs ht

/-! ## Sorting with `std::sort` -/

theorem stdSortBy_perm {β : Type} (lt : β → β → Bool) (l : List β) :
    (stdSortBy lt l).Perm l :=
  List.perm_insertionSort _ l

/-- When the order is the strict order of a key in a linear order, the output of
`std::sort` is ascending in the key. -/
theorem stdSortBy_sorted_key {β K : Type} [LinearOrder K] (lt : β → β → Bool) (key : β → K)
    (hlt : ∀ a b, lt a b = true ↔ key a < key b) (l : List β) :
    (stdSortBy lt l).Pairwise (fun a b => key a ≤ key b) := by
  have hr : ∀ a b, lt b a = false ↔ key a ≤ key b := by
    intro a b
    rw [← not_lt, ← hlt, Bool.not_eq_true]
  haveI : IsTotal β (fun a b => lt b a = false) :=
    ⟨fun a b => by rw [hr, hr]; exact le_total _ _⟩
  haveI : IsTrans β (fun a b => lt b a = false) :=
    ⟨fun a b c => by rw [hr, hr, hr]; exact le_trans⟩
  have := List.sorted_insertionSort (fun a b => lt b a = false) l
  exact List.Pairwise.imp (fun h => (hr _ _).1 h) this

/-- On a list without two elements of the same key the output is strictly ascending. -/
theorem stdSortBy_strict {β K : Type} [LinearOrder K] (lt : β → β → Bool) (key : β → K)
    (hlt : ∀ a b, lt a b = true ↔ key a < key b) (l : List β) (hnd : (l.map key).Nodup) :
    (stdSortBy lt l).Pairwise (fun a b => key a < key b) := by
  have h1 := stdSortBy_sorted_key lt key hlt l
  have h2 : (stdSortBy lt l).Pairwise (fun a b => key a ≠ key b) := by
    have hp := (stdSortBy_perm lt l).map key
    have := (List.Perm.nodup_iff hp).2 hnd
    exact List.pairwise_map.1 this
  exact (h1.and h2).imp (fun h => lt_of_le_of_ne h.1 h.2)

/-- The output of `std::sort` on strings is strictly ascending in the byte order when no
string occurs twice. -/
theorem stdSortBy_stringLt (l : List (List Nat)) (hnd : l.Nodup) :
    (stdSortBy stringLt l).Pairwise (fun a b => stringLt a b = true) := by
  haveI : IsTotal (List Nat) (fun a b => stringLt b a = false) :=
    ⟨fun a b => by
      cases h : stringLt b a with
      | false => exact Or.inl rfl
      | true => exact Or.inr (stringLt_asymm b a h)⟩
  haveI : IsTrans (List Nat) (fun a b => stringLt b a = false) :=
    ⟨fun a b c h1 h2 => by
      rcases stringLt_total a b h1 with h1 | h1
      · rcases stringLt_total b c h2 with h2 | h2
        · exact stringLt_asymm a c (stringLt_trans a b c h1 h2)
        · rw [← h2]; exact stringLt_asymm a b h1
      · rw [h1]; exact h2⟩
  have h1 := List.sorted_insertionSort (fun a b => stringLt b a = false) l
  have h2 : (stdSortBy stringLt l).Pairwise (fun a b => a ≠ b) :=
    (List.Perm.nodup_iff (stdSortBy_perm stringLt l)).2 hnd
  refine (List.Pairwise.and h1 h2).imp ?_
  intro a b h
  rcases stringLt_total a b h.1 with h3 | h3
  · exact h3
  · exact absurd h3 h.2

theorem pairLt_iff {α : Type} [LinearOrder α] (a b : Int × α) :
    pairLt a b = true ↔ toLex a < toLex b := by
  unfold pairLt
  rw [Prod.Lex.lt_iff]
  simp only [Bool.or_eq_true, decide_eq_true_eq, Bool.and_eq_true, Bool.not_eq_true',
    decide_eq_false_iff_not, not_lt]
  constructor
  · rintro (h | ⟨h1, h2⟩)
    · exact Or.inl h
    · rcases lt_or_eq_of_le h1 with h3 | h3
      · exact Or.inl h3
      · exact Or.inr ⟨h3, h2⟩
  · rintro (h | ⟨h1, h2⟩)
    · exact Or.inl h
    · exact Or.inr ⟨le_of_eq h1, h2⟩

/-- The postings of a line are written by ascending docid when no docid occurs twice. -/
theorem writtenPostings_sorted {α : Type} [LinearOrderedField α] (docWeights : List (Int × α))
    (hnd : (docWeights.map (fun dw => dw.1)).Nodup) :
    (writtenPostings docWeights).Pairwise (fun p q => p.1 < q.1) := by
  unfold writtenPostings
  apply List.Pairwise.sublist (List.filter_sublist _)
  have h1 := stdSortBy_sorted_key pairLt (fun p : Int × α => toLex p) pairLt_iff docWeights
  have h2 : (stdSortBy pairLt docWeights).Pairwise (fun a b => a.1 ≠ b.1) := by
    have hp := (stdSortBy_perm pairLt docWeights).map (fun dw => dw.1)
    exact List.pairwise_map.1 ((List.Perm.nodup_iff hp).2 hnd)
  refine (List.Pairwise.and h1 h2).imp ?_
  intro a b h
  rcases (Prod.Lex.le_iff a b).1 h.1 with h3 | h3
  · exact h3
  · exact absurd h3.1 h.2

theorem writtenPostings_mem {α : Type} [LinearOrderedField α] (docWeights : List (Int × α))
    (p : Int × α) : p ∈ writtenPostings docWeights ↔ p ∈ docWeights ∧ 0 < p.2 := by
  unfold writtenPostings
  rw [List.mem_filter, (stdSortBy_perm pairLt docWeights).mem_iff]
  simp

/-- C19. The lines of the inverted index file come in strictly ascending order of the
code points of their terms, which for valid UTF-8 terms is the byte order that
`std::sort` uses, and the docids of each line are strictly increasing. -/
theorem generateInvertedIndexFile_sorted {α : Type} [LinearOrderedField α]
    (tfidfWeights : List (List Nat × List (Int × α))) (hkeys : KeysDistinct tfidfWeights)
    (hvalid : ∀ e ∈ tfidfWeights, ∃ cs, utf8CodePoints e.1 = some cs) :
    (generateInvertedIndexFile tfidfWeights).Pairwise
        (fun line1 line2 => ∃ cs1 cs2, utf8CodePoints line1.1 = some cs1
          ∧ utf8CodePoints line2.1 = some cs2 ∧ stringLt cs1 cs2 = true)
      ∧ ∀ line ∈ generateInvertedIndexFile tfidfWeights,
          line.2.Pairwise (fun p q => p.1 < q.1) := by
  unfold generateInvertedIndexFile
  constructor
  · simp only
    rw [List.pairwise_map]
    have hs := stdSortBy_stringLt _ hkeys.1
    have hm : ∀ t ∈ stdSortBy stringLt (tfidfWeights.map (fun e => e.1)),
        ∃ cs, utf8CodePoints t = some cs := by
      intro t ht
      rw [(stdSortBy_perm stringLt _).mem_iff] at ht
      obtain ⟨e, he, rfl⟩ := List.mem_map.1 ht
      exact hvalid e he
    refine hs.imp_of_mem ?_
    intro a b ha hb hab
    obtain ⟨ca, hca⟩ := hm a ha
    obtain ⟨cb, hcb⟩ := hm b hb
    refine ⟨ca, cb, hca, hcb, ?_⟩
    rw [← stringLt_codePoints a b ca cb hca hcb]
    exact hab
  · intro line hline
    simp only [List.mem_map] at hline
    obtain ⟨term, hterm, rfl⟩ := hline
    apply writtenPostings_sorted
    cases hf : umapFind tfidfWeights term with
    | none => simp
    | some docWeights =>
      have := umapFind_some_mem _ _ _ hf
      exact hkeys.2 _ this

theorem generateInvertedIndexFile_sorted_witness :
    KeysDistinct sampleWeights
    ∧ (∀ e ∈ sampleWeights, ∃ cs, utf8CodePoints e.1 = some cs)
    ∧ (generateInvertedIndexFile sampleWeights).Pairwise
        (fun line1 line2 => ∃ cs1 cs2, utf8CodePoints line1.1 = some cs1
          ∧ utf8CodePoints line2.1 = some cs2 ∧ stringLt cs1 cs2 = true)
    ∧ (∀ line ∈ generateInvertedIndexFile sampleWeights,
          line.2.Pairwise (fun p q => p.1 < q.1)) :=
  have h1 : KeysDistinct sampleWeights := ⟨by decide, by decide⟩
  have h3 : ∀ e ∈ sampleWeights, ∃ cs, utf8CodePoints e.1 = some cs := by
    intro e he
    simp only [sampleWeights, List.mem_cons, List.mem_singleton, List.not_mem_nil,
      or_false] at he
    rcases he with rfl | rfl
    · exact ⟨[0x4EAC], by decide⟩
    · exact ⟨[0x4E2D], by decide⟩
  ⟨h1, h3, generateInvertedIndexFile_sorted sampleWeights h1 h3⟩

/-! ## The tables of the index builder -/

theorem umapFind_getD_ge {κ : Type} [DecidableEq κ] (m : List (κ × Int)) (key : κ)
    (h : ∀ e ∈ m, 1 ≤ e.2) : 0 ≤ (umapFind m key).getD 0 := by
  cases hf : umapFind m key with
  | none => simp
  | some v =>
    have := h _ (umapFind_some_mem m key v hf)
    simp only [Option.getD_some]
    omega

theorem incrementCount_ok (counts : List (List Nat × Int)) (word : List Nat)
    (h : ∀ e ∈ counts, 1 ≤ e.2) :
    (∀ e ∈ incrementCount counts word, 1 ≤ e.2)
      ∧ ∀ key, (umapFind counts key).isSome = true ∨ key = word →
          (umapFind (incrementCount counts word) key).isSome = true := by
  unfold incrementCount
  constructor
  · intro e he
    rcases umapAssign_mem _ _ _ _ he with h1 | h1
    · have := umapFind_getD_ge counts word h
      rw [h1]
      simp only
      omega
    · exact h e h1.1
  · intro key hk
    rw [umapFind_umapAssign]
    by_cases h1 : key = word
    · rw [if_pos h1]; rfl
    · rw [if_neg h1]
      exact hk.resolve_right h1

theorem incrementTermFrequency_ok (termFrequency : List (List Nat × List (Int × Int)))
    (word : List Nat) (docid : Int) (h : ∀ e ∈ termFrequency, ∀ dc ∈ e.2, 1 ≤ dc.2) :
    (∀ e ∈ incrementTermFrequency termFrequency word docid, ∀ dc ∈ e.2, 1 ≤ dc.2)
      ∧ ∀ e ∈ incrementTermFrequency termFrequency word docid,
          e.1 = word ∨ e ∈ termFrequency := by
  unfold incrementTermFrequency
  simp only
  have hinner : ∀ dc ∈ (umapFind termFrequency word).getD [], 1 ≤ dc.2 := by
    cases hf : umapFind termFrequency word with
    | none => simp
    | some inner =>
      simp only [Option.getD_some]
      exact h _ (umapFind_some_mem _ _ _ hf)
  constructor
  · intro e he dc hdc
    rcases umapAssign_mem _ _ _ _ he with h1 | h1
    · rw [h1] at hdc
      simp only at hdc
      rcases umapAssign_mem _ _ _ _ hdc with h2 | h2
      · have := umapFind_getD_ge _ docid hinner
        rw [h2]
        simp only
        omega
      · exact hinner dc h2.1
    · exact h e h1.1 dc hdc
  · intro e he
    rcases umapAssign_mem _ _ _ _ he with h1 | h1
    · left; rw [h1]
    · right; exact h1.1

/-- One word keeps the tables in order; the words seen in the page have a document
frequency. -/
theorem scanWord_ok (stopWords : List (List Nat)) (docid : Int) (s s' : PageScan)
    (word : List Nat) (hs : StatsOK s.stats)
    (hu : ∀ w ∈ s.uniqueWordsInDoc, (umapFind s.stats.documentFrequency w).isSome = true)
    (h : scanWord stopWords docid s word = some s') :
    StatsOK s'.stats
      ∧ ∀ w ∈ s'.uniqueWordsInDoc, (umapFind s'.stats.documentFrequency w).isSome = true := by
  obtain ⟨hA, hB, hC⟩ := hs
  unfold scanWord at h
  split at h
  · simp at h
  · simp only [Option.some.injEq] at h
    subst h
    exact ⟨⟨hA, hB, hC⟩, hu⟩
  · split at h
    · simp only [Option.some.injEq] at h
      subst h
      exact ⟨⟨hA, hB, hC⟩, hu⟩
    · have htf := incrementTermFrequency_ok s.stats.termFrequency word docid hC
      simp only at h
      split at h
      · rename_i hmem
        simp only [Option.some.injEq] at h
        subst h
        refine ⟨⟨hA, ?_, htf.1⟩, hu⟩
        intro e he
        rcases htf.2 e he with h1 | h1
        · rw [h1]; exact hu word hmem
        · exact hB e h1
      · simp only [Option.some.injEq] at h
        subst h
        have hdf := incrementCount_ok s.stats.documentFrequency word hA
        refine ⟨⟨hdf.1, ?_, htf.1⟩, ?_⟩
        · intro e he
          rcases htf.2 e he with h1 | h1
          · exact hdf.2 _ (Or.inr h1)
          · exact hdf.2 _ (Or.inl (hB e h1))
        · intro w hw
          rcases (usetInsert_mem _ _ _).1 hw with h1 | h1
          · exact hdf.2 _ (Or.inr h1)
          · exact hdf.2 _ (Or.inl (hu w h1))

theorem scanWords_ok (stopWords : List (List Nat)) (docid : Int) :
    ∀ (words : List (List Nat)) (s s' : PageScan), StatsOK s.stats →
      (∀ w ∈ s.uniqueWordsInDoc, (umapFind s.stats.documentFrequency w).isSome = true) →
      scanWords stopWords docid s words = some s' → StatsOK s'.stats
  | [], s, s', hs, _, h => by
    simp only [scanWords, Option.some.injEq] at h
    subst h
    exact hs
  | word :: words, s, s', hs, hu, h => by
    rw [scanWords] at h
    cases h1 : scanWord stopWords docid s word with
    | none => rw [h1] at h; simp at h
    | some s1 =>
      rw [h1] at h
      obtain ⟨hs1, hu1⟩ := scanWord_ok stopWords docid s s1 word hs hu h1
      exact scanWords_ok stopWords docid words s1 s' hs1 hu1 h

theorem scanPage_ok (cut : List Nat → List (List Nat)) (stopWords : List (List Nat))
    (stats stats' : TokenStats) (page : WebPage) (hs : StatsOK stats)
    (h : scanPage cut stopWords stats page = some stats') : StatsOK stats' := by
  unfold scanPage at h
  split at h
  · simp at h
  · rename_i s hscan
    simp only [Option.some.injEq] at h
    subst h
    exact scanWords_ok stopWords page.docid _ _ s hs (by simp) hscan

theorem scanPages_ok (cut : List Nat → List (List Nat)) (stopWords : List (List Nat)) :
    ∀ (pages : List WebPage) (stats stats' : TokenStats), StatsOK stats →
      scanPages cut stopWords stats pages = some stats' → StatsOK stats'
  | [], stats, stats', hs, h => by
    simp only [scanPages, Option.some.injEq] at h
    subst h
    exact hs
  | page :: pages, stats, stats', hs, h => by
    rw [scanPages] at h
    cases h1 : scanPage cut stopWords stats page with
    | none => rw [h1] at h; simp at h
    | some s1 =>
      rw [h1] at h
      exact scanPages_ok cut stopWords pages s1 stats' (scanPage_ok cut stopWords _ _ page hs h1) h

/-- The tables that `tokenizationAndFiltering` returns are in order. -/
theorem tokenizationAndFiltering_ok (cut : List Nat → List (List Nat))
    (stopWords : List (List Nat)) (pages : List WebPage) (stats : TokenStats)
    (h : tokenizationAndFiltering cut stopWords pages = some stats) : StatsOK stats := by
  unfold tokenizationAndFiltering at h
  refine scanPages_ok cut stopWords pages _ stats ?_ h
  refine ⟨?_, ?_, ?_⟩ <;> intro e he <;> simp at he

theorem scanWord_isSome (stopWords : List (List Nat)) (docid : Int) (s : PageScan)
    (word : List Nat) (hw : (hasChineseChar word).isSome = true) :
    (scanWord stopWords docid s word).isSome = true := by
  unfold scanWord
  cases hc : hasChineseChar word with
  | none => rw [hc] at hw; simp at hw
  | some b =>
    cases b with
    | false => rfl
    | true =>
      simp only
      split
      · rfl
      · split <;> rfl

theorem scanWords_isSome (stopWords : List (List Nat)) (docid : Int) :
    ∀ (words : List (List Nat)) (s : PageScan),
      (∀ w ∈ words, (hasChineseChar w).isSome = true) →
      (scanWords stopWords docid s words).isSome = true
  | [], _, _ => rfl
  | word :: words, s, h => by
    rw [scanWords]
    obtain ⟨s', hs'⟩ := Option.isSome_iff_exists.1
      (scanWord_isSome stopWords docid s word (h word (List.mem_cons_self _ _)))
    rw [hs']
    exact scanWords_isSome stopWords docid words s' (fun w hw => h w (List.mem_cons_of_mem _ hw))

/-- When the test for a CJK ideograph throws on no word, the tables are built. -/
theorem scanPages_isSome (cut : List Nat → List (List Nat)) (stopWords : List (List Nat)) :
    ∀ (pages : List WebPage) (stats : TokenStats),
      (∀ page ∈ pages, ∀ w ∈ cut page.content, (hasChineseChar w).isSome = true) →
      (scanPages cut stopWords stats pages).isSome = true
  | [], _, _ => rfl
  | page :: pages, stats, h => by
    rw [scanPages]
    unfold scanPage
    have h1 := scanWords_isSome stopWords page.docid (cut page.content)
      { stats := stats, validWords := 0, uniqueWordsInDoc := [] }
      (h page (List.mem_cons_self _ _))
    obtain ⟨s, hs⟩ := Option.isSome_iff_exists.1 h1
    rw [hs]
    exact scanPages_isSome cut stopWords pages _ (fun p hp => h p (List.mem_cons_of_mem _ hp))

/-- The table of `calculateTfIdfWeights`: it is defined when every term has a document
frequency, and every entry is the entry of `termFrequency` with each count multiplied by
the idf of the term. -/
theorem calculateTfIdfWeights_spec {α : Type} [LinearOrderedField α] (log2 : α → α)
    (totalDocuments : Int) (documentFrequency : List (List Nat × Int)) :
    ∀ (termFrequency : List (List Nat × List (Int × Int))),
      (∀ e ∈ termFrequency, (umapFind documentFrequency e.1).isSome = true) →
      ∃ weights, calculateTfIdfWeights log2 totalDocuments documentFrequency termFrequency
          = some weights
        ∧ weights.map (fun e => e.1) = termFrequency.map (fun e => e.1)
        ∧ ∀ e ∈ weights, ∃ docFreqMap df, (e.1, docFreqMap) ∈ termFrequency
            ∧ umapFind documentFrequency e.1 = some df
            ∧ e.2 = docFreqMap.map (fun dc =>
                (dc.1, (dc.2 : α) * log2 ((totalDocuments : α) / ((df + 1 : Int) : α))))
  | [], _ => ⟨[], rfl, rfl, by simp⟩
  | (term, docFreqMap) :: rest, h => by
    obtain ⟨weights, hw, hkeys, hall⟩ := calculateTfIdfWeights_spec log2 totalDocuments
      documentFrequency rest (fun e he => h e (List.mem_cons_of_mem _ he))
    have hterm := h (term, docFreqMap) (List.mem_cons_self _ _)
    obtain ⟨df, hdf⟩ := Option.isSome_iff_exists.1 hterm
    simp only at hdf
    refine ⟨(term, docFreqMap.map (fun dc =>
      (dc.1, (dc.2 : α) * log2 ((totalDocuments : α) / ((df + 1 : Int) : α))))) :: weights,
      ?_, ?_, ?_⟩
    · rw [calculateTfIdfWeights, hdf]
      simp only
      rw [hw]
    · simp only [List.map_cons, hkeys]
    · intro e he
      rcases List.mem_cons.1 he with h1 | h1
      · rw [h1]
        exact ⟨docFreqMap, df, List.mem_cons_self _ _, hdf, rfl⟩
      · obtain ⟨m, d, hm, hd, he2⟩ := hall e h1
        exact ⟨m, d, List.mem_cons_of_mem _ hm, hd, he2⟩

/-- Normalisation keeps the terms and the docids and does not make a weight positive that
was not. -/
theorem performL2Normalization_spec {α : Type} [LinearOrderedField α] (sqrt : α → α)
    (pages : List WebPage) (tfidfWeights : List (List Nat × List (Int × α)))
    (e : List Nat × List (Int × α)) (he : e ∈ performL2Normalization sqrt pages tfidfWeights)
    (p : Int × α) (hp : p ∈ e.2) :
    ∃ e0 ∈ tfidfWeights, e0.1 = e.1 ∧ ∃ p0 ∈ e0.2, p0.1 = p.1 ∧ (0 < p.2 → 0 < p0.2) := by
  unfold performL2Normalization at he
  simp only [List.mem_map] at he
  obtain ⟨e0, he0, rfl⟩ := he
  simp only [List.mem_map] at hp
  obtain ⟨p0, hp0, rfl⟩ := hp
  refine ⟨e0, he0, rfl, p0, hp0, ?_⟩
  split
  · rename_i hn
    refine ⟨rfl, ?_⟩
    simp only
    intro hpos
    by_contra hneg
    have : p0.2 / (umapFind (docL2NormsOf sqrt pages tfidfWeights) p0.1).getD 0 ≤ 0 :=
      div_nonpos_of_nonpos_of_nonneg (not_lt.1 hneg) (le_of_lt hn)
    exact absurd hpos (not_lt.2 this)
  · exact ⟨rfl, fun h => h⟩

theorem generateInvertedIndexFile_mem {α : Type} [LinearOrderedField α]
    (tfidfWeights : List (List Nat × List (Int × α))) (line : List Nat × List (Int × α))
    (h : line ∈ generateInvertedIndexFile tfidfWeights) :
    line.1 ∈ tfidfWeights.map (fun e => e.1)
      ∧ line.2 = writtenPostings ((umapFind tfidfWeights line.1).getD []) := by
  unfold generateInvertedIndexFile at h
  simp only [List.mem_map] at h
  obtain ⟨term, hterm, rfl⟩ := h
  rw [(stdSortBy_perm stringLt _).mem_iff] at hterm
  exact ⟨hterm, rfl⟩

/-- A posting is written only for a term whose document frequency `df` satisfies
`df + 1 < N`, `N` the number of pages: only then is the idf positive. -/
theorem written_posting_df {α : Type} [LinearOrderedField α] (log2 sqrt : α → α)
    (hlog : ∀ x : α, 0 ≤ x → 0 < log2 x → 1 < x)
    (cut : List Nat → List (List Nat)) (stopWords : List (List Nat)) (pages : List WebPage)
    (lines : List (List Nat × List (Int × α)))
    (h : buildInvertedIndex log2 sqrt cut stopWords pages = some lines)
    (line : List Nat × List (Int × α)) (hline : line ∈ lines) (p : Int × α) (hp : p ∈ line.2) :
    ∃ stats df, tokenizationAndFiltering cut stopWords pages = some stats
      ∧ umapFind stats.documentFrequency line.1 = some df
      ∧ 1 ≤ df ∧ df + 1 < (pages.length : Int) := by
  unfold buildInvertedIndex normalizedWeights at h
  split at h
  · simp at h
  · rename_i nw hnw
    split at hnw
    · simp at hnw
    · split at hnw
      · simp at hnw
      · rename_i stats hstats
        have hok := tokenizationAndFiltering_ok cut stopWords pages stats hstats
        obtain ⟨hA, hB, hC⟩ := hok
        obtain ⟨weights, hw, _, hall⟩ := calculateTfIdfWeights_spec log2 (pages.length : Int)
          stats.documentFrequency stats.termFrequency hB
        rw [hw] at hnw
        simp only [Option.some.injEq] at hnw h
        subst hnw
        subst h
        obtain ⟨_, hl2⟩ := generateInvertedIndexFile_mem _ line hline
        rw [hl2, writtenPostings_mem] at hp
        obtain ⟨hp1, hp2⟩ := hp
        cases hf : umapFind (performL2Normalization sqrt pages weights) line.1 with
        | none => rw [hf] at hp1; simp at hp1
        | some dws =>
          rw [hf] at hp1
          simp only [Option.getD_some] at hp1
          have hmem := umapFind_some_mem _ _ _ hf
          obtain ⟨e0, he0, hkey, p0, hp0, _, hpos⟩ :=
            performL2Normalization_spec sqrt pages weights _ hmem p hp1
          obtain ⟨m, df, hm, hdf, he2⟩ := hall e0 he0
          rw [he2] at hp0
          simp only [List.mem_map] at hp0
          obtain ⟨dc, hdc, rfl⟩ := hp0
          have hcount := hC _ hm dc hdc
          have hdf1 := hA _ (umapFind_some_mem _ _ _ hdf)
          simp only at hkey hdf1 hcount
          have hprod := hpos hp2
          simp only at hprod
          have hcpos : (0 : α) < (dc.2 : α) := by
            have : (0 : Int) < dc.2 := by omega
            exact_mod_cast this
          have hidf : 0 < log2 ((pages.length : Int) / ((df + 1 : Int) : α)) :=
            (mul_pos_iff_of_pos_left hcpos).1 hprod
          have hden : (0 : α) < ((df + 1 : Int) : α) := by
            have : (0 : Int) < df + 1 := by omega
            exact_mod_cast this
          have hnum : (0 : α) ≤ ((pages.length : Int) : α) := by
            have : (0 : Int) ≤ (pages.length : Int) := by omega
            exact_mod_cast this
          have h1 := hlog _ (div_nonneg hnum (le_of_lt hden)) hidf
          rw [one_lt_div hden] at h1
          have h2 : df + 1 < (pages.length : Int) := by exact_mod_cast h1
          rw [hkey] at hdf
          exact ⟨stats, df, hstats, hdf, hdf1, h2⟩

/-- With at most two pages no posting is written at all. -/
theorem buildInvertedIndex_small {α : Type} [LinearOrderedField α] (log2 sqrt : α → α)
    (hlog : ∀ x : α, 0 ≤ x → 0 < log2 x → 1 < x)
    (cut : List Nat → List (List Nat)) (stopWords : List (List Nat)) (pages : List WebPage)
    (hN : pages.length ≤ 2) (lines : List (List Nat × List (Int × α)))
    (h : buildInvertedIndex log2 sqrt cut stopWords pages = some lines) :
    ∀ line ∈ lines, line.2 = [] := by
  intro line hline
  cases hl : line.2 with
  | nil => rfl
  | cons p ps =>
    obtain ⟨_, df, _, _, h1, h2⟩ := written_posting_df log2 sqrt hlog cut stopWords pages lines h
      line hline p (by rw [hl]; exact List.mem_cons_self _ _)
    omega

/-- The index builder writes a file when there is a page and the test for a CJK ideograph
throws on no word. -/
theorem buildInvertedIndex_isSome {α : Type} [LinearOrderedField α] (log2 sqrt : α → α)
    (cut : List Nat → List (List Nat)) (stopWords : List (List Nat)) (pages : List WebPage)
    (hne : pages ≠ [])
    (hwords : ∀ page ∈ pages, ∀ w ∈ cut page.content, (hasChineseChar w).isSome = true) :
    ∃ lines, buildInvertedIndex log2 sqrt cut stopWords pages = some lines := by
  unfold buildInvertedIndex normalizedWeights
  have h1 := scanPages_isSome cut stopWords pages
    { termFrequency := [], documentFrequency := [], docTotalWords := [] } hwords
  obtain ⟨stats, hstats⟩ := Option.isSome_iff_exists.1 h1
  have hstats2 : tokenizationAndFiltering cut stopWords pages = some stats := hstats
  obtain ⟨_, hB, _⟩ := tokenizationAndFiltering_ok cut stopWords pages stats hstats2
  obtain ⟨weights, hw, _, _⟩ := calculateTfIdfWeights_spec log2 (pages.length : Int)
    stats.documentFrequency stats.termFrequency hB
  rw [if_neg (by simpa using hne), hstats2]
  simp only
  rw [hw]
  exact ⟨_, rfl⟩

/-! ## The inverted index file on small corpora -/

theorem onePage_stats : tokenizationAndFiltering splitOnSpace [] onePage
    = some { termFrequency := [(zhongguo, [(1, 1)])], documentFrequency := [(zhongguo, 1)],
             docTotalWords := [(1, 1)] } := by decide

theorem threePages_stats : tokenizationAndFiltering splitOnSpace [] threePages
    = some { termFrequency := [(beijing, [(1, 1)]), (zhongguo, [(1, 1), (2, 1), (3, 1)])],
             documentFrequency := [(beijing, 1), (zhongguo, 3)],
             docTotalWords := [(1, 2), (2, 1), (3, 1)] } := by decide

theorem logb_half : Real.logb 2 (1 / 2) = -1 := by
  rw [one_div, Real.logb_inv, Real.logb_self_eq_one (by norm_num)]

/-- C18, the code at a failing input: in the corpus of the single page 中国 the term has
tf 1 and the normalised weight -1, which is not zero, but its line is written without a
posting: the test `weight > 0` leaves out every negative weight. -/
theorem buildInvertedIndex_drops_negative :
    normalizedWeights (Real.logb 2) Real.sqrt splitOnSpace [] onePage
        = some [(zhongguo, [(1, -1)])]
    ∧ buildInvertedIndex (Real.logb 2) Real.sqrt splitOnSpace [] onePage
        = some [(zhongguo, [])] := by
  have h1 : normalizedWeights (Real.logb 2) Real.sqrt splitOnSpace [] onePage
      = some [(zhongguo, [(1, -1)])] := by
    unfold normalizedWeights
    rw [onePage_stats]
    simp only [onePage, List.isEmpty_cons, Bool.false_eq_true, if_false, calculateTfIdfWeights,
      umapFind_cons, if_true, List.length_singleton, List.map_cons, List.map_nil]
    norm_num
    rw [logb_half]
    simp [performL2Normalization, docL2NormsOf, docNormSquared, umapFind_cons, umapFind_nil,
      umapAssign]
  refine ⟨h1, ?_⟩
  unfold buildInvertedIndex
  rw [h1]
  simp [generateInvertedIndexFile, stdSortBy, writtenPostings, umapFind_cons]

/-- C17, the code at a failing input: in the corpus 北京 中国, 中国, 中国 the first document
has the positive weight of 北京 posted and the negative weight of 中国 left out, so the
squares of its posted weights sum to less than 1. -/
theorem buildInvertedIndex_posted_squares :
    ∃ w : ℝ,
      buildInvertedIndex (Real.logb 2) Real.sqrt splitOnSpace [] threePages
          = some [(zhongguo, []), (beijing, [(1, w)])]
      ∧ postedSquares [(zhongguo, []), (beijing, [(1, w)])] 1 = w * w
      ∧ w * w < 1 := by
  have ha : 0 < Real.logb 2 (3 / 2) := Real.logb_pos (by norm_num) (by norm_num)
  have hb : Real.logb 2 (3 / 4) < 0 := Real.logb_neg (by norm_num) (by norm_num) (by norm_num)
  have hs1 : 0 < Real.logb 2 (3 / 2) * Real.logb 2 (3 / 2)
      + Real.logb 2 (3 / 4) * Real.logb 2 (3 / 4) := by nlinarith
  have hs2 : 0 < Real.logb 2 (3 / 4) * Real.logb 2 (3 / 4) := by nlinarith
  have hq1 := Real.sqrt_pos.2 hs1
  have hq2 := Real.sqrt_pos.2 hs2
  have hw1 := div_pos ha hq1
  have hw2 := not_lt.2 (le_of_lt (div_neg_of_neg_of_pos hb hq1))
  have hw3 := not_lt.2 (le_of_lt (div_neg_of_neg_of_pos hb hq2))
  have hst : stringLt zhongguo beijing = true := by decide
  have hne : beijing ≠ zhongguo := by decide
  refine ⟨Real.logb 2 (3 / 2) / Real.sqrt (Real.logb 2 (3 / 2) * Real.logb 2 (3 / 2)
      + Real.logb 2 (3 / 4) * Real.logb 2 (3 / 4)), ?_, ?_, ?_⟩
  · unfold buildInvertedIndex normalizedWeights
    rw [threePages_stats]
    simp only [threePages, List.isEmpty_cons, Bool.false_eq_true, if_false,
      calculateTfIdfWeights, umapFind_cons, if_true, List.length_cons, List.length_nil,
      List.map_cons, List.map_nil, hne]
    norm_num
    simp [performL2Normalization, docL2NormsOf, docNormSquared, umapFind_cons, umapFind_nil,
      umapAssign, generateInvertedIndexFile, stdSortBy, writtenPostings, hne, hne.symm, hs1,
      hs2, hst, hw1, hw2, hw3, pairLt]
  · simp [postedSquares]
  · rw [div_mul_div_comm, Real.mul_self_sqrt (le_of_lt hs1), div_lt_one hs1]
    linarith

/-! ## Search: candidates and ranking -/

theorem usetInsert_foldl_nodup {β κ : Type} [DecidableEq κ] (f : β → Option κ) :
    ∀ (l : List β) (s : List κ), s.Nodup →
      (l.foldl (fun s x => match f x with
        | some k => usetInsert s k
        | none => s) s).Nodup
  | [], _, h => h
  | x :: l, s, h => by
    rw [List.foldl_cons]
    apply usetInsert_foldl_nodup f l
    cases f x with
    | none => exact h
    | some k => exact usetInsert_nodup s k h

theorem docSet_nodup {α : Type} (docs : List (Int × α)) :
    (docs.foldl (fun s dw => usetInsert s dw.1) []).Nodup :=
  usetInsert_foldl_nodup (fun dw : Int × α => some dw.1) docs [] List.nodup_nil

theorem intersection_nodup (resultSet currentSet : List Int) :
    (resultSet.foldl (fun s docid => if docid ∈ currentSet then usetInsert s docid else s)
      []).Nodup := by
  have := usetInsert_foldl_nodup
    (fun docid : Int => if docid ∈ currentSet then some docid else none) resultSet []
    List.nodup_nil
  convert this using 3
  funext docid
  by_cases h : docid ∈ currentSet
  · simp [h]
  · simp [h]

theorem intersectLoop_nodup {α : Type} (r : WebPageLibraryReader α) :
    ∀ (terms : List (List Nat)) (resultSet : List Int), resultSet.Nodup →
      (intersectLoop r resultSet terms).Nodup
  | [], _, h => h
  | term :: terms, resultSet, _ => by
    rw [intersectLoop]
    split
    · exact List.nodup_nil
    · simp only
      split
      · exact intersection_nodup _ _
      · exact intersectLoop_nodup r terms _ (intersection_nodup _ _)

/-- The candidates of a search hold no docid twice. -/
theorem findIntersectionDocuments_nodup {α : Type} (r : WebPageLibraryReader α)
    (terms : List (List Nat)) : (findIntersectionDocuments r terms).Nodup := by
  cases terms with
  | nil => exact List.nodup_nil
  | cons term terms =>
    rw [findIntersectionDocuments]
    split
    · exact intersectLoop_nodup r terms _ (docSet_nodup _)
    · exact List.nodup_nil

theorem scoreLt_iff {α : Type} [LinearOrder α] (a b : Int × α) :
    scoreLt a b = true
      ↔ toLex (OrderDual.toDual a.2, a.1) < toLex (OrderDual.toDual b.2, b.1) := by
  unfold scoreLt
  rw [Prod.Lex.lt_iff]
  simp only [OrderDual.toDual_lt_toDual, EmbeddingLike.apply_eq_iff_eq]
  by_cases h : a.2 = b.2
  · simp [h]
  · simp only [ne_eq, h, not_false_eq_true, if_true, decide_eq_true_eq, false_and, or_false]

/-- Either `performSearch` returns nothing, or it returns the results of the first
documents of the sorted list of scores. -/
theorem performSearch_shape {α : Type} [LinearOrderedField α] (log2 sqrt : α → α)
    (txt : SearchText) (e : WebSearchEngine α) (terms : List (List Nat)) (topN : Int) :
    performSearch log2 sqrt txt e terms topN = []
    ∨ ∃ r, e.webPageReader = some r
        ∧ performSearch log2 sqrt txt e terms topN
          = ((stdSortBy scoreLt (similarityScores r terms (calculateQueryVector log2 sqrt r terms)
                (findIntersectionDocuments r terms))).take
              (min topN ((stdSortBy scoreLt (similarityScores r terms
                (calculateQueryVector log2 sqrt r terms)
                (findIntersectionDocuments r terms))).length : Int)).toNat).filterMap
              (makeResult txt terms) := by
  unfold performSearch
  split
  · exact Or.inl rfl
  · split
    · exact Or.inl rfl
    · rename_i r hr
      simp only
      split
      · exact Or.inl rfl
      · split
        · exact Or.inl rfl
        · exact Or.inr ⟨r, hr, rfl⟩

theorem similarityScores_docids {α : Type} [LinearOrderedField α] (r : WebPageLibraryReader α)
    (terms : List (List Nat)) (queryVector : List (List Nat × α)) (candidateDocs : List Int) :
    ((similarityScores r terms queryVector candidateDocs).map (fun ds => ds.1)).Sublist
      candidateDocs := by
  unfold similarityScores
  induction candidateDocs with
  | nil => exact List.Sublist.slnil
  | cons d ds ih =>
    by_cases hpos : calculateCosineSimilarity r terms d queryVector > 0
    · rw [List.filterMap_cons_some (b := (d, calculateCosineSimilarity r terms d queryVector))
        (by simp only [hpos, if_true])]
      exact List.Sublist.cons₂ _ ih
    · rw [List.filterMap_cons_none (by simp only [hpos, if_false])]
      exact List.Sublist.cons _ ih

theorem makeResult_some {α : Type} (txt : SearchText) (terms : List (List Nat)) (ds : Int × α)
    (res : SearchResult α) (h : makeResult txt terms ds = some res) :
    res.docid = ds.1 ∧ res.score = ds.2 := by
  unfold makeResult at h
  split at h
  · simp only [Option.some.injEq] at h
    subst h
    exact ⟨rfl, rfl⟩
  · simp at h

/-- C15. For every list of terms and every `topN` of at least 1 the list that
`performSearch` returns has at most `topN` results, and of two consecutive results
the first has the higher score, or the same score and the lower docid. -/
theorem performSearch_ranked {α : Type} [LinearOrderedField α] (log2 sqrt : α → α)
    (txt : SearchText) (e : WebSearchEngine α) (terms : List (List Nat)) (topN : Int)
    (htop : 1 ≤ topN) :
    ((performSearch log2 sqrt txt e terms topN).length : Int) ≤ topN
      ∧ (performSearch log2 sqrt txt e terms topN).Chain'
          (fun res res' => res.score > res'.score
            ∨ (res.score = res'.score ∧ res.docid < res'.docid)) := by
  rcases performSearch_shape log2 sqrt txt e terms topN with h | ⟨r, _, h⟩
  · rw [h]
    exact ⟨by simp only [List.length_nil]; omega, List.chain'_nil⟩
  · rw [h]
    constructor
    · have h1 := List.length_filterMap_le (makeResult txt terms)
        ((stdSortBy scoreLt (similarityScores r terms (calculateQueryVector log2 sqrt r terms)
          (findIntersectionDocuments r terms))).take
          (min topN ((stdSortBy scoreLt (similarityScores r terms
            (calculateQueryVector log2 sqrt r terms)
            (findIntersectionDocuments r terms))).length : Int)).toNat)
      have h2 := List.length_take_le
        (min topN ((stdSortBy scoreLt (similarityScores r terms
          (calculateQueryVector log2 sqrt r terms)
          (findIntersectionDocuments r terms))).length : Int)).toNat
        (stdSortBy scoreLt (similarityScores r terms (calculateQueryVector log2 sqrt r terms)
          (findIntersectionDocuments r terms)))
      omega
    · apply List.Pairwise.chain'
      have hnd : ((similarityScores r terms (calculateQueryVector log2 sqrt r terms)
          (findIntersectionDocuments r terms)).map
            (fun p : Int × α => toLex (OrderDual.toDual p.2, p.1))).Nodup := by
        apply List.Nodup.of_map (fun k : Lex (αᵒᵈ × Int) => (ofLex k).2)
        rw [List.map_map]
        exact List.Nodup.sublist (similarityScores_docids r terms _ _)
          (findIntersectionDocuments_nodup r terms)
      have hsorted := stdSortBy_strict scoreLt
        (fun p : Int × α => toLex (OrderDual.toDual p.2, p.1)) scoreLt_iff _ hnd
      refine List.Pairwise.filterMap (makeResult txt terms) ?_
        (hsorted.sublist (List.take_sublist _ _))
      intro a a' haa res hres res' hres'
      obtain ⟨h1, h2⟩ := makeResult_some txt terms a res hres
      obtain ⟨h1', h2'⟩ := makeResult_some txt terms a' res' hres'
      rw [h1, h2, h1', h2']
      rcases (Prod.Lex.lt_iff _ _).1 haa with h3 | ⟨h3, h4⟩
      · exact Or.inl h3
      · exact Or.inr ⟨OrderDual.toDual_inj.1 h3, h4⟩

/-! ## Search: the similarity is at most 1 -/

theorem umapFind_map_value {κ ν μ : Type} [DecidableEq κ] (f : κ → ν → μ) (m : List (κ × ν))
    (key : κ) :
    umapFind (m.map (fun e => (e.1, f e.1 e.2))) key = (umapFind m key).map (f key) := by
  induction m with
  | nil => rfl
  | cons e m ih =>
    rw [List.map_cons, umapFind_cons, umapFind_cons, ih]
    by_cases h : e.1 = key
    · simp [h]
    · simp [h]

/-- Looking up each of a list of distinct keys in a map with values that are not negative
and adding the values found gives at most the sum of all values of the map. -/
theorem sum_lookup_le {κ α : Type} [DecidableEq κ] [LinearOrderedField α] :
    ∀ (l : List (κ × α)), (∀ e ∈ l, 0 ≤ e.2) → ∀ (K : List κ), K.Nodup →
      (K.map (fun t => (umapFind l t).getD 0)).sum ≤ (l.map (fun e => e.2)).sum
  | [], _, K, _ => by
    have : (K.map (fun t => (umapFind ([] : List (κ × α)) t).getD 0)) = K.map (fun _ => 0) := by
      apply List.map_congr_left
      intro t _
      rfl
    rw [this]
    simp
  | e :: l, hnn, K, hK => by
    have hl : ∀ e' ∈ l, 0 ≤ e'.2 := fun e' he' => hnn e' (List.mem_cons_of_mem _ he')
    have he : 0 ≤ e.2 := hnn e (List.mem_cons_self _ _)
    rw [List.map_cons, List.sum_cons]
    by_cases hmem : e.1 ∈ K
    · have hperm := List.perm_cons_erase hmem
      have hsum := (hperm.map (fun t => (umapFind (e :: l) t).getD 0)).sum_eq
      rw [hsum, List.map_cons, List.sum_cons, umapFind_cons, if_pos rfl]
      simp only [Option.getD_some]
      have hrest : (K.erase e.1).map (fun t => (umapFind (e :: l) t).getD 0)
          = (K.erase e.1).map (fun t => (umapFind l t).getD 0) := by
        apply List.map_congr_left
        intro t ht
        have hne : t ≠ e.1 := ((List.Nodup.mem_erase_iff hK).1 ht).1
        rw [umapFind_cons, if_neg (fun h => hne h.symm)]
      rw [hrest]
      have ih := sum_lookup_le l hl (K.erase e.1) (hK.erase e.1)
      linarith
    · have hrest : K.map (fun t => (umapFind (e :: l) t).getD 0)
          = K.map (fun t => (umapFind l t).getD 0) := by
        apply List.map_congr_left
        intro t ht
        have hne : e.1 ≠ t := fun h => hmem (h ▸ ht)
        rw [umapFind_cons, if_neg hne]
      rw [hrest]
      have ih := sum_lookup_le l hl K hK
      linarith

theorem nodup_of_keys {κ ν : Type} (l : List (κ × ν)) (h : (l.map (fun e => e.1)).Nodup) :
    l.Nodup :=
  List.Nodup.of_map _ h

/-- The inequality of Cauchy and Schwarz for the sum over a list without repetitions. -/
theorem list_cauchy_schwarz {β α : Type} [DecidableEq β] [LinearOrderedField α] (l : List β)
    (hl : l.Nodup) (f g : β → α) :
    (l.map (fun b => f b * g b)).sum ^ 2
      ≤ (l.map (fun b => f b ^ 2)).sum * (l.map (fun b => g b ^ 2)).sum := by
  rw [← List.sum_toFinset _ hl, ← List.sum_toFinset _ hl, ← List.sum_toFinset _ hl]
  exact Finset.sum_mul_sq_le_sq_mul_sq _ _ _

theorem dotLoop_eq_sum {α : Type} [LinearOrderedField α] (larger : List (List Nat × α)) :
    ∀ (smaller : List (List Nat × α)) (acc : α),
      smaller.foldl (fun dotProduct e =>
          match umapFind larger e.1 with
          | some weight2 => dotProduct + e.2 * weight2
          | none => dotProduct) acc
        = acc + (smaller.map (fun e => e.2 * (umapFind larger e.1).getD 0)).sum
  | [], acc => by simp
  | e :: rest, acc => by
    rw [List.foldl_cons, dotLoop_eq_sum larger rest, List.map_cons, List.sum_cons]
    cases umapFind larger e.1 with
    | none => simp
    | some w => simp only [Option.getD_some]; ring

/-- The dot product of two vectors with distinct keys whose squares sum to at most 1 is at
most 1. -/
theorem calculateDotProduct_le_one {α : Type} [LinearOrderedField α]
    (vec1 vec2 : List (List Nat × α))
    (hk1 : (vec1.map (fun e => e.1)).Nodup) (hk2 : (vec2.map (fun e => e.1)).Nodup)
    (hn1 : vecNormSq vec1 ≤ 1) (hn2 : vecNormSq vec2 ≤ 1) :
    calculateDotProduct vec1 vec2 ≤ 1 := by
  have key : ∀ (s l : List (List Nat × α)), (s.map (fun e => e.1)).Nodup →
      vecNormSq s ≤ 1 → vecNormSq l ≤ 1 →
      (s.map (fun e => e.2 * (umapFind l e.1).getD 0)).sum ≤ 1 := by
    intro s l hs hns hnl
    have hcs := list_cauchy_schwarz s (nodup_of_keys s hs) (fun e => e.2)
      (fun e => (umapFind l e.1).getD 0)
    have hA : (s.map (fun e => e.2 ^ 2)).sum = vecNormSq s := by
      unfold vecNormSq
      congr 1
      apply List.map_congr_left
      intro e _
      ring
    have hB : (s.map (fun e => ((umapFind l e.1).getD 0) ^ 2)).sum ≤ vecNormSq l := by
      have h1 := sum_lookup_le (l.map (fun e => (e.1, e.2 * e.2)))
        (by
          intro e he
          obtain ⟨e0, _, rfl⟩ := List.mem_map.1 he
          exact mul_self_nonneg _)
        (s.map (fun e => e.1)) hs
      rw [List.map_map, List.map_map] at h1
      have h2 : (s.map (fun e => ((umapFind l e.1).getD 0) ^ 2))
          = s.map ((fun t => (umapFind (l.map (fun e => (e.1, e.2 * e.2))) t).getD 0)
              ∘ fun e => e.1) := by
        apply List.map_congr_left
        intro e _
        simp only [Function.comp]
        rw [umapFind_map_value (fun _ w => w * w)]
        cases umapFind l e.1 with
        | none => simp
        | some w => simp only [Option.map_some', Option.getD_some]; ring
      rw [h2]
      exact h1
    have hA0 : 0 ≤ vecNormSq s := by
      unfold vecNormSq
      apply List.sum_nonneg
      intro x hx
      obtain ⟨e, _, rfl⟩ := List.mem_map.1 hx
      exact mul_self_nonneg _
    have hB0 : 0 ≤ (s.map (fun e => ((umapFind l e.1).getD 0) ^ 2)).sum := by
      apply List.sum_nonneg
      intro x hx
      obtain ⟨e, _, rfl⟩ := List.mem_map.1 hx
      exact sq_nonneg _
    rw [hA] at hcs
    have hle : (s.map (fun e => e.2 * (umapFind l e.1).getD 0)).sum ^ 2 ≤ 1 := by
      calc (s.map (fun e => e.2 * (umapFind l e.1).getD 0)).sum ^ 2
          ≤ vecNormSq s * (s.map (fun e => ((umapFind l e.1).getD 0) ^ 2)).sum := hcs
        _ ≤ 1 * 1 := mul_le_mul hns (le_trans hB hnl) hB0 (by norm_num)
        _ = 1 := by ring
    by_contra hgt
    have hgt1 : 1 < (s.map (fun e => e.2 * (umapFind l e.1).getD 0)).sum := not_le.1 hgt
    nlinarith
  unfold calculateDotProduct
  by_cases hlen : vec1.length ≤ vec2.length
  · simp only [hlen, if_true]
    refine le_of_eq_of_le (dotLoop_eq_sum vec2 vec1 0) ?_
    rw [zero_add]
    exact key vec1 vec2 hk1 hn1 hn2
  · simp only [hlen, if_false]
    refine le_of_eq_of_le (dotLoop_eq_sum vec1 vec2 0) ?_
    rw [zero_add]
    exact key vec2 vec1 hk2 hn2 hn1

theorem umapAssign_fresh {κ ν : Type} [DecidableEq κ] (m : List (κ × ν)) (key : κ) (value : ν)
    (h : key ∉ m.map (fun e => e.1)) : umapAssign m key value = m ++ [(key, value)] := by
  unfold umapAssign
  rw [if_neg]
  rw [List.any_eq_true]
  rintro ⟨e, he, hk⟩
  exact h (List.mem_map.2 ⟨e, he, by simpa using hk⟩)

theorem vecNormSq_append {α : Type} [LinearOrderedField α] (v : List (List Nat × α))
    (key : List Nat) (w : α) : vecNormSq (v ++ [(key, w)]) = vecNormSq v + w * w := by
  unfold vecNormSq
  simp

theorem vecNormSq_nonneg {α : Type} [LinearOrderedField α] (v : List (List Nat × α)) :
    0 ≤ vecNormSq v := by
  unfold vecNormSq
  apply List.sum_nonneg
  intro x hx
  obtain ⟨e, _, rfl⟩ := List.mem_map.1 hx
  exact mul_self_nonneg _

theorem incrementCount_foldl_nodup :
    ∀ (terms : List (List Nat)) (counts : List (List Nat × Int)),
      (counts.map (fun e => e.1)).Nodup →
      ((terms.foldl incrementCount counts).map (fun e => e.1)).Nodup
  | [], _, h => h
  | term :: terms, counts, h => by
    rw [List.foldl_cons]
    exact incrementCount_foldl_nodup terms _ (umapAssign_nodup _ _ _ h)

/-- The second loop of `calculateQueryVector` keeps the keys distinct and `normSquared`
equal to the sum of the squares of the vector. -/
theorem queryWeights_foldl {α : Type} [LinearOrderedField α] (log2 : α → α)
    (r : WebPageLibraryReader α) :
    ∀ (l : List (List Nat × Int)) (st : List (List Nat × α) × α),
      (st.1.map (fun e => e.1)).Nodup → st.2 = vecNormSq st.1 →
      (l.map (fun e => e.1)).Nodup → (∀ e ∈ l, e.1 ∉ st.1.map (fun e => e.1)) →
      ((l.foldl (queryWeightStep log2 r) st).1.map (fun e => e.1)).Nodup
        ∧ (l.foldl (queryWeightStep log2 r) st).2
            = vecNormSq (l.foldl (queryWeightStep log2 r) st).1
  | [], _, h1, h2, _, _ => ⟨h1, h2⟩
  | e :: l, st, h1, h2, hl, hfresh => by
    rw [List.foldl_cons]
    rw [List.map_cons, List.nodup_cons] at hl
    have he := hfresh e (List.mem_cons_self _ _)
    apply queryWeights_foldl log2 r l _ _ _ hl.2
    · intro e' he'
      unfold queryWeightStep
      split
      · simp only
        rw [umapAssign_fresh _ _ _ he, List.map_append, List.mem_append]
        rintro (h | h)
        · exact hfresh e' (List.mem_cons_of_mem _ he') h
        · simp only [List.map_cons, List.map_nil, List.mem_singleton] at h
          exact hl.1 (h ▸ List.mem_map.2 ⟨e', he', rfl⟩)
      · exact hfresh e' (List.mem_cons_of_mem _ he')
    · unfold queryWeightStep
      split
      · exact umapAssign_nodup _ _ _ h1
      · exact h1
    · unfold queryWeightStep
      split
      · simp only
        rw [umapAssign_fresh _ _ _ he, vecNormSq_append, h2]
      · exact h2

/-- The query vector has distinct keys and the squares of its components sum to at most
1, whatever `log2` is. -/
theorem calculateQueryVector_spec {α : Type} [LinearOrderedField α] (log2 sqrt : α → α)
    (hsqrt : ∀ x : α, 0 < x → sqrt x * sqrt x = x) (r : WebPageLibraryReader α)
    (queryTerms : List (List Nat)) :
    ((calculateQueryVector log2 sqrt r queryTerms).map (fun e => e.1)).Nodup
      ∧ vecNormSq (calculateQueryVector log2 sqrt r queryTerms) ≤ 1 := by
  have hq := queryWeights_foldl log2 r (queryTerms.foldl incrementCount []) ([], 0)
    List.nodup_nil (by simp [vecNormSq])
    (incrementCount_foldl_nodup queryTerms [] List.nodup_nil) (by simp)
  unfold calculateQueryVector queryWeights
  simp only
  obtain ⟨hk, hn⟩ := hq
  split
  · rename_i hpos
    constructor
    · rw [List.map_map]
      exact hk
    · have hs := hsqrt _ hpos
      unfold vecNormSq
      rw [List.map_map]
      have : ((fun e : List Nat × α => e.2 * e.2) ∘ fun e : List Nat × α =>
          (e.1, e.2 / sqrt (List.foldl (queryWeightStep log2 r) ([], 0)
            (List.foldl incrementCount [] queryTerms)).2))
          = fun e : List Nat × α => (e.2 * e.2)
            * ((List.foldl (queryWeightStep log2 r) ([], 0)
                (List.foldl incrementCount [] queryTerms)).2)⁻¹ := by
        funext e
        simp only [Function.comp]
        rw [div_mul_div_comm, hs, div_eq_mul_inv]
      rw [this, List.sum_map_mul_right]
      have hn2 : ((List.foldl (queryWeightStep log2 r) ([], 0)
          (List.foldl incrementCount [] queryTerms)).1.map (fun e => e.2 * e.2)).sum
          = (List.foldl (queryWeightStep log2 r) ([], 0)
              (List.foldl incrementCount [] queryTerms)).2 := hn.symm
      rw [hn2, mul_inv_cancel₀ (ne_of_gt hpos)]
  · rename_i hpos
    refine ⟨hk, ?_⟩
    rw [← hn]
    exact le_trans (not_lt.1 hpos) zero_le_one

/-- The square of the first weight posted for `docid` in a posting list is at most the sum
of the squares of all weights posted for it. -/
theorem first_posting_sq_le {α : Type} [LinearOrderedField α] (docid : Int) :
    ∀ (ps : List (Int × α)),
      ((ps.find? (fun dw => decide (dw.1 = docid))).map (fun dw => dw.2 * dw.2)).getD 0
        ≤ ((ps.filter (fun dw => decide (dw.1 = docid))).map (fun dw => dw.2 * dw.2)).sum
  | [] => by simp
  | p :: ps => by
    have hrest : 0 ≤ ((ps.filter (fun dw => decide (dw.1 = docid))).map
        (fun dw => dw.2 * dw.2)).sum := by
      apply List.sum_nonneg
      intro x hx
      obtain ⟨e, _, rfl⟩ := List.mem_map.1 hx
      exact mul_self_nonneg _
    by_cases h : p.1 = docid
    · rw [List.find?_cons_of_pos _ (by simpa using h), List.filter_cons_of_pos (by simpa using h)]
      simp only [Option.map_some', Option.getD_some, List.map_cons, List.sum_cons]
      linarith
    · rw [List.find?_cons_of_neg _ (by simpa using h), List.filter_cons_of_neg (by simpa using h)]
      exact first_posting_sq_le docid ps

/-- The loop of `getDocumentVector` keeps the keys distinct, and every component is the
first weight posted for the document under a term of the index. -/
theorem docVector_foldl {α : Type} (r : WebPageLibraryReader α) (docid : Int) :
    ∀ (terms : List (List Nat)) (dv : List (List Nat × α)),
      (dv.map (fun e => e.1)).Nodup →
      (∀ e ∈ dv, ∃ ps dw, umapFind r.invertedIndex_ e.1 = some ps
          ∧ ps.find? (fun dw => decide (dw.1 = docid)) = some dw ∧ e.2 = dw.2) →
      ((terms.foldl (docVectorStep r docid) dv).map (fun e => e.1)).Nodup
        ∧ ∀ e ∈ terms.foldl (docVectorStep r docid) dv, ∃ ps dw,
            umapFind r.invertedIndex_ e.1 = some ps
            ∧ ps.find? (fun dw => decide (dw.1 = docid)) = some dw ∧ e.2 = dw.2
  | [], _, h1, h2 => ⟨h1, h2⟩
  | term :: terms, dv, h1, h2 => by
    rw [List.foldl_cons]
    apply docVector_foldl r docid terms
    · unfold docVectorStep
      split
      · split
        · exact umapAssign_nodup _ _ _ h1
        · exact h1
      · exact h1
    · unfold docVectorStep
      split
      · rename_i hterm
        split
        · rename_i dw hdw
          intro e he
          rcases umapAssign_mem _ _ _ _ he with h | h
          · unfold WebPageLibraryReader.hasTerm at hterm
            obtain ⟨ps, hps⟩ := Option.isSome_iff_exists.1 hterm
            unfold WebPageLibraryReader.getDocuments at hdw
            rw [hps] at hdw
            simp only [Option.getD_some] at hdw
            rw [h]
            exact ⟨ps, dw, hps, hdw, rfl⟩
          · exact h2 e h.1
        · exact h2
      · exact h2

/-- The squares of the components of a document vector sum to at most the sum of the
squares of the weights posted for the document. -/
theorem getDocumentVector_spec {α : Type} [LinearOrderedField α] (r : WebPageLibraryReader α)
    (docid : Int) (queryTerms : List (List Nat)) :
    ((getDocumentVector r docid queryTerms).map (fun e => e.1)).Nodup
      ∧ vecNormSq (getDocumentVector r docid queryTerms)
          ≤ postedSquares r.invertedIndex_ docid := by
  obtain ⟨hk, hall⟩ := docVector_foldl r docid queryTerms [] List.nodup_nil (by simp)
  refine ⟨hk, ?_⟩
  have hval : ∀ e ∈ getDocumentVector r docid queryTerms,
      e.2 * e.2 = (umapFind (r.invertedIndex_.map (fun line =>
        (line.1, ((line.2.find? (fun dw => decide (dw.1 = docid))).map
          (fun dw => dw.2 * dw.2)).getD 0))) e.1).getD 0 := by
    intro e he
    obtain ⟨ps, dw, hps, hdw, hw⟩ := hall e he
    rw [umapFind_map_value (fun _ (ps : List (Int × α)) =>
      ((ps.find? (fun dw => decide (dw.1 = docid))).map (fun dw => dw.2 * dw.2)).getD 0), hps]
    simp only [Option.map_some', Option.getD_some, hdw, hw]
  have h1 := sum_lookup_le (r.invertedIndex_.map (fun line =>
      (line.1, ((line.2.find? (fun dw => decide (dw.1 = docid))).map
        (fun dw => dw.2 * dw.2)).getD 0)))
    (by
      intro e he
      obtain ⟨line, _, rfl⟩ := List.mem_map.1 he
      simp only
      cases line.2.find? (fun dw => decide (dw.1 = docid)) with
      | none => simp
      | some dw => simp only [Option.map_some', Option.getD_some]; exact mul_self_nonneg _)
    ((getDocumentVector r docid queryTerms).map (fun e => e.1)) hk
  rw [List.map_map, List.map_map] at h1
  have h2 : vecNormSq (getDocumentVector r docid queryTerms)
      = ((getDocumentVector r docid queryTerms).map
          ((fun t => (umapFind (r.invertedIndex_.map (fun line =>
            (line.1, ((line.2.find? (fun dw => decide (dw.1 = docid))).map
              (fun dw => dw.2 * dw.2)).getD 0))) t).getD 0) ∘ fun e => e.1)).sum := by
    unfold vecNormSq
    congr 1
    apply List.map_congr_left
    intro e he
    exact hval e he
  rw [h2]
  refine le_trans h1 ?_
  unfold postedSquares
  apply List.sum_le_sum
  intro line _
  exact first_posting_sq_le docid line.2

/-- The similarity of a document is at most 1 when its posted weights have squares that
sum to at most 1. -/
theorem calculateCosineSimilarity_le_one {α : Type} [LinearOrderedField α] (log2 sqrt : α → α)
    (hsqrt : ∀ x : α, 0 < x → sqrt x * sqrt x = x) (r : WebPageLibraryReader α)
    (hidx : IndexNormalized r) (queryTerms : List (List Nat)) (docid : Int) :
    calculateCosineSimilarity r queryTerms docid (calculateQueryVector log2 sqrt r queryTerms)
      ≤ 1 := by
  unfold calculateCosineSimilarity
  simp only
  split
  · exact zero_le_one
  · obtain ⟨hqk, hqn⟩ := calculateQueryVector_spec log2 sqrt hsqrt r queryTerms
    obtain ⟨hdk, hdn⟩ := getDocumentVector_spec r docid queryTerms
    exact calculateDotProduct_le_one _ _ hqk hdk hqn (le_trans hdn (hidx docid))

theorem similarityScores_mem {α : Type} [LinearOrderedField α] (r : WebPageLibraryReader α)
    (terms : List (List Nat)) (queryVector : List (List Nat × α)) (candidateDocs : List Int)
    (ds : Int × α) (h : ds ∈ similarityScores r terms queryVector candidateDocs) :
    ds.2 = calculateCosineSimilarity r terms ds.1 queryVector ∧ 0 < ds.2 := by
  unfold similarityScores at h
  rw [List.mem_filterMap] at h
  obtain ⟨docid, _, hd⟩ := h
  simp only at hd
  split at hd
  · rename_i hpos
    simp only [Option.some.injEq] at hd
    subst hd
    exact ⟨rfl, hpos⟩
  · simp at hd

/-- Every score that `performSearch` returns is positive and at most 1 on a normalised
index. -/
theorem performSearch_scores {α : Type} [LinearOrderedField α] (log2 sqrt : α → α)
    (hsqrt : ∀ x : α, 0 < x → sqrt x * sqrt x = x) (txt : SearchText) (e : WebSearchEngine α)
    (hidx : ∀ r, e.webPageReader = some r → IndexNormalized r)
    (terms : List (List Nat)) (topN : Int) :
    ∀ res ∈ performSearch log2 sqrt txt e terms topN, 0 < res.score ∧ res.score ≤ 1 := by
  intro res hres
  rcases performSearch_shape log2 sqrt txt e terms topN with h | ⟨r, hr, h⟩
  · rw [h] at hres
    simp at hres
  · rw [h, List.mem_filterMap] at hres
    obtain ⟨ds, hds, hmk⟩ := hres
    have hds2 := (stdSortBy_perm scoreLt _).mem_iff.1 (List.mem_of_mem_take hds)
    obtain ⟨hsim, hpos⟩ := similarityScores_mem r terms _ _ ds hds2
    obtain ⟨_, hscore⟩ := makeResult_some txt terms ds res hmk
    rw [hscore]
    refine ⟨hpos, ?_⟩
    rw [hsim]
    exact calculateCosineSimilarity_le_one log2 sqrt hsqrt r (hidx r hr) terms ds.1

theorem lruCache_put_mem {κ ν : Type} [DecidableEq κ] (c c' : LRUCache κ ν) (key : κ)
    (value : ν) (h : c.put key value = some c') :
    ∀ e ∈ c'.cacheList_, e = (key, value) ∨ e ∈ c.cacheList_ := by
  unfold LRUCache.put at h
  intro e he
  split at h
  · simp only [Option.some.injEq] at h
    subst h
    rcases List.mem_cons.1 he with h1 | h1
    · exact Or.inl h1
    · exact Or.inr (List.mem_of_mem_eraseP h1)
  · split at h
    · split at h
      · simp at h
      · simp only [Option.some.injEq] at h
        subst h
        rcases List.mem_cons.1 he with h1 | h1
        · exact Or.inl h1
        · exact Or.inr (List.dropLast_subset _ h1)
    · simp only [Option.some.injEq] at h
      subst h
      rcases List.mem_cons.1 he with h1 | h1
      · exact Or.inl h1
      · exact Or.inr h1

/-- A search on a normalised index with a cache of scores between 0 and 1 returns scores
between 0 and 1 and leaves such a cache and the same index. -/
theorem search_scores_ok {α : Type} [LinearOrderedField α] (log2 sqrt : α → α)
    (hsqrt : ∀ x : α, 0 < x → sqrt x * sqrt x = x) (txt : SearchText)
    (e e' : WebSearchEngine α) (hidx : ∀ r, e.webPageReader = some r → IndexNormalized r)
    (hcache : CacheScoresOK e.searchCache_) (query : List Nat) (topN : Int)
    (results : List (SearchResult α))
    (h : search log2 sqrt txt e query topN = some (results, e')) :
    (∀ res ∈ results, 0 ≤ res.score ∧ res.score ≤ 1)
      ∧ CacheScoresOK e'.searchCache_ ∧ e'.webPageReader = e.webPageReader := by
  unfold search at h
  split at h
  · simp only [Option.some.injEq, Prod.mk.injEq] at h
    obtain ⟨h1, h2⟩ := h
    subst h1
    subst h2
    exact ⟨by simp, hcache, rfl⟩
  · simp only at h
    split at h
    · rename_i cachedResult cache' hget
      simp only [Option.some.injEq, Prod.mk.injEq] at h
      obtain ⟨h1, h2⟩ := h
      subst h1
      subst h2
      obtain ⟨hmem, _, hsub⟩ := lruCache_get_hit _ _ _ _ hget
      exact ⟨hcache _ hmem, fun entry he => hcache entry (hsub entry he), rfl⟩
    · rename_i cache' hget
      obtain ⟨_, hlist, _⟩ := lruCache_get_miss _ _ _ hget
      split at h
      · simp at h
      · rename_i terms _
        have hps := performSearch_scores log2 sqrt hsqrt txt e hidx terms topN
        have hps2 : ∀ res ∈ performSearch log2 sqrt txt e terms topN,
            0 ≤ res.score ∧ res.score ≤ 1 :=
          fun res hres => ⟨le_of_lt (hps res hres).1, (hps res hres).2⟩
        split at h
        · split at h
          · simp at h
          · rename_i cache'' hput
            simp only [Option.some.injEq, Prod.mk.injEq] at h
            obtain ⟨h1, h2⟩ := h
            subst h1
            subst h2
            refine ⟨hps2, ?_, rfl⟩
            intro entry he
            rcases lruCache_put_mem _ _ _ _ hput entry he with h3 | h3
            · rw [h3]
              exact hps2
            · rw [hlist] at h3
              exact hcache entry h3
        · simp only [Option.some.injEq, Prod.mk.injEq] at h
          obtain ⟨h1, h2⟩ := h
          subst h1
          subst h2
          refine ⟨hps2, ?_, rfl⟩
          intro entry he
          rw [hlist] at he
          exact hcache entry he

/-- Every engine reached through searches still reads the same index and holds only
scores between 0 and 1 in its cache, when the index is normalised. -/
theorem searchReachable_ok {α : Type} [LinearOrderedField α] (log2 sqrt : α → α)
    (hsqrt : ∀ x : α, 0 < x → sqrt x * sqrt x = x) (txt : SearchText)
    (r : Option (WebPageLibraryReader α)) (hidx : ∀ r0, r = some r0 → IndexNormalized r0)
    (e : WebSearchEngine α) (h : SearchReachable log2 sqrt txt r e) :
    e.webPageReader = r ∧ CacheScoresOK e.searchCache_ := by
  induction h with
  | fresh =>
    refine ⟨rfl, ?_⟩
    intro entry he
    simp [WebSearchEngine.new, LRUCache.new] at he
  | step e e' query topN results _ hs ih =>
    obtain ⟨hr, hc⟩ := ih
    obtain ⟨_, h2, h3⟩ := search_scores_ok log2 sqrt hsqrt txt e e'
      (fun r0 hr0 => hidx r0 (hr ▸ hr0)) hc query topN results hs
    exact ⟨h3.trans hr, h2⟩

/-! ## Search: scores and the scenario of two pages -/

theorem tokenizeLoop_isSome (stopWords : List (List Nat)) :
    ∀ (words terms : List (List Nat)), (∀ w ∈ words, (hasChineseChar w).isSome = true) →
      (tokenizeLoop stopWords words terms).isSome = true
  | [], _, _ => rfl
  | word :: words, terms, h => by
    rw [tokenizeLoop]
    obtain ⟨b, hb⟩ := Option.isSome_iff_exists.1 (h word (List.mem_cons_self _ _))
    rw [hb]
    simp only
    split
    · exact tokenizeLoop_isSome stopWords words _ (fun w hw => h w (List.mem_cons_of_mem _ hw))
    · exact tokenizeLoop_isSome stopWords words _ (fun w hw => h w (List.mem_cons_of_mem _ hw))

/-- A search returns when the tokenizer does not throw and the cache has room. -/
theorem search_isSome {α : Type} [LinearOrderedField α] (log2 sqrt : α → α) (txt : SearchText)
    (e : WebSearchEngine α) (query : List Nat) (topN : Int)
    (htok : (tokenizeQuery txt (normalizeQuery query)).isSome = true)
    (hcap : 0 < e.searchCache_.capacity_) :
    ∃ results e', search log2 sqrt txt e query topN = some (results, e') := by
  unfold search
  split
  · exact ⟨_, _, rfl⟩
  · simp only
    split
    · exact ⟨_, _, rfl⟩
    · rename_i cache' hget
      obtain ⟨hc, _, _⟩ := lruCache_get_miss _ _ _ hget
      obtain ⟨terms, hterms⟩ := Option.isSome_iff_exists.1 htok
      rw [hterms]
      simp only
      split
      · obtain ⟨c2, hc2, _⟩ := lruCache_put_ok cache' (query, topN)
          (performSearch log2 sqrt txt e terms topN) (by omega)
        rw [hc2]
        exact ⟨_, _, rfl⟩
      · exact ⟨_, _, rfl⟩

theorem unit_candidates : findIntersectionDocuments (unitReader ℝ) [zhongguo] = [1] := by
  simp [findIntersectionDocuments, intersectLoop, unitReader, WebPageLibraryReader.hasTerm,
    WebPageLibraryReader.getDocuments, umapFind_cons, usetInsert]

theorem unit_queryTF : [zhongguo].foldl incrementCount [] = [(zhongguo, 1)] := by decide

theorem unit_docVector : getDocumentVector (unitReader ℝ) 1 [zhongguo] = [(zhongguo, 1)] := by
  simp [getDocumentVector, docVectorStep, unitReader, WebPageLibraryReader.hasTerm,
    WebPageLibraryReader.getDocuments, umapFind_cons, umapAssign]

theorem unit_queryVector :
    calculateQueryVector (Real.logb 2) Real.sqrt (unitReader ℝ) [zhongguo] = [(zhongguo, 1)] := by
  have ha : 0 < Real.logb 2 (3 / 2) := Real.logb_pos (by norm_num) (by norm_num)
  have hs1 : 0 < Real.logb 2 (3 / 2) * Real.logb 2 (3 / 2) := mul_pos ha ha
  unfold calculateQueryVector queryWeights
  rw [unit_queryTF]
  simp only [List.foldl_cons, List.foldl_nil, queryWeightStep, unitReader,
    WebPageLibraryReader.hasTerm, WebPageLibraryReader.getDocuments,
    WebPageLibraryReader.getWebPageCount, umapFind_cons, if_true, Option.isSome_some,
    Option.getD_some, List.length_cons, List.length_nil, umapAssign, List.any_nil,
    Bool.false_eq_true, if_false, List.nil_append, zero_add]
  norm_num
  rw [Real.sqrt_mul_self (le_of_lt ha), div_self (ne_of_gt ha)]

theorem unit_similarity :
    calculateCosineSimilarity (unitReader ℝ) [zhongguo] 1 [(zhongguo, 1)] = 1 := by
  unfold calculateCosineSimilarity
  rw [unit_docVector]
  simp [calculateDotProduct, umapFind_cons]

/-- On the reader of the examples the search for 中国 finds document 1 with score 1. -/
theorem performSearch_unit :
    performSearch (Real.logb 2) Real.sqrt sampleText (WebSearchEngine.new (some (unitReader ℝ)))
        [zhongguo] 5
      = [SearchResult.mk 1 [] [] zhongguo 1] := by
  unfold performSearch
  simp only [WebSearchEngine.new, unit_candidates, unit_queryVector, similarityScores,
    List.filterMap_cons, List.filterMap_nil, unit_similarity]
  simp [stdSortBy, makeResult, sampleText]

/-- The search for 中国 on a fresh engine over the reader of the examples: one result with
score 1, which is put into the cache. -/
theorem search_unit :
    search (Real.logb 2) Real.sqrt sampleText (WebSearchEngine.new (some (unitReader ℝ)))
        zhongguo 5
      = some ([SearchResult.mk 1 [] [] zhongguo 1],
          WebSearchEngine.mk (some (unitReader ℝ))
            (LRUCache.mk 200 [((zhongguo, 5), [SearchResult.mk 1 [] [] zhongguo 1])] 0 1)) := by
  have htok : tokenizeQuery sampleText (normalizeQuery zhongguo) = some [zhongguo] := by decide
  have hq : (zhongguo.isEmpty || decide ((5 : Int) ≤ 0)) = false := by decide
  have hget : (WebSearchEngine.new (some (unitReader ℝ))).searchCache_.get (zhongguo, 5)
      = (none, LRUCache.mk 200 [] 0 1) := rfl
  unfold search
  rw [hq]
  simp only [Bool.false_eq_true, if_false, hget, htok, performSearch_unit]
  rfl

theorem performSearch_ranked_witness :
    (1 : Int) ≤ 5
    ∧ performSearch (Real.logb 2) Real.sqrt sampleText
          (WebSearchEngine.new (some (unitReader ℝ))) [zhongguo] 5
        = [SearchResult.mk 1 [] [] zhongguo 1]
    ∧ ((performSearch (Real.logb 2) Real.sqrt sampleText
          (WebSearchEngine.new (some (unitReader ℝ))) [zhongguo] 5).length : Int) ≤ 5
    ∧ (performSearch (Real.logb 2) Real.sqrt sampleText
          (WebSearchEngine.new (some (unitReader ℝ))) [zhongguo] 5).Chain'
          (fun res res' => res.score > res'.score
            ∨ (res.score = res'.score ∧ res.docid < res'.docid)) :=
  ⟨by decide, performSearch_unit,
    performSearch_ranked (Real.logb 2) Real.sqrt sampleText
      (WebSearchEngine.new (some (unitReader ℝ))) [zhongguo] 5 (by decide)⟩

/-- C16. On an index in which the squares of the weights posted for each document sum to
at most 1, every score that `search` returns lies in the interval from 0 to 1 (computed
over the reals), for every query and in every state that the engine reaches through
searches. -/
theorem search_scores_in_unit_interval (txt : SearchText) (r : WebPageLibraryReader ℝ)
    (hidx : IndexNormalized r) (e e' : WebSearchEngine ℝ)
    (hreach : SearchReachable (Real.logb 2) Real.sqrt txt (some r) e)
    (query : List Nat) (topN : Int) (results : List (SearchResult ℝ))
    (h : search (Real.logb 2) Real.sqrt txt e query topN = some (results, e')) :
    ∀ res ∈ results, 0 ≤ res.score ∧ res.score ≤ 1 := by
  have hsqrt : ∀ x : ℝ, 0 < x → Real.sqrt x * Real.sqrt x = x :=
    fun x hx => Real.mul_self_sqrt (le_of_lt hx)
  have hidx2 : ∀ r0, some r = some r0 → IndexNormalized r0 := by
    intro r0 hr0
    simp only [Option.some.injEq] at hr0
    exact hr0 ▸ hidx
  obtain ⟨hr, hc⟩ := searchReachable_ok (Real.logb 2) Real.sqrt hsqrt txt (some r) hidx2 e hreach
  exact (search_scores_ok (Real.logb 2) Real.sqrt hsqrt txt e e'
    (fun r0 hr0 => hidx2 r0 (hr ▸ hr0)) hc query topN results h).1

theorem search_scores_in_unit_interval_witness :
    IndexNormalized (unitReader ℝ)
    ∧ SearchReachable (Real.logb 2) Real.sqrt sampleText (some (unitReader ℝ))
        (WebSearchEngine.new (some (unitReader ℝ)))
    ∧ search (Real.logb 2) Real.sqrt sampleText (WebSearchEngine.new (some (unitReader ℝ)))
          zhongguo 5
        = some ([SearchResult.mk 1 [] [] zhongguo 1],
            WebSearchEngine.mk (some (unitReader ℝ))
              (LRUCache.mk 200 [((zhongguo, 5), [SearchResult.mk 1 [] [] zhongguo 1])] 0 1))
    ∧ (∀ res ∈ [SearchResult.mk 1 [] [] zhongguo (1 : ℝ)], 0 ≤ res.score ∧ res.score ≤ 1) := by
  have hidx : IndexNormalized (unitReader ℝ) := by
    intro docid
    simp only [unitReader, postedSquares, List.map_cons, List.map_nil, List.sum_cons,
      List.sum_nil, add_zero]
    by_cases hd : (1 : Int) = docid
    · simp [hd]
    · simp [hd]
  exact ⟨hidx, SearchReachable.fresh, search_unit,
    search_scores_in_unit_interval sampleText (unitReader ℝ) hidx _ _ SearchReachable.fresh
      zhongguo 5 _ search_unit⟩

theorem loadInvertedIndex_foldl {α : Type} (fixed6 : α → α) :
    ∀ (lines index : List (List Nat × List (Int × α))),
      (∀ e ∈ index, e.2 = []) → (∀ line ∈ lines, line.2 = []) →
      ∀ e ∈ lines.foldl (fun invertedIndex line =>
          umapAssign invertedIndex line.1 (line.2.map (fun dw => (dw.1, fixed6 dw.2)))) index,
        e.2 = []
  | [], _, h, _ => h
  | line :: lines, index, h, hl => by
    rw [List.foldl_cons]
    apply loadInvertedIndex_foldl fixed6 lines _ _ (fun l hl' => hl l (List.mem_cons_of_mem _ hl'))
    intro e he
    rcases umapAssign_mem _ _ _ _ he with h1 | h1
    · rw [h1, hl line (List.mem_cons_self _ _)]
      rfl
    · exact h e h1.1

/-- An index loaded from a file without postings has no postings. -/
theorem loadInvertedIndex_empty {α : Type} (fixed6 : α → α)
    (lines : List (List Nat × List (Int × α))) (hl : ∀ line ∈ lines, line.2 = []) :
    ∀ e ∈ loadInvertedIndex fixed6 lines, e.2 = [] :=
  loadInvertedIndex_foldl fixed6 lines [] (by simp) hl

theorem getDocuments_empty {α : Type} (r : WebPageLibraryReader α)
    (h : ∀ e ∈ r.invertedIndex_, e.2 = []) (term : List Nat) : r.getDocuments term = [] := by
  unfold WebPageLibraryReader.getDocuments
  cases hf : umapFind r.invertedIndex_ term with
  | none => rfl
  | some ps => exact h _ (umapFind_some_mem _ _ _ hf)

theorem intersectLoop_nil {α : Type} (r : WebPageLibraryReader α) (terms : List (List Nat)) :
    intersectLoop r [] terms = [] := by
  cases terms with
  | nil => rfl
  | cons term terms =>
    rw [intersectLoop]
    split
    · rfl
    · rfl

/-- Without postings there is no candidate. -/
theorem findIntersectionDocuments_empty {α : Type} (r : WebPageLibraryReader α)
    (h : ∀ e ∈ r.invertedIndex_, e.2 = []) (terms : List (List Nat)) :
    findIntersectionDocuments r terms = [] := by
  cases terms with
  | nil => rfl
  | cons term terms =>
    rw [findIntersectionDocuments]
    split
    · rw [getDocuments_empty r h term]
      exact intersectLoop_nil r terms
    · rfl

theorem performSearch_empty {α : Type} [LinearOrderedField α] (log2 sqrt : α → α)
    (txt : SearchText) (e : WebSearchEngine α)
    (h : ∀ r, e.webPageReader = some r → ∀ entry ∈ r.invertedIndex_, entry.2 = [])
    (terms : List (List Nat)) (topN : Int) : performSearch log2 sqrt txt e terms topN = [] := by
  unfold performSearch
  split
  · rfl
  · split
    · rfl
    · rename_i r hr
      simp only
      rw [findIntersectionDocuments_empty r (h r hr) terms]
      rfl

/-- A fresh engine on an index without postings answers every query that the tokenizer
accepts with the empty list. -/
theorem search_empty_index {α : Type} [LinearOrderedField α] (log2 sqrt : α → α)
    (txt : SearchText) (r : WebPageLibraryReader α) (h : ∀ entry ∈ r.invertedIndex_, entry.2 = [])
    (query : List Nat) (topN : Int)
    (htok : (tokenizeQuery txt (normalizeQuery query)).isSome = true) :
    ∃ e', search log2 sqrt txt (WebSearchEngine.new (some r)) query topN = some ([], e') := by
  have hperf : ∀ terms, performSearch log2 sqrt txt (WebSearchEngine.new (some r)) terms topN
      = [] := by
    intro terms
    apply performSearch_empty
    intro r' hr'
    simp only [WebSearchEngine.new, Option.some.injEq] at hr'
    subst hr'
    exact h
  obtain ⟨terms, hterms⟩ := Option.isSome_iff_exists.1 htok
  unfold search
  split
  · exact ⟨_, rfl⟩
  · have hget : (WebSearchEngine.new (some r)).searchCache_.get (query, topN)
        = (none, { (WebSearchEngine.new (some r)).searchCache_ with missCount_ := 0 + 1 }) := rfl
    simp only [hget, hterms, hperf]
    exact ⟨_, rfl⟩

/-- With at most two pages the engine finds nothing, whatever the query is: no posting is
written to the index file. -/
theorem search_small_corpus {α : Type} [LinearOrderedField α] (log2 sqrt : α → α)
    (hlog : ∀ x : α, 0 ≤ x → 0 < log2 x → 1 < x)
    (cut : List Nat → List (List Nat)) (stopWords : List (List Nat)) (pages : List WebPage)
    (hne : pages ≠ []) (hN : pages.length ≤ 2)
    (hwords : ∀ page ∈ pages, ∀ w ∈ cut page.content, (hasChineseChar w).isSome = true)
    (fixed6 : α → α) (offsets : List (Int × (Nat × Nat))) (txt : SearchText)
    (query : List Nat) (topN : Int)
    (htok : (tokenizeQuery txt (normalizeQuery query)).isSome = true) :
    ∃ lines, buildInvertedIndex log2 sqrt cut stopWords pages = some lines
      ∧ ∃ e', search log2 sqrt txt
          (WebSearchEngine.new (some { invertedIndex_ := loadInvertedIndex fixed6 lines
                                       offsetMap_ := offsets })) query topN
        = some ([], e') := by
  obtain ⟨lines, hlines⟩ := buildInvertedIndex_isSome log2 sqrt cut stopWords pages hne hwords
  refine ⟨lines, hlines, ?_⟩
  apply search_empty_index
  · exact loadInvertedIndex_empty fixed6 lines
      (buildInvertedIndex_small log2 sqrt hlog cut stopWords pages hN lines hlines)
  · exact htok

theorem logb_two_pos (x : ℝ) (h0 : 0 ≤ x) (h : 0 < Real.logb 2 x) : 1 < x := by
  by_contra hx
  have := Real.logb_nonpos (b := 2) (by norm_num) h0 (not_lt.1 hx)
  linarith

/-- C14 as stated fails: on the index built from the two pages of the scenario, with
the texts cut at the spaces and the stop words 是 and 的, the search for 北京 中国 returns
no result: 北京 occurs in one of two pages, so its idf is log2(2/2) = 0 and its line of
the index holds no posting. -/
theorem search_scenario_counterexample :
    ∃ lines, buildInvertedIndex (Real.logb 2) Real.sqrt splitOnSpace [shi, de] scenarioPages
        = some lines
      ∧ ∃ e', search (Real.logb 2) Real.sqrt sampleText
          (WebSearchEngine.new (some { invertedIndex_ := loadInvertedIndex (fun w => w) lines
                                       offsetMap_ := [(1, (0, 0)), (2, (0, 0))] }))
          scenarioQuery 5
        = some ([], e') :=
  search_small_corpus (Real.logb 2) Real.sqrt logb_two_pos splitOnSpace [shi, de] scenarioPages
    (by decide) (by decide) (by decide) (fun w => w) _ sampleText scenarioQuery 5 (by decide)

/-- C14, amended. For the two pages of the scenario, cut into the words between the
spaces, and any stop words, the index file is written and the search for 北京 中国 on it
returns the empty list. -/
theorem search_scenario_empty (cut : List Nat → List (List Nat)) (stopWords : List (List Nat))
    (hcut : ∀ page ∈ scenarioPages, cut page.content = splitOnSpace page.content)
    (fixed6 : ℝ → ℝ) (offsets : List (Int × (Nat × Nat))) (txt : SearchText)
    (hquery : txt.cut (normalizeQuery scenarioQuery) = splitOnSpace scenarioQuery) :
    ∃ lines, buildInvertedIndex (Real.logb 2) Real.sqrt cut stopWords scenarioPages = some lines
      ∧ ∃ e', search (Real.logb 2) Real.sqrt txt
          (WebSearchEngine.new (some { invertedIndex_ := loadInvertedIndex fixed6 lines
                                       offsetMap_ := offsets })) scenarioQuery 5
        = some ([], e') := by
  apply search_small_corpus (Real.logb 2) Real.sqrt logb_two_pos cut stopWords scenarioPages
    (by decide) (by decide)
  · intro page hp w hw
    rw [hcut page hp] at hw
    revert w
    revert page
    decide
  · unfold tokenizeQuery
    rw [hquery]
    have hne : (normalizeQuery scenarioQuery).isEmpty = false := by decide
    rw [hne]
    simp only [Bool.false_eq_true, if_false]
    apply tokenizeLoop_isSome
    decide

theorem search_scenario_empty_witness :
    (∀ page ∈ scenarioPages, splitOnSpace page.content = splitOnSpace page.content)
    ∧ sampleText.cut (normalizeQuery scenarioQuery) = splitOnSpace scenarioQuery
    ∧ ∃ lines, buildInvertedIndex (Real.logb 2) Real.sqrt splitOnSpace [shi, de] scenarioPages
          = some lines
        ∧ ∃ e', search (Real.logb 2) Real.sqrt sampleText
            (WebSearchEngine.new (some { invertedIndex_ := loadInvertedIndex (fun w => w) lines
                                         offsetMap_ := [(1, (0, 0)), (2, (0, 0))] }))
            scenarioQuery 5
          = some ([], e') :=
  ⟨fun _ _ => rfl, by decide,
    search_scenario_empty splitOnSpace [shi, de] (fun _ _ => rfl) (fun w => w)
      [(1, (0, 0)), (2, (0, 0))] sampleText (by decide)⟩

/-! ## The tables of the index builder have distinct keys -/

theorem incrementTermFrequency_keys (termFrequency : List (List Nat × List (Int × Int)))
    (word : List Nat) (docid : Int) (h : KeysDistinct termFrequency) :
    KeysDistinct (incrementTermFrequency termFrequency word docid) := by
  obtain ⟨h1, h2⟩ := h
  unfold incrementTermFrequency
  simp only
  refine ⟨umapAssign_nodup _ _ _ h1, ?_⟩
  intro e he
  rcases umapAssign_mem _ _ _ _ he with h3 | h3
  · rw [h3]
    simp only
    apply umapAssign_nodup
    cases hf : umapFind termFrequency word with
    | none => simp
    | some inner =>
      simp only [Option.getD_some]
      exact h2 _ (umapFind_some_mem _ _ _ hf)
  · exact h2 e h3.1

theorem scanWord_keys (stopWords : List (List Nat)) (docid : Int) (s s' : PageScan)
    (word : List Nat) (hs : KeysDistinct s.stats.termFrequency)
    (h : scanWord stopWords docid s word = some s') : KeysDistinct s'.stats.termFrequency := by
  unfold scanWord at h
  split at h
  · simp at h
  · simp only [Option.some.injEq] at h
    subst h
    exact hs
  · split at h
    · simp only [Option.some.injEq] at h
      subst h
      exact hs
    · simp only at h
      split at h
      · simp only [Option.some.injEq] at h
        subst h
        exact incrementTermFrequency_keys _ word docid hs
      · simp only [Option.some.injEq] at h
        subst h
        exact incrementTermFrequency_keys _ word docid hs

theorem scanWords_keys (stopWords : List (List Nat)) (docid : Int) :
    ∀ (words : List (List Nat)) (s s' : PageScan), KeysDistinct s.stats.termFrequency →
      scanWords stopWords docid s words = some s' → KeysDistinct s'.stats.termFrequency
  | [], s, s', hs, h => by
    simp only [scanWords, Option.some.injEq] at h
    subst h
    exact hs
  | word :: words, s, s', hs, h => by
    rw [scanWords] at h
    cases h1 : scanWord stopWords docid s word with
    | none => rw [h1] at h; simp at h
    | some s1 =>
      rw [h1] at h
      exact scanWords_keys stopWords docid words s1 s'
        (scanWord_keys stopWords docid s s1 word hs h1) h

theorem scanPages_keys (cut : List Nat → List (List Nat)) (stopWords : List (List Nat)) :
    ∀ (pages : List WebPage) (stats stats' : TokenStats), KeysDistinct stats.termFrequency →
      scanPages cut stopWords stats pages = some stats' → KeysDistinct stats'.termFrequency
  | [], stats, stats', hs, h => by
    simp only [scanPages, Option.some.injEq] at h
    subst h
    exact hs
  | page :: pages, stats, stats', hs, h => by
    rw [scanPages] at h
    cases h1 : scanPage cut stopWords stats page with
    | none => rw [h1] at h; simp at h
    | some s1 =>
      rw [h1] at h
      refine scanPages_keys cut stopWords pages s1 stats' ?_ h
      unfold scanPage at h1
      split at h1
      · simp at h1
      · rename_i s hscan
        simp only [Option.some.injEq] at h1
        subst h1
        exact scanWords_keys stopWords page.docid _ _ s hs hscan

/-- The table that `generateInvertedIndexFile` receives from `buildInvertedIndex` has
distinct keys. -/
theorem normalizedWeights_keys {α : Type} [LinearOrderedField α] (log2 sqrt : α → α)
    (cut : List Nat → List (List Nat)) (stopWords : List (List Nat)) (pages : List WebPage)
    (weights : List (List Nat × List (Int × α)))
    (h : normalizedWeights log2 sqrt cut stopWords pages = some weights) :
    KeysDistinct weights := by
  unfold normalizedWeights at h
  split at h
  · simp at h
  · split at h
    · simp at h
    · rename_i stats hstats
      have hkeys : KeysDistinct stats.termFrequency :=
        scanPages_keys cut stopWords pages
          { termFrequency := [], documentFrequency := [], docTotalWords := [] } stats
          ⟨List.nodup_nil, by intro e he; simp at he⟩ hstats
      obtain ⟨_, hB, _⟩ := tokenizationAndFiltering_ok cut stopWords pages stats hstats
      obtain ⟨w0, hw0, hk0, hall⟩ := calculateTfIdfWeights_spec log2 (pages.length : Int)
        stats.documentFrequency stats.termFrequency hB
      rw [hw0] at h
      simp only [Option.some.injEq] at h
      subst h
      unfold performL2Normalization
      constructor
      · rw [List.map_map]
        have : ((fun e : List Nat × List (Int × α) => e.1) ∘ fun e : List Nat × List (Int × α) =>
            (e.1, e.2.map (fun dw =>
              if (umapFind (docL2NormsOf sqrt pages w0) dw.1).getD 0 > 0 then
                (dw.1, dw.2 / (umapFind (docL2NormsOf sqrt pages w0) dw.1).getD 0)
              else dw))) = fun e => e.1 := rfl
        rw [this, hk0]
        exact hkeys.1
      · intro e he
        simp only [List.mem_map] at he
        obtain ⟨e0, he0, rfl⟩ := he
        obtain ⟨m, df, hm, _, he2⟩ := hall e0 he0
        simp only
        rw [List.map_map]
        have hfst : (e0.2.map ((fun dc : Int × α => dc.1) ∘ fun dw =>
            if (umapFind (docL2NormsOf sqrt pages w0) dw.1).getD 0 > 0 then
              (dw.1, dw.2 / (umapFind (docL2NormsOf sqrt pages w0) dw.1).getD 0)
            else dw)) = e0.2.map (fun dc => dc.1) := by
          apply List.map_congr_left
          intro dw _
          simp only [Function.comp]
          split <;> rfl
        rw [hfst, he2, List.map_map]
        exact hkeys.2 _ hm

/-! ## Framing codec: a frame followed by the beginning of the next -/

/-- The header read at an offset depends on the six bytes found there only. -/
theorem readHeader_congr (b1 b2 : List Nat) (pos : Nat)
    (h : ∀ k, k < 6 → b1.getD (pos + k) 0 = b2.getD (pos + k) 0) :
    readHeader b1 pos = readHeader b2 pos := by
  have e0 := h 0 (by omega)
  have e1 := h 1 (by omega)
  have e2 := h 2 (by omega)
  have e3 := h 3 (by omega)
  have e4 := h 4 (by omega)
  have e5 := h 5 (by omega)
  simp only [Nat.add_zero] at e0
  simp only [readHeader, ntohs, ntohl, Nat.add_assoc, e0, e1, e2, e3, e4, e5]

/-- After a well-formed frame the decoder stops in front of every beginning of a second
well-formed frame that is not the whole frame. -/
theorem decodeLoop_frame_then_beginning (F1 F2 : TLVMessage) (h1 : WellFormed F1)
    (h2 : WellFormed F2) (p : List Nat) (hp : p <+: encode F2) (hne : p ≠ encode F2)
    (fuel : Nat) :
    decodeLoop (fuel + 2) (encode F1 ++ p) 0 [] = some ([F1], (encode F1).length) := by
  obtain ⟨s, hs⟩ := hp
  have hplen : p.length < (encode F2).length := by
    have hl : (encode F2).length = p.length + s.length := by rw [← hs, List.length_append]
    rcases Nat.eq_zero_or_pos s.length with h0 | h0
    · have : s = [] := List.length_eq_zero.1 h0
      rw [this, List.append_nil] at hs
      exact absurd hs hne
    · omega
  rw [encode_length] at hplen
  have hframe := decodeLoop_frame (fuel + 1) [] p F1 h1 []
  simp only [List.nil_append, List.length_nil, Nat.zero_add] at hframe
  rw [hframe, decodeLoop]
  by_cases h6 : (encode F1).length + sizeofTLVHeader ≤ (encode F1 ++ p).length
  · rw [if_pos h6]
    have hp6 : 6 ≤ p.length := by
      simp only [List.length_append, sizeofTLVHeader] at h6
      omega
    have hhead : readHeader (encode F1 ++ p) (encode F1).length = F2.header := by
      rw [← readHeader_encode (encode F1) [] F2 (isValidMessageType_lt h2.1)
        (by have := h2.2.1; have := h2.2.2; omega)]
      apply readHeader_congr
      intro k hk
      rw [List.append_nil, ← hs]
      simp only [List.getD_eq_getElem?_getD]
      rw [List.getElem?_append_right (by omega), List.getElem?_append_right (by omega)]
      simp only [Nat.add_sub_cancel_left]
      rw [List.getElem?_append_left (by omega)]
    simp only [hhead, h2.1, Bool.not_true, Bool.false_eq_true, if_false]
    rw [if_pos (by
      simp only [List.length_append, sizeofTLVHeader, h2.2.1]
      omega)]
  · rw [if_neg h6]

theorem strict_prefix_example :
    ([0x00, 0x02, 0x00, 0x00, 0x00, 0x02, 0x7B] : List Nat)
      <+: encode (TLVMessage.ofJson SEARCH_REQUEST [0x7B, 0x7D]) :=
  ⟨[0x7D], by decide⟩

/-- C26. For all well-formed frames F1 and F2 and every strict prefix p of `encode F2`,
the empty one included, `decode (encode F1 ++ p)` returns exactly `[F1]` and sets
`parsedBytes` to the length of `encode F1`; the bytes of the buffer behind `parsedBytes`
are exactly p. -/
theorem decode_frame_then_beginning (F1 F2 : TLVMessage) (h1 : WellFormed F1)
    (h2 : WellFormed F2) (p : List Nat) (hp : p <+: encode F2) (hne : p ≠ encode F2) :
    decode (encode F1 ++ p) = some ([F1], (encode F1).length)
      ∧ (encode F1 ++ p).drop (encode F1).length = p := by
  refine ⟨?_, List.drop_left _ _⟩
  have hL : (encode F1 ++ p).length + 1 = (F1.data.length + p.length + 5) + 2 := by
    simp only [List.length_append, encode_length]
    omega
  rw [decode, hL]
  exact decodeLoop_frame_then_beginning F1 F2 h1 h2 p hp hne _

theorem decode_frame_then_beginning_witness :
    WellFormed (TLVMessage.ofJson KEYWORD_RECOMMEND_REQUEST [0x7B, 0x7D])
      ∧ WellFormed (TLVMessage.ofJson SEARCH_REQUEST [0x7B, 0x7D])
      ∧ [0x00, 0x02, 0x00, 0x00, 0x00, 0x02, 0x7B]
          <+: encode (TLVMessage.ofJson SEARCH_REQUEST [0x7B, 0x7D])
      ∧ [0x00, 0x02, 0x00, 0x00, 0x00, 0x02, 0x7B]
          ≠ encode (TLVMessage.ofJson SEARCH_REQUEST [0x7B, 0x7D])
      ∧ decode (encode (TLVMessage.ofJson KEYWORD_RECOMMEND_REQUEST [0x7B, 0x7D])
            ++ [0x00, 0x02, 0x00, 0x00, 0x00, 0x02, 0x7B])
          = some ([TLVMessage.ofJson KEYWORD_RECOMMEND_REQUEST [0x7B, 0x7D]],
              (encode (TLVMessage.ofJson KEYWORD_RECOMMEND_REQUEST [0x7B, 0x7D])).length)
      ∧ (encode (TLVMessage.ofJson KEYWORD_RECOMMEND_REQUEST [0x7B, 0x7D])
            ++ [0x00, 0x02, 0x00, 0x00, 0x00, 0x02, 0x7B]).drop
          (encode (TLVMessage.ofJson KEYWORD_RECOMMEND_REQUEST [0x7B, 0x7D])).length
          = [0x00, 0x02, 0x00, 0x00, 0x00, 0x02, 0x7B] :=
  ⟨by decide, by decide, strict_prefix_example, by decide,
    decode_frame_then_beginning (TLVMessage.ofJson KEYWORD_RECOMMEND_REQUEST [0x7B, 0x7D])
      (TLVMessage.ofJson SEARCH_REQUEST [0x7B, 0x7D]) (by decide) (by decide)
      [0x00, 0x02, 0x00, 0x00, 0x00, 0x02, 0x7B] strict_prefix_example (by decide)⟩

/-! ## Candidate documents: the intersection of the posting lists -/

theorem docSet_foldl_mem {α : Type} (d : Int) :
    ∀ (docs : List (Int × α)) (s : List Int),
      d ∈ docs.foldl (fun s dw => usetInsert s dw.1) s
        ↔ d ∈ s ∨ d ∈ docs.map (fun dw => dw.1)
  | [], s => by simp
  | dw :: docs, s => by
    rw [List.foldl_cons, docSet_foldl_mem d docs, usetInsert_mem, List.map_cons, List.mem_cons]
    constructor
    · rintro ((h | h) | h)
      · exact Or.inr (Or.inl h)
      · exact Or.inl h
      · exact Or.inr (Or.inr h)
    · rintro (h | h | h)
      · exact Or.inl (Or.inr h)
      · exact Or.inl (Or.inl h)
      · exact Or.inr h

theorem docSet_mem {α : Type} (r : WebPageLibraryReader α) (term : List Nat) (d : Int) :
    d ∈ (r.getDocuments term).foldl (fun s dw => usetInsert s dw.1) []
      ↔ d ∈ postedDocids r term := by
  rw [docSet_foldl_mem]
  simp [postedDocids]

theorem intersection_foldl_mem (currentSet : List Int) (d : Int) :
    ∀ (resultSet s : List Int),
      d ∈ resultSet.foldl (fun s docid => if docid ∈ currentSet then usetInsert s docid else s) s
        ↔ d ∈ s ∨ (d ∈ resultSet ∧ d ∈ currentSet)
  | [], s => by simp
  | x :: resultSet, s => by
    rw [List.foldl_cons, intersection_foldl_mem currentSet d resultSet]
    by_cases hx : x ∈ currentSet
    · rw [if_pos hx, usetInsert_mem, List.mem_cons]
      constructor
      · rintro ((h | h) | h)
        · exact Or.inr ⟨Or.inl h, h ▸ hx⟩
        · exact Or.inl h
        · exact Or.inr ⟨Or.inr h.1, h.2⟩
      · rintro (h | ⟨h | h, h2⟩)
        · exact Or.inl (Or.inr h)
        · exact Or.inl (Or.inl h)
        · exact Or.inr ⟨h, h2⟩
    · rw [if_neg hx, List.mem_cons]
      constructor
      · rintro (h | h)
        · exact Or.inl h
        · exact Or.inr ⟨Or.inr h.1, h.2⟩
      · rintro (h | ⟨h | h, h2⟩)
        · exact Or.inl h
        · exact absurd (h ▸ h2) hx
        · exact Or.inr ⟨h, h2⟩

theorem postedDocids_absent {α : Type} (r : WebPageLibraryReader α) (term : List Nat)
    (h : r.hasTerm term = false) : postedDocids r term = [] := by
  unfold WebPageLibraryReader.hasTerm at h
  unfold postedDocids WebPageLibraryReader.getDocuments
  cases hf : umapFind r.invertedIndex_ term with
  | none => rfl
  | some v => rw [hf] at h; simp at h

theorem intersectLoop_mem {α : Type} (r : WebPageLibraryReader α) (d : Int) :
    ∀ (terms : List (List Nat)) (resultSet : List Int),
      d ∈ intersectLoop r resultSet terms
        ↔ d ∈ resultSet ∧ ∀ term ∈ terms, d ∈ postedDocids r term
  | [], resultSet => by simp [intersectLoop]
  | term :: terms, resultSet => by
    rw [intersectLoop]
    cases hterm : r.hasTerm term with
    | false =>
      simp only [Bool.not_false, if_true, List.not_mem_nil, false_iff, not_and]
      intro _ hall
      have := hall term (List.mem_cons_self _ _)
      rw [postedDocids_absent r term hterm] at this
      simp at this
    | true =>
      simp only [Bool.not_true, Bool.false_eq_true, if_false]
      have hi := fun x => intersection_foldl_mem
        ((r.getDocuments term).foldl (fun s dw => usetInsert s dw.1) []) x resultSet []
      split
      · rename_i hempty
        rw [hi, docSet_mem]
        simp only [List.not_mem_nil, false_or, List.mem_cons, forall_eq_or_imp]
        constructor
        · intro h
          have hd := (hi d).2 (Or.inr ⟨h.1, (docSet_mem r term d).2 h.2⟩)
          rw [List.isEmpty_iff.1 hempty] at hd
          simp at hd
        · intro h
          exact ⟨h.1, h.2.1⟩
      · rw [intersectLoop_mem r d terms, hi, docSet_mem]
        simp only [List.not_mem_nil, false_or, List.mem_cons, forall_eq_or_imp]
        constructor
        · rintro ⟨⟨h1, h2⟩, h3⟩
          exact ⟨h1, h2, h3⟩
        · rintro ⟨h1, h2, h3⟩
          exact ⟨⟨h1, h2⟩, h3⟩

theorem findIntersectionDocuments_mem {α : Type} (r : WebPageLibraryReader α)
    (terms : List (List Nat)) (hne : terms ≠ []) (d : Int) :
    d ∈ findIntersectionDocuments r terms ↔ ∀ term ∈ terms, d ∈ postedDocids r term := by
  cases terms with
  | nil => exact absurd rfl hne
  | cons term terms =>
    rw [findIntersectionDocuments]
    cases hterm : r.hasTerm term with
    | false =>
      simp only [Bool.false_eq_true, if_false, List.not_mem_nil, false_iff]
      intro hall
      have := hall term (List.mem_cons_self _ _)
      rw [postedDocids_absent r term hterm] at this
      simp at this
    | true =>
      simp only [if_true]
      rw [intersectLoop_mem, docSet_mem]
      simp only [List.mem_cons, forall_eq_or_imp]

/-- C27. For every non-empty list of query terms, `findIntersectionDocuments` returns,
each once, exactly the docids that occur in the posting list of every term of the list.
The result is empty when a term is absent from the index and when no docid is common
to all posting lists. -/
theorem findIntersectionDocuments_spec {α : Type} (r : WebPageLibraryReader α)
    (terms : List (List Nat)) (hne : terms ≠ []) :
    (findIntersectionDocuments r terms).Nodup
      ∧ (∀ d : Int, d ∈ findIntersectionDocuments r terms
          ↔ ∀ term ∈ terms, d ∈ postedDocids r term)
      ∧ ((∃ term ∈ terms, r.hasTerm term = false) → findIntersectionDocuments r terms = [])
      ∧ ((∀ d : Int, ∃ term ∈ terms, d ∉ postedDocids r term)
          → findIntersectionDocuments r terms = []) := by
  have hmem := findIntersectionDocuments_mem r terms hne
  refine ⟨findIntersectionDocuments_nodup r terms, hmem, ?_, ?_⟩
  · rintro ⟨term, ht, habs⟩
    apply List.eq_nil_iff_forall_not_mem.2
    intro d hd
    have := (hmem d).1 hd term ht
    rw [postedDocids_absent r term habs] at this
    simp at this
  · intro hall
    apply List.eq_nil_iff_forall_not_mem.2
    intro d hd
    obtain ⟨term, ht, hnot⟩ := hall d
    exact hnot ((hmem d).1 hd term ht)

theorem findIntersectionDocuments_spec_witness :
    [zhongguo, beijing] ≠ []
      ∧ findIntersectionDocuments twoTermReader [zhongguo, beijing] = [1, 3]
      ∧ findIntersectionDocuments twoTermReader [zhongguo, shanghai] = []
      ∧ (findIntersectionDocuments twoTermReader [zhongguo, beijing]).Nodup
      ∧ (∀ d : Int, d ∈ findIntersectionDocuments twoTermReader [zhongguo, beijing]
          ↔ ∀ term ∈ [zhongguo, beijing], d ∈ postedDocids twoTermReader term)
      ∧ ((∃ term ∈ [zhongguo, beijing], twoTermReader.hasTerm term = false)
          → findIntersectionDocuments twoTermReader [zhongguo, beijing] = [])
      ∧ ((∀ d : Int, ∃ term ∈ [zhongguo, beijing], d ∉ postedDocids twoTermReader term)
          → findIntersectionDocuments twoTermReader [zhongguo, beijing] = []) :=
  ⟨by decide, by decide, by decide,
    findIntersectionDocuments_spec twoTermReader [zhongguo, beijing] (by decide)⟩

/-! ## Near-duplicate elimination: the kept pages -/

theorem editCacheReachable_ok (capacity : Nat) (hcap : 0 < capacity)
    (cache : LRUCache EditDistanceCacheKey Int) (h : EditCacheReachable capacity cache) :
    EditCacheOK cache := by
  induction h with
  | empty => exact EditCacheOK_new capacity hcap
  | call c c' w1 w2 d _ hcall ih =>
    rcases calculateEditDistance_spec c ih w1 w2 with ⟨_, hn⟩ | ⟨d', c2, _, hs, hok⟩
    · rw [hn] at hcall
      exact Option.noConfusion hcall
    · rw [hs] at hcall
      simp only [Option.some.injEq, Prod.mk.injEq] at hcall
      rw [← hcall.2]
      exact hok

/-- The cache of one entry left by the call on (中国, 忠告). -/
theorem editCache_example :
    calculateEditDistance (LRUCache.new 1) zhongguo zhonggao
      = some (2, LRUCache.mk 1 [((zhongguo, zhonggao), 2)] 0 2) := by
  rfl

/-- C29. In every state of the edit-distance cache (of a positive capacity) that is
reached from the empty cache through calls of `calculateEditDistance`, whatever was
evicted on the way, the call on two valid UTF-8 strings a and b returns the value that
the dynamic program computes on the characters of a and b, also when the value is
served from the entry stored under the key (b, a). -/
theorem calculateEditDistance_reachable (capacity : Nat) (hcap : 0 < capacity)
    (cache : LRUCache EditDistanceCacheKey Int) (hreach : EditCacheReachable capacity cache)
    (a b : List Nat) (chars1 chars2 : List (List Nat))
    (ha : utf8Split a = some chars1) (hb : utf8Split b = some chars2) :
    ∃ cache', calculateEditDistance cache a b
        = some (((editDistanceDP chars1 chars2 : Nat) : Int), cache')
      ∧ EditCacheReachable capacity cache' := by
  have hok := editCacheReachable_ok capacity hcap cache hreach
  obtain ⟨cache', hcall, _⟩ := calculateEditDistance_valid cache hok a b chars1 chars2 ha hb
  rw [← editDistanceDP_eq_lev] at hcall
  exact ⟨cache', hcall, EditCacheReachable.call cache cache' a b _ hreach hcall⟩

theorem calculateEditDistance_reachable_witness :
    0 < 1
      ∧ EditCacheReachable 1 (LRUCache.mk 1 [((zhongguo, zhonggao), 2)] 0 2)
      ∧ utf8Split zhonggao = some [[0xE5, 0xBF, 0xA0], [0xE5, 0x91, 0x8A]]
      ∧ utf8Split zhongguo = some [[0xE4, 0xB8, 0xAD], [0xE5, 0x9B, 0xBD]]
      ∧ calculateEditDistance (LRUCache.mk 1 [((zhongguo, zhonggao), 2)] 0 2) zhonggao zhongguo
          = some (2, LRUCache.mk 1 [((zhongguo, zhonggao), 2)] 1 3)
      ∧ editDistanceDP [[0xE5, 0xBF, 0xA0], [0xE5, 0x91, 0x8A]]
          [[0xE4, 0xB8, 0xAD], [0xE5, 0x9B, 0xBD]] = 2
      ∧ ∃ cache', calculateEditDistance (LRUCache.mk 1 [((zhongguo, zhonggao), 2)] 0 2)
            zhonggao zhongguo
          = some (((editDistanceDP [[0xE5, 0xBF, 0xA0], [0xE5, 0x91, 0x8A]]
              [[0xE4, 0xB8, 0xAD], [0xE5, 0x9B, 0xBD]] : Nat) : Int), cache')
        ∧ EditCacheReachable 1 cache' :=
  ⟨by decide,
    EditCacheReachable.call _ _ zhongguo zhonggao 2 EditCacheReachable.empty editCache_example,
    by decide, by decide, by rfl, by decide,
    calculateEditDistance_reachable 1 (by decide) _
      (EditCacheReachable.call _ _ zhongguo zhonggao 2 EditCacheReachable.empty
        editCache_example)
      zhonggao zhongguo _ _ (by decide) (by decide)⟩

/-! ## Index builder: only terms that are rare enough are posted -/

theorem performL2Normalization_keys {α : Type} [LinearOrderedField α] (sqrt : α → α)
    (pages : List WebPage) (tfidfWeights : List (List Nat × List (Int × α))) :
    (performL2Normalization sqrt pages tfidfWeights).map (fun e => e.1)
      = tfidfWeights.map (fun e => e.1) := by
  unfold performL2Normalization
  simp only [List.map_map]
  rfl

theorem generateInvertedIndexFile_keys {α : Type} [LinearOrderedField α]
    (tfidfWeights : List (List Nat × List (Int × α))) :
    (generateInvertedIndexFile tfidfWeights).map (fun line => line.1)
      = stdSortBy stringLt (tfidfWeights.map (fun e => e.1)) := by
  unfold generateInvertedIndexFile
  simp only [List.map_map]
  exact List.map_id _

/-- The lines of the index file are the terms of the term-frequency table in sorted
order. -/
theorem buildInvertedIndex_keys {α : Type} [LinearOrderedField α] (log2 sqrt : α → α)
    (cut : List Nat → List (List Nat)) (stopWords : List (List Nat)) (pages : List WebPage)
    (lines : List (List Nat × List (Int × α))) (stats : TokenStats)
    (h : buildInvertedIndex log2 sqrt cut stopWords pages = some lines)
    (hstats : tokenizationAndFiltering cut stopWords pages = some stats) :
    lines.map (fun line => line.1)
      = stdSortBy stringLt (stats.termFrequency.map (fun e => e.1)) := by
  unfold buildInvertedIndex normalizedWeights at h
  rw [hstats] at h
  have hok := tokenizationAndFiltering_ok cut stopWords pages stats hstats
  obtain ⟨weights, hw, hkeys, _⟩ := calculateTfIdfWeights_spec log2 (pages.length : Int)
    stats.documentFrequency stats.termFrequency hok.2.1
  simp only [hw] at h
  by_cases hempty : pages.isEmpty = true
  · rw [if_pos hempty] at h
    exact Option.noConfusion h
  · rw [if_neg hempty] at h
    simp only [Option.some.injEq] at h
    subst h
    rw [generateInvertedIndexFile_keys, performL2Normalization_keys, hkeys]

theorem logb_two_pos_iff (N df : Int) (hdf : 0 ≤ df) (hN : 0 ≤ N) :
    0 < Real.logb 2 ((N : ℝ) / ((df + 1 : Int) : ℝ)) ↔ df + 1 < N := by
  have hden : (0 : ℝ) < ((df + 1 : Int) : ℝ) := by
    have : (0 : Int) < df + 1 := by omega
    exact_mod_cast this
  have hnum : (0 : ℝ) ≤ (N : ℝ) := by exact_mod_cast hN
  constructor
  · intro h
    have h1 := logb_two_pos _ (div_nonneg hnum (le_of_lt hden)) h
    rw [one_lt_div hden] at h1
    exact_mod_cast h1
  · intro h
    apply Real.logb_pos (by norm_num)
    rw [one_lt_div hden]
    exact_mod_cast h

/-- C30. For every corpus of N kept documents (N at least 1, every word decodable), the
index file is written, with one line per term, and every (docid, weight) pair written on
a line belongs to a term whose document frequency df satisfies df + 1 < N, which over the
reals is exactly when log2(N / (df + 1)) is positive.  In particular, when N is at most 2
every term line is written with no postings at all. -/
theorem written_postings_rare_terms (cut : List Nat → List (List Nat))
    (stopWords : List (List Nat)) (pages : List WebPage) (hne : pages ≠ [])
    (hwords : ∀ page ∈ pages, ∀ w ∈ cut page.content, (hasChineseChar w).isSome = true) :
    ∃ (lines : List (List Nat × List (Int × ℝ))) (stats : TokenStats),
      buildInvertedIndex (Real.logb 2) Real.sqrt cut stopWords pages = some lines
        ∧ tokenizationAndFiltering cut stopWords pages = some stats
        ∧ lines.map (fun line => line.1)
            = stdSortBy stringLt (stats.termFrequency.map (fun e => e.1))
        ∧ (∀ line ∈ lines, ∀ p ∈ line.2,
            ∃ df : Int, umapFind stats.documentFrequency line.1 = some df
              ∧ df + 1 < (pages.length : Int)
              ∧ 0 < Real.logb 2 (((pages.length : Int) : ℝ) / ((df + 1 : Int) : ℝ)))
        ∧ (∀ df : Int, 0 ≤ df →
            (0 < Real.logb 2 (((pages.length : Int) : ℝ) / ((df + 1 : Int) : ℝ))
              ↔ df + 1 < (pages.length : Int)))
        ∧ (pages.length ≤ 2 → ∀ line ∈ lines, line.2 = []) := by
  obtain ⟨lines, hlines⟩ := buildInvertedIndex_isSome (Real.logb 2) Real.sqrt cut stopWords pages
    hne hwords
  have hstats : ∃ stats, tokenizationAndFiltering cut stopWords pages = some stats := by
    cases hs : tokenizationAndFiltering cut stopWords pages with
    | none =>
      unfold buildInvertedIndex normalizedWeights at hlines
      rw [hs] at hlines
      split at hlines
      · simp at hlines
      · rename_i nw hnw
        split at hnw <;> simp at hnw
    | some stats => exact ⟨stats, rfl⟩
  obtain ⟨stats, hstats⟩ := hstats
  refine ⟨lines, stats, hlines, hstats,
    buildInvertedIndex_keys _ _ cut stopWords pages lines stats hlines hstats, ?_, ?_, ?_⟩
  · intro line hline p hp
    obtain ⟨stats', df, hs', hdf, h1, h2⟩ := written_posting_df (Real.logb 2) Real.sqrt
      logb_two_pos cut stopWords pages lines hlines line hline p hp
    rw [hstats] at hs'
    simp only [Option.some.injEq] at hs'
    subst hs'
    exact ⟨df, hdf, h2, (logb_two_pos_iff _ df (by omega) (by omega)).2 h2⟩
  · intro df hdf
    exact logb_two_pos_iff _ df hdf (by omega)
  · intro hN
    exact buildInvertedIndex_small (Real.logb 2) Real.sqrt logb_two_pos cut stopWords pages hN
      lines hlines

theorem written_postings_rare_terms_witness :
    threePages ≠ []
      ∧ (∀ page ∈ threePages, ∀ w ∈ splitOnSpace page.content,
          (hasChineseChar w).isSome = true)
      ∧ tokenizationAndFiltering splitOnSpace [] threePages
          = some { termFrequency := [(beijing, [(1, 1)]), (zhongguo, [(1, 1), (2, 1), (3, 1)])]
                   documentFrequency := [(beijing, 1), (zhongguo, 3)]
                   docTotalWords := [(1, 2), (2, 1), (3, 1)] }
      ∧ ∃ (lines : List (List Nat × List (Int × ℝ))) (stats : TokenStats),
        buildInvertedIndex (Real.logb 2) Real.sqrt splitOnSpace [] threePages = some lines
          ∧ tokenizationAndFiltering splitOnSpace [] threePages = some stats
          ∧ lines.map (fun line => line.1)
              = stdSortBy stringLt (stats.termFrequency.map (fun e => e.1))
          ∧ (∀ line ∈ lines, ∀ p ∈ line.2,
              ∃ df : Int, umapFind stats.documentFrequency line.1 = some df
                ∧ df + 1 < (threePages.length : Int)
                ∧ 0 < Real.logb 2 (((threePages.length : Int) : ℝ) / ((df + 1 : Int) : ℝ)))
          ∧ (∀ df : Int, 0 ≤ df →
              (0 < Real.logb 2 (((threePages.length : Int) : ℝ) / ((df + 1 : Int) : ℝ))
                ↔ df + 1 < (threePages.length : Int)))
          ∧ (threePages.length ≤ 2 → ∀ line ∈ lines, line.2 = []) :=
  ⟨by decide, by decide, by decide,
    written_postings_rare_terms splitOnSpace [] threePages (by decide) (by decide)⟩

/-! ## Worker pool: an exception of a task leaves the loop -/

theorem doTask_append {σ ε : Type} :
    ∀ (ran rest : List (Option (Task σ ε))) (s s' : σ), doTask ran s = (s', none) →
      doTask (ran ++ rest) s = doTask rest s'
  | [], rest, s, s', h => by
    simp only [doTask, Prod.mk.injEq, and_true] at h
    rw [List.nil_append, h]
  | none :: ran, rest, s, s', h => by
    rw [List.cons_append, doTask]
    rw [doTask] at h
    exact doTask_append ran rest s s' h
  | some taskcb :: ran, rest, s, s', h => by
    rw [List.cons_append, doTask]
    rw [doTask] at h
    rcases ht : taskcb s with ⟨s1, o⟩
    rw [ht] at h
    cases o with
    | some e => simp at h
    | none =>
      simp only at h ⊢
      exact doTask_append ran rest s1 s' h

/-- C25, the code at a failing input: when the tasks fetched so far have returned and
the next task throws, `doTask` does not catch the exception: it leaves `doTask` with
the state the task left, and no task queued behind it is fetched by this worker. -/
theorem doTask_exception_escapes {σ ε : Type} (ran rest : List (Option (Task σ ε)))
    (taskcb : Task σ ε) (s s' s2 : σ) (e : ε) (hran : doTask ran s = (s', none))
    (hthrow : taskcb s' = (s2, some e)) :
    doTask (ran ++ some taskcb :: rest) s = (s2, some e) := by
  rw [doTask_append ran _ s s' hran, doTask, hthrow]

theorem doTask_exception_escapes_witness :
    doTask [some countingTask] 0 = (1, none)
      ∧ failingTask 1 = (1, some 1)
      ∧ doTask ([some countingTask] ++ some failingTask :: [some countingTask]) 0 = (1, some 1)
      ∧ workerLoop [countingTask, failingTask, countingTask] 0 = 2 :=
  ⟨rfl, rfl,
    doTask_exception_escapes [some countingTask] [some countingTask] failingTask 0 1 1 1 rfl rfl,
    rfl⟩

/-! ## Request dispatcher: error frames -/

theorem sendErrorResponse_some (env : ServerEnv) (errorMessage : List Nat) (errorCode : Int)
    (text : List Nat)
    (h : env.dump { error := errorMessage, code := errorCode, timestamp := env.time } = some text) :
    sendErrorResponse env errorMessage errorCode
      = [encode (TLVMessage.ofJson ERROR_RESPONSE text)] := by
  simp only [sendErrorResponse, buildErrorResponse, h, sendResponse]

theorem sendErrorResponse_none (env : ServerEnv) (errorMessage : List Nat) (errorCode : Int)
    (h : env.dump { error := errorMessage, code := errorCode, timestamp := env.time } = none) :
    sendErrorResponse env errorMessage errorCode = [] := by
  simp only [sendErrorResponse, buildErrorResponse, h]

/-- The answer to a frame of a type that has no handler. -/
theorem process_other_type (env : ServerEnv) (message_ : List Nat) (request : TLVMessage)
    (rest : List TLVMessage) (parsedBytes : Nat)
    (hdec : decode message_ = some (request :: rest, parsedBytes))
    (h1 : request.header.type ≠ KEYWORD_RECOMMEND_REQUEST)
    (h2 : request.header.type ≠ SEARCH_REQUEST) :
    process env message_ = some (sendErrorResponse env unsupportedTypeText (-1)) := by
  simp only [process, hdec, if_neg h1, if_neg h2, defaultErrorCode]

/-- The answer to a request whose handler throws. -/
theorem process_handler_throws (env : ServerEnv) (message_ : List Nat) (request : TLVMessage)
    (rest : List TLVMessage) (parsedBytes : Nat) (what : List Nat)
    (hdec : decode message_ = some (request :: rest, parsedBytes))
    (hfail : (request.header.type = KEYWORD_RECOMMEND_REQUEST
          ∧ env.recommendJson request.data = Except.error what)
        ∨ (request.header.type = SEARCH_REQUEST
          ∧ env.searchJson request.data = Except.error what)) :
    process env message_
      = some (sendErrorResponse env
          ((if request.header.type = KEYWORD_RECOMMEND_REQUEST then recommendFailedText
            else searchFailedText) ++ what) (-1)) := by
  rcases hfail with ⟨ht, hthrow⟩ | ⟨ht, hthrow⟩
  · simp only [process, hdec, ht, if_true, handleKeywordRecommendRequest, hthrow,
      defaultErrorCode]
  · have hne : request.header.type ≠ KEYWORD_RECOMMEND_REQUEST := by
      rw [ht]
      decide
    have hne2 : ¬ (SEARCH_REQUEST = KEYWORD_RECOMMEND_REQUEST) := by decide
    simp only [process, hdec, ht, if_neg hne2, if_true, handleSearchRequest, hthrow,
      defaultErrorCode]

/-! ## Request dispatcher: the code of an error frame -/

/-- The payload of an encoded message built from a text is that text. -/
theorem encode_ofJson_inj (msgType : Nat) (text1 text2 : List Nat)
    (h : encode (TLVMessage.ofJson msgType text1) = encode (TLVMessage.ofJson msgType text2)) :
    text1 = text2 := by
  have := congrArg (List.drop 6) h
  simpa [encode, TLVMessage.ofJson, htons, htonl] using this

/-- An error frame of the example environment has one code only. -/
theorem sampleEnv_code_unique (error : List Nat) (code1 code2 : Int) (frame : List Nat)
    (h1 : IsErrorFrame sampleEnv frame error code1)
    (h2 : IsErrorFrame sampleEnv frame error code2) :
    showInt code1 = showInt code2 := by
  obtain ⟨t1, hd1, hf1⟩ := h1
  obtain ⟨t2, hd2, hf2⟩ := h2
  have ht : t1 = t2 := encode_ofJson_inj _ _ _ (hf1.symm.trans hf2)
  subst ht
  simp only [sampleEnv, sampleDump] at hd1 hd2
  cases hu : utf8CodePoints error with
  | none => rw [hu] at hd1; exact Option.noConfusion hd1
  | some cps =>
    rw [hu] at hd1 hd2
    simp only [Option.some.injEq] at hd1 hd2
    have h := hd1.trans hd2.symm
    simp only [errorJsonText, List.append_assoc, List.append_cancel_left_eq] at h
    have hlen : (showInt code1).length = (showInt code2).length := by
      have := congrArg List.length h
      simp only [List.length_append] at this
      omega
    exact List.append_inj_left h hlen

/-- C23 as stated fails: for a frame of the recognised type 0x1002 with the payload of
an empty object the task sends one frame of type 0x9001 whose "code" field is -1, the
default of `sendErrorResponse`, and not the received type code 0x1002. -/
theorem process_unsupported_counterexample :
    decode (encode (TLVMessage.ofJson SEARCH_RESPONSE [0x7B, 0x7D]))
        = some ([TLVMessage.ofJson SEARCH_RESPONSE [0x7B, 0x7D]], 8)
      ∧ process sampleEnv (encode (TLVMessage.ofJson SEARCH_RESPONSE [0x7B, 0x7D]))
        = some [encode (TLVMessage.ofJson ERROR_RESPONSE
            (errorJsonText (ErrorJson.mk unsupportedTypeText (-1) 0)))]
      ∧ (errorJsonText (ErrorJson.mk unsupportedTypeText (-1) 0)).take 11
        = [0x7B, 0x22, 0x63, 0x6F, 0x64, 0x65, 0x22, 0x3A, 0x2D, 0x31, 0x2C]
      ∧ IsErrorFrame sampleEnv
          (encode (TLVMessage.ofJson ERROR_RESPONSE
            (errorJsonText (ErrorJson.mk unsupportedTypeText (-1) 0))))
          unsupportedTypeText (-1)
      ∧ ¬ IsErrorFrame sampleEnv
          (encode (TLVMessage.ofJson ERROR_RESPONSE
            (errorJsonText (ErrorJson.mk unsupportedTypeText (-1) 0))))
          unsupportedTypeText 0x1002 := by
  refine ⟨by decide, by decide, by decide, ⟨_, by decide, rfl⟩, ?_⟩
  intro h
  have := sampleEnv_code_unique unsupportedTypeText (-1) 0x1002 _ ⟨_, by decide, rfl⟩ h
  revert this
  decide

/-- C23, amended. For every decoded request frame whose type is a recognised code other
than 0x0001 and 0x0002, `SearchEngineTask::process` sends exactly one frame of type
0x9001, and its JSON "code" field is -1 (the JSON library printing the error object
as `text`). -/
theorem process_unsupported_type (env : ServerEnv) (message_ : List Nat) (request : TLVMessage)
    (rest : List TLVMessage) (parsedBytes : Nat) (text : List Nat)
    (hdec : decode message_ = some (request :: rest, parsedBytes))
    (htype : request.header.type = 0x1001 ∨ request.header.type = 0x1002
      ∨ request.header.type = 0x9001)
    (hdump : env.dump { error := unsupportedTypeText, code := -1, timestamp := env.time }
      = some text) :
    process env message_ = some [encode (TLVMessage.ofJson ERROR_RESPONSE text)]
      ∧ IsErrorFrame env (encode (TLVMessage.ofJson ERROR_RESPONSE text))
          unsupportedTypeText (-1) := by
  have h1 : request.header.type ≠ KEYWORD_RECOMMEND_REQUEST := by
    rcases htype with h | h | h <;> rw [h] <;> decide
  have h2 : request.header.type ≠ SEARCH_REQUEST := by
    rcases htype with h | h | h <;> rw [h] <;> decide
  rw [process_other_type env message_ request rest parsedBytes hdec h1 h2,
    sendErrorResponse_some env _ _ text hdump]
  exact ⟨rfl, text, hdump, rfl⟩

theorem process_unsupported_type_witness :
    decode (encode (TLVMessage.ofJson ERROR_RESPONSE [0x7B, 0x7D]))
        = some ([TLVMessage.ofJson ERROR_RESPONSE [0x7B, 0x7D]], 8)
      ∧ (TLVMessage.ofJson ERROR_RESPONSE [0x7B, 0x7D]).header.type = 0x9001
      ∧ sampleEnv.dump (ErrorJson.mk unsupportedTypeText (-1) sampleEnv.time)
          = some (errorJsonText (ErrorJson.mk unsupportedTypeText (-1) 0))
      ∧ process sampleEnv (encode (TLVMessage.ofJson ERROR_RESPONSE [0x7B, 0x7D]))
          = some [encode (TLVMessage.ofJson ERROR_RESPONSE
              (errorJsonText (ErrorJson.mk unsupportedTypeText (-1) 0)))]
      ∧ IsErrorFrame sampleEnv
          (encode (TLVMessage.ofJson ERROR_RESPONSE
            (errorJsonText (ErrorJson.mk unsupportedTypeText (-1) 0))))
          unsupportedTypeText (-1) :=
  ⟨by decide, by decide, by decide,
    process_unsupported_type sampleEnv (encode (TLVMessage.ofJson ERROR_RESPONSE [0x7B, 0x7D]))
      (TLVMessage.ofJson ERROR_RESPONSE [0x7B, 0x7D]) [] 8 _ (by decide)
      (Or.inr (Or.inr (by decide))) (by decide)⟩

set_option maxRecDepth 8000 in
/-- C24 as stated fails: a recommend request with the payload of an empty object has no
"query", the handler throws, and the task sends one frame of type 0x9001 whose "code"
field is -1, not 500.  A search request whose payload is the byte FF makes the handler
throw with a text that holds this byte; the JSON library cannot print the error object,
`sendErrorResponse` catches that exception and no frame is sent at all. -/
theorem process_exception_counterexample :
    sampleEnv.recommendJson [0x7B, 0x7D] = Except.error typeErrorText
      ∧ process sampleEnv (encode (TLVMessage.ofJson KEYWORD_RECOMMEND_REQUEST [0x7B, 0x7D]))
        = some [encode (TLVMessage.ofJson ERROR_RESPONSE
            (errorJsonText (ErrorJson.mk (recommendFailedText ++ typeErrorText) (-1) 0)))]
      ∧ (errorJsonText (ErrorJson.mk (recommendFailedText ++ typeErrorText) (-1) 0)).take 11
        = [0x7B, 0x22, 0x63, 0x6F, 0x64, 0x65, 0x22, 0x3A, 0x2D, 0x31, 0x2C]
      ∧ ¬ IsErrorFrame sampleEnv
          (encode (TLVMessage.ofJson ERROR_RESPONSE
            (errorJsonText (ErrorJson.mk (recommendFailedText ++ typeErrorText) (-1) 0))))
          (recommendFailedText ++ typeErrorText) 500
      ∧ sampleEnv.searchJson [0xFF]
        = Except.error [0x6C, 0x61, 0x73, 0x74, 0x20, 0x72, 0x65, 0x61, 0x64, 0x3A, 0x20, 0x27,
            0xFF, 0x27]
      ∧ process sampleEnv (encode (TLVMessage.ofJson SEARCH_REQUEST [0xFF])) = some [] := by
  refine ⟨rfl, by decide, by decide, ?_, rfl, by decide⟩
  intro h
  have := sampleEnv_code_unique (recommendFailedText ++ typeErrorText) (-1) 500 _
    ⟨_, by decide, rfl⟩ h
  revert this
  decide

/-- C24, amended. For every recommend or search request frame whose handling throws an
exception with the text `what`, the task sends exactly one frame of type 0x9001 whose
JSON "code" field is -1 and whose "error" field is the text of the handler (关键字推荐失败
or 网页搜索失败, a colon and a space) followed by `what`, when the JSON library can print
the error object (as `text`); when it cannot, no frame is sent. -/
theorem process_exception_frame (env : ServerEnv) (message_ : List Nat) (request : TLVMessage)
    (rest : List TLVMessage) (parsedBytes : Nat) (what : List Nat)
    (hdec : decode message_ = some (request :: rest, parsedBytes))
    (hfail : (request.header.type = KEYWORD_RECOMMEND_REQUEST
          ∧ env.recommendJson request.data = Except.error what)
        ∨ (request.header.type = SEARCH_REQUEST
          ∧ env.searchJson request.data = Except.error what)) :
    (∀ text : List Nat,
        env.dump (ErrorJson.mk
          ((if request.header.type = KEYWORD_RECOMMEND_REQUEST then recommendFailedText
            else searchFailedText) ++ what) (-1) env.time) = some text →
        process env message_ = some [encode (TLVMessage.ofJson ERROR_RESPONSE text)]
          ∧ IsErrorFrame env (encode (TLVMessage.ofJson ERROR_RESPONSE text))
              ((if request.header.type = KEYWORD_RECOMMEND_REQUEST then recommendFailedText
                else searchFailedText) ++ what) (-1))
      ∧ (env.dump (ErrorJson.mk
          ((if request.header.type = KEYWORD_RECOMMEND_REQUEST then recommendFailedText
            else searchFailedText) ++ what) (-1) env.time) = none →
        process env message_ = some []) := by
  rw [process_handler_throws env message_ request rest parsedBytes what hdec hfail]
  constructor
  · intro text hdump
    rw [sendErrorResponse_some env _ _ text hdump]
    exact ⟨rfl, text, hdump, rfl⟩
  · intro hdump
    rw [sendErrorResponse_none env _ _ hdump]

set_option maxRecDepth 8000 in
theorem process_exception_frame_witness :
    decode (encode (TLVMessage.ofJson SEARCH_REQUEST [0x7B, 0x7D]))
        = some ([TLVMessage.ofJson SEARCH_REQUEST [0x7B, 0x7D]], 8)
      ∧ ((TLVMessage.ofJson SEARCH_REQUEST [0x7B, 0x7D]).header.type = SEARCH_REQUEST
          ∧ sampleEnv.searchJson (TLVMessage.ofJson SEARCH_REQUEST [0x7B, 0x7D]).data
            = Except.error typeErrorText)
      ∧ sampleEnv.dump (ErrorJson.mk (searchFailedText ++ typeErrorText) (-1) sampleEnv.time)
          = some (errorJsonText (ErrorJson.mk (searchFailedText ++ typeErrorText) (-1) 0))
      ∧ process sampleEnv (encode (TLVMessage.ofJson SEARCH_REQUEST [0x7B, 0x7D]))
          = some [encode (TLVMessage.ofJson ERROR_RESPONSE
              (errorJsonText (ErrorJson.mk (searchFailedText ++ typeErrorText) (-1) 0)))]
      ∧ IsErrorFrame sampleEnv
          (encode (TLVMessage.ofJson ERROR_RESPONSE
            (errorJsonText (ErrorJson.mk (searchFailedText ++ typeErrorText) (-1) 0))))
          ((if (TLVMessage.ofJson SEARCH_REQUEST [0x7B, 0x7D]).header.type
              = KEYWORD_RECOMMEND_REQUEST then recommendFailedText
            else searchFailedText) ++ typeErrorText) (-1) :=
  ⟨by decide, ⟨by decide, rfl⟩, by decide,
    (process_exception_frame sampleEnv (encode (TLVMessage.ofJson SEARCH_REQUEST [0x7B, 0x7D]))
      (TLVMessage.ofJson SEARCH_REQUEST [0x7B, 0x7D]) [] 8 typeErrorText (by decide)
      (Or.inr ⟨by decide, rfl⟩)).1 _ (by decide)⟩

/-! ## Lexicon builders: the postings of a key -/

theorem postingOf_pushLine {κ : Type} [DecidableEq κ] (index : List (κ × List Int))
    (key key' : κ) (lineNumber : Int) :
    postingOf (pushLine index key lineNumber) key'
      = if key' = key then postingOf index key ++ [lineNumber] else postingOf index key' := by
  unfold postingOf pushLine
  rw [umapFind_umapAssign]
  split <;> rfl

/-- Posting one line number under the keys of a duplicate-free list appends it to the
postings of exactly these keys. -/
theorem postingOf_foldl_pushLine {κ : Type} [DecidableEq κ] (lineNumber : Int) (key : κ) :
    ∀ (keys : List κ) (index : List (κ × List Int)), keys.Nodup →
      postingOf (keys.foldl (fun index k => pushLine index k lineNumber) index) key
        = postingOf index key ++ (if key ∈ keys then [lineNumber] else [])
  | [], index, _ => by simp
  | k :: keys, index, hnd => by
    rw [List.foldl_cons, postingOf_foldl_pushLine lineNumber key keys _ (List.nodup_cons.1 hnd).2,
      postingOf_pushLine]
    by_cases hk : key = k
    · subst hk
      have hnot : key ∉ keys := (List.nodup_cons.1 hnd).1
      simp [hnot]
    · have hiff : key ∈ k :: keys ↔ key ∈ keys := by
        simp [hk]
      simp only [hk, if_false, hiff]

theorem linesWith_congr {κ : Type} [DecidableEq κ] (keysOf keysOf' : List Nat → List κ)
    (key : κ) :
    ∀ (words : List (List Nat × Int)) (start : Int),
      (∀ pair ∈ words, (key ∈ keysOf pair.1 ↔ key ∈ keysOf' pair.1)) →
      linesWith keysOf key words start = linesWith keysOf' key words start
  | [], _, _ => rfl
  | pair :: rest, start, h => by
    rw [linesWith, linesWith, linesWith_congr keysOf keysOf' key rest (start + 1)
      (fun p hp => h p (List.mem_cons_of_mem _ hp))]
    have := h pair (List.mem_cons_self _ _)
    by_cases hk : key ∈ keysOf pair.1
    · rw [if_pos hk, if_pos (this.1 hk)]
    · rw [if_neg hk, if_neg (fun h' => hk (this.2 h'))]

/-- The line numbers of a key are those of the positions whose word has the key. -/
theorem linesWith_mem {κ : Type} [DecidableEq κ] (keysOf : List Nat → List κ) (key : κ)
    (n : Int) :
    ∀ (words : List (List Nat × Int)) (start : Int),
      n ∈ linesWith keysOf key words start
        ↔ ∃ (i : Nat) (pair : List Nat × Int), words.get? i = some pair ∧ n = start + i
            ∧ key ∈ keysOf pair.1
  | [], start => by simp [linesWith]
  | pair :: rest, start => by
    rw [linesWith, List.mem_append, linesWith_mem keysOf key n rest (start + 1)]
    constructor
    · rintro (h | ⟨i, p, hp, hn, hk⟩)
      · by_cases hk : key ∈ keysOf pair.1
        · rw [if_pos hk, List.mem_singleton] at h
          exact ⟨0, pair, rfl, by simp [h], hk⟩
        · rw [if_neg hk] at h
          simp at h
      · exact ⟨i + 1, p, by simpa using hp, by push_cast; omega, hk⟩
    · rintro ⟨i, p, hp, hn, hk⟩
      cases i with
      | zero =>
        simp only [List.get?_cons_zero, Option.some.injEq] at hp
        subst hp
        left
        rw [if_pos hk, List.mem_singleton]
        simpa using hn
      | succ i =>
        right
        exact ⟨i, p, by simpa using hp, by push_cast at hn; omega, hk⟩

/-- The line numbers of a key are strictly increasing and not below the first line. -/
theorem linesWith_sorted {κ : Type} [DecidableEq κ] (keysOf : List Nat → List κ) (key : κ) :
    ∀ (words : List (List Nat × Int)) (start : Int),
      (linesWith keysOf key words start).Pairwise (fun a b => a < b)
        ∧ ∀ n ∈ linesWith keysOf key words start, start ≤ n
  | [], _ => by simp [linesWith]
  | pair :: rest, start => by
    obtain ⟨h1, h2⟩ := linesWith_sorted keysOf key rest (start + 1)
    rw [linesWith]
    by_cases hk : key ∈ keysOf pair.1
    · rw [if_pos hk]
      simp only [List.singleton_append, List.pairwise_cons, List.mem_cons, forall_eq_or_imp,
        le_refl, true_and]
      refine ⟨⟨fun n hn => ?_, h1⟩, fun n hn => ?_⟩
      · have := h2 n hn
        omega
      · have := h2 n hn
        omega
    · rw [if_neg hk]
      simp only [List.nil_append]
      exact ⟨h1, fun n hn => by have := h2 n hn; omega⟩

/-! ## Lexicon builders: the loops -/

/-- The loop over the characters of one word posts the line number once under every
non-empty character of the word. -/
theorem indexCharacter_foldl (index : List (List Nat × List Int)) (lineNumber : Int) :
    ∀ (characters : List (List Nat)) (st : List (List Nat × List Int) × List (List Nat)),
      st.2.Nodup →
      (∀ key, postingOf st.1 key
        = postingOf index key ++ (if key ∈ st.2 then [lineNumber] else [])) →
      ∀ key, postingOf (characters.foldl (indexCharacter lineNumber) st).1 key
        = postingOf index key
          ++ (if key ∈ st.2 ∨ (key ∈ characters ∧ key ≠ []) then [lineNumber] else [])
  | [], st, _, hinv => by
    intro key
    rw [List.foldl_nil, hinv key]
    simp
  | ch :: characters, st, hnd, hinv => by
    intro key
    rw [List.foldl_cons]
    by_cases hch : ch ≠ [] ∧ ch ∉ st.2
    · have hstep : indexCharacter lineNumber st ch
          = (pushLine st.1 ch lineNumber, usetInsert st.2 ch) := by
        unfold indexCharacter
        rw [if_pos hch]
      rw [hstep, indexCharacter_foldl index lineNumber characters _
        (usetInsert_nodup st.2 ch hnd) ?_ key]
      · have hiff : (key ∈ usetInsert st.2 ch ∨ (key ∈ characters ∧ key ≠ []))
            ↔ (key ∈ st.2 ∨ (key ∈ ch :: characters ∧ key ≠ [])) := by
          rw [usetInsert_mem, List.mem_cons]
          constructor
          · rintro ((h | h) | h)
            · exact Or.inr ⟨Or.inl h, h ▸ hch.1⟩
            · exact Or.inl h
            · exact Or.inr ⟨Or.inr h.1, h.2⟩
          · rintro (h | ⟨h | h, h2⟩)
            · exact Or.inl (Or.inr h)
            · exact Or.inl (Or.inl h)
            · exact Or.inr ⟨h, h2⟩
        simp only [hiff]
      · intro k
        simp only
        rw [postingOf_pushLine]
        by_cases hk : k = ch
        · subst hk
          have hm : k ∈ usetInsert st.2 k := (usetInsert_mem _ _ _).2 (Or.inl rfl)
          rw [if_pos rfl, hinv k, if_neg hch.2, List.append_nil, if_pos hm]
        · rw [if_neg hk, hinv k]
          by_cases hm : k ∈ st.2
          · rw [if_pos hm, if_pos ((usetInsert_mem _ _ _).2 (Or.inr hm))]
          · have hm2 : k ∉ usetInsert st.2 ch := by
              intro h
              rcases (usetInsert_mem _ _ _).1 h with h | h
              · exact hk h
              · exact hm h
            rw [if_neg hm, if_neg hm2]
    · have hstep : indexCharacter lineNumber st ch = st := by
        unfold indexCharacter
        rw [if_neg hch]
      rw [hstep, indexCharacter_foldl index lineNumber characters st hnd hinv key]
      have hiff : (key ∈ st.2 ∨ (key ∈ characters ∧ key ≠ []))
          ↔ (key ∈ st.2 ∨ (key ∈ ch :: characters ∧ key ≠ [])) := by
        rw [List.mem_cons]
        constructor
        · rintro (h | h)
          · exact Or.inl h
          · exact Or.inr ⟨Or.inr h.1, h.2⟩
        · rintro (h | ⟨h | h, h2⟩)
          · exact Or.inl h
          · subst h
            by_cases hm : key ∈ st.2
            · exact Or.inl hm
            · exact absurd ⟨h2, hm⟩ hch
          · exact Or.inr ⟨h, h2⟩
      simp only [hiff]

/-- The postings that the loop of `buildCharacterIndex` adds for a character. -/
theorem buildCharacterIndexLoop_posting (key : List Nat) (hkey : key ≠ []) :
    ∀ (words : List (List Nat × Int)) (lineNumber : Int)
      (index index' : List (List Nat × List Int)),
      buildCharacterIndexLoop words lineNumber index = some index' →
      postingOf index' key
        = postingOf index key
          ++ linesWith (fun w => (extractAllCharacters w).getD []) key words lineNumber
  | [], _, index, index', h => by
    simp only [buildCharacterIndexLoop, Option.some.injEq] at h
    rw [← h, linesWith, List.append_nil]
  | pair :: rest, lineNumber, index, index', h => by
    rw [buildCharacterIndexLoop] at h
    cases hx : extractAllCharacters pair.1 with
    | none => rw [hx] at h; exact Option.noConfusion h
    | some characters =>
      rw [hx] at h
      simp only at h
      rw [buildCharacterIndexLoop_posting key hkey rest _ _ index' h,
        indexCharacter_foldl index lineNumber characters (index, []) List.nodup_nil
          (by intro k; simp) key,
        linesWith, hx, List.append_assoc]
      simp only [List.not_mem_nil, false_or, Option.getD_some, hkey, ne_eq, not_false_eq_true,
        and_true]
      congr

theorem buildCharacterIndexLoop_isSome :
    ∀ (words : List (List Nat × Int)) (lineNumber : Int) (index : List (List Nat × List Int)),
      (∀ pair ∈ words, (extractAllCharacters pair.1).isSome = true) →
      (buildCharacterIndexLoop words lineNumber index).isSome = true
  | [], _, _, _ => rfl
  | pair :: rest, lineNumber, index, h => by
    rw [buildCharacterIndexLoop]
    obtain ⟨characters, hx⟩ := Option.isSome_iff_exists.1 (h pair (List.mem_cons_self _ _))
    rw [hx]
    exact buildCharacterIndexLoop_isSome rest _ _ (fun p hp => h p (List.mem_cons_of_mem _ hp))

theorem buildCharacterIndexLoop_words :
    ∀ (words : List (List Nat × Int)) (lineNumber : Int)
      (index index' : List (List Nat × List Int)),
      buildCharacterIndexLoop words lineNumber index = some index' →
      ∀ pair ∈ words, (extractAllCharacters pair.1).isSome = true
  | [], _, _, _, _ => by simp
  | pair :: rest, lineNumber, index, index', h => by
    rw [buildCharacterIndexLoop] at h
    cases hx : extractAllCharacters pair.1 with
    | none => rw [hx] at h; exact Option.noConfusion h
    | some characters =>
      rw [hx] at h
      intro p hp
      rcases List.mem_cons.1 hp with h1 | h1
      · rw [h1, hx]; rfl
      · exact buildCharacterIndexLoop_words rest _ _ index' h p h1

theorem wordLetters_foldl (c : Nat) :
    ∀ (word s : List Nat), s.Nodup →
      (word.foldl (fun wordLetters c => if isalpha c then usetInsert wordLetters c
          else wordLetters) s).Nodup
        ∧ (c ∈ word.foldl (fun wordLetters c => if isalpha c then usetInsert wordLetters c
            else wordLetters) s ↔ c ∈ s ∨ (c ∈ word ∧ isalpha c = true))
  | [], s, h => by simp [h]
  | x :: word, s, h => by
    rw [List.foldl_cons]
    by_cases hx : isalpha x = true
    · rw [if_pos hx]
      obtain ⟨h1, h2⟩ := wordLetters_foldl c word (usetInsert s x) (usetInsert_nodup s x h)
      refine ⟨h1, ?_⟩
      rw [h2, usetInsert_mem, List.mem_cons]
      constructor
      · rintro ((h | h) | h)
        · exact Or.inr ⟨Or.inl h, h ▸ hx⟩
        · exact Or.inl h
        · exact Or.inr ⟨Or.inr h.1, h.2⟩
      · rintro (h | ⟨h | h, h2⟩)
        · exact Or.inl (Or.inr h)
        · exact Or.inl (Or.inl h)
        · exact Or.inr ⟨h, h2⟩
    · rw [if_neg hx]
      obtain ⟨h1, h2⟩ := wordLetters_foldl c word s h
      refine ⟨h1, ?_⟩
      rw [h2, List.mem_cons]
      constructor
      · rintro (h | h)
        · exact Or.inl h
        · exact Or.inr ⟨Or.inr h.1, h.2⟩
      · rintro (h | ⟨h | h, h2⟩)
        · exact Or.inl h
        · exact absurd (h ▸ h2) hx
        · exact Or.inr ⟨h, h2⟩

theorem wordLettersOf_nodup (word : List Nat) : (wordLettersOf word).Nodup :=
  (wordLetters_foldl 0 word [] List.nodup_nil).1

theorem wordLettersOf_mem (word : List Nat) (c : Nat) :
    c ∈ wordLettersOf word ↔ c ∈ word ∧ isalpha c = true := by
  have := (wordLetters_foldl c word [] List.nodup_nil).2
  unfold wordLettersOf
  rw [this]
  simp

/-- The postings that the loop of `buildLetterIndex` adds for a letter. -/
theorem buildLetterIndexLoop_posting (key : Nat) :
    ∀ (words : List (List Nat × Int)) (lineNumber : Int) (index : List (Nat × List Int)),
      postingOf (buildLetterIndexLoop words lineNumber index) key
        = postingOf index key ++ linesWith wordLettersOf key words lineNumber
  | [], _, index => by
    rw [buildLetterIndexLoop, linesWith, List.append_nil]
  | pair :: rest, lineNumber, index => by
    rw [buildLetterIndexLoop, buildLetterIndexLoop_posting key rest,
      postingOf_foldl_pushLine lineNumber key _ _ (wordLettersOf_nodup pair.1), linesWith,
      List.append_assoc]

/-! ## Lexicon builders: characters and code points -/

/-- The bytes that `utf8::next` consumes for a character from U+4E00 to U+9FFF are its
UTF-8 encoding. -/
theorem utf8Next_cjk_bytes (input : List Nat) (cp : Nat) (rest : List Nat)
    (h : utf8Next input = some (cp, rest)) (h1 : 0x4E00 ≤ cp) (h2 : cp ≤ 0x9FFF) :
    input.take (input.length - rest.length) = utf8Encode3 cp := by
  rcases utf8Next_cases input cp rest h with ⟨l, _, _, hcp⟩ | ⟨l, b1, _, _, _, _, _, hcp, _⟩
    | ⟨l, b1, b2, hin, hl1, hl2, hb1, hb1', hb2, hb2', hcp, _⟩
    | ⟨l, b1, b2, b3, _, _, _, _, _, _, _, _, _, _, hcp⟩
  · omega
  · omega
  · subst hin
    have hlen : (l :: b1 :: b2 :: rest).length - rest.length = 3 := by
      simp only [List.length_cons]
      omega
    rw [hlen]
    simp only [List.take_succ_cons, List.take_zero, utf8Encode3]
    have e1 : 0xE0 + cp / 4096 = l := by omega
    have e2 : 0x80 + cp / 64 % 64 = b1 := by omega
    have e3 : 0x80 + cp % 64 = b2 := by omega
    rw [e1, e2, e3]
  · omega

theorem extractAllCharactersLoop_eq :
    ∀ (fuel : Nat) (input : List Nat) (characters : List (List Nat)),
      extractAllCharactersLoop fuel input characters
        = (utf8CodePointsLoop fuel input).map (fun cps => characters ++ cjkCharacters cps)
  | 0, _, _ => rfl
  | fuel + 1, input, characters => by
    rw [extractAllCharactersLoop, utf8CodePointsLoop]
    by_cases hin : input = []
    · rw [if_pos hin, if_pos hin]
      simp [cjkCharacters]
    · rw [if_neg hin, if_neg hin]
      cases hn : utf8Next input with
      | none => rfl
      | some r =>
        obtain ⟨cp, rest⟩ := r
        simp only
        by_cases hc : cp ≥ 0x4E00 ∧ cp ≤ 0x9FFF
        · rw [if_pos hc, extractAllCharactersLoop_eq fuel rest,
            utf8Next_cjk_bytes input cp rest hn hc.1 hc.2]
          cases utf8CodePointsLoop fuel rest with
          | none => rfl
          | some cps =>
            have hc' : 0x4E00 ≤ cp ∧ cp ≤ 0x9FFF := hc
            simp [cjkCharacters, List.filter_cons, hc']
        · rw [if_neg hc, extractAllCharactersLoop_eq fuel rest]
          cases utf8CodePointsLoop fuel rest with
          | none => rfl
          | some cps =>
            have hc' : ¬ (0x4E00 ≤ cp ∧ cp ≤ 0x9FFF) := hc
            simp only [cjkCharacters, List.filter_cons, Option.map_some', decide_eq_true_eq,
              if_neg hc']

/-- The characters that `extractAllCharacters` returns are the ideographs among the code
points of the word; it throws exactly when the word is not valid UTF-8. -/
theorem extractAllCharacters_eq (word : List Nat) :
    extractAllCharacters word = (utf8CodePoints word).map cjkCharacters := by
  unfold extractAllCharacters utf8CodePoints
  rw [extractAllCharactersLoop_eq]
  simp

theorem utf8Encode3_inj (c c' : Nat) (hc : c < 65536) (hc' : c' < 65536)
    (h : utf8Encode3 c = utf8Encode3 c') : c = c' := by
  simp only [utf8Encode3, List.cons.injEq, and_true] at h
  omega

theorem cjkCharacters_mem (cps : List Nat) (c : Nat) (h1 : 0x4E00 ≤ c) (h2 : c ≤ 0x9FFF) :
    utf8Encode3 c ∈ cjkCharacters cps ↔ c ∈ cps := by
  unfold cjkCharacters
  rw [List.mem_map]
  constructor
  · rintro ⟨c', hc', henc⟩
    rw [List.mem_filter, decide_eq_true_iff] at hc'
    have := utf8Encode3_inj c' c (by omega) (by omega) henc
    rw [← this]
    exact hc'.1
  · intro hc
    exact ⟨c, by rw [List.mem_filter, decide_eq_true_iff]; exact ⟨hc, h1, h2⟩, rfl⟩

/-! ## Lexicon builders: the order of the dictionary -/

theorem entryLt_false_iff (a b : List Nat × Int) :
    entryLt b a = false ↔ stringLt a.1 b.1 = true ∨ (a.1 = b.1 ∧ a.2 ≤ b.2) := by
  unfold entryLt
  cases hba : stringLt b.1 a.1 with
  | true =>
    simp only [Bool.true_or, Bool.true_eq_false, false_iff, not_or, not_and]
    refine ⟨?_, fun heq => ?_⟩
    · rw [stringLt_asymm b.1 a.1 hba]
      exact Bool.false_ne_true
    · rw [heq, stringLt_irrefl] at hba
      exact absurd hba Bool.false_ne_true
  | false =>
    cases hab : stringLt a.1 b.1 with
    | true => simp
    | false =>
      have heq : a.1 = b.1 := by
        rcases stringLt_total a.1 b.1 hba with h | h
        · rw [hab] at h; exact absurd h Bool.false_ne_true
        · exact h
      simp [heq]

/-- The lines of the dictionary are strictly ascending in the byte order of the words
when no word occurs twice in the table. -/
theorem saveDictionary_sorted (wordFrequency_ : List (List Nat × Int))
    (hkeys : (wordFrequency_.map (fun e => e.1)).Nodup) :
    (saveDictionary wordFrequency_).Pairwise (fun a b => stringLt a.1 b.1 = true) := by
  haveI : IsTotal (List Nat × Int) (fun a b => entryLt b a = false) :=
    ⟨fun a b => by
      rw [entryLt_false_iff, entryLt_false_iff]
      cases hab : stringLt a.1 b.1 with
      | true => exact Or.inl (Or.inl rfl)
      | false =>
        rcases stringLt_total b.1 a.1 hab with h | h
        · exact Or.inr (Or.inl h)
        · rcases le_total a.2 b.2 with h2 | h2
          · exact Or.inl (Or.inr ⟨h.symm, h2⟩)
          · exact Or.inr (Or.inr ⟨h, h2⟩)⟩
  haveI : IsTrans (List Nat × Int) (fun a b => entryLt b a = false) :=
    ⟨fun a b c => by
      rw [entryLt_false_iff, entryLt_false_iff, entryLt_false_iff]
      rintro (h1 | ⟨h1, h1'⟩) (h2 | ⟨h2, h2'⟩)
      · exact Or.inl (stringLt_trans _ _ _ h1 h2)
      · exact Or.inl (h2 ▸ h1)
      · exact Or.inl (h1 ▸ h2)
      · exact Or.inr ⟨h1.trans h2, le_trans h1' h2'⟩⟩
  have hs := List.sorted_insertionSort (fun a b : List Nat × Int => entryLt b a = false)
    wordFrequency_
  have hnd : ((saveDictionary wordFrequency_).map (fun e => e.1)).Nodup :=
    (List.Perm.nodup_iff ((stdSortBy_perm entryLt wordFrequency_).map _)).2 hkeys
  have hne := List.pairwise_map.1 hnd
  have hs2 : (saveDictionary wordFrequency_).Pairwise (fun a b => entryLt b a = false) := hs
  refine (hs2.and hne).imp ?_
  rintro a b ⟨h1, h2⟩
  rcases (entryLt_false_iff a b).1 h1 with h | ⟨h, _⟩
  · exact h
  · exact absurd h h2

/-! ## Lexicon builders: the index and the dictionary agree -/

/-- Line numbers counted from 1: the line `n` is the entry at position `n - 1`. -/
theorem linesWith_line {κ : Type} [DecidableEq κ] (keysOf : List Nat → List κ) (key : κ)
    (words : List (List Nat × Int)) (n : Int) :
    n ∈ linesWith keysOf key words 1
      ↔ 1 ≤ n ∧ n ≤ (words.length : Int)
        ∧ ∃ pair, words.get? (n - 1).toNat = some pair ∧ key ∈ keysOf pair.1 := by
  rw [linesWith_mem]
  constructor
  · rintro ⟨i, pair, hp, hn, hk⟩
    have hi : i < words.length := by
      rw [List.get?_eq_getElem?] at hp
      exact (List.getElem?_eq_some_iff.1 hp).1
    have hidx : (n - 1).toNat = i := by omega
    exact ⟨by omega, by omega, pair, by rw [hidx]; exact hp, hk⟩
  · rintro ⟨h1, _, pair, hp, hk⟩
    exact ⟨(n - 1).toNat, pair, hp, by omega, hk⟩

/-- The postings of an ideograph in the index that `buildCharacterIndex` builds. -/
theorem buildCharacterIndex_posting (wordFrequency_ : List (List Nat × Int))
    (characterIndex_ : List (List Nat × List Int))
    (h : buildCharacterIndex wordFrequency_ = some characterIndex_) (c : Nat)
    (h1 : 0x4E00 ≤ c) (h2 : c ≤ 0x9FFF) :
    postingOf characterIndex_ (utf8Encode3 c)
      = linesWith (fun w => ((utf8CodePoints w).getD []).filter (fun x => decide (x = c)))
          c (saveDictionary wordFrequency_) 1 := by
  unfold buildCharacterIndex at h
  have hpost := buildCharacterIndexLoop_posting (utf8Encode3 c) (by simp [utf8Encode3])
    _ _ _ _ h
  have hwords := buildCharacterIndexLoop_words _ _ _ _ h
  rw [hpost]
  have hnil : postingOf ([] : List (List Nat × List Int)) (utf8Encode3 c) = [] := rfl
  rw [hnil, List.nil_append]
  unfold saveDictionary
  generalize sortedWords wordFrequency_ = words at hwords
  generalize (1 : Int) = start
  induction words generalizing start with
  | nil => rfl
  | cons pair rest ih =>
    rw [linesWith, linesWith, ih (fun p hp => hwords p (List.mem_cons_of_mem _ hp))]
    congr 1
    have hsome := hwords pair (List.mem_cons_self _ _)
    rw [extractAllCharacters_eq] at hsome ⊢
    cases hcp : utf8CodePoints pair.1 with
    | none => rw [hcp] at hsome; exact absurd hsome (by simp)
    | some cps =>
      simp only [Option.map_some', Option.getD_some]
      by_cases hc : c ∈ cps
      · rw [if_pos ((cjkCharacters_mem cps c h1 h2).2 hc),
          if_pos (List.mem_filter.2 ⟨hc, by simp⟩)]
      · rw [if_neg (fun h' => hc ((cjkCharacters_mem cps c h1 h2).1 h')),
          if_neg (fun h' => hc (List.mem_filter.1 h').1)]

/-- C22. Let the word-frequency table hold no word twice.  The lines of the dictionary
are strictly ascending in the words.  `ChineseTokenizer::buildCharacterIndex` returns an
index when all words are valid UTF-8, and in the index it returns, for every ideograph c
from U+4E00 to U+9FFF and every number n, n occurs in the posting list of c if and only
if 1 <= n <= number of dictionary lines and the word on dictionary line n contains c.
In the index of `EnglishTokenizer::buildLetterIndex` the same holds for every ASCII
letter c.  Each of these posting lists is strictly increasing. -/
theorem index_postings_spec (wordFrequency_ : List (List Nat × Int))
    (hkeys : (wordFrequency_.map (fun e => e.1)).Nodup) :
    (saveDictionary wordFrequency_).Pairwise (fun a b => stringLt a.1 b.1 = true)
      ∧ ((∀ e ∈ wordFrequency_, (utf8CodePoints e.1).isSome = true) →
          (buildCharacterIndex wordFrequency_).isSome = true)
      ∧ (∀ characterIndex_, buildCharacterIndex wordFrequency_ = some characterIndex_ →
          ∀ c : Nat, 0x4E00 ≤ c → c ≤ 0x9FFF →
            (∀ n : Int, n ∈ postingOf characterIndex_ (utf8Encode3 c)
              ↔ 1 ≤ n ∧ n ≤ ((saveDictionary wordFrequency_).length : Int)
                ∧ ∃ pair cps, (saveDictionary wordFrequency_).get? (n - 1).toNat = some pair
                    ∧ utf8CodePoints pair.1 = some cps ∧ c ∈ cps)
            ∧ (postingOf characterIndex_ (utf8Encode3 c)).Pairwise (fun a b => a < b))
      ∧ (∀ c : Nat, isalpha c = true →
          (∀ n : Int, n ∈ postingOf (buildLetterIndex wordFrequency_) c
            ↔ 1 ≤ n ∧ n ≤ ((saveDictionary wordFrequency_).length : Int)
              ∧ ∃ pair, (saveDictionary wordFrequency_).get? (n - 1).toNat = some pair
                  ∧ c ∈ pair.1)
          ∧ (postingOf (buildLetterIndex wordFrequency_) c).Pairwise (fun a b => a < b)) := by
  refine ⟨saveDictionary_sorted wordFrequency_ hkeys, ?_, ?_, ?_⟩
  · intro hvalid
    unfold buildCharacterIndex
    apply buildCharacterIndexLoop_isSome
    intro pair hp
    have hmem : pair ∈ wordFrequency_ := (stdSortBy_perm entryLt wordFrequency_).mem_iff.1 hp
    rw [extractAllCharacters_eq]
    obtain ⟨cps, hcps⟩ := Option.isSome_iff_exists.1 (hvalid pair hmem)
    rw [hcps]
    rfl
  · intro characterIndex_ hidx c h1 h2
    have hwords := buildCharacterIndexLoop_words _ _ _ _ hidx
    rw [buildCharacterIndex_posting wordFrequency_ characterIndex_ hidx c h1 h2]
    refine ⟨fun n => ?_, (linesWith_sorted _ c _ 1).1⟩
    rw [linesWith_line]
    constructor
    · rintro ⟨hn1, hn2, pair, hp, hc⟩
      have hc2 := (List.mem_filter.1 hc).1
      cases hcp : utf8CodePoints pair.1 with
      | none => rw [hcp] at hc2; simp at hc2
      | some cps =>
        rw [hcp] at hc2
        exact ⟨hn1, hn2, pair, cps, hp, hcp, hc2⟩
    · rintro ⟨hn1, hn2, pair, cps, hp, hcp, hc⟩
      exact ⟨hn1, hn2, pair, hp, List.mem_filter.2 ⟨by rw [hcp]; exact hc, by simp⟩⟩
  · intro c hc
    unfold buildLetterIndex
    rw [buildLetterIndexLoop_posting]
    have hnil : postingOf ([] : List (Nat × List Int)) c = [] := rfl
    rw [hnil, List.nil_append]
    refine ⟨fun n => ?_, (linesWith_sorted _ c _ 1).1⟩
    rw [linesWith_line]
    unfold saveDictionary
    constructor
    · rintro ⟨hn1, hn2, pair, hp, hm⟩
      exact ⟨hn1, hn2, pair, hp, ((wordLettersOf_mem _ _).1 hm).1⟩
    · rintro ⟨hn1, hn2, pair, hp, hm⟩
      exact ⟨hn1, hn2, pair, hp, (wordLettersOf_mem _ _).2 ⟨hm, hc⟩⟩

theorem index_postings_spec_witness :
    (sampleWordFrequency.map (fun e => e.1)).Nodup
      ∧ saveDictionary sampleWordFrequency = [(zhongguo, 100), (zhongyang, 50), (zhonggao, 30)]
      ∧ buildCharacterIndex sampleWordFrequency
          = some [([0xE4, 0xB8, 0xAD], [1, 2]), ([0xE5, 0x9B, 0xBD], [1]),
              ([0xE5, 0xA4, 0xAE], [2]), ([0xE5, 0xBF, 0xA0], [3]), ([0xE5, 0x91, 0x8A], [3])]
      ∧ utf8Encode3 0x4E2D = [0xE4, 0xB8, 0xAD]
      ∧ saveDictionary sampleEnglishFrequency
          = [([0x61, 0x64, 0x64], 3), ([0x64, 0x6F, 0x67], 2), ([0x67, 0x6F], 1)]
      ∧ buildLetterIndex sampleEnglishFrequency
          = [(0x61, [1]), (0x64, [1, 2]), (0x6F, [2, 3]), (0x67, [2, 3])]
      ∧ (saveDictionary sampleWordFrequency).Pairwise (fun a b => stringLt a.1 b.1 = true)
      ∧ ((∀ e ∈ sampleWordFrequency, (utf8CodePoints e.1).isSome = true) →
          (buildCharacterIndex sampleWordFrequency).isSome = true)
      ∧ (∀ characterIndex_, buildCharacterIndex sampleWordFrequency = some characterIndex_ →
          ∀ c : Nat, 0x4E00 ≤ c → c ≤ 0x9FFF →
            (∀ n : Int, n ∈ postingOf characterIndex_ (utf8Encode3 c)
              ↔ 1 ≤ n ∧ n ≤ ((saveDictionary sampleWordFrequency).length : Int)
                ∧ ∃ pair cps, (saveDictionary sampleWordFrequency).get? (n - 1).toNat = some pair
                    ∧ utf8CodePoints pair.1 = some cps ∧ c ∈ cps)
            ∧ (postingOf characterIndex_ (utf8Encode3 c)).Pairwise (fun a b => a < b))
      ∧ (∀ c : Nat, isalpha c = true →
          (∀ n : Int, n ∈ postingOf (buildLetterIndex sampleWordFrequency) c
            ↔ 1 ≤ n ∧ n ≤ ((saveDictionary sampleWordFrequency).length : Int)
              ∧ ∃ pair, (saveDictionary sampleWordFrequency).get? (n - 1).toNat = some pair
                  ∧ c ∈ pair.1)
          ∧ (postingOf (buildLetterIndex sampleWordFrequency) c).Pairwise (fun a b => a < b)) :=
  ⟨by decide, by decide, by decide, by decide, by decide, by decide,
    index_postings_spec sampleWordFrequency (by decide)⟩

/-! ## Page library: examples -/

set_option maxRecDepth 20000 in
theorem pageAt_samples :
    (buildWebPagesAndOffsets samplePages).2
        = [0x31, 0x20, 0x30, 0x20, 0x31, 0x31, 0x35, 0x0A, 0x32, 0x20, 0x31, 0x31, 0x35, 0x20,
            0x39, 0x39, 0x0A]
      ∧ loadOffsets (buildWebPagesAndOffsets samplePages).2 = [(1, (0, 115)), (2, (115, 99))]
      ∧ pageAt samplePages 1 = samplePages.get? 0
      ∧ pageAt samplePages 2
          = some { docid := 2, link := [], title := beijing, content := [] } := by
  decide

/-! ## Decimal numbers: printing and reading back -/

theorem showNatLoop_acc :
    ∀ (fuel n : Nat) (acc : List Nat), showNatLoop fuel n acc = showNatLoop fuel n [] ++ acc
  | 0, _, acc => by simp [showNatLoop]
  | fuel + 1, n, acc => by
    rw [showNatLoop, showNatLoop]
    by_cases h : n < 10
    · rw [if_pos h, if_pos h]
      rfl
    · rw [if_neg h, if_neg h, showNatLoop_acc fuel (n / 10) ((0x30 + n % 10) :: acc),
        showNatLoop_acc fuel (n / 10) [0x30 + n % 10], List.append_assoc]
      rfl

theorem decimalValue_snoc (digits : List Nat) (c : Nat) :
    decimalValue (digits ++ [c]) = decimalValue digits * 10 + (c - 0x30) := by
  simp [decimalValue, List.foldl_append]

/-- With enough fuel the digits printed for `n` are digits, at least one, and stand for
`n`. -/
theorem showNatLoop_spec :
    ∀ (fuel n : Nat), n < fuel →
      (∀ c ∈ showNatLoop fuel n [], isdigit c = true) ∧ showNatLoop fuel n [] ≠ []
        ∧ decimalValue (showNatLoop fuel n []) = n
  | 0, _, h => by omega
  | fuel + 1, n, h => by
    rw [showNatLoop]
    by_cases h10 : n < 10
    · rw [if_pos h10]
      refine ⟨?_, by simp, ?_⟩
      · intro c hc
        rw [List.mem_singleton] at hc
        subst hc
        simp only [isdigit, Bool.and_eq_true, decide_eq_true_eq]
        omega
      · simp [decimalValue]
    · rw [if_neg h10, showNatLoop_acc]
      obtain ⟨h1, h2, h3⟩ := showNatLoop_spec fuel (n / 10) (by omega)
      refine ⟨?_, by simp, ?_⟩
      · intro c hc
        rcases List.mem_append.1 hc with hc | hc
        · exact h1 c hc
        · rw [List.mem_singleton] at hc
          subst hc
          simp only [isdigit, Bool.and_eq_true, decide_eq_true_eq]
          omega
      · rw [decimalValue_snoc, h3]
        omega

theorem showNat_spec (n : Nat) :
    (∀ c ∈ showNat n, isdigit c = true) ∧ showNat n ≠ [] ∧ decimalValue (showNat n) = n :=
  showNatLoop_spec (n + 1) n (by omega)

/-- Reading a run of bytes that satisfy `p` up to the first byte that does not. -/
theorem takeWhile_run {β : Type} (p : β → Bool) :
    ∀ (run tail : List β), (∀ x ∈ run, p x = true) → (∀ y ∈ tail.head?, p y = false) →
      (run ++ tail).takeWhile p = run ∧ (run ++ tail).dropWhile p = tail
  | [], [], _, _ => by simp
  | [], y :: tail, _, hy => by
    have := hy y (by simp)
    simp [List.takeWhile_cons, List.dropWhile_cons, this]
  | x :: run, tail, hx, hy => by
    have hpx := hx x (List.mem_cons_self _ _)
    obtain ⟨h1, h2⟩ := takeWhile_run p run tail (fun z hz => hx z (List.mem_cons_of_mem _ hz)) hy
    simp only [List.cons_append, List.takeWhile_cons, List.dropWhile_cons, hpx, if_true, h1, h2,
      and_self]

/-- The digits of a printed number are read back as the number, up to the first byte that
is no digit. -/
theorem readNumber_showNat (n : Nat) (tail : List Nat)
    (htail : ∀ y ∈ tail.head?, isdigit y = false) :
    readNumber (showNat n ++ tail) = (false, showNat n, tail) := by
  obtain ⟨hd, hne, _⟩ := showNat_spec n
  obtain ⟨h1, h2⟩ := takeWhile_run isdigit (showNat n) tail hd htail
  cases hs : showNat n with
  | nil => exact absurd hs hne
  | cons d ds =>
    have hdd : isdigit d = true := hd d (by rw [hs]; exact List.mem_cons_self _ _)
    simp only [isdigit, Bool.and_eq_true, decide_eq_true_eq] at hdd
    have hsp : isspace d = false := by
      simp only [isspace, Bool.or_eq_false_iff, decide_eq_false_iff_not, Bool.and_eq_false_imp,
        decide_eq_true_eq]
      omega
    rw [hs] at h1 h2
    unfold readNumber
    simp only [List.cons_append, List.dropWhile_cons, hsp, Bool.false_eq_true, if_false]
    simp only [List.cons_append] at h1 h2
    split
    · rename_i heq
      simp only [List.cons.injEq] at heq
      omega
    · rename_i heq
      simp only [List.cons.injEq] at heq
      omega
    · rw [h1]
      simp only [List.dropWhile_cons] at h2 ⊢
      rw [h2]

theorem readNumber_space (input : List Nat) :
    readNumber (0x20 :: input) = readNumber input := by
  unfold readNumber
  have : isspace 0x20 = true := by decide
  simp only [List.dropWhile_cons, this, if_true]

theorem readNumber_minus (n : Nat) (tail : List Nat)
    (htail : ∀ y ∈ tail.head?, isdigit y = false) :
    readNumber (0x2D :: (showNat n ++ tail)) = (true, showNat n, tail) := by
  obtain ⟨hd, _, _⟩ := showNat_spec n
  obtain ⟨h1, h2⟩ := takeWhile_run isdigit (showNat n) tail hd htail
  unfold readNumber
  have : isspace 0x2D = false := by decide
  simp only [List.dropWhile_cons, this, Bool.false_eq_true, if_false, h1, h2]

/-- A printed `int` is read back by `operator>>`. -/
theorem readInt_showInt (i : Int) (tail : List Nat) (h1 : -2 ^ 31 ≤ i) (h2 : i < 2 ^ 31)
    (htail : ∀ y ∈ tail.head?, isdigit y = false) :
    readInt (showInt i ++ tail) = some (i, tail) := by
  unfold readInt showInt
  by_cases hneg : i < 0
  · rw [if_pos hneg, List.cons_append, readNumber_minus _ tail htail]
    obtain ⟨_, hne, hv⟩ := showNat_spec (-i).toNat
    simp only [hne, if_false, if_true, hv]
    have : -(((-i).toNat : Nat) : Int) = i := by omega
    rw [this, if_pos ⟨h1, h2⟩]
  · rw [if_neg hneg, readNumber_showNat _ tail htail]
    obtain ⟨_, hne, hv⟩ := showNat_spec i.toNat
    simp only [hne, if_false, Bool.false_eq_true, hv]
    have : ((i.toNat : Nat) : Int) = i := by omega
    rw [this, if_pos ⟨h1, h2⟩]

/-- A printed `size_t` behind a blank is read back by `operator>>`. -/
theorem readSize_showNat (n : Nat) (tail : List Nat) (h : n < 2 ^ 64)
    (htail : ∀ y ∈ tail.head?, isdigit y = false) :
    readSize (0x20 :: (showNat n ++ tail)) = some (n, tail) := by
  unfold readSize
  rw [readNumber_space, readNumber_showNat _ tail htail]
  obtain ⟨_, hne, hv⟩ := showNat_spec n
  simp only [hne, if_false, hv, if_pos h, Bool.false_eq_true]

/-- A printed number holds no line end. -/
theorem showNat_no_newline (n : Nat) : 0x0A ∉ showNat n := by
  intro h
  have := (showNat_spec n).1 _ h
  revert this
  decide

theorem showInt_no_newline (i : Int) : 0x0A ∉ showInt i := by
  unfold showInt
  split
  · intro h
    rcases List.mem_cons.1 h with h | h
    · revert h; decide
    · exact showNat_no_newline _ h
  · exact showNat_no_newline _

/-- A printed number holds no `<`. -/
theorem showInt_no_lt (i : Int) : 0x3C ∉ showInt i := by
  have hn : ∀ n, 0x3C ∉ showNat n := by
    intro n h
    have := (showNat_spec n).1 _ h
    revert this
    decide
  unfold showInt
  split
  · intro h
    rcases List.mem_cons.1 h with h | h
    · revert h; decide
    · exact hn _ h
  · exact hn _

/-! ## Lines of a text file -/

theorem getLinesFrom_line :
    ∀ (body rest line : List Nat), 0x0A ∉ body →
      getLinesFrom (body ++ 0x0A :: rest) line = (line ++ body) :: getLinesFrom rest []
  | [], rest, line, _ => by
    simp [getLinesFrom]
  | c :: body, rest, line, h => by
    have hc : c ≠ 0x0A := fun hc => h (by rw [hc]; exact List.mem_cons_self _ _)
    rw [List.cons_append, getLinesFrom, if_neg hc,
      getLinesFrom_line body rest (line ++ [c])
        (fun hb => h (List.mem_cons_of_mem _ hb)), List.append_assoc]
    rfl

/-! ## Page library: the files that the writer leaves -/

theorem writePage_foldl :
    ∀ (pages : List WebPage) (pagesFile offsetsFile : List Nat),
      pages.foldl writePage (pagesFile, offsetsFile)
        = (pagesFile ++ concatRecords pages,
            offsetsFile ++ offsetLines (offsetsFrom pagesFile.length pages))
  | [], _, _ => by simp [concatRecords, offsetsFrom, offsetLines]
  | page :: pages, pagesFile, offsetsFile => by
    rw [List.foldl_cons]
    have hstep : writePage (pagesFile, offsetsFile) page
        = (pagesFile ++ pageRecord page,
            offsetsFile ++ offsetLine (page.docid, (pagesFile.length, (pageRecord page).length))) := by
      simp only [writePage, offsetLine, List.length_append, Nat.add_sub_cancel_left,
        List.append_assoc]
    rw [hstep, writePage_foldl pages, concatRecords, offsetsFrom, offsetLines,
      List.length_append, List.append_assoc, List.append_assoc]

/-- The two files written for a list of pages. -/
theorem buildWebPagesAndOffsets_eq (pages : List WebPage) :
    buildWebPagesAndOffsets pages
      = (concatRecords pages, offsetLines (offsetsFrom 0 pages)) := by
  unfold buildWebPagesAndOffsets
  rw [writePage_foldl]
  simp

theorem offsetsFrom_keys :
    ∀ (pages : List WebPage) (start : Nat),
      (offsetsFrom start pages).map (fun e => e.1) = pages.map (fun p => p.docid)
  | [], _ => rfl
  | page :: pages, start => by
    rw [offsetsFrom, List.map_cons, List.map_cons, offsetsFrom_keys pages]

theorem offsetsFrom_bound :
    ∀ (pages : List WebPage) (start : Nat) (e : Int × (Nat × Nat)),
      e ∈ offsetsFrom start pages →
      e.2.1 + e.2.2 ≤ start + (concatRecords pages).length
        ∧ ∃ page ∈ pages, page.docid = e.1
  | [], _, e, h => by simp [offsetsFrom] at h
  | page :: pages, start, e, h => by
    rw [offsetsFrom] at h
    rw [concatRecords, List.length_append]
    rcases List.mem_cons.1 h with h | h
    · subst h
      exact ⟨by simp only; omega, page, List.mem_cons_self _ _, rfl⟩
    · obtain ⟨h1, q, hq, hd⟩ := offsetsFrom_bound pages _ e h
      exact ⟨by omega, q, List.mem_cons_of_mem _ hq, hd⟩

/-! ## Page library: the offset table read back -/

/-- One line of the offset file is read back as its entry. -/
theorem loadOffsetsLine_offsetLine (offsetMap_ : List (Int × (Nat × Nat)))
    (e : Int × (Nat × Nat)) (h1 : -2 ^ 31 ≤ e.1) (h2 : e.1 < 2 ^ 31) (h3 : e.2.1 < 2 ^ 64)
    (h4 : e.2.2 < 2 ^ 64) :
    loadOffsetsLine offsetMap_
        (showInt e.1 ++ (0x20 :: (showNat e.2.1 ++ (0x20 :: (showNat e.2.2 ++ [])))))
      = umapAssign offsetMap_ e.1 e.2 := by
  have hne : showInt e.1 ++ (0x20 :: (showNat e.2.1 ++ (0x20 :: (showNat e.2.2 ++ [])))) ≠ [] := by
    intro h
    have := congrArg List.length h
    simp at this
  have hsp : ∀ (t : List Nat), ∀ y ∈ (0x20 :: t).head?, isdigit y = false := by
    intro t y hy
    simp only [List.head?_cons, Option.mem_def, Option.some.injEq] at hy
    subst hy
    decide
  unfold loadOffsetsLine
  rw [if_neg hne, readInt_showInt e.1 _ h1 h2 (hsp _)]
  simp only
  rw [readSize_showNat e.2.1 _ h3 (hsp _)]
  simp only
  rw [readSize_showNat e.2.2 [] h4 (by simp)]

theorem offsetLine_body (e : Int × (Nat × Nat)) (rest : List Nat) :
    offsetLine e ++ rest
      = (showInt e.1 ++ (0x20 :: (showNat e.2.1 ++ (0x20 :: (showNat e.2.2 ++ [])))))
          ++ 0x0A :: rest := by
  simp [offsetLine, List.append_assoc]

theorem offsetLine_no_newline (e : Int × (Nat × Nat)) :
    0x0A ∉ showInt e.1 ++ (0x20 :: (showNat e.2.1 ++ (0x20 :: (showNat e.2.2 ++ [])))) := by
  intro h
  simp only [List.mem_append, List.mem_cons, List.not_mem_nil, or_false] at h
  rcases h with h | h | h | h | h
  · exact showInt_no_newline _ h
  · exact absurd h (by decide)
  · exact showNat_no_newline _ h
  · exact absurd h (by decide)
  · exact showNat_no_newline _ h

/-- The lines of the offset file are read back as the table of their entries. -/
theorem loadOffsets_offsetLines :
    ∀ (es : List (Int × (Nat × Nat))) (offsetMap_ : List (Int × (Nat × Nat))),
      (∀ e ∈ es, -2 ^ 31 ≤ e.1 ∧ e.1 < 2 ^ 31 ∧ e.2.1 < 2 ^ 64 ∧ e.2.2 < 2 ^ 64) →
      (getLinesFrom (offsetLines es) []).foldl loadOffsetsLine offsetMap_
        = es.foldl (fun table e => umapAssign table e.1 e.2) offsetMap_
  | [], _, _ => rfl
  | e :: es, offsetMap_, h => by
    obtain ⟨h1, h2, h3, h4⟩ := h e (List.mem_cons_self _ _)
    rw [offsetLines, offsetLine_body, getLinesFrom_line _ _ _ (offsetLine_no_newline e),
      List.foldl_cons, List.nil_append, loadOffsetsLine_offsetLine offsetMap_ e h1 h2 h3 h4,
      loadOffsets_offsetLines es _ (fun e' he' => h e' (List.mem_cons_of_mem _ he')),
      List.foldl_cons]

theorem umapFind_foldl_other (key : Int) :
    ∀ (es : List (Int × (Nat × Nat))) (table : List (Int × (Nat × Nat))),
      key ∉ es.map (fun e => e.1) →
      umapFind (es.foldl (fun table e => umapAssign table e.1 e.2) table) key
        = umapFind table key
  | [], _, _ => rfl
  | e :: es, table, h => by
    rw [List.map_cons, List.mem_cons, not_or] at h
    rw [List.foldl_cons, umapFind_foldl_other key es _ h.2, umapFind_umapAssign, if_neg h.1]

/-- The entry found for a page whose docid no other page has: the offset at which its
record begins, and the length of the record. -/
theorem umapFind_offsetsFrom :
    ∀ (pages : List WebPage) (start : Nat) (table : List (Int × (Nat × Nat))),
      (pages.map (fun p => p.docid)).Nodup → ∀ page ∈ pages,
      ∃ before behind, concatRecords pages = before ++ (pageRecord page ++ behind)
        ∧ umapFind ((offsetsFrom start pages).foldl
            (fun table e => umapAssign table e.1 e.2) table) page.docid
          = some (start + before.length, (pageRecord page).length)
  | [], _, _, _, page, hp => by simp at hp
  | first :: pages, start, table, hnd, page, hp => by
    rw [List.map_cons, List.nodup_cons] at hnd
    rw [offsetsFrom, List.foldl_cons, concatRecords]
    rcases List.mem_cons.1 hp with h | h
    · subst h
      refine ⟨[], concatRecords pages, rfl, ?_⟩
      rw [umapFind_foldl_other _ _ _ (by rw [offsetsFrom_keys]; exact hnd.1),
        umapFind_umapAssign, if_pos rfl]
      rfl
    · obtain ⟨before, behind, hcat, hfind⟩ := umapFind_offsetsFrom pages
        (start + (pageRecord first).length) (umapAssign table first.docid
          (start, (pageRecord first).length)) hnd.2 page h
      refine ⟨pageRecord first ++ before, behind, by rw [hcat, List.append_assoc], ?_⟩
      rw [hfind, List.length_append, Nat.add_assoc]

/-- Reading a record at its offset with its length gives the record. -/
theorem readAt_record (before record behind : List Nat) :
    readAt (before ++ (record ++ behind)) before.length record.length = record := by
  unfold readAt
  rw [List.drop_left, List.take_left]
  simp

/-! ## Page library: the regular expressions on a record -/

/-- No match begins at a byte that is not the first byte of the opening tag. -/
theorem regexCapture_first (a x : Nat) (o c xs : List Nat) (h : x ≠ a) :
    regexCapture (a :: o) c (x :: xs) = regexCapture (a :: o) c xs := by
  have hm : matchField (a :: o) c (x :: xs) = none := by
    have hb : (a == x) = false := by
      rw [beq_eq_false_iff_ne]
      exact fun e => h e.symm
    simp [matchField, List.isPrefixOf, hb]
  rw [regexCapture, hm]

/-- No match begins where the second byte is not the second byte of the opening tag. -/
theorem regexCapture_second (a b x y : Nat) (o c xs : List Nat) (h : y ≠ b) :
    regexCapture (a :: b :: o) c (x :: y :: xs) = regexCapture (a :: b :: o) c (y :: xs) := by
  have hm : matchField (a :: b :: o) c (x :: y :: xs) = none := by
    have hb : (b == y) = false := by
      rw [beq_eq_false_iff_ne]
      exact fun e => h e.symm
    simp [matchField, List.isPrefixOf, hb]
  rw [regexCapture, hm]

/-- No match begins inside a text without the first byte of the opening tag. -/
theorem regexCapture_chunk (a : Nat) (o c : List Nat) :
    ∀ (chunk rest : List Nat), a ∉ chunk →
      regexCapture (a :: o) c (chunk ++ rest) = regexCapture (a :: o) c rest
  | [], _, _ => rfl
  | x :: chunk, rest, h => by
    rw [List.cons_append, regexCapture_first a x o c _
      (fun e => h (by rw [e]; exact List.mem_cons_self _ _)),
      regexCapture_chunk a o c chunk rest (fun hm => h (List.mem_cons_of_mem _ hm))]

theorem isPrefixOf_self_append :
    ∀ (tag rest : List Nat), tag.isPrefixOf (tag ++ rest) = true
  | [], rest => by cases rest <;> rfl
  | x :: tag, rest => by
    simp only [List.cons_append, List.isPrefixOf, beq_self_eq_true, Bool.true_and]
    exact isPrefixOf_self_append tag rest

/-- The match at an opening tag that is followed by a field without `<`, not empty, and
the closing tag. -/
theorem regexCapture_hit (a : Nat) (o c field rest : List Nat) (hne : field ≠ [])
    (hfree : 0x3C ∉ field) :
    regexCapture (a :: o) (0x3C :: c) ((a :: o) ++ (field ++ ((0x3C :: c) ++ rest)))
      = some field := by
  have hrun := takeWhile_run (fun x : Nat => x != 0x3C) field ((0x3C :: c) ++ rest)
    (fun x hx => by
      rw [bne_iff_ne]
      exact fun e => hfree (e ▸ hx))
    (fun y hy => by
      simp only [List.cons_append, List.head?_cons, Option.mem_def, Option.some.injEq] at hy
      subst hy
      rfl)
  have hm : matchField (a :: o) (0x3C :: c) ((a :: o) ++ (field ++ ((0x3C :: c) ++ rest)))
      = some field := by
    unfold matchField
    have hp1 : (a :: o).isPrefixOf ((a :: o) ++ (field ++ ((0x3C :: c) ++ rest))) = true :=
      isPrefixOf_self_append _ _
    have hp2 : (0x3C :: c).isPrefixOf ((0x3C :: c) ++ rest) = true :=
      isPrefixOf_self_append _ _
    rw [if_pos hp1]
    simp only [List.drop_left, hrun.1, hrun.2, hp2, and_true, if_pos hne]
  rw [List.cons_append, regexCapture, ← List.cons_append, hm]

/-- No match at an opening tag that is followed by `<` at once: the field would be
empty. -/
theorem regexCapture_empty (a : Nat) (o c rest : List Nat) :
    regexCapture (a :: o) c ((a :: o) ++ (0x3C :: rest))
      = regexCapture (a :: o) c (o ++ (0x3C :: rest)) := by
  have hm : matchField (a :: o) c ((a :: o) ++ (0x3C :: rest)) = none := by
    unfold matchField
    split
    · simp only [List.drop_left]
      have : List.takeWhile (fun x : Nat => x != 0x3C) (0x3C :: rest) = [] := by
        simp [List.takeWhile_cons]
      rw [this]
      simp
    · rfl
  rw [List.cons_append, regexCapture, ← List.cons_append, hm]

/-- The record of a page, part by part. -/
theorem pageRecord_eq (page : WebPage) :
    pageRecord page
      = [0x3C, 0x64, 0x6F, 0x63, 0x3E, 0x0A, 0x20, 0x20, 0x3C, 0x64, 0x6F, 0x63, 0x69, 0x64, 0x3E]
        ++ (showInt page.docid
        ++ ([0x3C, 0x2F, 0x64, 0x6F, 0x63, 0x69, 0x64, 0x3E, 0x0A, 0x20, 0x20]
        ++ ([0x3C, 0x6C, 0x69, 0x6E, 0x6B, 0x3E]
        ++ (page.link
        ++ ([0x3C, 0x2F, 0x6C, 0x69, 0x6E, 0x6B, 0x3E]
        ++ ([0x0A, 0x20, 0x20]
        ++ ([0x3C, 0x74, 0x69, 0x74, 0x6C, 0x65, 0x3E]
        ++ (page.title
        ++ ([0x3C, 0x2F, 0x74, 0x69, 0x74, 0x6C, 0x65, 0x3E]
        ++ ([0x0A, 0x20, 0x20]
        ++ ([0x3C, 0x63, 0x6F, 0x6E, 0x74, 0x65, 0x6E, 0x74, 0x3E]
        ++ (page.content
        ++ ([0x3C, 0x2F, 0x63, 0x6F, 0x6E, 0x74, 0x65, 0x6E, 0x74, 0x3E]
        ++ [0x0A, 0x3C, 0x2F, 0x64, 0x6F, 0x63, 0x3E, 0x0A]))))))))))))) := by
  simp [pageRecord, List.append_assoc]

/-- The regular expression for the link finds the link of the record, if it is not
empty. -/
theorem regexCapture_link (page : WebPage) (hl : 0x3C ∉ page.link) (ht : 0x3C ∉ page.title)
    (hc : 0x3C ∉ page.content) :
    (regexCapture [0x3C, 0x6C, 0x69, 0x6E, 0x6B, 0x3E]
      [0x3C, 0x2F, 0x6C, 0x69, 0x6E, 0x6B, 0x3E] (pageRecord page)).getD [] = page.link := by
  have hd := showInt_no_lt page.docid
  rw [pageRecord_eq]
  simp (disch := decide) only [List.cons_append, List.nil_append, regexCapture_first,
    regexCapture_second, regexCapture_chunk _ _ _ (showInt page.docid) _ hd]
  by_cases hne : page.link = []
  · have he : ∀ rest : List Nat,
        regexCapture [0x3C, 0x6C, 0x69, 0x6E, 0x6B, 0x3E]
            [0x3C, 0x2F, 0x6C, 0x69, 0x6E, 0x6B, 0x3E]
            (0x3C :: 0x6C :: 0x69 :: 0x6E :: 0x6B :: 0x3E :: 0x3C :: rest)
          = regexCapture [0x3C, 0x6C, 0x69, 0x6E, 0x6B, 0x3E]
            [0x3C, 0x2F, 0x6C, 0x69, 0x6E, 0x6B, 0x3E]
            (0x6C :: 0x69 :: 0x6E :: 0x6B :: 0x3E :: 0x3C :: rest) :=
      fun rest => regexCapture_empty 0x3C [0x6C, 0x69, 0x6E, 0x6B, 0x3E] _ rest
    rw [hne]
    simp (disch := decide) only [List.cons_append, List.nil_append, he, regexCapture_first,
      regexCapture_second, regexCapture_chunk _ _ _ page.title _ ht,
      regexCapture_chunk _ _ _ page.content _ hc]
    rfl
  · have hh : ∀ rest : List Nat,
        regexCapture [0x3C, 0x6C, 0x69, 0x6E, 0x6B, 0x3E]
            [0x3C, 0x2F, 0x6C, 0x69, 0x6E, 0x6B, 0x3E]
            (0x3C :: 0x6C :: 0x69 :: 0x6E :: 0x6B :: 0x3E
              :: (page.link ++ 0x3C :: 0x2F :: 0x6C :: 0x69 :: 0x6E :: 0x6B :: 0x3E :: rest))
          = some page.link :=
      fun rest => regexCapture_hit 0x3C [0x6C, 0x69, 0x6E, 0x6B, 0x3E]
        [0x2F, 0x6C, 0x69, 0x6E, 0x6B, 0x3E] page.link rest hne hl
    rw [hh]
    rfl

/-- The regular expression for the title finds the title of the record, if it is not
empty. -/
theorem regexCapture_title (page : WebPage) (hl : 0x3C ∉ page.link) (ht : 0x3C ∉ page.title)
    (hc : 0x3C ∉ page.content) :
    (regexCapture [0x3C, 0x74, 0x69, 0x74, 0x6C, 0x65, 0x3E]
      [0x3C, 0x2F, 0x74, 0x69, 0x74, 0x6C, 0x65, 0x3E] (pageRecord page)).getD []
      = page.title := by
  have hd := showInt_no_lt page.docid
  rw [pageRecord_eq]
  simp (disch := decide) only [List.cons_append, List.nil_append, regexCapture_first,
    regexCapture_second, regexCapture_chunk _ _ _ (showInt page.docid) _ hd,
    regexCapture_chunk _ _ _ page.link _ hl, regexCapture_chunk _ _ _ page.title _ ht]
  by_cases hne : page.title = []
  · have he : ∀ rest : List Nat,
        regexCapture [0x3C, 0x74, 0x69, 0x74, 0x6C, 0x65, 0x3E]
            [0x3C, 0x2F, 0x74, 0x69, 0x74, 0x6C, 0x65, 0x3E]
            (0x3C :: 0x74 :: 0x69 :: 0x74 :: 0x6C :: 0x65 :: 0x3E :: 0x3C :: rest)
          = regexCapture [0x3C, 0x74, 0x69, 0x74, 0x6C, 0x65, 0x3E]
            [0x3C, 0x2F, 0x74, 0x69, 0x74, 0x6C, 0x65, 0x3E]
            (0x74 :: 0x69 :: 0x74 :: 0x6C :: 0x65 :: 0x3E :: 0x3C :: rest) :=
      fun rest => regexCapture_empty 0x3C [0x74, 0x69, 0x74, 0x6C, 0x65, 0x3E] _ rest
    rw [hne]
    simp (disch := decide) only [List.cons_append, List.nil_append, he, regexCapture_first,
      regexCapture_second, regexCapture_chunk _ _ _ page.title _ ht,
      regexCapture_chunk _ _ _ page.content _ hc]
    rfl
  · have hh : ∀ rest : List Nat,
        regexCapture [0x3C, 0x74, 0x69, 0x74, 0x6C, 0x65, 0x3E]
            [0x3C, 0x2F, 0x74, 0x69, 0x74, 0x6C, 0x65, 0x3E]
            (0x3C :: 0x74 :: 0x69 :: 0x74 :: 0x6C :: 0x65 :: 0x3E
              :: (page.title ++ 0x3C :: 0x2F :: 0x74 :: 0x69 :: 0x74 :: 0x6C :: 0x65 :: 0x3E :: rest))
          = some page.title :=
      fun rest => regexCapture_hit 0x3C [0x74, 0x69, 0x74, 0x6C, 0x65, 0x3E]
        [0x2F, 0x74, 0x69, 0x74, 0x6C, 0x65, 0x3E] page.title rest hne ht
    rw [hh]
    rfl

/-- The regular expression for the content finds the content of the record, if it is not
empty. -/
theorem regexCapture_content (page : WebPage) (hl : 0x3C ∉ page.link) (ht : 0x3C ∉ page.title)
    (hc : 0x3C ∉ page.content) :
    (regexCapture [0x3C, 0x63, 0x6F, 0x6E, 0x74, 0x65, 0x6E, 0x74, 0x3E]
      [0x3C, 0x2F, 0x63, 0x6F, 0x6E, 0x74, 0x65, 0x6E, 0x74, 0x3E] (pageRecord page)).getD []
      = page.content := by
  have hd := showInt_no_lt page.docid
  rw [pageRecord_eq]
  simp (disch := decide) only [List.cons_append, List.nil_append, regexCapture_first,
    regexCapture_second, regexCapture_chunk _ _ _ (showInt page.docid) _ hd,
    regexCapture_chunk _ _ _ page.link _ hl, regexCapture_chunk _ _ _ page.title _ ht]
  by_cases hne : page.content = []
  · have he : ∀ rest : List Nat,
        regexCapture [0x3C, 0x63, 0x6F, 0x6E, 0x74, 0x65, 0x6E, 0x74, 0x3E]
            [0x3C, 0x2F, 0x63, 0x6F, 0x6E, 0x74, 0x65, 0x6E, 0x74, 0x3E]
            (0x3C :: 0x63 :: 0x6F :: 0x6E :: 0x74 :: 0x65 :: 0x6E :: 0x74 :: 0x3E :: 0x3C :: rest)
          = regexCapture [0x3C, 0x63, 0x6F, 0x6E, 0x74, 0x65, 0x6E, 0x74, 0x3E]
            [0x3C, 0x2F, 0x63, 0x6F, 0x6E, 0x74, 0x65, 0x6E, 0x74, 0x3E]
            (0x63 :: 0x6F :: 0x6E :: 0x74 :: 0x65 :: 0x6E :: 0x74 :: 0x3E :: 0x3C :: rest) :=
      fun rest => regexCapture_empty 0x3C [0x63, 0x6F, 0x6E, 0x74, 0x65, 0x6E, 0x74, 0x3E] _ rest
    rw [hne]
    simp (disch := decide) only [List.cons_append, List.nil_append, he, regexCapture_first,
      regexCapture_second, regexCapture_chunk _ _ _ page.title _ ht,
      regexCapture_chunk _ _ _ page.content _ hc]
    rfl
  · have hh : ∀ rest : List Nat,
        regexCapture [0x3C, 0x63, 0x6F, 0x6E, 0x74, 0x65, 0x6E, 0x74, 0x3E]
            [0x3C, 0x2F, 0x63, 0x6F, 0x6E, 0x74, 0x65, 0x6E, 0x74, 0x3E]
            (0x3C :: 0x63 :: 0x6F :: 0x6E :: 0x74 :: 0x65 :: 0x6E :: 0x74 :: 0x3E
              :: (page.content ++ 0x3C :: 0x2F :: 0x63 :: 0x6F :: 0x6E :: 0x74 :: 0x65 :: 0x6E :: 0x74 :: 0x3E :: rest))
          = some page.content :=
      fun rest => regexCapture_hit 0x3C [0x63, 0x6F, 0x6E, 0x74, 0x65, 0x6E, 0x74, 0x3E]
        [0x2F, 0x63, 0x6F, 0x6E, 0x74, 0x65, 0x6E, 0x74, 0x3E] page.content rest hne hc
    rw [hh]
    rfl

/-- A record without `<` in its fields is parsed back to its page. -/
theorem parseWebPageXML_pageRecord (page : WebPage) (hl : 0x3C ∉ page.link)
    (ht : 0x3C ∉ page.title) (hc : 0x3C ∉ page.content) :
    parseWebPageXML (pageRecord page) page.docid = page := by
  unfold parseWebPageXML
  rw [regexCapture_link page hl ht hc, regexCapture_title page hl ht hc,
    regexCapture_content page hl ht hc]

/-! ## Page library: reading a page back -/

/-- The page read back from the files of pages with distinct docids and no `<` in the
texts of the page asked for. -/
theorem pageAt_written (pages : List WebPage)
    (hdistinct : (pages.map (fun p => p.docid)).Nodup)
    (hint : ∀ p ∈ pages, -2 ^ 31 ≤ p.docid ∧ p.docid < 2 ^ 31)
    (hsize : (buildWebPagesAndOffsets pages).1.length < 2 ^ 64)
    (page : WebPage) (hp : page ∈ pages)
    (hfree : 0x3C ∉ page.link ∧ 0x3C ∉ page.title ∧ 0x3C ∉ page.content) :
    pageAt pages page.docid = some page := by
  unfold pageAt
  rw [buildWebPagesAndOffsets_eq] at hsize ⊢
  simp only at hsize ⊢
  unfold loadOffsets getLines
  rw [loadOffsets_offsetLines]
  · obtain ⟨before, behind, hcat, hfind⟩ := umapFind_offsetsFrom pages 0 [] hdistinct page hp
    unfold getWebPage
    rw [hfind]
    simp only [Nat.zero_add]
    rw [hcat, readAt_record, parseWebPageXML_pageRecord page hfree.1 hfree.2.1 hfree.2.2]
  · intro e he
    obtain ⟨hb, q, hq, hd⟩ := offsetsFrom_bound pages 0 e he
    have := hint q hq
    rw [hd] at this
    exact ⟨this.1, this.2, by omega, by omega⟩

set_option maxRecDepth 20000 in
/-- C21 as stated fails.  The second of the pages of the example has the content `1 < 2`:
the regular expression `<content>([^<]+)</content>` finds no match in its record and the
page is read back with an empty content.  Of two kept pages with the same docid the
offset table keeps the entry of the later one, which is read back for both. -/
theorem getWebPage_counterexample :
    samplePages.get? 1
        = some { docid := 2, link := [], title := beijing,
                 content := [0x31, 0x20, 0x3C, 0x20, 0x32] }
      ∧ pageAt samplePages 2
        = some { docid := 2, link := [], title := beijing, content := [] }
      ∧ twinPages.get? 0
        = some { docid := 1, link := [], title := zhongguo, content := beijing }
      ∧ pageAt twinPages 1
        = some { docid := 1, link := [], title := zhongguo, content := shanghai } := by
  decide

/-- C21, amended. For every list of kept pages with pairwise distinct docids (values of
`int`), written by `buildWebPagesAndOffsets` to a page file of less than 2^64 bytes, and
for every kept page p whose link, title and content hold no byte `<`: reading the offset
file and calling `getWebPage(p.docid)` on the page file returns a page whose docid, link,
title and content are those of p. -/
theorem getWebPage_roundtrip (uniquePages_ : List WebPage)
    (hdistinct : (uniquePages_.map (fun p => p.docid)).Nodup)
    (hint : ∀ p ∈ uniquePages_, -2 ^ 31 ≤ p.docid ∧ p.docid < 2 ^ 31)
    (hsize : (buildWebPagesAndOffsets uniquePages_).1.length < 2 ^ 64)
    (p : WebPage) (hp : p ∈ uniquePages_)
    (hfree : 0x3C ∉ p.link ∧ 0x3C ∉ p.title ∧ 0x3C ∉ p.content) :
    getWebPage (loadOffsets (buildWebPagesAndOffsets uniquePages_).2)
        (buildWebPagesAndOffsets uniquePages_).1 p.docid = some p :=
  pageAt_written uniquePages_ hdistinct hint hsize p hp hfree

set_option maxRecDepth 20000 in
theorem getWebPage_roundtrip_witness :
    (samplePages.map (fun p => p.docid)).Nodup
      ∧ (∀ p ∈ samplePages, -2 ^ 31 ≤ p.docid ∧ p.docid < 2 ^ 31)
      ∧ (buildWebPagesAndOffsets samplePages).1.length < 2 ^ 64
      ∧ ({ docid := 1, link := [0x68, 0x74, 0x74, 0x70, 0x3A, 0x2F, 0x2F, 0x61],
           title := zhongguo, content := beijing ++ [0x0A] ++ shanghai } : WebPage)
          ∈ samplePages
      ∧ getWebPage (loadOffsets (buildWebPagesAndOffsets samplePages).2)
          (buildWebPagesAndOffsets samplePages).1 1
        = some { docid := 1, link := [0x68, 0x74, 0x74, 0x70, 0x3A, 0x2F, 0x2F, 0x61],
                 title := zhongguo, content := beijing ++ [0x0A] ++ shanghai } :=
  ⟨by decide, by decide, by decide, by decide,
    getWebPage_roundtrip samplePages (by decide) (by decide) (by decide)
      { docid := 1, link := [0x68, 0x74, 0x74, 0x70, 0x3A, 0x2F, 0x2F, 0x61],
        title := zhongguo, content := beijing ++ [0x0A] ++ shanghai } (by decide) (by decide)⟩

end SearchEngine
